import Mathlib

/-! Tree-mixture model: specification parser and mixture aggregator.

A shallow embedding of `src/tree/iqtreemix.cpp` (class `IQTreeMix`).

* C++ `std::string` values are lists of characters (`Str`).
* `outError` prints its message and terminates the program; it is embedded as
  the `Except.error` outcome carrying the message's constructor.
* `size_t`/`int` counters are `Nat`/`Int`.
-/

set_option autoImplicit false

namespace IQTreeMix

/-- A C++ `std::string`: a finite sequence of characters. -/
abbrev Str := List Char

/-- The fatal diagnostics raised through `outError` by the parser, one
constructor per call site. -/
inductive ParseError where
  /-- "This model is not a tree mixture model, because there is no '+T'" -/
  | noTreeSuffix
  /-- "You need to specific the number of trees after '+T', e.g. +T2 for 2 trees" -/
  | emptyTreeCount
  /-- "<orig> is not a valid model" (from `divideModelNSiteRate`) -/
  | invalidModel (orig : Str)
  /-- "Error! The model: ... is not correctly specified. Are you using too many 'MIX'?" -/
  | tooManyMix
  /-- "Error! 'F' is linked, but the model is unlinked" -/
  | freqLinkedModelUnlinked
  /-- "Error! 'F' appears before the model does" -/
  | freqBeforeModel
  /-- "Error! '<s>' is linked, but the site rates are unlinked" -/
  | rateLinkedRatesUnlinked (s : Str)
  /-- "Error! It seems no model is defined." -/
  | noModel
  /-- "Error! The number of submodels specified in the mixture does not match with the tree number" -/
  | modelCountMismatch
  /-- "Error! The number of site rates specified in the mixture does not match with the tree number" -/
  | rateCountMismatch
  deriving DecidableEq, Repr

/-- The call `s.substr(pos, n)` for `pos ≤ s.length()`. -/
def substr (s : Str) (pos n : Nat) : Str := (s.drop pos).take n

/-- The call `s.substr(pos)` for `pos ≤ s.length()`. -/
def substrFrom (s : Str) (pos : Nat) : Str := s.drop pos

/-- The loop of `separateStr`: `cur` is the slice `str[startpos, pos)` read so
far, `brac` is `brac_num`, `substrs` the output vector, and the first argument
the unread rest `str[pos, length)`. -/
def separateStrLoop (separator : Char) : Str → Str → Int → List Str → List Str
  | [], cur, _, substrs =>
    if cur.length > 0 then substrs ++ [cur] else substrs
  | c :: rest, cur, brac, substrs =>
    if c = '{' then separateStrLoop separator rest (cur ++ [c]) (brac + 1) substrs
    else if c = '}' then separateStrLoop separator rest (cur ++ [c]) (brac - 1) substrs
    else if c = separator ∧ brac ≤ 0 then
      separateStrLoop separator rest [] 0
        (if cur.length > 0 then substrs ++ [cur] else substrs)
    else separateStrLoop separator rest (cur ++ [c]) brac substrs

/-- The function `separateStr(str, substrs, separator)`: the pieces found are
appended to the vector `substrs` passed by reference. -/
def separateStr (str : Str) (substrs : List Str) (separator : Char) : List Str :=
  separateStrLoop separator str [] 0 substrs

/-- The call `name.find("+")`: index of the first `'+'`, `none` for `npos`. -/
def findPlus : Str → Option Nat
  | [] => none
  | c :: cs => if c = '+' then some 0 else (findPlus cs).map (· + 1)

/-- The two statements `if (acc.length() > 0) acc.append("+"); acc.append(s);`
that `divideModelNSiteRate` applies to `model` and to `siteRate`. -/
def appendPlus (acc s : Str) : Str :=
  (if acc.length > 0 then acc ++ ['+'] else acc) ++ s

/-- The `while (name.length() > 0)` loop of `divideModelNSiteRate`; every
iteration shortens `name`, so `fuel = name.length` iterations suffice. -/
def divideLoop (orig : Str) : Nat → Str → Nat → Str → Str → Except ParseError (Str × Str)
  | 0, _, _, model, siteRate => .ok (model, siteRate)
  | fuel + 1, name, i, model, siteRate =>
    if name.length > 0 then
      let s := match findPlus name with
        | some plus_pos => substr name 0 plus_pos
        | none => name
      let name' := match findPlus name with
        | some plus_pos => substrFrom name (plus_pos + 1)
        | none => []
      if s.length = 0 then .error (.invalidModel orig)
      else if i = 0 ∨ s.head? = some 'F' then
        divideLoop orig fuel name' (i + 1) (appendPlus model s) siteRate
      else
        divideLoop orig fuel name' (i + 1) model (appendPlus siteRate s)
    else .ok (model, siteRate)

/-- The function `divideModelNSiteRate(name, model, siteRate)`; the two output
strings are returned as a pair. -/
def divideModelNSiteRate (name : Str) : Except ParseError (Str × Str) :=
  divideLoop name name.length name 0 [] []

/-- The function `rmSpace`: the characters other than `' '` are moved to the
front in order and the string is cut after them. -/
def rmSpace : Str → Str
  | [] => []
  | c :: cs => if c ≠ ' ' then c :: rmSpace cs else rmSpace cs

/-- Downward scan of `std::string::rfind`: the highest position `≤ p` at which
`pat` starts. -/
def rfindFrom (s pat : Str) : Nat → Option Nat
  | 0 => if pat.isPrefixOf s then some 0 else none
  | p + 1 => if pat.isPrefixOf (s.drop (p + 1)) then some (p + 1) else rfindFrom s pat p

/-- The call `s.rfind(pat)`: the last position at which `pat` occurs in `s`,
`none` for `npos`. -/
def rfind (s pat : Str) : Option Nat :=
  if pat.length ≤ s.length then rfindFrom s pat (s.length - pat.length) else none

/-- The white-space characters of the C locale (`isspace`). -/
def isCSpace (c : Char) : Bool :=
  c = ' ' || c = '\t' || c = '\n' || c = '\x0b' || c = '\x0c' || c = '\r'

/-- Value of the longest prefix of decimal digits, accumulated from `acc`. -/
def atoiDigits : Str → Nat → Nat
  | [], acc => acc
  | c :: cs, acc => if c.isDigit then atoiDigits cs (acc * 10 + (c.toNat - 48)) else acc

/-- The C library function `atoi` on the characters of a string: leading
white space is skipped, an optional sign is read, then the longest run of
decimal digits. The value is the mathematical one; C leaves the result
undefined when it does not fit in `int`, so the embedding speaks for numerals
up to `INT_MAX` only. -/
def atoi (s : Str) : Int :=
  match s.dropWhile isCSpace with
  | '-' :: r => - (atoiDigits r 0 : Int)
  | '+' :: r => (atoiDigits r 0 : Int)
  | r => (atoiDigits r 0 : Int)

/-- The test `s.length() > 5 && s.substr(0,4) == "MIX{" && s.substr(s.length()-1,1) == "}"`. -/
def isMixGroup (s : Str) : Bool :=
  decide (s.length > 5) && (substr s 0 4 == "MIX\x7b".toList)
    && (substr s (s.length - 1) 1 == "\x7d".toList)

/-- The vectors that the token loop of `separateModel` updates. -/
structure ParseState where
  model_names : List Str
  siterate_names : List Str
  submodel_array : List Str
  deriving DecidableEq, Repr

/-- The `for k` loop of the first-token `MIX{...}` branch: every entry of
`submodel_array` is divided into its model and site-rate parts, which are
pushed onto the two name vectors; the flag is `siteRateAppear`. -/
def unlinkedModelLoop : List Str → List Str → List Str → Bool →
    Except ParseError (List Str × List Str × Bool)
  | [], model_names, siterate_names, siteRateAppear =>
    .ok (model_names, siterate_names, siteRateAppear)
  | e :: es, model_names, siterate_names, siteRateAppear =>
    match divideModelNSiteRate e with
    | .error err => .error err
    | .ok (curr_model, curr_siterate) =>
      unlinkedModelLoop es (model_names ++ [curr_model]) (siterate_names ++ [curr_siterate])
        (if curr_siterate.length > 0 then true else siteRateAppear)

/-- The body of the `for i` loop of `separateModel` for the token
`s = model_array[i]`. -/
def processToken (i : Nat) (s : Str) (st : ParseState) : Except ParseError ParseState :=
  if s.length = 0 then .ok st
  else if isMixGroup s then
    let s' := substr s 4 (s.length - 5)
    if i = 0 then
      let submodel_array := separateStr s' st.submodel_array ','
      match unlinkedModelLoop submodel_array st.model_names st.siterate_names false with
      | .error err => .error err
      | .ok (model_names, siterate_names, siteRateAppear) =>
        .ok { model_names := model_names
              siterate_names := if !siteRateAppear then [] else siterate_names
              submodel_array := submodel_array }
    else if st.siterate_names.length = 0 then
      let submodel_array := separateStr s' st.submodel_array ','
      .ok { st with siterate_names := st.siterate_names ++ submodel_array
                    submodel_array := submodel_array }
    else .error .tooManyMix
  else if i = 0 then
    .ok { st with model_names := st.model_names ++ [s] }
  else if s.length ≤ 2 ∧ s.head? = some 'F' then
    if st.model_names.length > 1 then .error .freqLinkedModelUnlinked
    else match st.model_names with
      | [m] => .ok { st with model_names := [m ++ ('+' :: s)] }
      | _ => .error .freqBeforeModel
  else
    if st.siterate_names.length > 1 then .error (.rateLinkedRatesUnlinked s)
    else match st.siterate_names with
      | [r] => .ok { st with siterate_names := [r ++ ('+' :: s)] }
      | _ => .ok { st with siterate_names := st.siterate_names ++ [s] }

/-- The `for (i=0; i<model_array.size(); i++)` loop of `separateModel`, run
on the tokens from index `i` on. -/
def tokenLoop : Nat → List Str → ParseState → Except ParseError ParseState
  | _, [], st => .ok st
  | i, s :: rest, st =>
    match processToken i s st with
    | .error err => .error err
    | .ok st' => tokenLoop (i + 1) rest st'

/-- The fields of `IQTreeMix` that `separateModel` assigns. -/
structure ModelSpec where
  treemix_model : Str
  model_names : List Str
  siterate_names : List Str
  isLinkModel : Bool
  isLinkSiteRate : Bool
  anySiteRate : Bool
  ntree : Int
  deriving DecidableEq, Repr

instance instDecidableEqExcept {ε α : Type} [DecidableEq ε] [DecidableEq α] :
    DecidableEq (Except ε α)
  | .error a, .error b =>
    if h : a = b then isTrue (by rw [h]) else isFalse (fun h' => h (by injection h'))
  | .ok a, .ok b =>
    if h : a = b then isTrue (by rw [h]) else isFalse (fun h' => h (by injection h'))
  | .error _, .ok _ => isFalse (fun h => by cases h)
  | .ok _, .error _ => isFalse (fun h => by cases h)

/-- The first part of `separateModel`, on the string already freed of spaces:
locate the last `"+T"`, read the tree number behind it and cut it off. The
result is `(ntree, modelName)` with `modelName` the text before `"+T"`. -/
def readTreeNumber (modelName : Str) : Except ParseError (Int × Str) :=
  match rfind modelName "+T".toList with
  | none => .error .noTreeSuffix
  | some t_pos =>
    if t_pos ≥ modelName.length - 2 then .error .emptyTreeCount
    else .ok (atoi (substrFrom modelName (t_pos + 2)), substr modelName 0 t_pos)

/-- The middle part of `separateModel`: tree number, top-level tokens and the
token loop; the result is `ntree` and the state of the name vectors when the
loop is left. -/
def parseDescriptors (modelName : Str) : Except ParseError (Int × ParseState) :=
  match readTreeNumber (rmSpace modelName) with
  | .error err => .error err
  | .ok (ntree, body) =>
    let model_array := separateStr body [] '+'
    match tokenLoop 0 model_array ⟨[], [], []⟩ with
    | .error err => .error err
    | .ok st => .ok (ntree, st)

/-- The last part of `separateModel`: the no-model check, the three flags
(`isLinkSiteRate` was initialised to `true` and is assigned only when a site
rate exists) and the two count checks against `ntree`. -/
def finishModel (treemix_model : Str) (ntree : Int) (st : ParseState) :
    Except ParseError ModelSpec :=
  if st.model_names.length = 0 then .error .noModel
  else
    let isLinkModel := decide (st.model_names.length = 1)
    let anySiteRate := !decide (st.siterate_names.length = 0)
    let isLinkSiteRate :=
      if st.siterate_names.length = 0 then true else decide (st.siterate_names.length = 1)
    if st.model_names.length > 1 ∧ (st.model_names.length : Int) ≠ ntree then
      .error .modelCountMismatch
    else if st.siterate_names.length > 1 ∧ (st.siterate_names.length : Int) ≠ ntree then
      .error .rateCountMismatch
    else
      .ok { treemix_model := treemix_model
            model_names := st.model_names
            siterate_names := st.siterate_names
            isLinkModel := isLinkModel
            isLinkSiteRate := isLinkSiteRate
            anySiteRate := anySiteRate
            ntree := ntree }

/-- The function `IQTreeMix::separateModel(modelName)`. -/
def separateModel (modelName : Str) : Except ParseError ModelSpec :=
  match parseDescriptors modelName with
  | .error err => .error err
  | .ok (ntree, st) => finishModel (rmSpace modelName) ntree st


/-! ## Specification-side vocabulary -/

/-- The tokens of a list written one after the other with `sep` between
neighbours. -/
def joinWith (sep : Char) : List Str → Str
  | [] => []
  | [t] => t
  | t :: u :: ts => t ++ sep :: joinWith sep (u :: ts)

/-- A frequency qualifier at top level: at most two characters, the first
being `F`. -/
def isFreqToken (s : Str) : Bool := decide (s.length ≤ 2) && (s.head? == some 'F')

/-- A token that begins with the letter `F`. -/
def startsWithF (s : Str) : Bool := s.head? == some 'F'

/-- No descriptor for no token, else the one descriptor made of all tokens
joined by `'+'`. -/
def joinedPlus (l : List Str) : List Str := if l = [] then [] else [joinWith '+' l]

/-- An entry of a `MIX{...}` group given by its first token and its later
tokens: the text of the entry. -/
def entryText (e : Str × List Str) : Str := joinWith '+' (e.1 :: e.2)

/-- The model part of an entry: its first token joined by `'+'` with every
later token that starts with `F`. -/
def modelPart (e : Str × List Str) : Str := joinWith '+' (e.1 :: e.2.filter startsWithF)

/-- The later tokens of an entry that do not start with `F`. -/
def rateTokens (e : Str × List Str) : List Str := e.2.filter (fun t => !startsWithF t)

/-- The rate part of an entry: its remaining tokens joined by `'+'`, the empty
string when there is none. -/
def ratePart (e : Str × List Str) : Str := joinWith '+' (rateTokens e)

/-- The decimal numeral of a natural number. -/
def numeral (K : Nat) : Str := Nat.toDigits 10 K

/-- One accumulation step of `atoi` on a digit character. -/
def digitStep (acc : Nat) (c : Char) : Nat := acc * 10 + (c.toNat - 48)

/-- A top-level token for the separator `sep`: read from brace depth 0 it is
taken over whole and leaves the depth at 0. -/
def Whole (sep : Char) (t : Str) : Prop :=
  ∀ (rest cur : Str) (acc : List Str),
    separateStrLoop sep (t ++ rest) cur 0 acc = separateStrLoop sep rest (cur ++ t) 0 acc

/-! ## The mixture aggregator

Numbers are elements of a type `α` with the operations the code applies to
`double` values; `exp`, `log` and the conversion from `int` are parameters.
Buffers allocated with `new double[n]` are lists of length `n`; a read is
`getD` and a write is `set`. -/

/-- The numeric fields of `IQTreeMix` that the aggregator reads and writes:
`ntree` is `size()` and `nptn` is `aln->getNPattern()`. -/
structure MixState (α : Type) where
  ntree : Nat
  nptn : Nat
  weights : List α
  patn_freqs : List Int
  ptn_like_cat : List α
  _ptn_like_cat : List α

/-- Consecutive writes `buf[j] = f i; i++; j += stride`, `n` times. -/
def stridedWrite {α : Type} (f : Nat → α) (stride : Nat) : Nat → Nat → Nat → List α → List α
  | 0, _, _, buf => buf
  | n + 1, i, j, buf => stridedWrite f stride n (i + 1) (j + stride) (buf.set j (f i))

/-- Modelled from the spec: the per-tree likelihood engine
`PhyloTree::computeLikelihood(pattern_lh)` is not among the sources; as the
external interface describes it, it computes the tree's per-pattern
log-likelihood vector `lh 0, ..., lh (nptn-1)` into the caller-supplied buffer,
here the part of `buf` that starts at `off`. -/
def treeComputeLikelihood {α : Type} (lh : Nat → α) (nptn : Nat) (buf : List α) (off : Nat) :
    List α :=
  stridedWrite lh 1 nptn 0 off buf

/-- The first loop of `computeLikelihood`: tree `t` writes at `pattern_lh_tree`,
which then moves on by `nptn`; `n` trees are left, `off` is the offset of
`pattern_lh_tree` in `_ptn_like_cat`. -/
def perTreeLoop {α : Type} (treeLh : Nat → Nat → α) (nptn : Nat) :
    Nat → Nat → Nat → List α → List α
  | 0, _, _, buf => buf
  | n + 1, t, off, buf =>
    perTreeLoop treeLh nptn n (t + 1) (off + nptn) (treeComputeLikelihood (treeLh t) nptn buf off)

/-- The inner loop of "reorganize the array":
`ptn_like_cat[j] = exp(_ptn_like_cat[i]); i++; j += ntree`, `n` patterns left.
The result is the final `i` and the buffer. -/
def reorgInner {α : Type} [Zero α] (exp : α → α) (ntree : Nat) (src : List α) :
    Nat → Nat → Nat → List α → Nat × List α
  | 0, i, _, dst => (i, dst)
  | n + 1, i, j, dst =>
    reorgInner exp ntree src n (i + 1) (j + ntree) (dst.set j (exp (src.getD i 0)))

/-- The outer loop of "reorganize the array": `j = t` and the inner loop, `n`
trees left. -/
def reorgOuter {α : Type} [Zero α] (exp : α → α) (ntree nptn : Nat) (src : List α) :
    Nat → Nat → Nat → List α → List α
  | 0, _, _, dst => dst
  | n + 1, t, i, dst =>
    reorgOuter exp ntree nptn src n (t + 1) (reorgInner exp ntree src nptn i t dst).1
      (reorgInner exp ntree src nptn i t dst).2

/-- The inner loop of "compute the total likelihood":
`subLike += ptn_like_cat[i] * weights[t]; i++`, `n` trees left. The result is
the final `i` and `subLike`. -/
def subLikeLoop {α : Type} [Zero α] [Add α] [Mul α] (ptn_like_cat weights : List α) :
    Nat → Nat → Nat → α → Nat × α
  | 0, _, i, subLike => (i, subLike)
  | n + 1, t, i, subLike =>
    subLikeLoop ptn_like_cat weights n (t + 1) (i + 1)
      (subLike + ptn_like_cat.getD i 0 * weights.getD t 0)

/-- The outer loop of "compute the total likelihood", `n` patterns left; the
state is `i`, `logLike` and the optional output array `pattern_lh`. -/
def totalLoop {α : Type} [Zero α] [Add α] [Mul α] (log : α → α) (ofInt : Int → α)
    (ntree : Nat) (ptn_like_cat weights : List α) (patn_freqs : List Int) :
    Nat → Nat → Nat → α → Option (List α) → α × Option (List α)
  | 0, _, _, logLike, pattern_lh => (logLike, pattern_lh)
  | n + 1, ptn, i, logLike, pattern_lh =>
    totalLoop log ofInt ntree ptn_like_cat weights patn_freqs n (ptn + 1)
      (subLikeLoop ptn_like_cat weights ntree 0 i 0).1
      (logLike + log (subLikeLoop ptn_like_cat weights ntree 0 i 0).2
        * ofInt (patn_freqs.getD ptn 0))
      (pattern_lh.map (fun a => a.set ptn (subLikeLoop ptn_like_cat weights ntree 0 i 0).2))

/-- The function `IQTreeMix::computeLikelihood(pattern_lh)`; `treeLh t p` is the
log-likelihood of pattern `p` that tree `t` computes. The result is the
returned `logLike`, the array `pattern_lh` (if one was passed) and the state
with its two buffers rewritten. -/
def computeLikelihood {α : Type} [Zero α] [Add α] [Mul α] (exp log : α → α) (ofInt : Int → α)
    (treeLh : Nat → Nat → α) (st : MixState α) (pattern_lh : Option (List α)) :
    α × Option (List α) × MixState α :=
  let tree_buf := perTreeLoop treeLh st.nptn st.ntree 0 0 st._ptn_like_cat
  let cat_buf := reorgOuter exp st.ntree st.nptn tree_buf st.ntree 0 0 st.ptn_like_cat
  let r := totalLoop log ofInt st.ntree cat_buf st.weights st.patn_freqs st.nptn 0 0 0 pattern_lh
  (r.1, r.2, { st with ptn_like_cat := cat_buf, _ptn_like_cat := tree_buf })

/-! ## Responsibilities: `getPostProb` -/

/-- Consecutive updates `buf[i] = g c buf[i]; c++; i++`, `n` times. -/
def updLoop {α : Type} [Zero α] (g : Nat → α → α) : Nat → Nat → Nat → List α → List α
  | 0, _, _, buf => buf
  | n + 1, c, i, buf => updLoop g n (c + 1) (i + 1) (buf.set i (g c (buf.getD i 0)))

/-- The call `memcpy(dst, src, n * sizeof(double))` on buffers of at least `n`
cells. -/
def memcpy {α : Type} (dst src : List α) (n : Nat) : List α := src.take n ++ dst.drop n

/-- The inner loop of "multiply pattern_mix_lh by tree weights":
`pattern_mix_lh[i] *= weights[c]; i++`, `n` trees left. The result is the final
`i` and the buffer. -/
def weightLoop {α : Type} [Zero α] [Mul α] (weights : List α) :
    Nat → Nat → Nat → List α → Nat × List α
  | 0, _, i, out => (i, out)
  | n + 1, c, i, out =>
    weightLoop weights n (c + 1) (i + 1) (out.set i (out.getD i 0 * weights.getD c 0))

/-- The outer loop of "multiply pattern_mix_lh by tree weights", `n` patterns
left. -/
def weightAll {α : Type} [Zero α] [Mul α] (weights : List α) (ntree : Nat) :
    Nat → Nat → List α → List α
  | 0, _, out => out
  | n + 1, i, out =>
    weightAll weights ntree n (weightLoop weights ntree 0 i out).1
      (weightLoop weights ntree 0 i out).2

/-- The loop `lk_ptn += this_lk_cat[c]` with `this_lk_cat = pattern_mix_lh + base`,
`n` trees left. -/
def rowSumLoop {α : Type} [Zero α] [Add α] (out : List α) (base : Nat) : Nat → Nat → α → α
  | 0, _, lk_ptn => lk_ptn
  | n + 1, c, lk_ptn => rowSumLoop out base n (c + 1) (lk_ptn + out.getD (base + c) 0)

/-- The loop `this_lk_cat[c] *= lk_ptn` with `this_lk_cat = pattern_mix_lh + base`,
`n` trees left. -/
def rowScaleLoop {α : Type} [Zero α] [Mul α] (lk_ptn : α) (base : Nat) :
    Nat → Nat → List α → List α
  | 0, _, out => out
  | n + 1, c, out =>
    rowScaleLoop lk_ptn base n (c + 1) (out.set (base + c) (out.getD (base + c) 0 * lk_ptn))

/-- The last loop of `getPostProb`, `n` patterns left. The macro `ASSERT` is
not among the sources: a failed `ASSERT(lk_ptn != 0.0)` ends the program, which
is the outcome `none`. -/
def normalizeLoop {α : Type} [Zero α] [Add α] [Mul α] [Div α] [DecidableEq α]
    (ofInt : Int → α) (ntree : Nat) (patn_freqs : List Int) :
    Nat → Nat → List α → Option (List α)
  | 0, _, out => some out
  | n + 1, ptn, out =>
    if rowSumLoop out (ptn * ntree) ntree 0 0 = 0 then none
    else
      normalizeLoop ofInt ntree patn_freqs n (ptn + 1)
        (rowScaleLoop
          (ofInt (patn_freqs.getD ptn 0) / rowSumLoop out (ptn * ntree) ntree 0 0)
          (ptn * ntree) ntree 0 out)

/-- The function `IQTreeMix::getPostProb(pattern_mix_lh, need_computeLike)`.
The result is the array `pattern_mix_lh` and the state, or `none` when the
assertion fails. -/
def getPostProb {α : Type} [Zero α] [Add α] [Mul α] [Div α] [DecidableEq α]
    (exp log : α → α) (ofInt : Int → α) (treeLh : Nat → Nat → α) (st : MixState α)
    (pattern_mix_lh : List α) (need_computeLike : Bool) : Option (List α × MixState α) :=
  let st1 := if need_computeLike then (computeLikelihood exp log ofInt treeLh st none).2.2 else st
  let out1 := memcpy pattern_mix_lh st1.ptn_like_cat (st1.nptn * st1.ntree)
  let out2 := weightAll st1.weights st1.ntree st1.nptn 0 out1
  match normalizeLoop ofInt st1.ntree st1.patn_freqs st1.nptn 0 out2 with
  | none => none
  | some out3 => some (out3, st1)

/-! ## Tree weights: the quasi-Newton strategy -/

/-- The constant `MIN_PROP = 0.001`. -/
def MIN_PROP (α : Type) [Field α] : α := 1 / 1000

/-- The constant `MAX_PROP = 1000.0`. -/
def MAX_PROP (α : Type) [Field α] : α := 1000

/-- The loop of `setVariables`: `variables[i+1] = tmp_weights[i]`, `n` trees
left; `vars` is the array `variables`. -/
def setVariablesLoop {α : Type} [Zero α] (tmp_weights : List α) : Nat → Nat → List α → List α
  | 0, _, vars => vars
  | n + 1, i, vars =>
    setVariablesLoop tmp_weights n (i + 1) (vars.set (i + 1) (tmp_weights.getD i 0))

/-- The function `IQTreeMix::setVariables(variables)`; `ntree` is `size()`. -/
def setVariables {α : Type} [Zero α] (ntree : Nat) (tmp_weights vars : List α) : List α :=
  setVariablesLoop tmp_weights ntree 0 vars

/-- The first loop of `getVariables`:
`tmp_weights[i] = variables[i+1]; sum += tmp_weights[i]`, `n` trees left. The
result is `tmp_weights` and `sum`. -/
def getVariablesSumLoop {α : Type} [Zero α] [Add α] (vars : List α) :
    Nat → Nat → List α → α → List α × α
  | 0, _, tmp_weights, sum => (tmp_weights, sum)
  | n + 1, i, tmp_weights, sum =>
    getVariablesSumLoop vars n (i + 1) (tmp_weights.set i (vars.getD (i + 1) 0))
      (sum + (tmp_weights.set i (vars.getD (i + 1) 0)).getD i 0)

/-- The second loop of `getVariables`: `weights[i] = tmp_weights[i] / sum`, `n`
trees left. -/
def getVariablesDivLoop {α : Type} [Zero α] [Div α] (tmp_weights : List α) (sum : α) :
    Nat → Nat → List α → List α
  | 0, _, weights => weights
  | n + 1, i, weights =>
    getVariablesDivLoop tmp_weights sum n (i + 1) (weights.set i (tmp_weights.getD i 0 / sum))

/-- The function `IQTreeMix::getVariables(variables)`; the result is the new
`weights` and `tmp_weights`. -/
def getVariables {α : Type} [Zero α] [Add α] [Div α] (ntree : Nat)
    (vars weights tmp_weights : List α) : List α × List α :=
  let r := getVariablesSumLoop vars ntree 0 tmp_weights 0
  (getVariablesDivLoop r.1 r.2 ntree 0 weights, r.1)

/-- The loop of `setBounds`, `n` trees left; the result is `lower_bound`,
`upper_bound` and `bound_check`. -/
def setBoundsLoop {α : Type} [Field α] :
    Nat → Nat → List α → List α → List Bool → List α × List α × List Bool
  | 0, _, lower_bound, upper_bound, bound_check => (lower_bound, upper_bound, bound_check)
  | n + 1, i, lower_bound, upper_bound, bound_check =>
    setBoundsLoop n (i + 1) (lower_bound.set (i + 1) (MIN_PROP α))
      (upper_bound.set (i + 1) (MAX_PROP α)) (bound_check.set (i + 1) true)

/-- The function `IQTreeMix::setBounds(lower_bound, upper_bound, bound_check)`. -/
def setBounds {α : Type} [Field α] (ntree : Nat) (lower_bound upper_bound : List α)
    (bound_check : List Bool) : List α × List α × List Bool :=
  setBoundsLoop ntree 0 lower_bound upper_bound bound_check

/-- The call `tmp_weights.resize(n)`. -/
def resize {α : Type} [Zero α] (l : List α) (n : Nat) : List α :=
  l.take n ++ List.replicate (n - l.length) 0

/-- The loop `tmp_weights[i] = weights[i]` of `optimizeTreeWeightsByBFGS`, `n`
trees left. -/
def copyWeightsLoop {α : Type} [Zero α] (weights : List α) : Nat → Nat → List α → List α
  | 0, _, tmp_weights => tmp_weights
  | n + 1, i, tmp_weights =>
    copyWeightsLoop weights n (i + 1) (tmp_weights.set i (weights.getD i 0))

/-- The function `IQTreeMix::optimizeTreeWeightsByBFGS()`. The external
minimizer `minimizeMultiDimen(variables, ndim, lower_bound, upper_bound,
bound_check, gradient_epsilon)` is a parameter that gives the content it leaves
in `variables` and the value it returns; while it runs it evaluates
`targetFunk`, which writes every cell of `weights` and `tmp_weights` through
`getVariables`, and the closing call of `getVariables` writes all these cells
again. The arrays obtained with `new` start with zeros here. The result is
the returned score, `weights` and `tmp_weights`. -/
def optimizeTreeWeightsByBFGS {α : Type} [Field α]
    (minimizeMultiDimen : List α → Nat → List α → List α → List Bool → α → List α × α)
    (ntree : Nat) (weights tmp_weights : List α) : α × List α × List α :=
  let gradient_epsilon : α := 1 / 1000000
  let ndim := ntree
  let tmp1 := copyWeightsLoop weights ntree 0 (resize tmp_weights ntree)
  let vars := setVariables ntree tmp1 (List.replicate (ndim + 1) 0)
  let bounds := setBounds ntree (List.replicate (ndim + 1) 0) (List.replicate (ndim + 1) 0)
    (List.replicate (ndim + 1) false)
  let r := minimizeMultiDimen vars ndim bounds.1 bounds.2.1 bounds.2.2 gradient_epsilon
  let w := getVariables ntree r.1 weights tmp1
  (-r.2, w.1, w.2)

/-! ## Tree weights: the EM strategy -/

/-- How a loop that may run on ends: with a result, at a failed `ASSERT`, or
with the iterations granted to the embedding used up. -/
inductive Outcome (β : Type) where
  | done (result : β)
  | aborted
  | noFuel

/-- The loop "reset the weights": `weights[c] = 0.0`, `n` trees left. -/
def resetWeightsLoop {α : Type} [Zero α] : Nat → Nat → List α → List α
  | 0, _, weights => weights
  | n + 1, c, weights => resetWeightsLoop n (c + 1) (weights.set c 0)

/-- The inner loop of the E-step: `weights[c] += this_lk_cat[c]` with
`this_lk_cat = pattern_mix_lh + base`, `n` trees left. -/
def eStepInner {α : Type} [Zero α] [Add α] (pattern_mix_lh : List α) (base : Nat) :
    Nat → Nat → List α → List α
  | 0, _, weights => weights
  | n + 1, c, weights =>
    eStepInner pattern_mix_lh base n (c + 1)
      (weights.set c (weights.getD c 0 + pattern_mix_lh.getD (base + c) 0))

/-- The outer loop of the E-step, `n` patterns left. -/
def eStepOuter {α : Type} [Zero α] [Add α] (pattern_mix_lh : List α) (ntree : Nat) :
    Nat → Nat → List α → List α
  | 0, _, weights => weights
  | n + 1, ptn, weights =>
    eStepOuter pattern_mix_lh ntree n (ptn + 1)
      (eStepInner pattern_mix_lh (ptn * ntree) ntree 0 weights)

/-- The M-step: `weights[c] = weights[c] / getAlnNSite();
if (weights[c] < 1e-10) weights[c] = 1e-10;`, `n` trees left; `nsites` is the
value of `getAlnNSite()` as a number. -/
def mStepLoop {α : Type} [LinearOrderedField α] (nsites : α) : Nat → Nat → List α → List α
  | 0, _, weights => weights
  | n + 1, c, weights =>
    mStepLoop nsites n (c + 1)
      (weights.set c
        (if weights.getD c 0 / nsites < 1 / 10000000000 then 1 / 10000000000
         else weights.getD c 0 / nsites))

/-- The body of the `for` loop of `optimizeTreeWeightsByEM` up to the new
`score`; `nsites` is `getAlnNSite()`. The result is `score`, the array
`pattern_mix_lh` and the state, or `none` when `getPostProb` fails its
assertion. -/
def emStep {α : Type} [LinearOrderedField α] (exp log : α → α) (ofInt : Int → α)
    (treeLh : Nat → Nat → α) (nsites : Nat) (st : MixState α) (pattern_mix_lh : List α) :
    Option (α × List α × MixState α) :=
  match getPostProb exp log ofInt treeLh st pattern_mix_lh false with
  | none => none
  | some (out, st1) =>
    let w0 := resetWeightsLoop st1.ntree 0 st1.weights
    let w1 := eStepOuter out st1.ntree st1.nptn 0 w0
    let w2 := mStepLoop (ofInt (nsites : Int)) st1.ntree 0 w1
    let r := computeLikelihood exp log ofInt treeLh { st1 with weights := w2 } none
    some (r.1, out, r.2.2)

/-- The `for (step = 0; step < max_steps || max_steps == -1; step++)` loop of
`optimizeTreeWeightsByEM`, with at most `fuel` iterations; `score` is `none`
as long as the variable is not assigned. -/
def emLoop {α : Type} [LinearOrderedField α] (exp log : α → α) (ofInt : Int → α)
    (treeLh : Nat → Nat → α) (nsites : Nat) (max_steps : Int) :
    Nat → Nat → α → Option α → MixState α → List α →
      Outcome (Option α × List α × MixState α)
  | 0, step, _, score, st, pattern_mix_lh =>
    if (step : Int) < max_steps ∨ max_steps = -1 then .noFuel
    else .done (score, pattern_mix_lh, st)
  | fuel + 1, step, prev_score, score, st, pattern_mix_lh =>
    if (step : Int) < max_steps ∨ max_steps = -1 then
      match emStep exp log ofInt treeLh nsites st pattern_mix_lh with
      | none => .aborted
      | some (score', out, st') =>
        if score' < prev_score + 1 / 1000000 then .done (some score', out, st')
        else emLoop exp log ofInt treeLh nsites max_steps fuel (step + 1) score' (some score')
          st' out
    else .done (score, pattern_mix_lh, st)

/-- The function `IQTreeMix::optimizeTreeWeightsByEM(pattern_mix_lh, max_steps)`,
with at most `fuel` iterations of its loop. The result is the returned score
(`none` when it was never assigned), the array `pattern_mix_lh` and the
state. -/
def optimizeTreeWeightsByEM {α : Type} [LinearOrderedField α] (exp log : α → α)
    (ofInt : Int → α) (treeLh : Nat → Nat → α) (nsites : Nat) (fuel : Nat) (st : MixState α)
    (pattern_mix_lh : List α) (max_steps : Int) : Outcome (Option α × List α × MixState α) :=
  emLoop exp log ofInt treeLh nsites max_steps fuel 0
    (computeLikelihood exp log ofInt treeLh st none).1 none
    (computeLikelihood exp log ofInt treeLh st none).2.2 pattern_mix_lh

/-- The setting of the EM strategy: at least one tree, a weight cell for each
tree, buffers of `size() * nptn` cells, positive weights, non-negative pattern
frequencies that sum to the number of sites `nsites > 0`. -/
def EMReady {α : Type} [LinearOrderedField α] (nsites : Nat) (st : MixState α)
    (pattern_mix_lh : List α) : Prop :=
  1 ≤ st.ntree ∧ st.weights.length = st.ntree ∧
  st.ptn_like_cat.length = st.ntree * st.nptn ∧
  st._ptn_like_cat.length = st.ntree * st.nptn ∧
  pattern_mix_lh.length = st.ntree * st.nptn ∧
  (∀ k, k < st.ntree → 0 < st.weights.getD k 0) ∧
  (∀ p, p < st.nptn → 0 ≤ st.patn_freqs.getD p 0) ∧
  ∑ p ∈ Finset.range st.nptn, st.patn_freqs.getD p 0 = (nsites : Int) ∧
  0 < nsites

/-- A state with twelve trees of equal weight and one pattern seen once. -/
def emExample : MixState ℚ :=
  ⟨12, 1, List.replicate 12 (1 / 12), [1], List.replicate 12 0, List.replicate 12 0⟩

/-- A state with two trees and three patterns seen 5, 6 and 7 times. -/
def mixExample : MixState ℚ :=
  ⟨2, 3, [1 / 4, 3 / 4], [5, 6, 7], [1, 2, 3, 4, 5, 6], List.replicate 6 0⟩

/-! ## Binding the trees to their models and rates -/

/-- A tree of the program: the mixture itself (`this`) or its member `at(i)`. -/
inductive TreeRef where
  | mix : TreeRef
  | comp (i : Nat) : TreeRef
  deriving DecidableEq, Repr

/-- The pointers a tree keeps: `getModelFactory()`, `getModel()`, `getRate()`.
An object is named by its number among the objects of its kind; `none` is
`NULL`. -/
structure TreePtrs where
  model_factory : Option Nat
  model : Option Nat
  site_rate : Option Nat
  deriving DecidableEq, Repr

/-- The fields `model` and `site_rate` of a `ModelFactory` object. -/
structure ModelFactory where
  model : Option Nat
  site_rate : Option Nat
  deriving DecidableEq, Repr

/-- The part of the program state that `initializeModel` and the destructor
work on: the member trees `at(i)`, the pointers of the mixture itself, the
model factories allocated so far (object `f` is `factories[f]`), the number of
model objects allocated so far, the rate objects allocated so far (`rates[r]`
is the tree that `setTree` last gave to rate object `r`), the vectors
`models` and `site_rates`, and the calls of the per-tree initializer made so
far, each with the descriptor string it was given. -/
structure MixLinks where
  trees : List TreePtrs
  self : TreePtrs
  factories : List ModelFactory
  nmodel : Nat
  rates : List (Option TreeRef)
  models : List (Option Nat)
  site_rates : List (Option Nat)
  calls : List (TreeRef × Str)
  deriving DecidableEq, Repr

/-- The value that the `int` `z` takes in a comparison with a `size_t`
(64 bits), as in `i < ntree`. -/
def toSizeT (z : Int) : Nat :=
  if 0 ≤ z then z.toNat else (z + 18446744073709551616).toNat

/-- The string `curr_model` that the first loop of `initializeModel` builds for
tree `i`; `none` when an index into `model_names` or `siterate_names` is out of
range. -/
def currModel (spec : ModelSpec) (i : Nat) : Option Str :=
  match (if spec.isLinkModel then spec.model_names[0]? else spec.model_names[i]?) with
  | none => none
  | some m =>
    if spec.anySiteRate then
      match (if spec.isLinkSiteRate then spec.siterate_names[0]?
        else spec.siterate_names[i]?) with
      | none => none
      | some r => some (m ++ ("+".toList ++ r))
    else some m

/-- Modelled from the spec: the external per-tree initializer
(`initializeModel` of a single tree, which is not among the sources at hand)
gives the tree `who` a model factory, a model and a rate object of its own,
all three newly allocated, the factory pointing to the other two and the rate
object knowing `who` as its tree. The call is recorded in `calls` with the
descriptor string it was given. -/
def treeInitializeModel (b : MixLinks) (who : TreeRef) (curr_model : Str) : MixLinks :=
  { b with
    trees := (match who with
      | .comp i => b.trees.set i ⟨some b.factories.length, some b.nmodel, some b.rates.length⟩
      | .mix => b.trees),
    self := (match who with
      | .comp _ => b.self
      | .mix => ⟨some b.factories.length, some b.nmodel, some b.rates.length⟩),
    factories := b.factories ++ [⟨some b.nmodel, some b.rates.length⟩],
    nmodel := b.nmodel + 1,
    rates := b.rates ++ [some who],
    calls := b.calls ++ [(who, curr_model)] }

/-- The loop "initialize the models" of `initializeModel`, `n` turns left, at
tree `i`; `none` when `at(i)` or a descriptor index is out of range. -/
def initializeLoop (spec : ModelSpec) : Nat → Nat → MixLinks → Option MixLinks
  | 0, _, b => some b
  | n + 1, i, b =>
    match currModel spec i with
    | none => none
    | some curr_model =>
      if i < b.trees.length then
        initializeLoop spec n (i + 1)
          (if i = 0 then
            treeInitializeModel (treeInitializeModel b (.comp i) curr_model) .mix curr_model
          else treeInitializeModel b (.comp i) curr_model)
      else none

/-- The object `*at(i)->getModelFactory()` with its number; `none` when
`at(i)` is out of range or the pointer is `NULL` or names no factory. -/
def factoryOf (b : MixLinks) (i : Nat) : Option (Nat × ModelFactory) :=
  match b.trees[i]? with
  | none => none
  | some t =>
    match t.model_factory with
    | none => none
    | some f =>
      match b.factories[f]? with
      | none => none
      | some fac => some (f, fac)

/-- The loop over `i = 1 .. ntree - 1` in the branch `isLinkModel`:
`at(i)->getModelFactory()->model = models[0]; at(i)->setModel(models[0]);`
(the model the factory pointed to before is dropped, not deleted). -/
def linkModelLoop : Nat → Nat → MixLinks → Option MixLinks
  | 0, _, b => some b
  | n + 1, i, b =>
    match factoryOf b i, b.models[0]?, b.trees[i]? with
    | some (f, fac), some m0, some t =>
      linkModelLoop n (i + 1)
        { b with
          factories := b.factories.set f { fac with model := m0 },
          trees := b.trees.set i { t with model := m0 } }
    | _, _, _ => none

/-- The loop `models.push_back(at(i)->getModelFactory()->model)` of the
unlinked branch. -/
def pushModelLoop : Nat → Nat → MixLinks → Option MixLinks
  | 0, _, b => some b
  | n + 1, i, b =>
    match factoryOf b i with
    | some (_, fac) => pushModelLoop n (i + 1) { b with models := b.models ++ [fac.model] }
    | none => none

/-- The block "handle the linked or unlinked substitution model(s)". -/
def linkModels (spec : ModelSpec) (b : MixLinks) : Option MixLinks :=
  if spec.isLinkModel then
    match factoryOf b 0 with
    | some (_, fac) =>
      linkModelLoop (toSizeT spec.ntree - 1) 1 { b with models := b.models ++ [fac.model] }
    | none => none
  else pushModelLoop (toSizeT spec.ntree) 0 b

/-- The loop over `i = 1 .. ntree - 1` in the branch `isLinkSiteRate`:
`at(i)->getModelFactory()->site_rate = site_rates[0]; at(i)->setRate(site_rates[0]);`
(the rate object the factory pointed to before is dropped, not deleted). -/
def linkSiteRateLoop : Nat → Nat → MixLinks → Option MixLinks
  | 0, _, b => some b
  | n + 1, i, b =>
    match factoryOf b i, b.site_rates[0]?, b.trees[i]? with
    | some (f, fac), some r0, some t =>
      linkSiteRateLoop n (i + 1)
        { b with
          factories := b.factories.set f { fac with site_rate := r0 },
          trees := b.trees.set i { t with site_rate := r0 } }
    | _, _, _ => none

/-- The loop `site_rates.push_back(at(i)->getModelFactory()->site_rate)` of the
unlinked branch. -/
def pushSiteRateLoop : Nat → Nat → MixLinks → Option MixLinks
  | 0, _, b => some b
  | n + 1, i, b =>
    match factoryOf b i with
    | some (_, fac) =>
      pushSiteRateLoop n (i + 1) { b with site_rates := b.site_rates ++ [fac.site_rate] }
    | none => none

/-- The block "handle the linked or unlinked site rate(s)". -/
def linkSiteRates (spec : ModelSpec) (b : MixLinks) : Option MixLinks :=
  if spec.anySiteRate then
    if spec.isLinkSiteRate then
      match factoryOf b 0 with
      | some (_, fac) =>
        linkSiteRateLoop (toSizeT spec.ntree - 1) 1
          { b with site_rates := b.site_rates ++ [fac.site_rate] }
      | none => none
    else pushSiteRateLoop (toSizeT spec.ntree) 0 b
  else some b

/-- The loop "set the trees of the site rates to this tree":
`if (site_rates[i]) site_rates[i]->setTree(this)`; `none` when a pointer names
no rate object. -/
def setTreeLoop : Nat → Nat → MixLinks → Option MixLinks
  | 0, _, b => some b
  | n + 1, i, b =>
    match b.site_rates[i]? with
    | none => none
    | some none => setTreeLoop n (i + 1) b
    | some (some r) =>
      if r < b.rates.length then
        setTreeLoop n (i + 1) { b with rates := b.rates.set r (some .mix) }
      else none

/-- The statements of `initializeModel` after the call of `separateModel`. -/
def bindModels (spec : ModelSpec) (b : MixLinks) : Option MixLinks :=
  match initializeLoop spec (toSizeT spec.ntree) 0 b with
  | none => none
  | some b1 =>
    match linkModels spec b1 with
    | none => none
    | some b2 =>
      match linkSiteRates spec b2 with
      | none => none
      | some b3 => setTreeLoop b3.site_rates.length 0 b3

/-- The function `IQTreeMix::initializeModel(params, model_name, models_block)`:
an error of `separateModel`, or else the state after the binding (`none` when
an access is out of range or goes through a `NULL` pointer). -/
def initializeModel (model_name : Str) (b : MixLinks) : Except ParseError (Option MixLinks) :=
  match separateModel model_name with
  | .error e => .error e
  | .ok spec => .ok (bindModels spec { b with models := [], site_rates := [] })

/-- The objects destroyed so far, in the order of their destruction: model
factories, models and rate objects by their numbers. -/
structure Destroyed where
  factories : List Nat
  models : List Nat
  rates : List Nat
  deriving DecidableEq, Repr

/-- Modelled from the spec: the destructor of a single tree (not among the
sources at hand) destroys the objects the tree still points to, its model
factory, its model and its rate object, each one when the pointer is not
`NULL`; destroying a model factory destroys neither its model nor its rate
object. -/
def deleteTree (t : TreePtrs) (d : Destroyed) : Destroyed :=
  ⟨d.factories ++ t.model_factory.toList, d.models ++ t.model.toList,
    d.rates ++ t.site_rate.toList⟩

/-- The loop of the destructor for a shared model, over `i = 1 .. size() - 1`:
`at(i)->setModelFactory(NULL); at(i)->setModel(NULL); at(i)->setRate(NULL);`. -/
def breakModelLoop : Nat → Nat → List TreePtrs → List TreePtrs
  | 0, _, trees => trees
  | n + 1, i, trees => breakModelLoop n (i + 1) (trees.set i ⟨none, none, none⟩)

/-- The loop of the destructor for a shared rate only, over
`i = 1 .. size() - 1`:
`at(i)->getModelFactory()->site_rate = NULL; at(i)->setRate(NULL);`. -/
def breakRateLoop : Nat → Nat → MixLinks → Option MixLinks
  | 0, _, b => some b
  | n + 1, i, b =>
    match factoryOf b i, b.trees[i]? with
    | some (f, fac), some t =>
      breakRateLoop n (i + 1)
        { b with
          factories := b.factories.set f { fac with site_rate := none },
          trees := b.trees.set i { t with site_rate := none } }
    | _, _ => none

/-- The loop `delete (at(i))` of the destructor. -/
def deleteLoop : List TreePtrs → Destroyed → Destroyed
  | [], d => d
  | t :: trees, d => deleteLoop trees (deleteTree t d)

/-- The destructor `IQTreeMix::~IQTreeMix()`, followed by the destructor of the
base class on the pointers of the mixture itself: the state it leaves and the
objects it has destroyed (`setParams` and the arrays are left out). -/
def destructor (b : MixLinks) : Option (MixLinks × Destroyed) :=
  match (if b.models.length = 1 then
      some { b with trees := breakModelLoop (b.trees.length - 1) 1 b.trees }
    else if b.site_rates.length = 1 then breakRateLoop (b.trees.length - 1) 1 b
    else some b) with
  | none => none
  | some b1 =>
    some ({ b1 with self := ⟨none, none, none⟩ },
      deleteTree ⟨none, none, none⟩ (deleteLoop b1.trees ⟨[], [], []⟩))

/-- Three member trees without models, and no object allocated yet. -/
def threeTrees : MixLinks :=
  ⟨[⟨none, none, none⟩, ⟨none, none, none⟩, ⟨none, none, none⟩], ⟨none, none, none⟩,
    [], 0, [], [], [], []⟩

/-- The number of objects of each kind allocated before the turn of tree `j`
in the first loop of `initializeModel`: tree 0 comes first, then the mixture
itself, then the trees `1, 2, ...`. -/
def slot (j : Nat) : Nat := if j = 0 then 0 else j + 1

/-- The calls of the per-tree initializer made in turn `i` of the first loop of
`initializeModel`. -/
def callsAt (spec : ModelSpec) (i : Nat) : List (TreeRef × Str) :=
  match currModel spec i with
  | none => []
  | some s => if i = 0 then [(.comp i, s), (.mix, s)] else [(.comp i, s)]

/-- The layout of `K` bound trees: tree `j` points to the factory number
`F + slot j` and holds the same `model` and `site_rate` pointers, `mdl j` and
`rt j`, as this factory. -/
def Shape (F K : Nat) (mdl rt : Nat → Option Nat) (b : MixLinks) : Prop :=
  b.trees.length = K ∧
  ∀ j, j < K → b.trees[j]? = some ⟨some (F + slot j), mdl j, rt j⟩ ∧
    b.factories[F + slot j]? = some ⟨mdl j, rt j⟩

/-- The descriptor of tree `i` in the words of the specification:
`model_names[isLinkModel ? 0 : i]`, followed by `"+"` and
`siterate_names[isLinkSiteRate ? 0 : i]` exactly when `anySiteRate` holds (an
entry that does not exist reads as the empty string). -/
def descriptorSpec (spec : ModelSpec) (i : Nat) : Str :=
  spec.model_names.getD (if spec.isLinkModel then 0 else i) [] ++
    (if spec.anySiteRate then
      "+".toList ++ spec.siterate_names.getD (if spec.isLinkSiteRate then 0 else i) []
    else [])

/-- The state that `initializeModel` leaves on `threeTrees` for `"GTR+T3"`:
model 0 is shared by the three trees, model 1 belongs to the mixture itself,
the models 2 and 3 were allocated for the trees 1 and 2 and are no longer
pointed to. -/
def linkedThree : MixLinks :=
  ⟨[⟨some 0, some 0, some 0⟩, ⟨some 2, some 0, some 2⟩, ⟨some 3, some 0, some 3⟩],
    ⟨some 1, some 1, some 1⟩,
    [⟨some 0, some 0⟩, ⟨some 1, some 1⟩, ⟨some 0, some 2⟩, ⟨some 0, some 3⟩], 4,
    [some (.comp 0), some .mix, some (.comp 1), some (.comp 2)], [some 0], [],
    [(.comp 0, "GTR".toList), (.mix, "GTR".toList), (.comp 1, "GTR".toList),
      (.comp 2, "GTR".toList)]⟩

/-! ## The outer loop -/

/-- The loop `for (step = 0; step < optimize_steps || optimize_steps == -1; step++)`
of `optimizeModelParameters`, with at most `fuel` turns. `iteration step s` is
the body of the loop up to the line that prints the score: it gives the value
of `score` at that line and the state, or `none` when `getPostProb` fails its
assertion. `prev_score` and `score` are the variables of the function
(`score` is `none` as long as it is not assigned), `trace` collects the scores
printed so far; the turn ends the loop when
`score < prev_score + gradient_epsilon`, with `gradient_epsilon = 0.0001`. -/
def optimizeLoop {α σ : Type} [LinearOrderedField α] (iteration : Int → σ → Option (α × σ))
    (optimize_steps : Int) :
    Nat → Int → α → Option α → List α → σ → Outcome (Option α × List α × σ)
  | 0, step, _, score, trace, s =>
    if step < optimize_steps ∨ optimize_steps = -1 then .noFuel
    else .done (score, trace, s)
  | fuel + 1, step, prev_score, score, trace, s =>
    if step < optimize_steps ∨ optimize_steps = -1 then
      match iteration step s with
      | none => .aborted
      | some (score', s') =>
        if score' < prev_score + 1 / 10000 then .done (some score', trace ++ [score'], s')
        else optimizeLoop iteration optimize_steps fuel (step + 1) score' (some score')
          (trace ++ [score']) s'
    else .done (score, trace, s)

/-- The function `IQTreeMix::optimizeModelParameters`, with at most `fuel` turns
of its loop: `prev_score` starts at `-DBL_MAX` (`dblMax` is `DBL_MAX`); the
result is the score given to `setCurScore` (`none` when `score` was never
assigned), the scores printed turn by turn, and the state. -/
def optimizeModelParameters {α σ : Type} [LinearOrderedField α]
    (iteration : Int → σ → Option (α × σ)) (dblMax : α) (optimize_steps : Int) (fuel : Nat)
    (s : σ) : Outcome (Option α × List α × σ) :=
  optimizeLoop iteration optimize_steps fuel 0 (-dblMax) none [] s

/-! ## Pattern likelihoods and the weight objective -/

/-- The function
`IQTreeMix::computePatternLikelihood(pattern_lh, cur_logl, pattern_lh_cat, wsl)`:
its body is the one call `computeLikelihood(pattern_lh)`. The result is the
arrays `pattern_lh` and `pattern_lh_cat` (`none` is `NULL`) and the state. -/
def computePatternLikelihood {α : Type} [Zero α] [Add α] [Mul α] (exp log : α → α)
    (ofInt : Int → α) (treeLh : Nat → Nat → α) (st : MixState α)
    (pattern_lh pattern_lh_cat : Option (List α)) :
    Option (List α) × Option (List α) × MixState α :=
  let r := computeLikelihood exp log ofInt treeLh st pattern_lh
  (r.2.1, pattern_lh_cat, r.2.2)

/-- The function `IQTreeMix::targetFunk(x)`:
`getVariables(x); clearAllPartialLH(); return -computeLikelihood();`. The
partial likelihoods that `clearAllPartialLH` drops belong to the per-tree
engine and are not part of the state here. The result is the returned value,
the state and `tmp_weights`. -/
def targetFunk {α : Type} [Field α] (exp log : α → α) (ofInt : Int → α)
    (treeLh : Nat → Nat → α) (st : MixState α) (tmp_weights : List α) (x : List α) :
    α × MixState α × List α :=
  let w := getVariables st.ntree x st.weights tmp_weights
  let r := computeLikelihood exp log ofInt treeLh { st with weights := w.1 } none
  (-r.1, r.2.2, w.2)

/-! ## `SuperAlignment` -/

/-- How an operation on a `SuperAlignment` can go wrong: a failed `ASSERT`, or
an access to a vector behind its end (undefined in C++). -/
inductive Fault where
  | assertion
  | outOfBounds
  deriving DecidableEq, Repr

/-- A pattern of an alignment: the character of each of its sequences. -/
abbrev Pattern := List Nat

/-- A partition (an `Alignment`): the names of its sequences and its
patterns. -/
structure Alignment where
  seq_names : List Str
  patterns : List Pattern
  deriving DecidableEq, Repr

/-- The fields of a `SuperAlignment` that `removePartitions` and
`areSequencesIdentical` work on; `taxa_index[seq][part]` is the number of
sequence `seq` within partition `part`, negative when it is absent. -/
structure SuperAlignment where
  partitions : List Alignment
  seq_names : List Str
  taxa_index : List (List Int)
  deriving DecidableEq, Repr

/-- The access `v[i]` to a vector with an `int` index, which is converted to
`size_t`: a negative index ends up behind the end. -/
def vecAt {β : Type} (v : List β) (i : Int) : Except Fault β :=
  if 0 ≤ i then
    match v[i.toNat]? with
    | some a => .ok a
    | none => .error .outOfBounds
  else .error .outOfBounds

/-- The loop over the patterns of a partition in `areSequencesIdentical`:
`false` at the first pattern with `(*it)[subseq1] != (*it)[subseq2]`, `true`
when the loop is left at its end. -/
def patternLoop (subseq1 subseq2 : Int) : List Pattern → Except Fault Bool
  | [] => .ok true
  | it :: rest =>
    match vecAt it subseq1, vecAt it subseq2 with
    | .ok a, .ok b => if a ≠ b then .ok false else patternLoop subseq1 subseq2 rest
    | .error e, _ => .error e
    | _, .error e => .error e

/-- The loop over the partitions in `areSequencesIdentical`, at partition
number `part`. -/
def identicalLoop (taxa_index : List (List Int)) (seq1 seq2 : Nat) :
    List Alignment → Nat → Except Fault Bool
  | [], _ => .ok true
  | ait :: rest, part =>
    match (taxa_index[seq1]?).bind (fun row => row[part]?),
        (taxa_index[seq2]?).bind (fun row => row[part]?) with
    | some subseq1, some subseq2 =>
      if subseq1 < 0 ∧ subseq2 < 0 then identicalLoop taxa_index seq1 seq2 rest (part + 1)
      else if subseq1 < 0 ∧ subseq2 > 0 then .ok false
      else if subseq1 > 0 ∧ subseq2 < 0 then .ok false
      else
        match patternLoop subseq1 subseq2 ait.patterns with
        | .ok true => identicalLoop taxa_index seq1 seq2 rest (part + 1)
        | r => r
    | _, _ => .error .outOfBounds

/-- The function `SuperAlignment::areSequencesIdentical(seq1, seq2)`. -/
def areSequencesIdentical (a : SuperAlignment) (seq1 seq2 : Nat) : Except Fault Bool :=
  identicalLoop a.taxa_index seq1 seq2 a.partitions 0

/-- The first loop of `removePartitions`: the partitions whose number is not in
`removed_id`, in their order; `i` is the number of the first partition of the
list. -/
def keepLoop (removed_id : Finset Int) : List Alignment → Int → List Alignment
  | [], _ => []
  | p :: rest, i =>
    if i ∉ removed_id then p :: keepLoop removed_id rest (i + 1)
    else keepLoop removed_id rest (i + 1)

/-- The loops "get the union seq_names of remaining partitions": the names of
one partition, each pushed when it is not yet in the set. -/
def unionNames : List Str → List Str → List Str
  | [], seq_names => seq_names
  | n :: rest, seq_names =>
    if n ∈ seq_names then unionNames rest seq_names else unionNames rest (seq_names ++ [n])

/-- The outer loop of "get the union seq_names of remaining partitions". -/
def unionLoop : List Alignment → List Str → List Str
  | [], seq_names => seq_names
  | p :: rest, seq_names => unionLoop rest (unionNames p.seq_names seq_names)

/-- The call `v.resize(n, fill)` of a vector. -/
def resizeWith {β : Type} (v : List β) (n : Nat) (fill : β) : List β :=
  v.take n ++ List.replicate (n - v.length) fill

/-- Modelled from the spec: `Alignment::getSeqID(name)` (not among the sources
at hand) is the number of the first sequence of that name, `-1` when there is
none. -/
def getSeqID (aln : Alignment) (name : Str) : Int :=
  if name ∈ aln.seq_names then (aln.seq_names.indexOf name : Int) else -1

/-- The first loop of `linkSubAlignment(part)`, over the sequences from number
`seq` on; the result is `taxa_index` and `checked`. -/
def linkLoop (aln : Alignment) (part : Nat) :
    List Str → Nat → List (List Int) → List Bool → Except Fault (List (List Int) × List Bool)
  | [], _, taxa_index, checked => .ok (taxa_index, checked)
  | name :: rest, seq, taxa_index, checked =>
    match taxa_index[seq]? with
    | none => .error .outOfBounds
    | some row =>
      if part < row.length then
        if getSeqID aln name < 0 then
          linkLoop aln part rest (seq + 1) (taxa_index.set seq (row.set part (-1))) checked
        else if (getSeqID aln name).toNat < checked.length then
          linkLoop aln part rest (seq + 1)
            (taxa_index.set seq (row.set part (getSeqID aln name)))
            (checked.set (getSeqID aln name).toNat true)
        else .error .outOfBounds
      else .error .outOfBounds

/-- The function `SuperAlignment::linkSubAlignment(part)`; `getNSeq()` is the
number of sequence names. -/
def linkSubAlignment (a : SuperAlignment) (part : Nat) : Except Fault SuperAlignment :=
  if a.taxa_index.length ≠ a.seq_names.length then .error .assertion
  else
    match a.partitions[part]? with
    | none => .error .outOfBounds
    | some aln =>
      match linkLoop aln part a.seq_names 0 a.taxa_index
          (List.replicate aln.seq_names.length false) with
      | .error e => .error e
      | .ok (taxa_index, checked) =>
        if checked.all id then .ok { a with taxa_index := taxa_index }
        else .error .assertion

/-- The loop `for (int i = 0; i < num_partitions; ++i) linkSubAlignment(i)`,
`n` turns left. -/
def linkAllLoop : Nat → Nat → SuperAlignment → Except Fault SuperAlignment
  | 0, _, a => .ok a
  | n + 1, i, a =>
    match linkSubAlignment a i with
    | .error e => .error e
    | .ok a' => linkAllLoop n (i + 1) a'

/-- The function `SuperAlignment::removePartitions(removed_id)` up to the call
of `buildPattern`; `num_partitions` is the number of partitions on entry. The
vector `seq_to_subset` is left out. -/
def removePartitions (a : SuperAlignment) (removed_id : Finset Int) :
    Except Fault SuperAlignment :=
  let num_partitions := a.partitions.length
  let new_partitions := keepLoop removed_id a.partitions 0
  if new_partitions.length + removed_id.card ≠ a.partitions.length then .error .assertion
  else
    let seq_names := unionLoop new_partitions []
    let taxa_index := (resizeWith a.taxa_index seq_names.length []).map
      (fun row => resizeWith row new_partitions.length (-1))
    linkAllLoop num_partitions 0 ⟨new_partitions, seq_names, taxa_index⟩

/-! ## Vocabulary for the pieces of `separateStr` -/

/-- What a character adds to the brace depth. -/
def braceStep (c : Char) : Int := if c = '{' then 1 else if c = '}' then -1 else 0

/-- The brace depth behind a text: the number of its `'{'` minus the number of
its `'}'`. -/
def braceDepth : Str → Int
  | [] => 0
  | c :: cs => braceStep c + braceDepth cs

/-- No beginning of the text closes more braces than it opens. -/
def NoExcessClose (s : Str) : Prop := ∀ n, 0 ≤ braceDepth (s.take n)

/-- The braces of the text are balanced. -/
def Balanced (s : Str) : Prop := NoExcessClose s ∧ braceDepth s = 0

/-- The segments of a text in the words of the specification: the text is cut
at every occurrence of `sep` in front of which the brace depth is `≤ 0`; the
result is all segments in order, the empty ones included. `cur` is the
segment being read and `depth` the brace depth in front of the rest. -/
def segmentsFrom (sep : Char) : Str → Str → Int → List Str
  | [], cur, _ => [cur]
  | c :: rest, cur, depth =>
    if c = sep ∧ depth ≤ 0 then cur :: segmentsFrom sep rest [] depth
    else segmentsFrom sep rest (cur ++ [c]) (depth + braceStep c)

/-- The segments of a whole text. -/
def segments (sep : Char) (str : Str) : List Str := segmentsFrom sep str [] 0

/-- The value of the counter `brac_num` of `separateStr` behind a text, when
it stands at `b` in front of it. -/
def bracCounter (separator : Char) : Str → Int → Int
  | [], b => b
  | c :: rest, b =>
    if c = '{' then bracCounter separator rest (b + 1)
    else if c = '}' then bracCounter separator rest (b - 1)
    else if c = separator ∧ b ≤ 0 then bracCounter separator rest 0
    else bracCounter separator rest b

/-! ## The turns of the outer loop

The calls into a single tree `at(i)` are external. They are the fields of an
`Engine`. The calls `computePtnFreq` and `optimizeAllBranches` on tree `i` read
and write the working frequencies `ptn_freq` of this tree and the remaining
state `σ` of the per-tree engines; `optimizeAllBranches` sees the tree that the
rate object of tree `i` points to at the time of the call. The call
`optimizeAllParameters` runs while the rate object points to the mixture and
can reach every tree through it: it is handed the pointers and the `ptn_freq`
arrays of all trees and returns them as it leaves them. The likelihood
buffers of the mixture, which a call can rewrite through `computeLikelihood`,
are recomputed before every use and are not handed to the calls. -/

/-- The external operations of the per-tree engine and of the minimizer. -/
structure Engine (α σ : Type) where
  exp : α → α
  log : α → α
  ofInt : Int → α
  /-- The log-likelihood of pattern `p` under tree `t`. -/
  treeLh : σ → Nat → Nat → α
  /-- The call `at(i)->initializeAllPartialLh()`. -/
  initializeAllPartialLh : Nat → σ → σ
  /-- The call `at(i)->computePtnFreq()`: the new `ptn_freq` of the tree. -/
  computePtnFreq : Nat → List α → σ → List α × σ
  /-- The call `at(i)->optimizeAllBranches(my_iterations, tolerance, maxNRStep)`. -/
  optimizeAllBranches : Nat → Int → Option TreeRef → List α → σ → List α × σ
  /-- The call `minimizeMultiDimen(...)` within `optimizeTreeWeightsByBFGS`. -/
  minimizeMultiDimen : σ → List α → Nat → List α → List α → List Bool → α → List α × α
  /-- The call `at(i)->getModelFactory()->optimizeAllParameters(gradient_epsilon)`,
  on the pointers, the `ptn_freq` arrays of all trees and the engine state: the
  returned score and what the call leaves of the three. -/
  optimizeAllParameters : Nat → MixLinks → List (List α) → σ →
    α × MixLinks × List (List α) × σ

/-- The state that the loop of `optimizeModelParameters` works on: the numeric
fields of the mixture, `tmp_weights`, the local array `pattern_mix_lh`, the
pointers, the array `ptn_freq` of every tree and the state of the engine. -/
structure OuterState (α σ : Type) where
  mix : MixState α
  tmp_weights : List α
  pattern_mix_lh : List α
  links : MixLinks
  ptn_freq : List (List α)
  engine : σ

/-- The rate object `at(i)->getRate()`; `none` when the pointer is `NULL` or
names no rate object. -/
def rateOf (links : MixLinks) (i : Nat) : Option Nat :=
  match links.trees[i]? with
  | none => none
  | some t =>
    match t.site_rate with
    | none => none
    | some r => if r < links.rates.length then some r else none

/-- The inner loop of `updateFreqArray` for tree `i`:
`tree->ptn_freq[ptn] = this_lk_cat[ptn*ntree]` with
`this_lk_cat = pattern_mix_lh + i`, `n` patterns left. -/
def freqColumnLoop {α : Type} [Zero α] (pattern_mix_lh : List α) (ntree i : Nat) :
    Nat → Nat → List α → List α
  | 0, _, row => row
  | n + 1, ptn, row =>
    freqColumnLoop pattern_mix_lh ntree i n (ptn + 1)
      (row.set ptn (pattern_mix_lh.getD (i + ptn * ntree) 0))

/-- The outer loop of `updateFreqArray`, `n` trees left. -/
def updateFreqLoop {α σ : Type} [Zero α] (E : Engine α σ) (pattern_mix_lh : List α)
    (ntree nptn : Nat) : Nat → Nat → List (List α) → σ → List (List α) × σ
  | 0, _, ptn_freq, engine => (ptn_freq, engine)
  | n + 1, i, ptn_freq, engine =>
    updateFreqLoop E pattern_mix_lh ntree nptn n (i + 1)
      (ptn_freq.set i (freqColumnLoop pattern_mix_lh ntree i nptn 0
        (E.computePtnFreq i (ptn_freq.getD i []) (E.initializeAllPartialLh i engine)).1))
      (E.computePtnFreq i (ptn_freq.getD i []) (E.initializeAllPartialLh i engine)).2

/-- The function `IQTreeMix::updateFreqArray(pattern_mix_lh)`, called with the
array `pattern_mix_lh` of the state. -/
def updateFreqArray {α σ : Type} [Zero α] (E : Engine α σ) (s : OuterState α σ) :
    OuterState α σ :=
  { s with
    ptn_freq := (updateFreqLoop E s.pattern_mix_lh s.mix.ntree s.mix.nptn s.mix.ntree 0
      s.ptn_freq s.engine).1,
    engine := (updateFreqLoop E s.pattern_mix_lh s.mix.ntree s.mix.nptn s.mix.ntree 0
      s.ptn_freq s.engine).2 }

/-- The loop of `IQTreeMix::optimizeAllBranches`, `n` trees left: the tree of
the rate object is saved, set to `at(i)` for the call
`at(i)->optimizeAllBranches(...)` and restored. -/
def branchLoop {α σ : Type} (E : Engine α σ) (my_iterations : Int) :
    Nat → Nat → OuterState α σ → Option (OuterState α σ)
  | 0, _, s => some s
  | n + 1, i, s =>
    match rateOf s.links i with
    | none => none
    | some r =>
      branchLoop E my_iterations n (i + 1)
        { s with
          ptn_freq := s.ptn_freq.set i
            (E.optimizeAllBranches i my_iterations
              ((s.links.rates.set r (some (.comp i))).getD r none)
              (s.ptn_freq.getD i []) s.engine).1,
          engine := (E.optimizeAllBranches i my_iterations
              ((s.links.rates.set r (some (.comp i))).getD r none)
              (s.ptn_freq.getD i []) s.engine).2,
          links := { s.links with
            rates := (s.links.rates.set r (some (.comp i))).set r (s.links.rates.getD r none) } }

/-- The function `IQTreeMix::optimizeAllBranches(my_iterations, tolerance, maxNRStep)`:
the loop over the trees, then `return computeLikelihood()`. -/
def optimizeAllBranches {α σ : Type} [Zero α] [Add α] [Mul α] (E : Engine α σ)
    (my_iterations : Int) (s : OuterState α σ) : Option (α × OuterState α σ) :=
  match branchLoop E my_iterations s.mix.ntree 0 s with
  | none => none
  | some s1 =>
    some ((computeLikelihood E.exp E.log E.ofInt (E.treeLh s1.engine) s1.mix none).1,
      { s1 with
        mix := (computeLikelihood E.exp E.log E.ofInt (E.treeLh s1.engine) s1.mix none).2.2 })

/-- The inner loop of "reset the ptn_freq array":
`at(i)->ptn_freq[ptn] = patn_freqs[ptn]`, `n` patterns left. -/
def resetRowLoop {α : Type} (ofInt : Int → α) (patn_freqs : List Int) :
    Nat → Nat → List α → List α
  | 0, _, row => row
  | n + 1, ptn, row =>
    resetRowLoop ofInt patn_freqs n (ptn + 1) (row.set ptn (ofInt (patn_freqs.getD ptn 0)))

/-- The outer loop of "reset the ptn_freq array", `n` trees left. -/
def resetFreqLoop {α : Type} (ofInt : Int → α) (patn_freqs : List Int) (nptn : Nat) :
    Nat → Nat → List (List α) → List (List α)
  | 0, _, ptn_freq => ptn_freq
  | n + 1, i, ptn_freq =>
    resetFreqLoop ofInt patn_freqs nptn n (i + 1)
      (ptn_freq.set i (resetRowLoop ofInt patn_freqs nptn 0 (ptn_freq.getD i [])))

/-- What the loop that optimizes the parameters notes of its turn for the tree
`tree`: the saved `ptree`, what `at(i)->getRate()->getTree()` gives when the
call `optimizeAllParameters` is made, the array `ptn_freq` of the tree at that
moment, and what `at(i)->getRate()->getTree()` gives right behind
`setTree(ptree)`. -/
structure ParamCall (α : Type) where
  tree : Nat
  saved : Option TreeRef
  atCall : Option TreeRef
  ptn_freq : List α
  restored : Option TreeRef
  deriving DecidableEq, Repr

/-- The call `at(i)->getModelFactory()->optimizeAllParameters(gradient_epsilon)`
of the turn for tree `i`, made behind `at(i)->getRate()->setTree(this)`; `r` is
the rate object of tree `i`. -/
def paramCall {α σ : Type} (E : Engine α σ) (i r : Nat) (s : OuterState α σ) :
    α × MixLinks × List (List α) × σ :=
  E.optimizeAllParameters i { s.links with rates := s.links.rates.set r (some .mix) }
    s.ptn_freq s.engine

/-- The loop over the trees that optimizes the parameters, `n` trees left: the
tree of the rate object of `at(i)` is saved, set to `this`, the call
`optimizeAllParameters` is made, `score` takes its result when this is not
`0.0`, and the saved tree is given to the rate object that `at(i)->getRate()`
names behind the call. `calls` collects the notes of the turns; `none` when
`at(i)->getRate()` names no rate object. -/
def paramLoop {α σ : Type} [Zero α] [DecidableEq α] (E : Engine α σ) :
    Nat → Nat → α → List (ParamCall α) → OuterState α σ →
      Option (α × List (ParamCall α) × OuterState α σ)
  | 0, _, score, calls, s => some (score, calls, s)
  | n + 1, i, score, calls, s =>
    match rateOf s.links i with
    | none => none
    | some r =>
      match rateOf (paramCall E i r s).2.1 i with
      | none => none
      | some r' =>
        paramLoop E n (i + 1)
          (if (paramCall E i r s).1 ≠ 0 then (paramCall E i r s).1 else score)
          (calls ++ [⟨i, s.links.rates.getD r none,
            (s.links.rates.set r (some .mix)).getD r none, s.ptn_freq.getD i [],
            ((paramCall E i r s).2.1.rates.set r' (s.links.rates.getD r none)).getD r' none⟩])
          { s with
            ptn_freq := (paramCall E i r s).2.2.1,
            engine := (paramCall E i r s).2.2.2,
            links := { (paramCall E i r s).2.1 with
              rates := (paramCall E i r s).2.1.rates.set r' (s.links.rates.getD r none) } }

/-- The body of the loop of `optimizeModelParameters` up to the reset of the
`ptn_freq` arrays: `getPostProb(pattern_mix_lh, true)`, `updateFreqArray`,
`optimizeAllBranches(n, logl_epsilon)` with `n = min(step+1, 3)`,
`optimizeTreeWeightsByBFGS()` and the reset. The result is `score` and the
state. -/
def outerFirstHalf {α σ : Type} [LinearOrderedField α] (E : Engine α σ) (step : Int)
    (s : OuterState α σ) : Option (α × OuterState α σ) :=
  match getPostProb E.exp E.log E.ofInt (E.treeLh s.engine) s.mix s.pattern_mix_lh true with
  | none => none
  | some (pattern_mix_lh, mix1) =>
    match optimizeAllBranches E (min (step + 1) 3)
        (updateFreqArray E { s with mix := mix1, pattern_mix_lh := pattern_mix_lh }) with
    | none => none
    | some (_, s2) =>
      some ((optimizeTreeWeightsByBFGS (E.minimizeMultiDimen s2.engine) s2.mix.ntree
          s2.mix.weights s2.tmp_weights).1,
        { s2 with
          mix := { s2.mix with
            weights := ((optimizeTreeWeightsByBFGS (E.minimizeMultiDimen s2.engine)
              s2.mix.ntree s2.mix.weights s2.tmp_weights).2.1) },
          tmp_weights := (optimizeTreeWeightsByBFGS (E.minimizeMultiDimen s2.engine)
            s2.mix.ntree s2.mix.weights s2.tmp_weights).2.2,
          ptn_freq := resetFreqLoop E.ofInt s2.mix.patn_freqs s2.mix.nptn s2.mix.ntree 0
            s2.ptn_freq })

/-- The body of the loop of `optimizeModelParameters` up to the line that
prints the score, on the notes of the calls of `optimizeAllParameters` and the
state. -/
def outerIteration {α σ : Type} [LinearOrderedField α] (E : Engine α σ) (step : Int)
    (cs : List (ParamCall α) × OuterState α σ) :
    Option (α × (List (ParamCall α) × OuterState α σ)) :=
  match outerFirstHalf E step cs.2 with
  | none => none
  | some (score, s4) =>
    match paramLoop E s4.mix.ntree 0 score cs.1 s4 with
    | none => none
    | some (score', calls, s5) => some (score', (calls, s5))

/-- An engine over the rationals for one pattern, with the positive stand-in
`1 + x * x` for `exp`: every tree has the log-likelihood `0`, `computePtnFreq`
leaves an array of one cell, the minimizer returns the lower bounds, and the
other calls change nothing and return the score `0`. -/
def sampleEngine : Engine ℚ Unit :=
  ⟨fun x => 1 + x * x, fun x => x - 1, Int.cast, fun _ _ _ => 0, fun _ e => e,
    fun _ _ e => ([0], e), fun _ _ _ row e => (row, e), fun _ _ _ lo _ _ _ => (lo, 0),
    fun _ l pf e => (0, l, pf, e)⟩

/-- A state of three trees bound by `"GTR+T3"` with equal weights and one
pattern seen four times, over the rationals. -/
def sampleState : OuterState ℚ Unit :=
  ⟨⟨3, 1, [1 / 3, 1 / 3, 1 / 3], [4], [0, 0, 0], [0, 0, 0]⟩, [0, 0, 0], [5, 6, 7],
    linkedThree, [[9], [9], [9]], ()⟩

/-- The setting of a turn of the outer loop: at least one tree, a weight cell
for each tree, buffers of `size() * nptn` cells, positive weights, one
`ptn_freq` array for each tree, and a rate object for each tree. -/
def OuterReady {α σ : Type} [LinearOrderedField α] (s : OuterState α σ) : Prop :=
  1 ≤ s.mix.ntree ∧ s.mix.weights.length = s.mix.ntree ∧
  s.mix.ptn_like_cat.length = s.mix.ntree * s.mix.nptn ∧
  s.mix._ptn_like_cat.length = s.mix.ntree * s.mix.nptn ∧
  s.pattern_mix_lh.length = s.mix.ntree * s.mix.nptn ∧
  (∀ k, k < s.mix.ntree → 0 < s.mix.weights.getD k 0) ∧
  s.ptn_freq.length = s.mix.ntree ∧
  (∀ i, i < s.mix.ntree → ∃ r, rateOf s.links i = some r)

/-- What is assumed of the external calls for `K` trees and `nptn` patterns:
`exp` is positive; `computePtnFreq` and `optimizeAllBranches` leave a
`ptn_freq` array of at least `nptn` cells; the minimizer returns its variables
inside the bounds it is given; and `optimizeAllParameters` leaves the
`ptn_freq` arrays as they are, and the trees with the rate objects they have. -/
def EngineReady {α σ : Type} [LinearOrderedField α] (E : Engine α σ) (K nptn : Nat) : Prop :=
  (∀ x, 0 < E.exp x) ∧
  (∀ (i : Nat) (row : List α) (e : σ), nptn ≤ (E.computePtnFreq i row e).1.length) ∧
  (∀ (i : Nat) (it : Int) (tr : Option TreeRef) (row : List α) (e : σ),
    nptn ≤ row.length → nptn ≤ (E.optimizeAllBranches i it tr row e).1.length) ∧
  (∀ (e : σ) (vars lo up : List α) (bc : List Bool) (eps : α) (i : Nat), 1 ≤ i → i ≤ K →
    bc.getD i false = true → lo.getD i 0 ≤ up.getD i 0 →
    lo.getD i 0 ≤ (E.minimizeMultiDimen e vars K lo up bc eps).1.getD i 0 ∧
      (E.minimizeMultiDimen e vars K lo up bc eps).1.getD i 0 ≤ up.getD i 0) ∧
  (∀ (i : Nat) (l : MixLinks) (pf : List (List α)) (e : σ),
    (E.optimizeAllParameters i l pf e).2.2.1 = pf ∧
    (E.optimizeAllParameters i l pf e).2.1.trees = l.trees ∧
    (E.optimizeAllParameters i l pf e).2.1.rates.length = l.rates.length)

/-! ## Lemmas on `rfind` -/

theorem rfindFrom_none (s pat : Str) (p : Nat) :
    rfindFrom s pat p = none ↔ ∀ j, j ≤ p → pat.isPrefixOf (s.drop j) = false := by
  induction p with
  | zero =>
    simp only [rfindFrom]
    constructor
    · intro h j hj
      have : j = 0 := by omega
      subst this
      by_cases hp : pat.isPrefixOf s = true
      · rw [if_pos hp] at h; cases h
      · exact Bool.eq_false_iff.mpr hp
    · intro h
      have h0 : pat.isPrefixOf s = false := h 0 (le_refl 0)
      rw [if_neg (by rw [h0]; exact Bool.false_ne_true)]
  | succ p ih =>
    simp only [rfindFrom]
    by_cases hp : pat.isPrefixOf (s.drop (p + 1)) = true
    · simp only [hp, if_true]
      constructor
      · intro h; cases h
      · intro h
        have := h (p + 1) (le_refl _)
        rw [hp] at this; cases this
    · have hp' : pat.isPrefixOf (s.drop (p + 1)) = false := Bool.eq_false_iff.mpr hp
      simp only [hp', Bool.false_eq_true, if_false]
      rw [ih]
      constructor
      · intro h j hj
        by_cases hj' : j = p + 1
        · subst hj'; exact hp'
        · exact h j (by omega)
      · intro h j hj
        exact h j (by omega)

theorem rfindFrom_some (s pat : Str) (p q : Nat) :
    rfindFrom s pat p = some q ↔
      q ≤ p ∧ pat.isPrefixOf (s.drop q) = true ∧
        ∀ j, q < j → j ≤ p → pat.isPrefixOf (s.drop j) = false := by
  induction p with
  | zero =>
    simp only [rfindFrom]
    by_cases hp : pat.isPrefixOf s = true
    · simp only [hp, if_true]
      constructor
      · intro h
        cases h
        exact ⟨le_refl _, hp, fun j h1 h2 => by omega⟩
      · rintro ⟨h1, _, _⟩
        have : q = 0 := by omega
        rw [this]
    · simp only [hp, if_false]
      constructor
      · intro h; cases h
      · rintro ⟨h1, h2, _⟩
        have : q = 0 := by omega
        subst this
        exact absurd h2 hp
  | succ p ih =>
    simp only [rfindFrom]
    by_cases hp : pat.isPrefixOf (s.drop (p + 1)) = true
    · simp only [hp, if_true]
      constructor
      · intro h
        cases h
        exact ⟨le_refl _, hp, fun j h1 h2 => by omega⟩
      · rintro ⟨h1, h2, h3⟩
        by_cases hq : q = p + 1
        · rw [hq]
        · have := h3 (p + 1) (by omega) (le_refl _)
          rw [hp] at this; cases this
    · have hp' : pat.isPrefixOf (s.drop (p + 1)) = false := Bool.eq_false_iff.mpr hp
      simp only [hp', Bool.false_eq_true, if_false]
      rw [ih]
      constructor
      · rintro ⟨h1, h2, h3⟩
        refine ⟨by omega, h2, fun j hj1 hj2 => ?_⟩
        by_cases hj' : j = p + 1
        · subst hj'; exact hp'
        · exact h3 j hj1 (by omega)
      · rintro ⟨h1, h2, h3⟩
        have hq : q ≠ p + 1 := by
          intro hq; subst hq; rw [h2] at hp'; cases hp'
        exact ⟨by omega, h2, fun j hj1 hj2 => h3 j hj1 (by omega)⟩


theorem isPrefixOf_plusT (l : Str) :
    ['+', 'T'].isPrefixOf l = true ↔ ∃ r, l = '+' :: 'T' :: r := by
  rw [ List.isPrefixOf_iff_prefix]
  constructor
  · rintro ⟨r, hr⟩
    exact ⟨r, hr.symm⟩
  · rintro ⟨r, hr⟩
    exact ⟨r, hr.symm⟩

theorem mem_of_drop_eq_cons {c : Char} {l r : Str} {j : Nat} (h : l.drop j = c :: r) :
    c ∈ l := by
  have : c ∈ l.drop j := by rw [h]; exact List.mem_cons_self _ _
  exact List.mem_of_mem_drop this

/-- The last `"+T"` of `body ++ "+T" ++ suf` is the one shown when `suf` has
no `'+'`. -/
theorem rfind_plusT (body suf : Str) (hsuf : '+' ∉ suf) :
    rfind (body ++ '+' :: 'T' :: suf) ['+', 'T'] = some body.length := by
  unfold rfind
  have hlen : (body ++ '+' :: 'T' :: suf).length = body.length + suf.length + 2 := by
    simp; omega
  rw [if_pos (by rw [hlen]; simp)]
  rw [rfindFrom_some]
  refine ⟨by rw [hlen]; simp, ?_, ?_⟩
  · rw [List.drop_left]
    exact (isPrefixOf_plusT _).mpr ⟨suf, rfl⟩
  · intro j hj1 hj2
    apply Bool.eq_false_iff.mpr
    intro hpre
    obtain ⟨r, hr⟩ := (isPrefixOf_plusT _).mp hpre
    have hj : j = body.length + ((j - body.length - 1) + 1) := by omega
    rw [hj, ← List.drop_drop, List.drop_left, List.drop_succ_cons] at hr
    have hmem : '+' ∈ 'T' :: suf := mem_of_drop_eq_cons hr
    rcases List.mem_cons.mp hmem with h | h
    · exact absurd h (by decide)
    · exact hsuf h

/-! ## Lemmas on `atoi` and decimal numerals -/

theorem digitChar_spec (d : Nat) (hd : d < 10) :
    (Nat.digitChar d).isDigit = true ∧ (Nat.digitChar d).toNat - 48 = d ∧
      Nat.digitChar d ≠ '+' ∧ Nat.digitChar d ≠ '-' ∧ isCSpace (Nat.digitChar d) = false := by
  interval_cases d <;> decide

theorem atoiDigits_eq_foldl (ds : Str) (hds : ∀ c ∈ ds, c.isDigit = true) (acc : Nat) :
    atoiDigits ds acc = ds.foldl digitStep acc := by
  induction ds generalizing acc with
  | nil => rfl
  | cons c cs ih =>
    have hc : c.isDigit = true := hds c (List.mem_cons_self _ _)
    simp only [atoiDigits, hc, if_true, List.foldl_cons]
    exact ih (fun x hx => hds x (List.mem_cons_of_mem _ hx)) _

theorem toDigitsCore_spec (fuel : Nat) :
    ∀ (n : Nat) (ds : Str), n < fuel →
      (Nat.toDigitsCore 10 fuel n ds).foldl digitStep 0 = ds.foldl digitStep n ∧
      ((∀ c ∈ ds, c.isDigit = true ∧ c ≠ '+' ∧ c ≠ '-' ∧ isCSpace c = false) →
        ∀ c ∈ Nat.toDigitsCore 10 fuel n ds,
          c.isDigit = true ∧ c ≠ '+' ∧ c ≠ '-' ∧ isCSpace c = false) ∧
      Nat.toDigitsCore 10 fuel n ds ≠ [] := by
  induction fuel with
  | zero => intro n ds h; omega
  | succ fuel ih =>
    intro n ds hn
    have hd := digitChar_spec (n % 10) (Nat.mod_lt _ (by decide))
    unfold Nat.toDigitsCore
    by_cases h0 : n / 10 = 0
    · simp only [h0, if_true]
      have hlt : n < 10 := by omega
      refine ⟨?_, ?_, by simp⟩
      · simp only [List.foldl_cons, digitStep, hd.2.1]
        rw [Nat.mod_eq_of_lt hlt]; simp
      · intro hds c hc
        rcases List.mem_cons.mp hc with h | h
        · rw [h]; exact ⟨hd.1, hd.2.2.1, hd.2.2.2.1, hd.2.2.2.2⟩
        · exact hds c h
    · simp only [h0, if_false]
      have hlt : n / 10 < fuel := by omega
      obtain ⟨h1, h2, h3⟩ := ih (n / 10) (Nat.digitChar (n % 10) :: ds) hlt
      refine ⟨?_, ?_, h3⟩
      · rw [h1]
        simp only [List.foldl_cons, digitStep, hd.2.1]
        have : n / 10 * 10 + n % 10 = n := by omega
        rw [this]
      · intro hds
        apply h2
        intro c hc
        rcases List.mem_cons.mp hc with h | h
        · rw [h]; exact ⟨hd.1, hd.2.2.1, hd.2.2.2.1, hd.2.2.2.2⟩
        · exact hds c h

theorem numeral_spec (K : Nat) :
    (numeral K).foldl digitStep 0 = K ∧
      (∀ c ∈ numeral K, c.isDigit = true ∧ c ≠ '+' ∧ c ≠ '-' ∧ isCSpace c = false) ∧
      numeral K ≠ [] := by
  obtain ⟨h1, h2, h3⟩ := toDigitsCore_spec (K + 1) K [] (Nat.lt_succ_self K)
  exact ⟨h1, h2 (fun c hc => absurd hc (List.not_mem_nil c)), h3⟩

theorem plus_not_mem_numeral (K : Nat) : '+' ∉ numeral K := fun h =>
  ((numeral_spec K).2.1 _ h).2.1 rfl

/-- The function `atoi` reads back the decimal numeral of `K`. -/
theorem atoi_numeral (K : Nat) : atoi (numeral K) = (K : Int) := by
  obtain ⟨h1, h2, h3⟩ := numeral_spec K
  cases hnum : numeral K with
  | nil => exact absurd hnum h3
  | cons c cs =>
    rw [hnum] at h1 h2
    have hc := h2 c (List.mem_cons_self _ _)
    have hval : atoiDigits (c :: cs) 0 = K := by
      rw [atoiDigits_eq_foldl _ (fun x hx => (h2 x hx).1)]; exact h1
    unfold atoi
    have hdw : List.dropWhile isCSpace (c :: cs) = c :: cs := by
      simp [List.dropWhile, hc.2.2.2]
    rw [hdw]
    split
    · rename_i r heq
      injection heq with hh _
      exact absurd hh hc.2.2.1
    · rename_i r heq
      injection heq with hh _
      exact absurd hh hc.2.1
    · rw [hval]

/-- Reading the tree number from `body ++ "+T" ++ K`. -/
theorem readTreeNumber_numeral (body : Str) (K : Nat) :
    readTreeNumber (body ++ '+' :: 'T' :: numeral K) = .ok ((K : Int), body) := by
  unfold readTreeNumber
  have hT : "+T".toList = ['+', 'T'] := rfl
  rw [hT, rfind_plusT body (numeral K) (plus_not_mem_numeral K)]
  have hne := (numeral_spec K).2.2
  have hpos : 0 < (numeral K).length := List.length_pos.mpr hne
  have hlen : (body ++ '+' :: 'T' :: numeral K).length = body.length + (numeral K).length + 2 := by
    simp; omega
  simp only [hlen]
  rw [if_neg (by omega)]
  have h1 : substrFrom (body ++ '+' :: 'T' :: numeral K) (body.length + 2) = numeral K := by
    unfold substrFrom
    rw [← List.drop_drop, List.drop_left]; rfl
  have h2 : substr (body ++ '+' :: 'T' :: numeral K) 0 body.length = body := by
    unfold substr
    simp
  rw [h1, h2, atoi_numeral]


/-! ## Lemmas on `separateStr` -/

theorem separateStrLoop_acc (sep : Char) (s : Str) :
    ∀ (cur : Str) (b : Int) (acc : List Str),
      separateStrLoop sep s cur b acc = acc ++ separateStrLoop sep s cur b [] := by
  induction s with
  | nil =>
    intro cur b acc
    simp only [separateStrLoop]
    split <;> simp
  | cons c rest ih =>
    intro cur b acc
    simp only [separateStrLoop]
    split
    · exact ih _ _ _
    · split
      · exact ih _ _ _
      · split
        · rw [ih _ _ (if cur.length > 0 then acc ++ [cur] else acc),
            ih _ _ (if cur.length > 0 then [] ++ [cur] else [])]
          split <;> simp
        · exact ih _ _ _

theorem separateStr_acc (s : Str) (acc : List Str) (sep : Char) :
    separateStr s acc sep = acc ++ separateStr s [] sep :=
  separateStrLoop_acc sep s [] 0 acc

/-- A stretch of text without braces, whose separators (if any) lie inside a
brace group, is read through without a cut. -/
theorem separateStrLoop_plain (sep : Char) (t : Str) :
    ∀ (rest cur : Str) (b : Int) (acc : List Str),
      (∀ c ∈ t, c ≠ '{' ∧ c ≠ '}' ∧ (c = sep → 0 < b)) →
      separateStrLoop sep (t ++ rest) cur b acc = separateStrLoop sep rest (cur ++ t) b acc := by
  induction t with
  | nil => intro rest cur b acc _; simp
  | cons c t ih =>
    intro rest cur b acc h
    have hc := h c (List.mem_cons_self _ _)
    have ht : ∀ x ∈ t, x ≠ '{' ∧ x ≠ '}' ∧ (x = sep → 0 < b) :=
      fun x hx => h x (List.mem_cons_of_mem _ hx)
    rw [List.cons_append, separateStrLoop, if_neg hc.1, if_neg hc.2.1,
      if_neg (by rintro ⟨h1, h2⟩; have := hc.2.2 h1; omega), ih _ _ _ _ ht]
    simp

theorem whole_of_plain (sep : Char) (t : Str)
    (h : ∀ c ∈ t, c ≠ '{' ∧ c ≠ '}' ∧ c ≠ sep) : Whole sep t := by
  intro rest cur acc
  exact separateStrLoop_plain sep t rest cur 0 acc
    (fun c hc => ⟨(h c hc).1, (h c hc).2.1, fun hs => absurd hs (h c hc).2.2⟩)

/-- A group `MIX{inner}` whose inner text has no braces is one top-level token
for the separator `'+'`. -/
theorem whole_mix (inner : Str) (h : ∀ c ∈ inner, c ≠ '{' ∧ c ≠ '}') :
    Whole '+' ("MIX\x7b".toList ++ inner ++ "\x7d".toList) := by
  intro rest cur acc
  have hM : "MIX\x7b".toList = ['M', 'I', 'X', '{'] := rfl
  have hB : "\x7d".toList = ['}'] := rfl
  rw [hM, hB]
  simp only [List.cons_append, List.nil_append, List.append_assoc]
  rw [separateStrLoop, if_neg (by decide), if_neg (by decide), if_neg (by decide),
    separateStrLoop, if_neg (by decide), if_neg (by decide), if_neg (by decide),
    separateStrLoop, if_neg (by decide), if_neg (by decide), if_neg (by decide),
    separateStrLoop, if_pos rfl]
  rw [separateStrLoop_plain '+' inner _ _ _ _
    (fun c hc => ⟨(h c hc).1, (h c hc).2, fun _ => by omega⟩)]
  rw [separateStrLoop, if_neg (by decide), if_pos rfl]
  simp

theorem joinWith_cons_cons (sep : Char) (t u : Str) (ts : List Str) :
    joinWith sep (t :: u :: ts) = t ++ sep :: joinWith sep (u :: ts) := rfl

/-- Splitting a text that was joined from whole non-empty tokens gives the
tokens back. -/
theorem separateStr_joinWith (sep : Char) (hs1 : sep ≠ '{') (hs2 : sep ≠ '}') (ts : List Str) :
    ∀ (acc : List Str), (∀ t ∈ ts, t ≠ [] ∧ Whole sep t) →
      separateStr (joinWith sep ts) acc sep = acc ++ ts := by
  unfold separateStr
  induction ts with
  | nil => intro acc _; simp [joinWith, separateStrLoop]
  | cons t ts ih =>
    intro acc h
    have ht := h t (List.mem_cons_self _ _)
    have hpos : 0 < t.length := List.length_pos.mpr ht.1
    cases ts with
    | nil =>
      have := ht.2 [] [] acc
      simp only [List.append_nil, List.nil_append] at this
      simp only [joinWith]
      rw [this, separateStrLoop, if_pos hpos]
    | cons u us =>
      rw [joinWith_cons_cons, ht.2, List.nil_append, separateStrLoop, if_neg hs1, if_neg hs2,
        if_pos ⟨rfl, le_refl _⟩, if_pos hpos,
        ih _ (fun x hx => h x (List.mem_cons_of_mem _ hx))]
      simp


/-! ## Lemmas on the token loop -/

theorem joinWith_merge (sep : Char) (a b : Str) (l : List Str) :
    joinWith sep ((a ++ sep :: b) :: l) = joinWith sep (a :: b :: l) := by
  cases l with
  | nil => simp [joinWith]
  | cons u us => simp [joinWith]

theorem isFreqToken_iff (s : Str) :
    isFreqToken s = true ↔ (s.length ≤ 2 ∧ s.head? = some 'F') := by
  simp [isFreqToken]

/-- A token that passes the `MIX{...}` test ends with a closing brace. -/
theorem mem_of_isMixGroup (s : Str) (h : isMixGroup s = true) : '}' ∈ s := by
  simp only [isMixGroup, Bool.and_eq_true, beq_iff_eq] at h
  have h3 := h.2
  unfold substr at h3
  have : '}' ∈ List.take 1 (List.drop (s.length - 1) s) := by rw [h3]; decide
  exact List.mem_of_mem_drop (List.mem_of_mem_take this)

theorem isMixGroup_false_of_no_brace (s : Str) (h : '}' ∉ s) : isMixGroup s = false := by
  cases hm : isMixGroup s with
  | false => rfl
  | true => exact absurd (mem_of_isMixGroup s hm) h

theorem processToken_first_bare (s : Str) (st : ParseState) (hs : s ≠ [])
    (hm : isMixGroup s = false) :
    processToken 0 s st = .ok { st with model_names := st.model_names ++ [s] } := by
  have hl : s.length ≠ 0 := fun h => hs (List.length_eq_zero.mp h)
  unfold processToken
  rw [if_neg hl, hm]
  simp

theorem processToken_freq (i : Nat) (s m : Str) (rs sub : List Str) (hs : s ≠ [])
    (hm : isMixGroup s = false) (hf : isFreqToken s = true) :
    processToken (i + 1) s ⟨[m], rs, sub⟩ = .ok ⟨[m ++ '+' :: s], rs, sub⟩ := by
  have hl : s.length ≠ 0 := fun h => hs (List.length_eq_zero.mp h)
  unfold processToken
  rw [if_neg hl, hm]
  simp only [Bool.false_eq_true, if_false]
  rw [if_neg (Nat.succ_ne_zero i), if_pos ((isFreqToken_iff s).mp hf)]
  simp

theorem processToken_rate_first (i : Nat) (s : Str) (ms sub : List Str) (hs : s ≠ [])
    (hm : isMixGroup s = false) (hf : isFreqToken s = false) :
    processToken (i + 1) s ⟨ms, [], sub⟩ = .ok ⟨ms, [s], sub⟩ := by
  have hl : s.length ≠ 0 := fun h => hs (List.length_eq_zero.mp h)
  have hf' : ¬ (s.length ≤ 2 ∧ s.head? = some 'F') := by
    rw [← isFreqToken_iff, hf]; exact Bool.false_ne_true
  unfold processToken
  rw [if_neg hl, hm]
  simp only [Bool.false_eq_true, if_false]
  rw [if_neg (Nat.succ_ne_zero i), if_neg hf']
  simp

theorem processToken_rate_more (i : Nat) (s r : Str) (ms sub : List Str) (hs : s ≠ [])
    (hm : isMixGroup s = false) (hf : isFreqToken s = false) :
    processToken (i + 1) s ⟨ms, [r], sub⟩ = .ok ⟨ms, [r ++ '+' :: s], sub⟩ := by
  have hl : s.length ≠ 0 := fun h => hs (List.length_eq_zero.mp h)
  have hf' : ¬ (s.length ≤ 2 ∧ s.head? = some 'F') := by
    rw [← isFreqToken_iff, hf]; exact Bool.false_ne_true
  unfold processToken
  rw [if_neg hl, hm]
  simp only [Bool.false_eq_true, if_false]
  rw [if_neg (Nat.succ_ne_zero i), if_neg hf']
  simp

/-- The token loop on bare tokens behind the first one, started with one
linked model and at most one linked rate: frequency qualifiers extend the
model, every other token extends the rate. -/
theorem tokenLoop_bare (ts : List Str) :
    ∀ (i : Nat) (m : Str) (rs sub : List Str),
      (∀ t ∈ ts, t ≠ [] ∧ isMixGroup t = false) → rs.length ≤ 1 →
      tokenLoop (i + 1) ts ⟨[m], rs, sub⟩ =
        .ok ⟨[joinWith '+' (m :: ts.filter isFreqToken)],
             joinedPlus (rs ++ ts.filter (fun t => !isFreqToken t)), sub⟩ := by
  induction ts with
  | nil =>
    intro i m rs sub _ hrs
    match rs, hrs with
    | [], _ => simp [tokenLoop, joinWith, joinedPlus]
    | [r], _ => simp [tokenLoop, joinWith, joinedPlus]
  | cons s ts ih =>
    intro i m rs sub h hrs
    have hs := h s (List.mem_cons_self _ _)
    have hts : ∀ t ∈ ts, t ≠ [] ∧ isMixGroup t = false :=
      fun t ht => h t (List.mem_cons_of_mem _ ht)
    cases hf : isFreqToken s with
    | true =>
      rw [tokenLoop, processToken_freq i s m rs sub hs.1 hs.2 hf]
      simp only
      rw [ih (i + 1) _ rs sub hts hrs, List.filter_cons_of_pos hf,
        List.filter_cons_of_neg (by simp [hf]), joinWith_merge]
    | false =>
      match rs, hrs with
      | [], _ =>
        rw [tokenLoop, processToken_rate_first i s [m] sub hs.1 hs.2 hf]
        simp only
        rw [ih (i + 1) m [s] sub hts (by simp), List.filter_cons_of_neg (by simp [hf]),
          List.filter_cons_of_pos (by simp [hf])]
        simp
      | [r], _ =>
        rw [tokenLoop, processToken_rate_more i s r [m] sub hs.1 hs.2 hf]
        simp only
        rw [ih (i + 1) m _ sub hts (by simp), List.filter_cons_of_neg (by simp [hf]),
          List.filter_cons_of_pos (by simp [hf])]
        simp only [joinedPlus, List.singleton_append, List.cons_ne_nil, if_false,
          joinWith_merge]


/-! ## Linked model and linked site rate: `t0+t1+...+tn+T<K>` -/

theorem parseDescriptors_eq (inp body : Str) (K : Nat)
    (hinp : rmSpace inp = body ++ "+T".toList ++ numeral K) :
    parseDescriptors inp =
      match tokenLoop 0 (separateStr body [] '+') ⟨[], [], []⟩ with
      | .error err => .error err
      | .ok st => .ok ((K : Int), st) := by
  have hT : body ++ "+T".toList ++ numeral K = body ++ '+' :: 'T' :: numeral K := by
    simp
  unfold parseDescriptors
  rw [hinp, hT, readTreeNumber_numeral]

/-- C1: for every input whose text without spaces is `t0+t1+...+tn+T<K>`, the
tokens being non-empty and free of `'+'` and braces and `K` a numeral within
the range of `int`, `separateModel` succeeds with `ntree = K`, with the single
model descriptor `t0` joined by `'+'` with the later frequency tokens (length
at most 2, first character `F`), and with no rate descriptor when no other
token remains, else the single one made of the other tokens joined by `'+'`;
the model and the rate are flagged linked. -/
theorem separateModel_linked (inp t0 : Str) (ts : List Str) (K : Nat)
    (_hK : 0 < K ∧ K ≤ 2147483647)
    (htok : ∀ t ∈ t0 :: ts, t ≠ [] ∧ '+' ∉ t ∧ '{' ∉ t ∧ '}' ∉ t)
    (hinp : rmSpace inp = joinWith '+' (t0 :: ts) ++ "+T".toList ++ numeral K) :
    separateModel inp = .ok
      { treemix_model := rmSpace inp
        model_names := [joinWith '+' (t0 :: ts.filter isFreqToken)]
        siterate_names :=
          if ts.filter (fun t => !isFreqToken t) = [] then []
          else [joinWith '+' (ts.filter (fun t => !isFreqToken t))]
        isLinkModel := true
        isLinkSiteRate := true
        anySiteRate := !(ts.filter (fun t => !isFreqToken t)).isEmpty
        ntree := (K : Int) } := by
  have hwhole : ∀ t ∈ t0 :: ts, t ≠ [] ∧ Whole '+' t := fun t ht =>
    ⟨(htok t ht).1, whole_of_plain '+' t (fun c hc =>
      ⟨fun h => (htok t ht).2.2.1 (h ▸ hc), fun h => (htok t ht).2.2.2 (h ▸ hc),
        fun h => (htok t ht).2.1 (h ▸ hc)⟩)⟩
  have hsplit := separateStr_joinWith '+' (by decide) (by decide) (t0 :: ts) [] hwhole
  have hbare : ∀ t ∈ ts, t ≠ [] ∧ isMixGroup t = false := fun t ht =>
    ⟨(htok t (List.mem_cons_of_mem _ ht)).1,
      isMixGroup_false_of_no_brace t (htok t (List.mem_cons_of_mem _ ht)).2.2.2⟩
  have h0 := htok t0 (List.mem_cons_self _ _)
  unfold separateModel
  rw [parseDescriptors_eq inp _ K hinp, hsplit, List.nil_append, tokenLoop,
    processToken_first_bare t0 _ h0.1 (isMixGroup_false_of_no_brace t0 h0.2.2.2)]
  simp only [List.nil_append]
  rw [tokenLoop_bare ts 0 t0 [] [] hbare (by simp)]
  simp only [List.nil_append, finishModel, joinedPlus]
  by_cases hr : ts.filter (fun t => !isFreqToken t) = []
  · simp [hr]
  · simp [hr]

/-- The two examples of C1: `"GTR+T2"` and `"GTR+G4+T2"`. -/
theorem separateModel_linked_witness :
    separateModel "GTR+T2".toList = .ok
      { treemix_model := "GTR+T2".toList
        model_names := ["GTR".toList]
        siterate_names := []
        isLinkModel := true
        isLinkSiteRate := true
        anySiteRate := false
        ntree := 2 } ∧
    (separateModel "GTR+G4+T2".toList).toOption.map (·.siterate_names) =
      some ["G4".toList] :=
  ⟨separateModel_linked "GTR+T2".toList "GTR".toList [] 2 (by decide) (by decide) (by decide),
   by
    rw [separateModel_linked "GTR+G4+T2".toList "GTR".toList ["G4".toList] 2 (by decide)
      (by decide) (by decide)]
    decide⟩


/-! ## Lemmas on `divideModelNSiteRate` -/

theorem findPlus_none (t : Str) (h : '+' ∉ t) : findPlus t = none := by
  induction t with
  | nil => rfl
  | cons c t ih =>
    have hc : c ≠ '+' := fun hc => h (hc ▸ List.mem_cons_self _ _)
    simp only [findPlus, if_neg hc, ih (fun hm => h (List.mem_cons_of_mem _ hm))]
    rfl

theorem findPlus_append (t rest : Str) (h : '+' ∉ t) :
    findPlus (t ++ '+' :: rest) = some t.length := by
  induction t with
  | nil => simp [findPlus]
  | cons c t ih =>
    have hc : c ≠ '+' := fun hc => h (hc ▸ List.mem_cons_self _ _)
    have ih' := ih (fun hm => h (List.mem_cons_of_mem _ hm))
    rw [List.cons_append, findPlus, if_neg hc, ih']
    rfl

theorem divideLoop_nil (orig : Str) (fuel i : Nat) (m r : Str) :
    divideLoop orig fuel [] i m r = .ok (m, r) := by
  cases fuel with
  | zero => rfl
  | succ f => simp [divideLoop]

/-- One turn of the loop on a name that still has a `'+'` behind its first
token. -/
theorem divideLoop_cons (orig t rest : Str) (fuel i : Nat) (m r : Str)
    (ht : t ≠ []) (hp : '+' ∉ t) :
    divideLoop orig (fuel + 1) (t ++ '+' :: rest) i m r =
      if i = 0 ∨ t.head? = some 'F' then divideLoop orig fuel rest (i + 1) (appendPlus m t) r
      else divideLoop orig fuel rest (i + 1) m (appendPlus r t) := by
  have hl : t.length ≠ 0 := fun h => ht (List.length_eq_zero.mp h)
  rw [divideLoop, if_pos (by simp), findPlus_append t rest hp]
  simp only [substr, substrFrom, List.drop_zero, List.take_left, List.drop_succ_cons,
    List.drop_left, hl, if_false]
  have h1 : List.drop (t.length + 1) (t ++ '+' :: rest) = rest := by
    rw [← List.drop_drop, List.drop_left]; rfl
  rw [h1]

/-- The last turn of the loop, on a name that is one token. -/
theorem divideLoop_last (orig t : Str) (fuel i : Nat) (m r : Str)
    (ht : t ≠ []) (hp : '+' ∉ t) :
    divideLoop orig (fuel + 1) t i m r =
      if i = 0 ∨ t.head? = some 'F' then .ok (appendPlus m t, r)
      else .ok (m, appendPlus r t) := by
  have hl : t.length ≠ 0 := fun h => ht (List.length_eq_zero.mp h)
  rw [divideLoop, if_pos (Nat.pos_of_ne_zero hl), findPlus_none t hp]
  simp only [hl, if_false, divideLoop_nil]

/-- The loop of `divideModelNSiteRate` has finished once the fuel
`name.length` is used up: more fuel gives the same result. -/
theorem divideLoop_fuel (orig : Str) (fuel : Nat) :
    ∀ (fuel' : Nat) (name : Str) (i : Nat) (m r : Str),
      name.length ≤ fuel → name.length ≤ fuel' →
      divideLoop orig fuel name i m r = divideLoop orig fuel' name i m r := by
  induction fuel with
  | zero =>
    intro fuel' name i m r h _
    have : name = [] := List.length_eq_zero.mp (by omega)
    rw [this, divideLoop_nil, divideLoop_nil]
  | succ fuel ih =>
    intro fuel' name i m r h h'
    by_cases hn : name = []
    · rw [hn, divideLoop_nil, divideLoop_nil]
    · have hpos : 0 < name.length := List.length_pos.mpr hn
      obtain ⟨f', rfl⟩ : ∃ f', fuel' = f' + 1 := ⟨fuel' - 1, by omega⟩
      have hshort : (match findPlus name with
          | some plus_pos => substrFrom name (plus_pos + 1)
          | none => []).length ≤ name.length - 1 := by
        cases findPlus name with
        | none => simp
        | some q => simp only [substrFrom, List.length_drop]; omega
      rw [divideLoop, divideLoop, if_pos hpos, if_pos hpos]
      simp only
      split
      · rfl
      · split
        · exact ih f' _ _ _ _ (by omega) (by omega)
        · exact ih f' _ _ _ _ (by omega) (by omega)

theorem length_joinWith_cons_cons (sep : Char) (t u : Str) (ts : List Str) :
    (joinWith sep (t :: u :: ts)).length = t.length + 1 + (joinWith sep (u :: ts)).length := by
  rw [joinWith_cons_cons]; simp; omega

theorem joinWith_ne_nil (sep : Char) (t : Str) (ts : List Str) (ht : t ≠ []) :
    joinWith sep (t :: ts) ≠ [] := by
  cases ts with
  | nil => simpa [joinWith] using ht
  | cons u us => rw [joinWith_cons_cons]; simp [ht]

theorem startsWithF_iff (s : Str) : startsWithF s = true ↔ s.head? = some 'F' := by
  simp [startsWithF]

/-- The loop behind the first token: tokens that start with `F` go to the
model, the others to the site rate. -/
theorem divideLoop_later (orig : Str) (ts : List Str) :
    ∀ (fuel i : Nat) (m r : Str), (∀ t ∈ ts, t ≠ [] ∧ '+' ∉ t) →
      (joinWith '+' ts).length ≤ fuel →
      divideLoop orig fuel (joinWith '+' ts) (i + 1) m r =
        .ok ((ts.filter startsWithF).foldl appendPlus m,
             (ts.filter (fun t => !startsWithF t)).foldl appendPlus r) := by
  induction ts with
  | nil => intro fuel i m r _ _; simp [joinWith, divideLoop_nil]
  | cons t ts ih =>
    intro fuel i m r h hfuel
    have ht := h t (List.mem_cons_self _ _)
    have hts : ∀ x ∈ ts, x ≠ [] ∧ '+' ∉ x := fun x hx => h x (List.mem_cons_of_mem _ hx)
    have hpos : 0 < t.length := List.length_pos.mpr ht.1
    cases ts with
    | nil =>
      simp only [joinWith] at hfuel ⊢
      obtain ⟨f, rfl⟩ : ∃ f, fuel = f + 1 := ⟨fuel - 1, by omega⟩
      rw [divideLoop_last orig t f (i + 1) m r ht.1 ht.2]
      cases hF : startsWithF t with
      | true =>
        rw [if_pos (Or.inr ((startsWithF_iff t).mp hF))]
        simp [hF]
      | false =>
        have hF' : ¬ t.head? = some 'F' := by
          rw [← startsWithF_iff, hF]; exact Bool.false_ne_true
        rw [if_neg (by rintro (h | h); exact absurd h (Nat.succ_ne_zero i); exact hF' h)]
        simp [hF]
    | cons u us =>
      rw [length_joinWith_cons_cons] at hfuel
      obtain ⟨f, rfl⟩ : ∃ f, fuel = f + 1 := ⟨fuel - 1, by omega⟩
      rw [joinWith_cons_cons, divideLoop_cons orig t _ f (i + 1) m r ht.1 ht.2]
      cases hF : startsWithF t with
      | true =>
        rw [if_pos (Or.inr ((startsWithF_iff t).mp hF)), ih f (i + 1) _ r hts (by omega)]
        simp [hF]
      | false =>
        have hF' : ¬ t.head? = some 'F' := by
          rw [← startsWithF_iff, hF]; exact Bool.false_ne_true
        rw [if_neg (by rintro (h | h); exact absurd h (Nat.succ_ne_zero i); exact hF' h),
          ih f (i + 1) m _ hts (by omega)]
        simp [hF]

theorem foldl_appendPlus_of_ne_nil (l : List Str) :
    ∀ (m : Str), m ≠ [] → l.foldl appendPlus m = joinWith '+' (m :: l) := by
  induction l with
  | nil => intro m _; rfl
  | cons s l ih =>
    intro m hm
    have hl : 0 < m.length := List.length_pos.mpr hm
    have happ : appendPlus m s = m ++ '+' :: s := by simp [appendPlus, hl]
    rw [List.foldl_cons, happ, ih _ (by simp [hm]), joinWith_merge]

theorem foldl_appendPlus_nil (l : List Str) (h : ∀ t ∈ l, t ≠ []) :
    l.foldl appendPlus [] = joinWith '+' l := by
  cases l with
  | nil => rfl
  | cons s l =>
    have happ : appendPlus [] s = s := by simp [appendPlus]
    rw [List.foldl_cons, happ, foldl_appendPlus_of_ne_nil l s (h s (List.mem_cons_self _ _))]

/-- Dividing an entry `t0+t1+...` of non-empty tokens without `'+'`. -/
theorem divideModelNSiteRate_entry (e : Str × List Str)
    (h : ∀ t ∈ e.1 :: e.2, t ≠ [] ∧ '+' ∉ t) :
    divideModelNSiteRate (entryText e) = .ok (modelPart e, ratePart e) := by
  obtain ⟨t0, ts⟩ := e
  have h0 := h t0 (List.mem_cons_self _ _)
  have hts : ∀ x ∈ ts, x ≠ [] ∧ '+' ∉ x := fun x hx => h x (List.mem_cons_of_mem _ hx)
  have hpos : 0 < t0.length := List.length_pos.mpr h0.1
  have h1 : appendPlus [] t0 = t0 := by simp [appendPlus]
  have hrate : (ts.filter (fun t => !startsWithF t)).foldl appendPlus [] =
      joinWith '+' (ts.filter (fun t => !startsWithF t)) :=
    foldl_appendPlus_nil _ (fun t ht => (hts t (List.mem_of_mem_filter ht)).1)
  simp only [divideModelNSiteRate, entryText, modelPart, ratePart, rateTokens]
  cases ts with
  | nil =>
    simp only [joinWith]
    obtain ⟨f, hf⟩ : ∃ f, t0.length = f + 1 := ⟨t0.length - 1, by omega⟩
    rw [hf, divideLoop_last _ t0 f 0 [] [] h0.1 h0.2, if_pos (Or.inl rfl), h1]
  | cons u us =>
    rw [length_joinWith_cons_cons, joinWith_cons_cons]
    have : t0.length + 1 + (joinWith '+' (u :: us)).length =
        (t0.length + (joinWith '+' (u :: us)).length) + 1 := by omega
    rw [this, divideLoop_cons _ t0 _ _ 0 [] [] h0.1 h0.2, if_pos (Or.inl rfl), h1,
      divideLoop_later _ (u :: us) _ 0 t0 [] hts (by omega), hrate,
      foldl_appendPlus_of_ne_nil _ t0 h0.1]


/-! ## Unlinked models: `MIX{e1,...,en}+T<n>` -/

theorem mem_joinWith (sep c : Char) (ts : List Str) (h : c ∈ joinWith sep ts) :
    c = sep ∨ ∃ t ∈ ts, c ∈ t := by
  induction ts with
  | nil => simp [joinWith] at h
  | cons t ts ih =>
    cases ts with
    | nil => exact Or.inr ⟨t, List.mem_cons_self _ _, by simpa [joinWith] using h⟩
    | cons u us =>
      rw [joinWith_cons_cons] at h
      rcases List.mem_append.mp h with h1 | h1
      · exact Or.inr ⟨t, List.mem_cons_self _ _, h1⟩
      · rcases List.mem_cons.mp h1 with h2 | h2
        · exact Or.inl h2
        · rcases ih h2 with h3 | ⟨x, hx, hc⟩
          · exact Or.inl h3
          · exact Or.inr ⟨x, List.mem_cons_of_mem _ hx, hc⟩

theorem mixText_eq (inner : Str) :
    "MIX\x7b".toList ++ inner ++ "\x7d".toList = 'M' :: 'I' :: 'X' :: '{' :: (inner ++ ['}']) := by
  have hM : "MIX\x7b".toList = ['M', 'I', 'X', '{'] := rfl
  have hB : "\x7d".toList = ['}'] := rfl
  rw [hM, hB]; simp

/-- A group `MIX{inner}` with a non-empty inner text passes the `MIX{...}`
test. -/
theorem isMixGroup_mix (inner : Str) (h : inner ≠ []) :
    isMixGroup ("MIX\x7b".toList ++ inner ++ "\x7d".toList) = true := by
  have hpos : 0 < inner.length := List.length_pos.mpr h
  have hM : "MIX\x7b".toList = ['M', 'I', 'X', '{'] := rfl
  have hB : "\x7d".toList = ['}'] := rfl
  rw [mixText_eq]
  simp only [isMixGroup, substr, hM, hB, Bool.and_eq_true, beq_iff_eq, decide_eq_true_eq]
  refine ⟨⟨by simp; omega, by simp⟩, ?_⟩
  have hlen : ('M' :: 'I' :: 'X' :: '{' :: (inner ++ ['}'])).length - 1 = inner.length + 4 := by
    simp
  rw [hlen]
  have : List.drop (inner.length + 4) ('M' :: 'I' :: 'X' :: '{' :: (inner ++ ['}'])) = ['}'] := by
    simp only [List.drop_succ_cons]
    exact List.drop_left _ _
  rw [this]; rfl

/-- The text between `MIX{` and `}` as `separateModel` cuts it out. -/
theorem substr_mix (inner : Str) :
    substr ("MIX\x7b".toList ++ inner ++ "\x7d".toList) 4
      (("MIX\x7b".toList ++ inner ++ "\x7d".toList).length - 5) = inner := by
  rw [mixText_eq]
  have hlen : ('M' :: 'I' :: 'X' :: '{' :: (inner ++ ['}'])).length - 5 = inner.length := by
    simp
  rw [hlen]
  simp [substr]

/-- The loop over the entries of a first-token group: model parts and rate
parts are appended, the flag records whether some rate part is non-empty. -/
theorem unlinkedModelLoop_entries (es : List (Str × List Str)) :
    ∀ (ms rs : List Str) (flag : Bool),
      (∀ e ∈ es, ∀ t ∈ e.1 :: e.2, t ≠ [] ∧ '+' ∉ t) →
      unlinkedModelLoop (es.map entryText) ms rs flag =
        .ok (ms ++ es.map modelPart, rs ++ es.map ratePart,
             flag || es.any (fun e => !(rateTokens e).isEmpty)) := by
  induction es with
  | nil => intro ms rs flag _; simp [unlinkedModelLoop]
  | cons e es ih =>
    intro ms rs flag h
    have he := h e (List.mem_cons_self _ _)
    have hes : ∀ x ∈ es, ∀ t ∈ x.1 :: x.2, t ≠ [] ∧ '+' ∉ t :=
      fun x hx => h x (List.mem_cons_of_mem _ hx)
    have hlen : (0 < (ratePart e).length) ↔ rateTokens e ≠ [] := by
      constructor
      · intro hp hnil
        simp [ratePart, hnil, joinWith] at hp
      · intro hne
        cases hrt : rateTokens e with
        | nil => exact absurd hrt hne
        | cons u us =>
          have hu : u ∈ rateTokens e := by rw [hrt]; exact List.mem_cons_self _ _
          have hu' : u ≠ [] :=
            (he u (List.mem_cons_of_mem _ (List.mem_of_mem_filter hu))).1
          simp only [ratePart, hrt]
          exact List.length_pos.mpr (joinWith_ne_nil '+' u us hu')
    rw [List.map_cons, unlinkedModelLoop, divideModelNSiteRate_entry e he]
    simp only
    rw [ih _ _ _ hes]
    by_cases hr : rateTokens e = []
    · have : ¬ (0 < (ratePart e).length) := fun hp => (hlen.mp hp) hr
      simp [this, hr]
    · have : 0 < (ratePart e).length := hlen.mpr hr
      simp [this, hr]

theorem any_rate_eq_not_all (es : List (Str × List Str)) :
    (es.any fun e => !(rateTokens e).isEmpty) = !(es.all fun e => (rateTokens e).isEmpty) := by
  induction es with
  | nil => rfl
  | cons e es ih => rw [List.any_cons, List.all_cons, ih]; simp

/-- C2: for every input whose text without spaces is `MIX{e1,...,en}+T<n>`
with `n ≥ 2` (within the range of `int`), every entry being a `'+'`-joined
list of non-empty tokens without `'+'`, commas or braces, `separateModel`
succeeds with `n` model descriptors, the `i`-th being the first token of `e_i`
joined by `'+'` with its later tokens that start with `F`, and with no rate
descriptor when no entry has another token, else `n` rate descriptors, the
`i`-th being the remaining tokens of `e_i` joined by `'+'` (empty if none);
the model is flagged unlinked. -/
theorem separateModel_unlinked (inp : Str) (es : List (Str × List Str))
    (hn : 2 ≤ es.length ∧ es.length ≤ 2147483647)
    (htok : ∀ e ∈ es, ∀ t ∈ e.1 :: e.2, t ≠ [] ∧ '+' ∉ t ∧ ',' ∉ t ∧ '{' ∉ t ∧ '}' ∉ t)
    (hinp : rmSpace inp =
      "MIX\x7b".toList ++ joinWith ',' (es.map entryText) ++ "\x7d".toList ++ "+T".toList
        ++ numeral es.length) :
    separateModel inp = .ok
      { treemix_model := rmSpace inp
        model_names := es.map modelPart
        siterate_names := if es.all (fun e => (rateTokens e).isEmpty) then [] else es.map ratePart
        isLinkModel := false
        isLinkSiteRate := es.all (fun e => (rateTokens e).isEmpty)
        anySiteRate := !es.all (fun e => (rateTokens e).isEmpty)
        ntree := (es.length : Int) } := by
  -- the characters of an entry
  have hentry : ∀ e ∈ es, entryText e ≠ [] ∧
      ∀ c ∈ entryText e, c ≠ '{' ∧ c ≠ '}' ∧ c ≠ ',' := by
    intro e he
    refine ⟨joinWith_ne_nil '+' e.1 e.2 (htok e he e.1 (List.mem_cons_self _ _)).1, ?_⟩
    intro c hc
    rcases mem_joinWith '+' c _ hc with h | ⟨t, ht, hct⟩
    · rw [h]; decide
    · have := htok e he t ht
      exact ⟨fun h => this.2.2.2.1 (h ▸ hct), fun h => this.2.2.2.2 (h ▸ hct),
        fun h => this.2.2.1 (h ▸ hct)⟩
  -- the inner text
  have hinner : ∀ c ∈ joinWith ',' (es.map entryText), c ≠ '{' ∧ c ≠ '}' := by
    intro c hc
    rcases mem_joinWith ',' c _ hc with h | ⟨t, ht, hct⟩
    · rw [h]; decide
    · obtain ⟨e, he, rfl⟩ := List.mem_map.mp ht
      exact ⟨((hentry e he).2 c hct).1, ((hentry e he).2 c hct).2.1⟩
  have hne : joinWith ',' (es.map entryText) ≠ [] := by
    cases hes : es with
    | nil => rw [hes] at hn; simp at hn
    | cons e es' =>
      rw [List.map_cons]
      exact joinWith_ne_nil ',' _ _ (hentry e (by rw [hes]; exact List.mem_cons_self _ _)).1
  -- the top-level tokens
  have htop : separateStr ("MIX\x7b".toList ++ joinWith ',' (es.map entryText) ++ "\x7d".toList) []
      '+' = ["MIX\x7b".toList ++ joinWith ',' (es.map entryText) ++ "\x7d".toList] := by
    have := separateStr_joinWith '+' (by decide) (by decide)
      ["MIX\x7b".toList ++ joinWith ',' (es.map entryText) ++ "\x7d".toList] []
      (fun t ht => by
        rw [List.mem_singleton.mp ht]
        exact ⟨by rw [mixText_eq]; simp, whole_mix _ hinner⟩)
    simpa [joinWith] using this
  -- the entries of the group
  have hsub : separateStr (joinWith ',' (es.map entryText)) [] ',' = es.map entryText := by
    have := separateStr_joinWith ',' (by decide) (by decide) (es.map entryText) []
      (fun t ht => by
        obtain ⟨e, he, rfl⟩ := List.mem_map.mp ht
        exact ⟨(hentry e he).1, whole_of_plain ',' _ (hentry e he).2⟩)
    simpa using this
  have hloop := unlinkedModelLoop_entries es [] [] false
    (fun e he t ht => ⟨(htok e he t ht).1, (htok e he t ht).2.1⟩)
  have hl : ("MIX\x7b".toList ++ joinWith ',' (es.map entryText) ++ "\x7d".toList).length ≠ 0 := by
    rw [mixText_eq]; simp
  unfold separateModel
  rw [parseDescriptors_eq inp _ es.length hinp, htop, tokenLoop, processToken, if_neg hl,
    isMixGroup_mix _ hne, substr_mix]
  simp only [if_true, hsub, hloop, tokenLoop, finishModel, List.nil_append, List.length_map,
    Bool.false_or]
  rw [any_rate_eq_not_all es, Bool.not_not]
  have h0 : es.length ≠ 0 := by omega
  have h1 : ¬ es.length = 1 := by omega
  rw [if_neg h0, if_neg (by rintro ⟨_, h⟩; exact h rfl)]
  cases hall : es.all (fun e => (rateTokens e).isEmpty) with
  | true => simp [h1]
  | false => simp [h0, h1]

/-- The two examples of C2: `"MIX{GTR,JC}+T2"` and `"MIX{GTR+G4,JC}+T2"`. -/
theorem separateModel_unlinked_witness :
    separateModel "MIX{GTR,JC}+T2".toList = .ok
      { treemix_model := "MIX{GTR,JC}+T2".toList
        model_names := ["GTR".toList, "JC".toList]
        siterate_names := []
        isLinkModel := false
        isLinkSiteRate := true
        anySiteRate := false
        ntree := 2 } ∧
    separateModel "MIX{GTR+G4,JC}+T2".toList = .ok
      { treemix_model := "MIX{GTR+G4,JC}+T2".toList
        model_names := ["GTR".toList, "JC".toList]
        siterate_names := ["G4".toList, []]
        isLinkModel := false
        isLinkSiteRate := false
        anySiteRate := true
        ntree := 2 } :=
  ⟨separateModel_unlinked "MIX{GTR,JC}+T2".toList [("GTR".toList, []), ("JC".toList, [])]
      (by decide) (by decide) (by decide),
   separateModel_unlinked "MIX{GTR+G4,JC}+T2".toList
      [("GTR".toList, ["G4".toList]), ("JC".toList, [])] (by decide) (by decide) (by decide)⟩


/-! ## Linked model, unlinked site rates: `m+MIX{r1,...,rK}+T<K>` -/

/-- A `MIX{...}` group behind the first token, met while no rate descriptor is
recorded: the whole of `submodel_array`, with the new entries appended, becomes
the list of rate descriptors. -/
theorem processToken_mix_later (i : Nat) (inner : Str) (ms sub : List Str) (h : inner ≠ []) :
    processToken (i + 1) ("MIX\x7b".toList ++ inner ++ "\x7d".toList) ⟨ms, [], sub⟩ =
      .ok ⟨ms, separateStr inner sub ',', separateStr inner sub ','⟩ := by
  have hl : ("MIX\x7b".toList ++ inner ++ "\x7d".toList).length ≠ 0 := by
    rw [mixText_eq]; simp
  rw [processToken, if_neg hl, isMixGroup_mix _ h, substr_mix]
  simp

/-- C3: for every input whose text without spaces is `m+MIX{r1,...,rK}+T<K>`
with `K ≥ 2` (within the range of `int`), `m` a non-empty token without `'+'`
or braces and every `r_i` non-empty and free of commas and braces,
`separateModel` succeeds with the single model descriptor `m`, the rate
descriptors `r1, ..., rK` in order, the model flagged linked, the site rate
present and flagged unlinked, and `ntree = K`. -/
theorem separateModel_unlinked_rates (inp m : Str) (rs : List Str)
    (hn : 2 ≤ rs.length ∧ rs.length ≤ 2147483647)
    (hm : m ≠ [] ∧ '+' ∉ m ∧ '{' ∉ m ∧ '}' ∉ m)
    (hrs : ∀ r ∈ rs, r ≠ [] ∧ ',' ∉ r ∧ '{' ∉ r ∧ '}' ∉ r)
    (hinp : rmSpace inp =
      m ++ "+".toList ++ ("MIX\x7b".toList ++ joinWith ',' rs ++ "\x7d".toList) ++ "+T".toList
        ++ numeral rs.length) :
    separateModel inp = .ok
      { treemix_model := rmSpace inp
        model_names := [m]
        siterate_names := rs
        isLinkModel := true
        isLinkSiteRate := false
        anySiteRate := true
        ntree := (rs.length : Int) } := by
  have hinner : ∀ c ∈ joinWith ',' rs, c ≠ '{' ∧ c ≠ '}' := by
    intro c hc
    rcases mem_joinWith ',' c _ hc with h | ⟨t, ht, hct⟩
    · rw [h]; decide
    · exact ⟨fun h => (hrs t ht).2.2.1 (h ▸ hct), fun h => (hrs t ht).2.2.2 (h ▸ hct)⟩
  have hne : joinWith ',' rs ≠ [] := by
    cases hr : rs with
    | nil => rw [hr] at hn; simp at hn
    | cons r rs' =>
      exact joinWith_ne_nil ',' _ _ (hrs r (by rw [hr]; exact List.mem_cons_self _ _)).1
  have hbody : m ++ "+".toList ++ ("MIX\x7b".toList ++ joinWith ',' rs ++ "\x7d".toList) =
      joinWith '+' [m, "MIX\x7b".toList ++ joinWith ',' rs ++ "\x7d".toList] := by
    have hP : "+".toList = ['+'] := rfl
    rw [hP]; simp [joinWith]
  have htop := separateStr_joinWith '+' (by decide) (by decide)
    [m, "MIX\x7b".toList ++ joinWith ',' rs ++ "\x7d".toList] []
    (fun t ht => by
      rcases List.mem_cons.mp ht with h | h
      · rw [h]
        exact ⟨hm.1, whole_of_plain '+' m (fun c hc =>
          ⟨fun h => hm.2.2.1 (h ▸ hc), fun h => hm.2.2.2 (h ▸ hc), fun h => hm.2.1 (h ▸ hc)⟩)⟩
      · rw [List.mem_singleton.mp h]
        exact ⟨by rw [mixText_eq]; simp, whole_mix _ hinner⟩)
  have hsub : separateStr (joinWith ',' rs) [] ',' = rs := by
    have := separateStr_joinWith ',' (by decide) (by decide) rs []
      (fun t ht => ⟨(hrs t ht).1, whole_of_plain ',' t (fun c hc =>
        ⟨fun h => (hrs t ht).2.2.1 (h ▸ hc), fun h => (hrs t ht).2.2.2 (h ▸ hc),
          fun h => (hrs t ht).2.1 (h ▸ hc)⟩)⟩)
    simpa using this
  unfold separateModel
  rw [parseDescriptors_eq inp _ rs.length hinp, hbody, htop, List.nil_append, tokenLoop,
    processToken_first_bare m _ hm.1 (isMixGroup_false_of_no_brace m hm.2.2.2)]
  simp only [List.nil_append]
  rw [tokenLoop, processToken_mix_later 0 _ [m] [] hne, hsub]
  simp only [tokenLoop, finishModel]
  have h0 : rs.length ≠ 0 := by omega
  have h1 : ¬ rs.length = 1 := by omega
  simp [h0, h1]

/-- The example of C3: `"GTR+MIX{G4,E}+T2"`. -/
theorem separateModel_unlinked_rates_witness :
    separateModel "GTR+MIX{G4,E}+T2".toList = .ok
      { treemix_model := "GTR+MIX{G4,E}+T2".toList
        model_names := ["GTR".toList]
        siterate_names := ["G4".toList, "E".toList]
        isLinkModel := true
        isLinkSiteRate := false
        anySiteRate := true
        ntree := 2 } :=
  separateModel_unlinked_rates "GTR+MIX{G4,E}+T2".toList "GTR".toList
    ["G4".toList, "E".toList] (by decide) (by decide) (by decide) (by decide)


/-! ## Two groups: `MIX{m1,...,mK}+MIX{r1,...,rK}+T<K>` -/

/-- C4: on the input `"MIX{GTR,JC}+MIX{G4,E}+T2"` the vector `submodel_array`
still holds the entries of the first group when the second group is split, so
that the rate descriptors left by the token loop are `GTR, JC, G4, E`, and
`separateModel` stops with the rate-count diagnostic. -/
theorem separateModel_two_groups :
    parseDescriptors "MIX{GTR,JC}+MIX{G4,E}+T2".toList = .ok (2,
      { model_names := ["GTR".toList, "JC".toList]
        siterate_names := ["GTR".toList, "JC".toList, "G4".toList, "E".toList]
        submodel_array := ["GTR".toList, "JC".toList, "G4".toList, "E".toList] }) ∧
    separateModel "MIX{GTR,JC}+MIX{G4,E}+T2".toList = .error .rateCountMismatch := by
  constructor <;> decide

theorem separateModel_eq_finish (inp : Str) (K : Int) (st : ParseState)
    (h : parseDescriptors inp = .ok (K, st)) :
    separateModel inp = finishModel (rmSpace inp) K st := by
  unfold separateModel
  rw [h]

/-- The first-token group `MIX{inner}` whose entries are `es`. -/
theorem processToken_first_entries (es : List (Str × List Str))
    (hne : joinWith ',' (es.map entryText) ≠ [])
    (htok : ∀ e ∈ es, ∀ t ∈ e.1 :: e.2, t ≠ [] ∧ '+' ∉ t ∧ ',' ∉ t ∧ '{' ∉ t ∧ '}' ∉ t) :
    processToken 0 ("MIX\x7b".toList ++ joinWith ',' (es.map entryText) ++ "\x7d".toList)
        ⟨[], [], []⟩ =
      .ok ⟨es.map modelPart,
           if es.all (fun e => (rateTokens e).isEmpty) then [] else es.map ratePart,
           es.map entryText⟩ := by
  have hentry : ∀ e ∈ es, entryText e ≠ [] ∧
      ∀ c ∈ entryText e, c ≠ '{' ∧ c ≠ '}' ∧ c ≠ ',' := by
    intro e he
    refine ⟨joinWith_ne_nil '+' e.1 e.2 (htok e he e.1 (List.mem_cons_self _ _)).1, ?_⟩
    intro c hc
    rcases mem_joinWith '+' c _ hc with h | ⟨t, ht, hct⟩
    · rw [h]; decide
    · have := htok e he t ht
      exact ⟨fun h => this.2.2.2.1 (h ▸ hct), fun h => this.2.2.2.2 (h ▸ hct),
        fun h => this.2.2.1 (h ▸ hct)⟩
  have hsub : separateStr (joinWith ',' (es.map entryText)) [] ',' = es.map entryText := by
    have := separateStr_joinWith ',' (by decide) (by decide) (es.map entryText) []
      (fun t ht => by
        obtain ⟨e, he, rfl⟩ := List.mem_map.mp ht
        exact ⟨(hentry e he).1, whole_of_plain ',' _ (hentry e he).2⟩)
    simpa using this
  have hloop := unlinkedModelLoop_entries es [] [] false
    (fun e he t ht => ⟨(htok e he t ht).1, (htok e he t ht).2.1⟩)
  have hl : ("MIX\x7b".toList ++ joinWith ',' (es.map entryText) ++ "\x7d".toList).length ≠ 0 := by
    rw [mixText_eq]; simp
  rw [processToken, if_neg hl, isMixGroup_mix _ hne, substr_mix]
  simp only [if_true, hsub, hloop, List.nil_append, Bool.false_or]
  rw [any_rate_eq_not_all es, Bool.not_not]

/-- The defect behind C4 in general: for every input whose text without
spaces is `MIX{m1,...,mK}+MIX{r1,...,rK}+T<K>` with `K ≥ 2`, bare model
tokens and non-empty rate entries, the second group is split into a
`submodel_array` that still holds `m1, ..., mK`; the `2K` strings
`m1, ..., mK, r1, ..., rK` become the rate descriptors and `separateModel`
stops with the rate-count diagnostic. -/
theorem separateModel_two_groups_rejected (inp : Str) (ms rs : List Str)
    (hn : 2 ≤ ms.length) (hlen : rs.length = ms.length)
    (hms : ∀ m ∈ ms, m ≠ [] ∧ '+' ∉ m ∧ ',' ∉ m ∧ '{' ∉ m ∧ '}' ∉ m)
    (hrs : ∀ r ∈ rs, r ≠ [] ∧ ',' ∉ r ∧ '{' ∉ r ∧ '}' ∉ r)
    (hinp : rmSpace inp =
      ("MIX\x7b".toList ++ joinWith ',' ms ++ "\x7d".toList) ++ "+".toList
        ++ ("MIX\x7b".toList ++ joinWith ',' rs ++ "\x7d".toList) ++ "+T".toList
        ++ numeral ms.length) :
    parseDescriptors inp = .ok ((ms.length : Int), ⟨ms, ms ++ rs, ms ++ rs⟩) ∧
      separateModel inp = .error .rateCountMismatch := by
  have hmap : (ms.map (fun m => ((m, []) : Str × List Str))).map entryText = ms := by
    rw [List.map_map]
    have : (entryText ∘ fun m => ((m, []) : Str × List Str)) = id := by
      funext m; rfl
    rw [this, List.map_id]
  have hmodel : (ms.map (fun m => ((m, []) : Str × List Str))).map modelPart = ms := by
    rw [List.map_map]
    have : (modelPart ∘ fun m => ((m, []) : Str × List Str)) = id := by
      funext m; rfl
    rw [this, List.map_id]
  have hall : (ms.map (fun m => ((m, []) : Str × List Str))).all
      (fun e => (rateTokens e).isEmpty) = true := by
    rw [List.all_eq_true]
    intro e he
    obtain ⟨m, _, rfl⟩ := List.mem_map.mp he
    rfl
  have hinner : ∀ (l : List Str), (∀ r ∈ l, r ≠ [] ∧ ',' ∉ r ∧ '{' ∉ r ∧ '}' ∉ r) →
      ∀ c ∈ joinWith ',' l, c ≠ '{' ∧ c ≠ '}' := by
    intro l hl c hc
    rcases mem_joinWith ',' c _ hc with h | ⟨t, ht, hct⟩
    · rw [h]; decide
    · exact ⟨fun h => (hl t ht).2.2.1 (h ▸ hct), fun h => (hl t ht).2.2.2 (h ▸ hct)⟩
  have hne : ∀ (l : List Str), 2 ≤ l.length → (∀ r ∈ l, r ≠ [] ∧ ',' ∉ r ∧ '{' ∉ r ∧ '}' ∉ r) →
      joinWith ',' l ≠ [] := by
    intro l hl2 hl
    cases hr : l with
    | nil => rw [hr] at hl2; simp at hl2
    | cons r rs' =>
      exact joinWith_ne_nil ',' _ _ (hl r (by rw [hr]; exact List.mem_cons_self _ _)).1
  have hms' : ∀ r ∈ ms, r ≠ [] ∧ ',' ∉ r ∧ '{' ∉ r ∧ '}' ∉ r :=
    fun r hr => ⟨(hms r hr).1, (hms r hr).2.2.1, (hms r hr).2.2.2.1, (hms r hr).2.2.2.2⟩
  have hbody : ("MIX\x7b".toList ++ joinWith ',' ms ++ "\x7d".toList) ++ "+".toList
      ++ ("MIX\x7b".toList ++ joinWith ',' rs ++ "\x7d".toList) =
      joinWith '+' ["MIX\x7b".toList ++ joinWith ',' ms ++ "\x7d".toList,
        "MIX\x7b".toList ++ joinWith ',' rs ++ "\x7d".toList] := by
    have hP : "+".toList = ['+'] := rfl
    rw [hP]; simp [joinWith]
  have htop := separateStr_joinWith '+' (by decide) (by decide)
    ["MIX\x7b".toList ++ joinWith ',' ms ++ "\x7d".toList,
      "MIX\x7b".toList ++ joinWith ',' rs ++ "\x7d".toList] []
    (fun t ht => by
      rcases List.mem_cons.mp ht with h | h
      · rw [h]
        exact ⟨by rw [mixText_eq]; simp, whole_mix _ (hinner ms hms')⟩
      · rw [List.mem_singleton.mp h]
        exact ⟨by rw [mixText_eq]; simp, whole_mix _ (hinner rs hrs)⟩)
  have hfirst := processToken_first_entries (ms.map (fun m => ((m, []) : Str × List Str)))
    (by rw [hmap]; exact hne ms hn hms')
    (fun e he t ht => by
      obtain ⟨m, hm, rfl⟩ := List.mem_map.mp he
      rw [List.mem_singleton.mp ht]
      exact hms m hm)
  rw [hmap, hmodel, hall] at hfirst
  simp only [if_true] at hfirst
  have hsub : separateStr (joinWith ',' rs) ms ',' = ms ++ rs := by
    exact separateStr_joinWith ',' (by decide) (by decide) rs ms
      (fun t ht => ⟨(hrs t ht).1, whole_of_plain ',' t (fun c hc =>
        ⟨fun h => (hrs t ht).2.2.1 (h ▸ hc), fun h => (hrs t ht).2.2.2 (h ▸ hc),
          fun h => (hrs t ht).2.1 (h ▸ hc)⟩)⟩)
  have hparse : parseDescriptors inp = .ok ((ms.length : Int), ⟨ms, ms ++ rs, ms ++ rs⟩) := by
    rw [parseDescriptors_eq inp _ ms.length hinp, hbody, htop, List.nil_append, tokenLoop,
      hfirst]
    simp only
    rw [tokenLoop, processToken_mix_later 0 _ ms ms (hne rs (by omega) hrs), hsub]
    simp only [tokenLoop]
  refine ⟨hparse, ?_⟩
  rw [separateModel_eq_finish inp _ _ hparse]
  simp only [finishModel]
  have h0 : ms.length ≠ 0 := by omega
  rw [if_neg h0, if_neg (by rintro ⟨_, h⟩; exact h rfl),
    if_pos ⟨by simp only [List.length_append]; omega, by
      simp only [List.length_append, hlen]; push_cast; omega⟩]

/-! ## The final checks of `separateModel` -/

/-- What a successful run of the final part returns. -/
theorem finishModel_ok_inv (tm : Str) (K : Int) (st : ParseState) (spec : ModelSpec)
    (h : finishModel tm K st = .ok spec) :
    spec.model_names = st.model_names ∧ spec.siterate_names = st.siterate_names ∧
      spec.ntree = K ∧
      spec.isLinkModel = decide (st.model_names.length = 1) ∧
      spec.anySiteRate = !decide (st.siterate_names.length = 0) ∧
      spec.isLinkSiteRate = (if st.siterate_names.length = 0 then true
        else decide (st.siterate_names.length = 1)) ∧
      st.model_names.length ≠ 0 ∧
      (st.model_names.length = 1 ∨ (st.model_names.length : Int) = K) ∧
      (st.siterate_names.length ≤ 1 ∨ (st.siterate_names.length : Int) = K) := by
  simp only [finishModel] at h
  by_cases h0 : st.model_names.length = 0
  · rw [if_pos h0] at h; cases h
  · rw [if_neg h0] at h
    by_cases h1 : st.model_names.length > 1 ∧ (st.model_names.length : Int) ≠ K
    · rw [if_pos h1] at h; cases h
    · rw [if_neg h1] at h
      by_cases h2 : st.siterate_names.length > 1 ∧ (st.siterate_names.length : Int) ≠ K
      · rw [if_pos h2] at h; cases h
      · rw [if_neg h2] at h
        injection h with h
        subst h
        refine ⟨rfl, rfl, rfl, rfl, rfl, rfl, h0, ?_, ?_⟩
        · by_cases hm : (st.model_names.length : Int) = K
          · exact Or.inr hm
          · left
            have : ¬ st.model_names.length > 1 := fun hgt => h1 ⟨hgt, hm⟩
            omega
        · by_cases hm : (st.siterate_names.length : Int) = K
          · exact Or.inr hm
          · left
            have : ¬ st.siterate_names.length > 1 := fun hgt => h2 ⟨hgt, hm⟩
            omega

theorem separateModel_ok_inv (inp : Str) (spec : ModelSpec) (h : separateModel inp = .ok spec) :
    ∃ st, parseDescriptors inp = .ok (spec.ntree, st) ∧
      finishModel (rmSpace inp) spec.ntree st = .ok spec := by
  unfold separateModel at h
  cases hp : parseDescriptors inp with
  | error e => rw [hp] at h; cases h
  | ok r =>
    obtain ⟨K, st⟩ := r
    rw [hp] at h
    simp only at h
    have hK : spec.ntree = K := (finishModel_ok_inv _ _ _ _ h).2.2.1
    rw [hK]
    exact ⟨st, rfl, h⟩

/-- C5 (as the code has it): when the token loop leaves more than one model
descriptor and their number differs from the tree number, `separateModel`
stops with the model-count diagnostic; when it leaves at least one model
descriptor and more than one rate descriptor whose number differs from the
tree number, `separateModel` stops with a count diagnostic (the one for the
models if their number is wrong as well, else the one for the rates); when it
leaves no model descriptor, `separateModel` stops with the no-model
diagnostic whatever the rate descriptors are. -/
theorem separateModel_count_mismatch (inp : Str) (K : Int) (st : ParseState)
    (h : parseDescriptors inp = .ok (K, st)) :
    (1 < st.model_names.length → (st.model_names.length : Int) ≠ K →
      separateModel inp = .error .modelCountMismatch) ∧
    (st.model_names ≠ [] → 1 < st.siterate_names.length →
      (st.siterate_names.length : Int) ≠ K →
      separateModel inp = .error
        (if 1 < st.model_names.length ∧ (st.model_names.length : Int) ≠ K
          then .modelCountMismatch else .rateCountMismatch)) ∧
    (st.model_names = [] → separateModel inp = .error .noModel) := by
  rw [separateModel_eq_finish inp K st h]
  refine ⟨?_, ?_, ?_⟩
  · intro h1 h2
    unfold finishModel
    rw [if_neg (by omega), if_pos ⟨h1, h2⟩]
  · intro h0 h1 h2
    have hl : st.model_names.length ≠ 0 := fun hl => h0 (List.length_eq_zero.mp hl)
    unfold finishModel
    rw [if_neg hl]
    by_cases hm : 1 < st.model_names.length ∧ (st.model_names.length : Int) ≠ K
    · rw [if_pos hm, if_pos hm]
    · rw [if_neg hm, if_neg hm, if_pos ⟨h1, h2⟩]
  · intro h0
    unfold finishModel
    rw [if_pos (by rw [h0]; rfl)]

/-- An instance of C5 as amended: `"MIX{GTR,JC,HKY}+T2"` is rejected with the
model-count diagnostic. -/
theorem separateModel_count_mismatch_witness :
    parseDescriptors "MIX{GTR,JC,HKY}+T2".toList = .ok (2,
      { model_names := ["GTR".toList, "JC".toList, "HKY".toList]
        siterate_names := []
        submodel_array := ["GTR".toList, "JC".toList, "HKY".toList] }) ∧
    separateModel "MIX{GTR,JC,HKY}+T2".toList = .error .modelCountMismatch :=
  ⟨by decide,
   (separateModel_count_mismatch "MIX{GTR,JC,HKY}+T2".toList 2
      { model_names := ["GTR".toList, "JC".toList, "HKY".toList]
        siterate_names := []
        submodel_array := ["GTR".toList, "JC".toList, "HKY".toList] } (by decide)).1
      (by decide) (by decide)⟩

/-- C5 as stated fails: on `"MIX{,}+MIX{a,b,c}+T2"` the token loop leaves the
three rate descriptors `a, b, c` for two trees, and `separateModel` stops with
the no-model diagnostic, not with a count diagnostic. -/
theorem separateModel_rate_mismatch_no_model :
    parseDescriptors "MIX{,}+MIX{a,b,c}+T2".toList = .ok (2,
      { model_names := []
        siterate_names := ["a".toList, "b".toList, "c".toList]
        submodel_array := ["a".toList, "b".toList, "c".toList] }) ∧
    separateModel "MIX{,}+MIX{a,b,c}+T2".toList = .error .noModel ∧
    separateModel "MIX{,}+MIX{a,b,c}+T2".toList ≠ .error .rateCountMismatch ∧
    separateModel "MIX{,}+MIX{a,b,c}+T2".toList ≠ .error .modelCountMismatch := by
  refine ⟨by decide, by decide, by decide, by decide⟩


/-! ## The tree-count suffix -/

theorem infix_of_isPrefixOf_drop (pat s : Str) (j : Nat) (h : pat.isPrefixOf (s.drop j) = true) :
    pat <:+: s := by
  obtain ⟨r, hr⟩ := List.isPrefixOf_iff_prefix.mp h
  exact ⟨s.take j, r, by rw [List.append_assoc, hr, List.take_append_drop]⟩

theorem rfind_eq_none (s : Str) (h : ¬ ['+', 'T'] <:+: s) :
    rfind s ['+', 'T'] = none := by
  unfold rfind
  split
  · rw [rfindFrom_none]
    intro j _
    apply Bool.eq_false_iff.mpr
    exact fun hp => h (infix_of_isPrefixOf_drop _ _ j hp)
  · rfl

theorem parseDescriptors_error (inp : Str) (e : ParseError)
    (h : readTreeNumber (rmSpace inp) = .error e) : separateModel inp = .error e := by
  unfold separateModel parseDescriptors
  rw [h]

/-- C6: an input whose text without spaces has no `"+T"` makes `separateModel`
stop with the diagnostic "there is no '+T'", and one whose text without spaces
ends with `"+T"` (no character behind its last `"+T"`) makes it stop with the
diagnostic "you need to specify the number of trees"; no `ModelSpec` is
returned in either case. -/
theorem separateModel_tree_suffix_mandatory (inp : Str) :
    (¬ "+T".toList <:+: rmSpace inp → separateModel inp = .error .noTreeSuffix) ∧
    ("+T".toList <:+ rmSpace inp → separateModel inp = .error .emptyTreeCount) := by
  have hT : "+T".toList = ['+', 'T'] := rfl
  rw [hT]
  constructor
  · intro h
    apply parseDescriptors_error
    unfold readTreeNumber
    rw [hT, rfind_eq_none _ h]
  · rintro ⟨body, hbody⟩
    apply parseDescriptors_error
    unfold readTreeNumber
    rw [hT, ← hbody, rfind_plusT body [] (List.not_mem_nil _)]
    simp

/-- Instances of C6: `"GTR"`, `"GTR + G4"` and `"GTR+T"`, `"GTR+T "`. -/
theorem separateModel_tree_suffix_mandatory_witness :
    separateModel "GTR".toList = .error .noTreeSuffix ∧
    separateModel "GTR + G4".toList = .error .noTreeSuffix ∧
    separateModel "GTR+T".toList = .error .emptyTreeCount ∧
    separateModel "GTR+T ".toList = .error .emptyTreeCount :=
  ⟨(separateModel_tree_suffix_mandatory "GTR".toList).1 (by decide),
   (separateModel_tree_suffix_mandatory "GTR + G4".toList).1 (by decide),
   (separateModel_tree_suffix_mandatory "GTR+T".toList).2 (by decide),
   (separateModel_tree_suffix_mandatory "GTR+T ".toList).2 (by decide)⟩

/-- What a successful `rfind` of `"+T"` says about the string. -/
theorem rfind_some_inv (s : Str) (p : Nat) (h : rfind s ['+', 'T'] = some p) :
    s = s.take p ++ '+' :: 'T' :: s.drop (p + 2) ∧ p + 2 ≤ s.length ∧
      ¬ ['+', 'T'] <:+: s.drop (p + 2) := by
  unfold rfind at h
  split at h
  · rename_i hlen
    simp only [List.length_cons, List.length_nil] at hlen h
    obtain ⟨h1, h2, h3⟩ := (rfindFrom_some s _ _ p).mp h
    obtain ⟨r, hr⟩ := (isPrefixOf_plusT _).mp h2
    have hr' : s.drop (p + 2) = r := by
      rw [← List.drop_drop, hr]; rfl
    refine ⟨?_, by omega, ?_⟩
    · rw [hr', ← hr, List.take_append_drop]
    · rintro ⟨a, b, hab⟩
      have hj : p + 2 + a.length ≤ s.length - (0 + 1 + 1) := by
        have := congrArg List.length hab
        simp at this
        omega
      have hdrop : s.drop (p + 2 + a.length) = '+' :: 'T' :: b := by
        rw [← List.drop_drop, ← hab, List.append_assoc, List.drop_left]; rfl
      have := h3 (p + 2 + a.length) (by omega) hj
      rw [hdrop] at this
      exact absurd ((isPrefixOf_plusT _).mpr ⟨b, rfl⟩) (by rw [this]; exact Bool.false_ne_true)
  · cases h

theorem readTreeNumber_ok_inv (s body : Str) (K : Int) (h : readTreeNumber s = .ok (K, body)) :
    ∃ suf, s = body ++ "+T".toList ++ suf ∧ suf ≠ [] ∧ ¬ "+T".toList <:+: suf ∧
      K = atoi suf := by
  have hT : "+T".toList = ['+', 'T'] := rfl
  unfold readTreeNumber at h
  rw [hT] at h
  cases hr : rfind s ['+', 'T'] with
  | none => rw [hr] at h; cases h
  | some p =>
    rw [hr] at h
    simp only at h
    obtain ⟨h1, h2, h3⟩ := rfind_some_inv s p hr
    by_cases hp : p ≥ s.length - 2
    · rw [if_pos hp] at h; cases h
    · rw [if_neg hp] at h
      injection h with h
      injection h with hK hbody
      refine ⟨s.drop (p + 2), ?_, ?_, ?_, ?_⟩
      · rw [← hbody, hT]
        simp only [substr, List.drop_zero, List.append_assoc, List.cons_append, List.nil_append]
        exact h1
      · intro hnil
        have := congrArg List.length hnil
        simp at this
        omega
      · rw [hT]; exact h3
      · rw [← hK]; rfl

/-- C7: the code accepts a tree count that is no positive number. The texts
`"GTR+Tx"` (no numeral behind `"+T"`) and `"GTR+T0"` (zero trees) pass
`separateModel` with `ntree = 0`, against the diagnostic of the function
itself, which asks for the number of trees behind `"+T"`; `initializeModel`
then runs into the pointers of tree 0 that its first loop, with no turn, has
not set. -/
theorem separateModel_accepts_non_positive_count :
    separateModel "GTR+Tx".toList = .ok
      { treemix_model := "GTR+Tx".toList
        model_names := ["GTR".toList]
        siterate_names := []
        isLinkModel := true
        isLinkSiteRate := true
        anySiteRate := false
        ntree := 0 } ∧
    separateModel "GTR+T0".toList = .ok
      { treemix_model := "GTR+T0".toList
        model_names := ["GTR".toList]
        siterate_names := []
        isLinkModel := true
        isLinkSiteRate := true
        anySiteRate := false
        ntree := 0 } ∧
    initializeModel "GTR+Tx".toList threeTrees = .ok none ∧
    initializeModel "GTR+T0".toList threeTrees = .ok none := by
  refine ⟨by decide, by decide, by decide, by decide⟩

/-! ## The three flags -/

/-- C9 (as the code has it): after every successful call of `separateModel`,
`isLinkModel` holds exactly when there is one model descriptor, `anySiteRate`
exactly when there is at least one rate descriptor, and `isLinkSiteRate`
exactly when there is at most one rate descriptor (it keeps its initial value
`true` when there is none). -/
theorem separateModel_flags (inp : Str) (spec : ModelSpec) (h : separateModel inp = .ok spec) :
    (spec.isLinkModel = true ↔ spec.model_names.length = 1) ∧
    (spec.isLinkSiteRate = true ↔ spec.siterate_names.length ≤ 1) ∧
    (spec.anySiteRate = true ↔ 1 ≤ spec.siterate_names.length) := by
  obtain ⟨st, _, hf⟩ := separateModel_ok_inv inp spec h
  obtain ⟨h1, h2, _, h4, h5, h6, _⟩ := finishModel_ok_inv _ _ _ _ hf
  rw [h1, h2, h4, h5, h6]
  refine ⟨by simp, ?_, ?_⟩
  · by_cases h0 : st.siterate_names.length = 0
    · simp [h0]
    · simp only [h0, if_false, decide_eq_true_eq]
      omega
  · by_cases h0 : st.siterate_names.length = 0
    · simp [h0]
    · simp only [h0, decide_False, Bool.not_false, true_iff]
      omega

/-- Instances of C9 as amended: `"GTR+T2"` (no rate descriptor, `isLinkSiteRate`
is `true`) and `"GTR+MIX{G4,E}+T2"` (two rate descriptors, `isLinkSiteRate` is
`false`). -/
theorem separateModel_flags_witness :
    (separateModel "GTR+T2".toList = .ok
        { treemix_model := "GTR+T2".toList
          model_names := ["GTR".toList]
          siterate_names := []
          isLinkModel := true
          isLinkSiteRate := true
          anySiteRate := false
          ntree := 2 } ∧
      (true = true ↔ ["GTR".toList].length = 1) ∧
      (true = true ↔ ([] : List Str).length ≤ 1) ∧
      (false = true ↔ 1 ≤ ([] : List Str).length)) ∧
    (separateModel "GTR+MIX{G4,E}+T2".toList = .ok
        { treemix_model := "GTR+MIX{G4,E}+T2".toList
          model_names := ["GTR".toList]
          siterate_names := ["G4".toList, "E".toList]
          isLinkModel := true
          isLinkSiteRate := false
          anySiteRate := true
          ntree := 2 } ∧
      (true = true ↔ ["GTR".toList].length = 1) ∧
      (false = true ↔ ["G4".toList, "E".toList].length ≤ 1) ∧
      (true = true ↔ 1 ≤ ["G4".toList, "E".toList].length)) :=
  ⟨⟨by decide,
    separateModel_flags "GTR+T2".toList
      { treemix_model := "GTR+T2".toList
        model_names := ["GTR".toList]
        siterate_names := []
        isLinkModel := true
        isLinkSiteRate := true
        anySiteRate := false
        ntree := 2 } (by decide)⟩,
   ⟨by decide,
    separateModel_flags "GTR+MIX{G4,E}+T2".toList
      { treemix_model := "GTR+MIX{G4,E}+T2".toList
        model_names := ["GTR".toList]
        siterate_names := ["G4".toList, "E".toList]
        isLinkModel := true
        isLinkSiteRate := false
        anySiteRate := true
        ntree := 2 } (by decide)⟩⟩

/-- C9 as stated fails: `"GTR+T2"` is accepted with no rate descriptor and with
`isLinkSiteRate = true`, so `isLinkSiteRate` does not mean "exactly one rate
descriptor". -/
theorem separateModel_isLinkSiteRate_without_rate :
    (separateModel "GTR+T2".toList).toOption.map
        (fun spec => (spec.isLinkSiteRate, spec.siterate_names.length)) = some (true, 0) ∧
    (separateModel "GTR+T2".toList).toOption.map
        (fun spec => decide (spec.isLinkSiteRate = true ↔ spec.siterate_names.length = 1))
      = some false := by
  constructor <;> decide

/-! ## Linking one part while unlinking another -/

theorem tokenLoop_append (a b : List Str) :
    ∀ (i : Nat) (st : ParseState),
      tokenLoop i (a ++ b) st =
        match tokenLoop i a st with
        | .error e => .error e
        | .ok st' => tokenLoop (i + a.length) b st' := by
  induction a with
  | nil => intro i st; simp [tokenLoop]
  | cons t a ih =>
    intro i st
    rw [List.cons_append, tokenLoop, tokenLoop]
    cases hp : processToken i t st with
    | error e => rfl
    | ok st' =>
      simp only
      rw [ih (i + 1) st']
      have : i + 1 + a.length = i + (t :: a).length := by simp; omega
      rw [this]

theorem unlinkedModelLoop_length (l : List Str) :
    ∀ (ms rs : List Str) (flag : Bool) (ms' rs' : List Str) (flag' : Bool),
      unlinkedModelLoop l ms rs flag = .ok (ms', rs', flag') →
      ms'.length = ms.length + l.length := by
  induction l with
  | nil =>
    intro ms rs flag ms' rs' flag' h
    simp only [unlinkedModelLoop] at h
    injection h with h
    injection h with h1 _
    rw [← h1]; rfl
  | cons e l ih =>
    intro ms rs flag ms' rs' flag' h
    rw [unlinkedModelLoop] at h
    cases hd : divideModelNSiteRate e with
    | error err => rw [hd] at h; cases h
    | ok r =>
      obtain ⟨cm, cr⟩ := r
      rw [hd] at h
      simp only at h
      rw [ih _ _ _ _ _ _ h]
      simp; omega

/-- The first token being a `MIX{...}` group with `n` entries, the token loop
either stops or goes on with `n` model descriptors. -/
theorem processToken_first_mix (g : Str) (st' : ParseState) (hg : isMixGroup g = true)
    (h : processToken 0 g ⟨[], [], []⟩ = .ok st') :
    st'.model_names.length = (separateStr (substr g 4 (g.length - 5)) [] ',').length := by
  have hl : g.length ≠ 0 := by
    intro h0
    simp [isMixGroup, h0] at hg
  rw [processToken, if_neg hl, hg] at h
  simp only [if_true] at h
  cases hu : unlinkedModelLoop (separateStr (substr g 4 (g.length - 5)) [] ',') [] [] false with
  | error err => rw [hu] at h; cases h
  | ok r =>
    obtain ⟨ms, rs, flag⟩ := r
    rw [hu] at h
    simp only at h
    injection h with h
    rw [← h]
    simp only
    rw [unlinkedModelLoop_length _ _ _ _ _ _ _ hu]
    simp

/-- Behind the first token the model descriptors are never removed, and a
second model descriptor is never added. -/
theorem processToken_model_names (i : Nat) (t : Str) (st st' : ParseState)
    (h : processToken (i + 1) t st = .ok st') :
    st'.model_names.length = st.model_names.length ∧
      st.siterate_names.length ≤ st'.siterate_names.length := by
  rw [processToken] at h
  by_cases h0 : t.length = 0
  · rw [if_pos h0] at h
    injection h with h
    rw [← h]; exact ⟨rfl, le_refl _⟩
  · rw [if_neg h0] at h
    cases hm : isMixGroup t with
    | true =>
      rw [hm] at h
      simp only [if_true] at h
      rw [if_neg (Nat.succ_ne_zero i)] at h
      by_cases hr : st.siterate_names.length = 0
      · rw [if_pos hr] at h
        injection h with h
        rw [← h]
        simp
      · rw [if_neg hr] at h; cases h
    | false =>
      rw [hm] at h
      simp only [Bool.false_eq_true, if_false] at h
      rw [if_neg (Nat.succ_ne_zero i)] at h
      by_cases hf : t.length ≤ 2 ∧ t.head? = some 'F'
      · rw [if_pos hf] at h
        by_cases hgt : st.model_names.length > 1
        · rw [if_pos hgt] at h; cases h
        · rw [if_neg hgt] at h
          match hms : st.model_names, h with
          | [m], h =>
            simp only at h
            injection h with h
            rw [← h]
            exact ⟨rfl, le_refl _⟩
          | [], h => simp at h
          | _ :: _ :: _, h => rw [hms] at hgt; simp at hgt
      · rw [if_neg hf] at h
        by_cases hgt : st.siterate_names.length > 1
        · rw [if_pos hgt] at h; cases h
        · rw [if_neg hgt] at h
          match hrs : st.siterate_names, h with
          | [r], h =>
            simp only at h
            injection h with h
            rw [← h]
            simp
          | [], h =>
            simp only [List.nil_append] at h
            injection h with h
            rw [← h]
            simp
          | _ :: _ :: _, h => rw [hrs] at hgt; simp at hgt

/-- The token loop behind the first token keeps the number of model
descriptors and does not drop rate descriptors. -/
theorem tokenLoop_model_names (ts : List Str) :
    ∀ (i : Nat) (st st' : ParseState), tokenLoop (i + 1) ts st = .ok st' →
      st'.model_names.length = st.model_names.length ∧
        st.siterate_names.length ≤ st'.siterate_names.length := by
  induction ts with
  | nil =>
    intro i st st' h
    simp only [tokenLoop] at h
    injection h with h
    rw [h]; exact ⟨rfl, le_refl _⟩
  | cons t ts ih =>
    intro i st st' h
    rw [tokenLoop] at h
    cases hp : processToken (i + 1) t st with
    | error e => rw [hp] at h; cases h
    | ok st1 =>
      rw [hp] at h
      simp only at h
      have h1 := processToken_model_names i t st st1 hp
      have h2 := ih (i + 1) st1 st' h
      exact ⟨by rw [h2.1, h1.1], le_trans h1.2 h2.2⟩

theorem processToken_freq_unlinked (i : Nat) (f : Str) (st : ParseState)
    (hf : isFreqToken f = true) (hms : 2 ≤ st.model_names.length) :
    processToken (i + 1) f st = .error .freqLinkedModelUnlinked := by
  have hf' := (isFreqToken_iff f).mp hf
  have hl : f.length ≠ 0 := by
    intro h0
    have := List.length_eq_zero.mp h0
    rw [this] at hf'
    simp at hf'
  have hm : isMixGroup f = false := by
    cases hm : isMixGroup f with
    | false => rfl
    | true =>
      simp only [isMixGroup, Bool.and_eq_true, decide_eq_true_eq] at hm
      omega
  rw [processToken, if_neg hl, hm]
  simp only [Bool.false_eq_true, if_false]
  rw [if_neg (Nat.succ_ne_zero i), if_pos hf', if_pos (by omega)]

theorem processToken_rate_unlinked (i : Nat) (r : Str) (st : ParseState)
    (hr : r ≠ []) (hm : isMixGroup r = false) (hf : isFreqToken r = false)
    (hrs : 2 ≤ st.siterate_names.length) :
    processToken (i + 1) r st = .error (.rateLinkedRatesUnlinked r) := by
  have hl : r.length ≠ 0 := fun h => hr (List.length_eq_zero.mp h)
  have hf' : ¬ (r.length ≤ 2 ∧ r.head? = some 'F') := by
    rw [← isFreqToken_iff, hf]; exact Bool.false_ne_true
  rw [processToken, if_neg hl, hm]
  simp only [Bool.false_eq_true, if_false]
  rw [if_neg (Nat.succ_ne_zero i), if_neg hf', if_pos (by omega)]

theorem processToken_mix_with_rate (i : Nat) (g : Str) (st : ParseState)
    (hg : isMixGroup g = true) (hrs : st.siterate_names ≠ []) :
    processToken (i + 1) g st = .error .tooManyMix := by
  have hl : g.length ≠ 0 := by
    intro h0
    simp [isMixGroup, h0] at hg
  have hr : ¬ st.siterate_names.length = 0 := fun h => hrs (List.length_eq_zero.mp h)
  rw [processToken, if_neg hl, hg]
  simp only [if_true]
  rw [if_neg (Nat.succ_ne_zero i), if_neg hr]

theorem processToken_mix_rates_length (i : Nat) (g : Str) (st st' : ParseState)
    (hg : isMixGroup g = true) (h : processToken (i + 1) g st = .ok st') :
    (separateStr (substr g 4 (g.length - 5)) [] ',').length ≤ st'.siterate_names.length := by
  have hl : g.length ≠ 0 := by
    intro h0
    simp [isMixGroup, h0] at hg
  rw [processToken, if_neg hl, hg] at h
  simp only [if_true] at h
  rw [if_neg (Nat.succ_ne_zero i)] at h
  by_cases hr : st.siterate_names.length = 0
  · rw [if_pos hr] at h
    injection h with h
    rw [← h]
    simp only
    rw [separateStr_acc _ st.submodel_array]
    simp only [List.length_append]
    omega
  · rw [if_neg hr] at h; cases h

theorem separateModel_error_of_tokenLoop (inp body : Str) (K : Int) (e : ParseError)
    (hread : readTreeNumber (rmSpace inp) = .ok (K, body))
    (h : tokenLoop 0 (separateStr body [] '+') ⟨[], [], []⟩ = .error e) :
    separateModel inp = .error e := by
  unfold separateModel parseDescriptors
  rw [hread]
  simp only
  rw [h]


/-- C8: `separateModel` rejects a specification that links one part of the
model or of the site rate while unlinking another part. With the top-level
tokens taken as `separateModel` cuts them, it fails (a) when a frequency token
(length at most 2, first character `F`) follows a first-token `MIX{...}` group
of two or more entries, (b) when a rate token (non-empty, neither a group nor
a frequency token) follows a later `MIX{...}` group of two or more entries,
and (c) with the "too many MIX" diagnostic, when a `MIX{...}` group stands
behind the first token at a point where a rate descriptor is already
recorded. -/
theorem separateModel_rejects_partial_linking (inp body : Str) (K : Int)
    (hread : readTreeNumber (rmSpace inp) = .ok (K, body)) :
    (∀ (g f : Str) (pre post : List Str),
      separateStr body [] '+' = g :: (pre ++ f :: post) →
      isMixGroup g = true → 2 ≤ (separateStr (substr g 4 (g.length - 5)) [] ',').length →
      isFreqToken f = true →
      ∃ e, separateModel inp = .error e) ∧
    (∀ (t0 g r : Str) (pre mid post : List Str),
      separateStr body [] '+' = t0 :: (pre ++ g :: (mid ++ r :: post)) →
      isMixGroup g = true → 2 ≤ (separateStr (substr g 4 (g.length - 5)) [] ',').length →
      r ≠ [] → isMixGroup r = false → isFreqToken r = false →
      ∃ e, separateModel inp = .error e) ∧
    (∀ (t0 g : Str) (pre post : List Str) (st : ParseState),
      separateStr body [] '+' = t0 :: (pre ++ g :: post) →
      tokenLoop 0 (t0 :: pre) ⟨[], [], []⟩ = .ok st → st.siterate_names ≠ [] →
      isMixGroup g = true →
      separateModel inp = .error .tooManyMix) := by
  refine ⟨?_, ?_, ?_⟩
  · intro g f pre post htok hg hn hf
    cases h0 : processToken 0 g ⟨[], [], []⟩ with
    | error e =>
      exact ⟨e, separateModel_error_of_tokenLoop inp body K e hread
        (by rw [htok, tokenLoop, h0])⟩
    | ok st0 =>
      have hlen0 := processToken_first_mix g st0 hg h0
      cases h1 : tokenLoop 1 pre st0 with
      | error e =>
        exact ⟨e, separateModel_error_of_tokenLoop inp body K e hread
          (by rw [htok, tokenLoop, h0]; simp only; rw [tokenLoop_append, h1])⟩
      | ok st1 =>
        have hlen1 := (tokenLoop_model_names pre 0 st0 st1 h1).1
        have hp : 1 + pre.length = pre.length + 1 := by omega
        refine ⟨.freqLinkedModelUnlinked, separateModel_error_of_tokenLoop inp body K _ hread ?_⟩
        rw [htok, tokenLoop, h0]
        simp only
        rw [tokenLoop_append, h1]
        simp only
        rw [tokenLoop, hp, processToken_freq_unlinked _ f st1 hf (by omega)]
  · intro t0 g r pre mid post htok hg hn hr hm hf
    cases h0 : tokenLoop 0 (t0 :: pre) ⟨[], [], []⟩ with
    | error e =>
      exact ⟨e, separateModel_error_of_tokenLoop inp body K e hread
        (by rw [htok, ← List.cons_append, tokenLoop_append, h0])⟩
    | ok st0 =>
      have hi : 0 + (t0 :: pre).length = pre.length + 1 := by simp
      cases h1 : processToken (pre.length + 1) g st0 with
      | error e =>
        exact ⟨e, separateModel_error_of_tokenLoop inp body K e hread
          (by rw [htok, ← List.cons_append, tokenLoop_append, h0]; simp only
              rw [hi, tokenLoop, h1])⟩
      | ok st1 =>
        have hlen1 := processToken_mix_rates_length _ g st0 st1 hg h1
        cases h2 : tokenLoop (pre.length + 1 + 1) mid st1 with
        | error e =>
          exact ⟨e, separateModel_error_of_tokenLoop inp body K e hread
            (by rw [htok, ← List.cons_append, tokenLoop_append, h0]; simp only
                rw [hi, tokenLoop, h1]; simp only
                rw [tokenLoop_append, h2])⟩
        | ok st2 =>
          have hlen2 := (tokenLoop_model_names mid _ st1 st2 h2).2
          refine ⟨.rateLinkedRatesUnlinked r,
            separateModel_error_of_tokenLoop inp body K _ hread ?_⟩
          rw [htok, ← List.cons_append, tokenLoop_append, h0]
          simp only
          rw [hi, tokenLoop, h1]
          simp only
          rw [tokenLoop_append, h2]
          simp only
          have hj : pre.length + 1 + 1 + mid.length = (pre.length + 1 + mid.length) + 1 := by
            omega
          rw [tokenLoop, hj, processToken_rate_unlinked _ r st2 hr hm hf (by omega)]
  · intro t0 g pre post st htok h0 hrs hg
    have hi : 0 + (t0 :: pre).length = pre.length + 1 := by simp
    apply separateModel_error_of_tokenLoop inp body K _ hread
    rw [htok, ← List.cons_append, tokenLoop_append, h0]
    simp only
    rw [hi, tokenLoop, processToken_mix_with_rate _ g st hg hrs]

/-- The examples of C8: `"MIX{GTR,GTR}+FO+T2"`, `"GTR+MIX{I,I}+G4+T2"` and
`"GTR+I+MIX{G4+G4}+T2"` are rejected. -/
theorem separateModel_rejects_partial_linking_witness :
    (∃ e, separateModel "MIX{GTR,GTR}+FO+T2".toList = .error e) ∧
    (∃ e, separateModel "GTR+MIX{I,I}+G4+T2".toList = .error e) ∧
    separateModel "GTR+I+MIX{G4+G4}+T2".toList = .error .tooManyMix :=
  ⟨(separateModel_rejects_partial_linking "MIX{GTR,GTR}+FO+T2".toList
      "MIX{GTR,GTR}+FO".toList 2 (by decide)).1
      "MIX{GTR,GTR}".toList "FO".toList [] [] (by decide) (by decide) (by decide) (by decide),
   (separateModel_rejects_partial_linking "GTR+MIX{I,I}+G4+T2".toList
      "GTR+MIX{I,I}+G4".toList 2 (by decide)).2.1
      "GTR".toList "MIX{I,I}".toList "G4".toList [] [] [] (by decide) (by decide) (by decide)
      (by decide) (by decide) (by decide),
   (separateModel_rejects_partial_linking "GTR+I+MIX{G4+G4}+T2".toList
      "GTR+I+MIX{G4+G4}".toList 2 (by decide)).2.2
      "GTR".toList "MIX{G4+G4}".toList ["I".toList] []
      ⟨["GTR".toList], ["I".toList], []⟩ (by decide) (by decide) (by decide) (by decide)⟩


/-! ## The mixture log-likelihood -/

section Aggregator

variable {α : Type}

theorem getD_set_eq [Zero α] (l : List α) (j : Nat) (v : α) (h : j < l.length) :
    (l.set j v).getD j 0 = v := by
  simp [List.getD_eq_getElem?_getD, h]

theorem getD_set_ne [Zero α] (l : List α) (j x : Nat) (v : α) (h : x ≠ j) :
    (l.set j v).getD x 0 = l.getD x 0 := by
  simp [List.getD_eq_getElem?_getD, List.getElem?_set_ne (Ne.symm h)]

theorem stridedWrite_length (f : Nat → α) (stride : Nat) (n : Nat) :
    ∀ (i j : Nat) (buf : List α), (stridedWrite f stride n i j buf).length = buf.length := by
  induction n with
  | zero => intro i j buf; rfl
  | succ n ih => intro i j buf; rw [stridedWrite, ih]; simp

/-- A position that is none of the written ones keeps its content. -/
theorem stridedWrite_miss [Zero α] (f : Nat → α) (stride : Nat) (n : Nat) :
    ∀ (i j : Nat) (buf : List α) (x : Nat), (∀ m, m < n → x ≠ j + m * stride) →
      (stridedWrite f stride n i j buf).getD x 0 = buf.getD x 0 := by
  induction n with
  | zero => intro i j buf x _; rfl
  | succ n ih =>
    intro i j buf x h
    rw [stridedWrite, ih (i + 1) (j + stride) _ x]
    · exact getD_set_ne buf j x _ (by simpa using h 0 (Nat.succ_pos n))
    · intro m hm
      have := h (m + 1) (by omega)
      rw [Nat.succ_mul] at this
      omega

/-- The `m`-th written position holds the `m`-th value. -/
theorem stridedWrite_hit [Zero α] (f : Nat → α) (stride : Nat) (hs : 0 < stride) (n : Nat) :
    ∀ (i j : Nat) (buf : List α) (m : Nat), m < n → j + m * stride < buf.length →
      (stridedWrite f stride n i j buf).getD (j + m * stride) 0 = f (i + m) := by
  induction n with
  | zero => intro i j buf m hm; omega
  | succ n ih =>
    intro i j buf m hm hlen
    rw [stridedWrite]
    cases m with
    | zero =>
      simp only [Nat.zero_mul, Nat.add_zero] at hlen ⊢
      rw [stridedWrite_miss f stride n (i + 1) (j + stride) _ j]
      · exact getD_set_eq buf j _ hlen
      · intro m' _
        have : 0 ≤ m' * stride := Nat.zero_le _
        omega
    | succ m =>
      have hpos : j + (m + 1) * stride = (j + stride) + m * stride := by
        rw [Nat.succ_mul]; omega
      rw [hpos, ih (i + 1) (j + stride) _ m (by omega) (by simpa [hpos] using hlen)]
      congr 1; omega

theorem reorgInner_eq [Zero α] (exp : α → α) (ntree : Nat) (src : List α) (n : Nat) :
    ∀ (i j : Nat) (dst : List α),
      reorgInner exp ntree src n i j dst =
        (i + n, stridedWrite (fun x => exp (src.getD x 0)) ntree n i j dst) := by
  induction n with
  | zero => intro i j dst; rfl
  | succ n ih =>
    intro i j dst
    rw [reorgInner, ih, stridedWrite]
    congr 1; omega

theorem lt_mul_of_block (t p K P : Nat) (ht : t < K) (hp : p < P) : t * P + p < K * P := by
  have h1 : t * P + p < t * P + P := by omega
  have h2 : t * P + P = (t + 1) * P := by rw [Nat.succ_mul]
  have h3 : (t + 1) * P ≤ K * P := Nat.mul_le_mul_right P ht
  omega

/-- The first loop fills `_ptn_like_cat` tree by tree:
`_ptn_like_cat[t*nptn + p]` is the log-likelihood of pattern `p` under tree
`t`. -/
theorem perTreeLoop_spec [Zero α] (treeLh : Nat → Nat → α) (P : Nat) (n : Nat) :
    ∀ (t : Nat) (buf : List α), (t + n) * P ≤ buf.length →
      (perTreeLoop treeLh P n t (t * P) buf).length = buf.length ∧
      (∀ t' p, t ≤ t' → t' < t + n → p < P →
        (perTreeLoop treeLh P n t (t * P) buf).getD (t' * P + p) 0 = treeLh t' p) ∧
      (∀ x, x < t * P → (perTreeLoop treeLh P n t (t * P) buf).getD x 0 = buf.getD x 0) := by
  induction n with
  | zero =>
    intro t buf _
    exact ⟨rfl, fun t' p h1 h2 _ => by omega, fun x _ => rfl⟩
  | succ n ih =>
    intro t buf hlen
    have hoff : t * P + P = (t + 1) * P := by rw [Nat.succ_mul]
    have hlen' : (t + 1 + n) * P ≤
        (treeComputeLikelihood (treeLh t) P buf (t * P)).length := by
      rw [treeComputeLikelihood, stridedWrite_length]
      have : t + 1 + n = t + (n + 1) := by omega
      rw [this]; exact hlen
    obtain ⟨h1, h2, h3⟩ := ih (t + 1) (treeComputeLikelihood (treeLh t) P buf (t * P)) hlen'
    rw [perTreeLoop, hoff]
    refine ⟨?_, ?_, ?_⟩
    · rw [h1, treeComputeLikelihood, stridedWrite_length]
    · intro t' p ht1 ht2 hp
      by_cases ht : t' = t
      · subst ht
        rw [h3 _ (by rw [← hoff]; omega), treeComputeLikelihood]
        have hb : t' * P + p < buf.length := by
          have := lt_mul_of_block t' p (t' + (n + 1)) P (by omega) hp
          omega
        have := stridedWrite_hit (treeLh t') 1 Nat.one_pos P 0 (t' * P) buf p hp
          (by simpa using hb)
        simpa using this
      · exact h2 t' p (by omega) (by omega) hp
    · intro x hx
      rw [h3 x (by rw [← hoff]; omega), treeComputeLikelihood,
        stridedWrite_miss (treeLh t) 1 P 0 (t * P) buf x (fun m _ => by omega)]

theorem block_ne (t t' p p' K : Nat) (ht : t < K) (ht' : t' < K) (hne : t ≠ t') :
    t + p * K ≠ t' + p' * K := by
  intro h
  have h1 : (t + p * K) % K = t := by
    rw [Nat.add_mul_mod_self_right, Nat.mod_eq_of_lt ht]
  have h2 : (t' + p' * K) % K = t' := by
    rw [Nat.add_mul_mod_self_right, Nat.mod_eq_of_lt ht']
  rw [h] at h1
  exact hne (h1.symm.trans h2)

theorem lt_mul_of_stride (t p K P : Nat) (ht : t < K) (hp : p < P) : t + p * K < K * P := by
  have := lt_mul_of_block p t P K hp ht
  rw [Nat.mul_comm K P]
  omega

/-- The second loop transposes and exponentiates:
`ptn_like_cat[p*ntree + t] = exp(_ptn_like_cat[t*nptn + p])`. -/
theorem reorgOuter_spec [Zero α] (exp : α → α) (K P : Nat) (src : List α) (n : Nat) :
    ∀ (t : Nat) (dst : List α), t + n ≤ K → K * P ≤ dst.length →
      (reorgOuter exp K P src n t (t * P) dst).length = dst.length ∧
      (∀ t' p, t ≤ t' → t' < t + n → p < P →
        (reorgOuter exp K P src n t (t * P) dst).getD (t' + p * K) 0 =
          exp (src.getD (t' * P + p) 0)) ∧
      (∀ t' p, t' < t → p < P →
        (reorgOuter exp K P src n t (t * P) dst).getD (t' + p * K) 0 =
          dst.getD (t' + p * K) 0) := by
  induction n with
  | zero =>
    intro t dst _ _
    exact ⟨rfl, fun t' p h1 h2 _ => by omega, fun t' p _ _ => rfl⟩
  | succ n ih =>
    intro t dst htn hlen
    have hoff : t * P + P = (t + 1) * P := by rw [Nat.succ_mul]
    have hK : 0 < K := by omega
    rw [reorgOuter, reorgInner_eq]
    simp only
    rw [hoff]
    have hlen' : K * P ≤
        (stridedWrite (fun x => exp (src.getD x 0)) K P (t * P) t dst).length := by
      rw [stridedWrite_length]; exact hlen
    obtain ⟨h1, h2, h3⟩ := ih (t + 1)
      (stridedWrite (fun x => exp (src.getD x 0)) K P (t * P) t dst) (by omega) hlen'
    refine ⟨?_, ?_, ?_⟩
    · rw [h1, stridedWrite_length]
    · intro t' p ht1 ht2 hp
      by_cases ht : t' = t
      · subst ht
        rw [h3 t' p (by omega) hp]
        exact stridedWrite_hit _ K hK P (t' * P) t' dst p hp
          (lt_of_lt_of_le (lt_mul_of_stride t' p K P (by omega) hp) hlen)
      · exact h2 t' p (by omega) (by omega) hp
    · intro t' p ht' hp
      rw [h3 t' p (by omega) hp]
      exact stridedWrite_miss _ K P (t * P) t dst _
        (fun m _ => block_ne t' t p m K (by omega) (by omega) (by omega))


theorem foldl_congr_mem {β : Type} (f g : α → β → α) (l : List β) :
    ∀ (a : α), (∀ acc x, x ∈ l → f acc x = g acc x) → l.foldl f a = l.foldl g a := by
  induction l with
  | nil => intro a _; rfl
  | cons x l ih =>
    intro a h
    rw [List.foldl_cons, List.foldl_cons, h a x (List.mem_cons_self _ _)]
    exact ih _ (fun acc y hy => h acc y (List.mem_cons_of_mem _ hy))

theorem foldl_range_succ_shift (f : α → Nat → α) (n : Nat) (a : α) :
    (List.range (n + 1)).foldl f a = (List.range n).foldl (fun acc m => f acc (m + 1)) (f a 0) := by
  rw [List.range_succ_eq_map, List.foldl_cons, List.foldl_map]

/-- The inner sum in the order in which the code adds, for any arithmetic. -/
theorem subLikeLoop_fold [Zero α] [Add α] [Mul α] (buf w : List α) (n : Nat) :
    ∀ (t i : Nat) (s : α),
      subLikeLoop buf w n t i s =
        (i + n, (List.range n).foldl
          (fun acc m => acc + buf.getD (i + m) 0 * w.getD (t + m) 0) s) := by
  induction n with
  | zero => intro t i s; rfl
  | succ n ih =>
    intro t i s
    rw [subLikeLoop, ih, foldl_range_succ_shift]
    have h2 : ∀ m, i + 1 + m = i + (m + 1) := fun m => by omega
    have h3 : ∀ m, t + 1 + m = t + (m + 1) := fun m => by omega
    simp only [h2, h3, Nat.add_zero]

/-- The outer sum in the order in which the code adds, for any arithmetic. -/
theorem totalLoop_fold [Zero α] [Add α] [Mul α] (log : α → α) (ofInt : Int → α) (K : Nat)
    (buf w : List α) (freqs : List Int) (n : Nat) :
    ∀ (ptn : Nat) (logLike : α) (plh : Option (List α)),
      (totalLoop log ofInt K buf w freqs n ptn (ptn * K) logLike plh).1 =
        (List.range n).foldl (fun acc m => acc +
          log ((List.range K).foldl
            (fun s k => s + buf.getD ((ptn + m) * K + k) 0 * w.getD (0 + k) 0) 0)
            * ofInt (freqs.getD (ptn + m) 0)) logLike := by
  induction n with
  | zero => intro ptn logLike plh; rfl
  | succ n ih =>
    intro ptn logLike plh
    rw [totalLoop, subLikeLoop_fold]
    simp only
    have hoff : ptn * K + K = (ptn + 1) * K := by rw [Nat.succ_mul]
    rw [hoff, ih, foldl_range_succ_shift]
    have h2 : ∀ m, ptn + 1 + m = ptn + (m + 1) := fun m => by omega
    simp only [h2, Nat.add_zero]

theorem subLikeLoop_spec [CommSemiring α] (buf w : List α) (n : Nat) :
    ∀ (t i : Nat) (s : α),
      subLikeLoop buf w n t i s =
        (i + n, s + ∑ m ∈ Finset.range n, buf.getD (i + m) 0 * w.getD (t + m) 0) := by
  induction n with
  | zero => intro t i s; simp [subLikeLoop]
  | succ n ih =>
    intro t i s
    rw [subLikeLoop, ih, Finset.sum_range_succ']
    have h1 : i + 1 + n = i + (n + 1) := by omega
    have h2 : ∀ m, i + 1 + m = i + (m + 1) := fun m => by omega
    have h3 : ∀ m, t + 1 + m = t + (m + 1) := fun m => by omega
    simp only [h1, h2, h3, Nat.add_zero]
    congr 1
    rw [add_assoc, add_comm (buf.getD i 0 * w.getD t 0)]

theorem totalLoop_spec [CommSemiring α] (log : α → α) (ofInt : Int → α) (K : Nat)
    (buf w : List α) (freqs : List Int) (n : Nat) :
    ∀ (ptn : Nat) (logLike : α) (plh : Option (List α)),
      (totalLoop log ofInt K buf w freqs n ptn (ptn * K) logLike plh).1 =
        logLike + ∑ m ∈ Finset.range n,
          log (∑ k ∈ Finset.range K, buf.getD ((ptn + m) * K + k) 0 * w.getD k 0)
            * ofInt (freqs.getD (ptn + m) 0) := by
  induction n with
  | zero => intro ptn logLike plh; simp [totalLoop]
  | succ n ih =>
    intro ptn logLike plh
    rw [totalLoop, subLikeLoop_spec]
    simp only [zero_add]
    have hoff : ptn * K + K = (ptn + 1) * K := by rw [Nat.succ_mul]
    rw [hoff, ih, Finset.sum_range_succ']
    have h2 : ∀ m, ptn + 1 + m = ptn + (m + 1) := fun m => by omega
    simp only [h2, Nat.add_zero]
    rw [add_assoc, add_comm (log _ * ofInt _)]

/-- C10: with `K = size()` trees, `P` patterns and the log-likelihoods
`treeLh k p` that the component trees return, `computeLikelihood` leaves
`_ptn_like_cat[k*P + p] = treeLh k p` (tree-major) and
`ptn_like_cat[p*K + k] = exp(treeLh k p)` (pattern-major) for every `k < K`
and `p < P`, and returns the sum over the patterns `p` of
`patn_freqs[p] * log(sum over k of weights[k] * exp(treeLh k p))`. Numbers
are taken in exact arithmetic (any commutative semiring with functions `exp`
and `log`); the two buffers have the `size() * nptn` cells that the
constructor allocates. -/
theorem computeLikelihood_spec [CommSemiring α] (exp log : α → α) (ofInt : Int → α)
    (treeLh : Nat → Nat → α) (st : MixState α) (pattern_lh : Option (List α))
    (hcat : st.ptn_like_cat.length = st.ntree * st.nptn)
    (htree : st._ptn_like_cat.length = st.ntree * st.nptn) :
    (∀ k p, k < st.ntree → p < st.nptn →
      (computeLikelihood exp log ofInt treeLh st pattern_lh).2.2._ptn_like_cat.getD
        (k * st.nptn + p) 0 = treeLh k p) ∧
    (∀ k p, k < st.ntree → p < st.nptn →
      (computeLikelihood exp log ofInt treeLh st pattern_lh).2.2.ptn_like_cat.getD
        (p * st.ntree + k) 0 = exp (treeLh k p)) ∧
    (computeLikelihood exp log ofInt treeLh st pattern_lh).1 =
      ∑ p ∈ Finset.range st.nptn,
        ofInt (st.patn_freqs.getD p 0) *
          log (∑ k ∈ Finset.range st.ntree, st.weights.getD k 0 * exp (treeLh k p)) := by
  have htree0 := perTreeLoop_spec treeLh st.nptn st.ntree 0 st._ptn_like_cat
    (by rw [htree]; simp)
  simp only [Nat.zero_mul, Nat.zero_add] at htree0
  obtain ⟨_, ht2, _⟩ := htree0
  have hcat0 := reorgOuter_spec exp st.ntree st.nptn
    (perTreeLoop treeLh st.nptn st.ntree 0 0 st._ptn_like_cat) st.ntree 0 st.ptn_like_cat
    (by simp) (by rw [hcat])
  simp only [Nat.zero_mul, Nat.zero_add] at hcat0
  obtain ⟨_, hc2, _⟩ := hcat0
  have hlayout : ∀ k p, k < st.ntree → p < st.nptn →
      (reorgOuter exp st.ntree st.nptn
        (perTreeLoop treeLh st.nptn st.ntree 0 0 st._ptn_like_cat) st.ntree 0 0
        st.ptn_like_cat).getD (p * st.ntree + k) 0 = exp (treeLh k p) := by
    intro k p hk hp
    rw [Nat.add_comm, hc2 k p (Nat.zero_le _) hk hp, ht2 k p (Nat.zero_le _) hk hp]
  refine ⟨fun k p hk hp => ht2 k p (Nat.zero_le _) hk hp, hlayout, ?_⟩
  have htot := totalLoop_spec log ofInt st.ntree
    (reorgOuter exp st.ntree st.nptn
      (perTreeLoop treeLh st.nptn st.ntree 0 0 st._ptn_like_cat) st.ntree 0 0
      st.ptn_like_cat) st.weights st.patn_freqs st.nptn 0 0 pattern_lh
  simp only [Nat.zero_mul, Nat.zero_add, zero_add] at htot
  simp only [computeLikelihood]
  rw [htot]
  apply Finset.sum_congr rfl
  intro p hp
  have hp' : p < st.nptn := Finset.mem_range.mp hp
  rw [mul_comm]
  congr 2
  apply Finset.sum_congr rfl
  intro k hk
  rw [hlayout k p (Finset.mem_range.mp hk) hp', mul_comm]

/-- Companion of C10 for an arithmetic without algebraic laws (such as
rounded `double` operations): the returned value is the sum accumulated from
`0` in the order of the code, pattern after pattern, each term being
`log(subLike) * patn_freqs[p]` with `subLike` accumulated from `0` over the
trees in order, each term being `exp(treeLh k p) * weights[k]`. -/
theorem computeLikelihood_fold [Zero α] [Add α] [Mul α] (exp log : α → α) (ofInt : Int → α)
    (treeLh : Nat → Nat → α) (st : MixState α) (pattern_lh : Option (List α))
    (hcat : st.ptn_like_cat.length = st.ntree * st.nptn)
    (htree : st._ptn_like_cat.length = st.ntree * st.nptn) :
    (computeLikelihood exp log ofInt treeLh st pattern_lh).1 =
      (List.range st.nptn).foldl (fun logLike p => logLike +
        log ((List.range st.ntree).foldl
          (fun subLike k => subLike + exp (treeLh k p) * st.weights.getD k 0) 0)
          * ofInt (st.patn_freqs.getD p 0)) 0 := by
  have htree0 := perTreeLoop_spec treeLh st.nptn st.ntree 0 st._ptn_like_cat
    (by rw [htree]; simp)
  simp only [Nat.zero_mul, Nat.zero_add] at htree0
  obtain ⟨_, ht2, _⟩ := htree0
  have hcat0 := reorgOuter_spec exp st.ntree st.nptn
    (perTreeLoop treeLh st.nptn st.ntree 0 0 st._ptn_like_cat) st.ntree 0 st.ptn_like_cat
    (by simp) (by rw [hcat])
  simp only [Nat.zero_mul, Nat.zero_add] at hcat0
  obtain ⟨_, hc2, _⟩ := hcat0
  have htot := totalLoop_fold log ofInt st.ntree
    (reorgOuter exp st.ntree st.nptn
      (perTreeLoop treeLh st.nptn st.ntree 0 0 st._ptn_like_cat) st.ntree 0 0
      st.ptn_like_cat) st.weights st.patn_freqs st.nptn 0 0 pattern_lh
  simp only [Nat.zero_mul, Nat.zero_add] at htot
  simp only [computeLikelihood]
  rw [htot]
  apply foldl_congr_mem
  intro acc p hp
  have hp' : p < st.nptn := List.mem_range.mp hp
  congr 3
  apply foldl_congr_mem
  intro s k hk
  have hk' : k < st.ntree := List.mem_range.mp hk
  rw [Nat.add_comm (p * st.ntree) k, hc2 k p (Nat.zero_le _) hk' hp',
    ht2 k p (Nat.zero_le _) hk' hp']

/-- An instance of C10 over the integers, with `x + 100` and `2 * x` standing
in for `exp` and `log`: two trees, three patterns. -/
theorem computeLikelihood_spec_witness :
    (computeLikelihood (fun x : Int => x + 100) (fun x => 2 * x) (fun z => z)
      (fun t p => 10 * (t : Int) + p)
      ⟨2, 3, [1, 2], [5, 6, 7], List.replicate 6 0, List.replicate 6 0⟩ none).2.2.ptn_like_cat
      = [100, 110, 101, 111, 102, 112] ∧
    (computeLikelihood (fun x : Int => x + 100) (fun x => 2 * x) (fun z => z)
      (fun t p => 10 * (t : Int) + p)
      ⟨2, 3, [1, 2], [5, 6, 7], List.replicate 6 0, List.replicate 6 0⟩ none).1 =
      ∑ p ∈ Finset.range 3, ([5, 6, 7] : List Int).getD p 0 *
        (2 * ∑ k ∈ Finset.range 2, ([1, 2] : List Int).getD k 0 * (10 * (k : Int) + p + 100)) :=
  ⟨by decide,
   (computeLikelihood_spec (fun x : Int => x + 100) (fun x => 2 * x) (fun z => z)
      (fun t p => 10 * (t : Int) + p)
      ⟨2, 3, [1, 2], [5, 6, 7], List.replicate 6 0, List.replicate 6 0⟩ none
      (by decide) (by decide)).2.2⟩


/-- C11: `computeLikelihood` has no outcome other than a returned value; on a
state with one tree and one pattern whose likelihood is zero it stores the
zero in `ptn_like_cat` and returns `log(0) * patn_freqs[0]` (here over the
integers, `log` mapping `0` to `-1000`). -/
theorem computeLikelihood_zero_subLike :
    (computeLikelihood (fun _ : Int => 0) (fun x => if x = 0 then -1000 else x) (fun z => z)
      (fun _ _ => -800) ⟨1, 1, [1], [1], [0], [0]⟩ none).2.2.ptn_like_cat = [0] ∧
    (computeLikelihood (fun _ : Int => 0) (fun x => if x = 0 then -1000 else x) (fun z => z)
      (fun _ _ => -800) ⟨1, 1, [1], [1], [0], [0]⟩ none).1 = -1000 := by
  constructor <;> decide

/-! ## Responsibilities -/

theorem updLoop_length [Zero α] (g : Nat → α → α) (n : Nat) :
    ∀ (c i : Nat) (buf : List α), (updLoop g n c i buf).length = buf.length := by
  induction n with
  | zero => intro c i buf; rfl
  | succ n ih => intro c i buf; rw [updLoop, ih]; simp

/-- A cell outside the updated stretch keeps its content. -/
theorem updLoop_miss [Zero α] (g : Nat → α → α) (n : Nat) :
    ∀ (c i : Nat) (buf : List α) (x : Nat), (x < i ∨ i + n ≤ x) →
      (updLoop g n c i buf).getD x 0 = buf.getD x 0 := by
  induction n with
  | zero => intro c i buf x _; rfl
  | succ n ih =>
    intro c i buf x h
    rw [updLoop, ih (c + 1) (i + 1) _ x (by omega)]
    exact getD_set_ne buf i x _ (by omega)

/-- The `m`-th cell of the updated stretch. -/
theorem updLoop_hit [Zero α] (g : Nat → α → α) (n : Nat) :
    ∀ (c i : Nat) (buf : List α) (m : Nat), m < n → i + m < buf.length →
      (updLoop g n c i buf).getD (i + m) 0 = g (c + m) (buf.getD (i + m) 0) := by
  induction n with
  | zero => intro c i buf m hm; omega
  | succ n ih =>
    intro c i buf m hm hlen
    rw [updLoop]
    cases m with
    | zero =>
      simp only [Nat.add_zero] at hlen ⊢
      rw [updLoop_miss g n (c + 1) (i + 1) _ i (by omega)]
      exact getD_set_eq buf i _ hlen
    | succ m =>
      have h1 : i + (m + 1) = (i + 1) + m := by omega
      have h2 : c + (m + 1) = (c + 1) + m := by omega
      rw [h1, h2, ih (c + 1) (i + 1) _ m (by omega) (by simp; omega),
        getD_set_ne buf i _ _ (by omega)]

theorem weightLoop_eq [Zero α] [Mul α] (w : List α) (n : Nat) :
    ∀ (c i : Nat) (out : List α),
      weightLoop w n c i out = (i + n, updLoop (fun c a => a * w.getD c 0) n c i out) := by
  induction n with
  | zero => intro c i out; rfl
  | succ n ih =>
    intro c i out
    rw [weightLoop, ih, updLoop]
    congr 1; omega

theorem rowScaleLoop_eq [Zero α] [Mul α] (lk : α) (base : Nat) (n : Nat) :
    ∀ (c : Nat) (out : List α),
      rowScaleLoop lk base n c out = updLoop (fun _ a => a * lk) n c (base + c) out := by
  induction n with
  | zero => intro c out; rfl
  | succ n ih =>
    intro c out
    rw [rowScaleLoop, ih, updLoop]
    rfl

theorem rowSumLoop_spec [CommSemiring α] (out : List α) (base : Nat) (n : Nat) :
    ∀ (c : Nat) (s : α),
      rowSumLoop out base n c s = s + ∑ m ∈ Finset.range n, out.getD (base + (c + m)) 0 := by
  induction n with
  | zero => intro c s; simp [rowSumLoop]
  | succ n ih =>
    intro c s
    rw [rowSumLoop, ih, Finset.sum_range_succ']
    have h2 : ∀ m, c + 1 + m = c + (m + 1) := fun m => by omega
    simp only [h2, Nat.add_zero]
    rw [add_assoc, add_comm (out.getD (base + c) 0)]

/-- The weighting loop multiplies the cell of pattern `p` and tree `c` by
`weights[c]`. -/
theorem weightAll_spec [Zero α] [Mul α] (w : List α) (K : Nat) (n : Nat) :
    ∀ (p0 : Nat) (out : List α), (p0 + n) * K ≤ out.length →
      (weightAll w K n (p0 * K) out).length = out.length ∧
      (∀ p c, p0 ≤ p → p < p0 + n → c < K →
        (weightAll w K n (p0 * K) out).getD (p * K + c) 0 =
          out.getD (p * K + c) 0 * w.getD c 0) ∧
      (∀ x, x < p0 * K → (weightAll w K n (p0 * K) out).getD x 0 = out.getD x 0) := by
  induction n with
  | zero =>
    intro p0 out _
    exact ⟨rfl, fun p c h1 h2 _ => by omega, fun x _ => rfl⟩
  | succ n ih =>
    intro p0 out hlen
    have hoff : p0 * K + K = (p0 + 1) * K := by rw [Nat.succ_mul]
    rw [weightAll, weightLoop_eq]
    simp only
    rw [hoff]
    have hlen' : (p0 + 1 + n) * K ≤
        (updLoop (fun c a => a * w.getD c 0) K 0 (p0 * K) out).length := by
      rw [updLoop_length]
      have : p0 + 1 + n = p0 + (n + 1) := by omega
      rw [this]; exact hlen
    obtain ⟨h1, h2, h3⟩ := ih (p0 + 1) _ hlen'
    refine ⟨by rw [h1, updLoop_length], ?_, ?_⟩
    · intro p c hp1 hp2 hc
      by_cases hp : p = p0
      · subst hp
        have hb : p * K + c < out.length := by
          have := lt_mul_of_block p c (p + (n + 1)) K (by omega) hc
          omega
        rw [h3 _ (by rw [← hoff]; omega), updLoop_hit _ K 0 (p * K) out c hc hb]
        simp
      · rw [h2 p c (by omega) (by omega) hc, updLoop_miss _ K 0 (p0 * K) out _ (Or.inr ?_)]
        have : (p0 + 1) * K ≤ p * K := Nat.mul_le_mul_right K (by omega)
        omega
    · intro x hx
      rw [h3 x (by rw [← hoff]; omega), updLoop_miss _ K 0 (p0 * K) out x (Or.inl hx)]


/-- Scaling the row of pattern `p0` leaves the other rows as they are. -/
theorem rowScale_other [Zero α] [Mul α] (lk : α) (K p0 : Nat) (out : List α) (x : Nat)
    (hx : x < p0 * K ∨ (p0 + 1) * K ≤ x) :
    (rowScaleLoop lk (p0 * K) K 0 out).getD x 0 = out.getD x 0 := by
  rw [rowScaleLoop_eq]
  apply updLoop_miss
  rw [Nat.succ_mul] at hx
  omega

theorem rowScale_same [Zero α] [Mul α] (lk : α) (K p0 : Nat) (out : List α) (c : Nat)
    (hc : c < K) (hlen : p0 * K + c < out.length) :
    (rowScaleLoop lk (p0 * K) K 0 out).getD (p0 * K + c) 0 = out.getD (p0 * K + c) 0 * lk := by
  rw [rowScaleLoop_eq]
  have := updLoop_hit (fun _ a => a * lk) K 0 (p0 * K + 0) out c hc (by simpa using hlen)
  simpa using this

theorem rowSum_rowScale_other [CommSemiring α] (lk : α) (K p0 p : Nat) (out : List α)
    (hp : p0 < p) :
    ∑ c ∈ Finset.range K, (rowScaleLoop lk (p0 * K) K 0 out).getD (p * K + c) 0 =
      ∑ c ∈ Finset.range K, out.getD (p * K + c) 0 := by
  apply Finset.sum_congr rfl
  intro c _
  apply rowScale_other
  right
  have : (p0 + 1) * K ≤ p * K := Nat.mul_le_mul_right K (by omega)
  omega

/-- The normalising loop goes through when no row sum is zero, and then
multiplies the row of pattern `p` by `patn_freqs[p] / (row sum)`. -/
theorem normalizeLoop_some [Field α] [DecidableEq α] (ofInt : Int → α) (K : Nat)
    (f : List Int) (n : Nat) :
    ∀ (p0 : Nat) (out : List α), (p0 + n) * K ≤ out.length →
      (∀ p, p0 ≤ p → p < p0 + n → ∑ c ∈ Finset.range K, out.getD (p * K + c) 0 ≠ 0) →
      ∃ out', normalizeLoop ofInt K f n p0 out = some out' ∧ out'.length = out.length ∧
        (∀ p c, p0 ≤ p → p < p0 + n → c < K →
          out'.getD (p * K + c) 0 = out.getD (p * K + c) 0 *
            (ofInt (f.getD p 0) / ∑ c' ∈ Finset.range K, out.getD (p * K + c') 0)) ∧
        (∀ x, x < p0 * K → out'.getD x 0 = out.getD x 0) := by
  induction n with
  | zero =>
    intro p0 out _ _
    exact ⟨out, rfl, rfl, fun p c h1 h2 _ => by omega, fun x _ => rfl⟩
  | succ n ih =>
    intro p0 out hlen hnz
    have hsum : rowSumLoop out (p0 * K) K 0 0 = ∑ c ∈ Finset.range K, out.getD (p0 * K + c) 0 := by
      rw [rowSumLoop_spec]; simp
    have h0 := hnz p0 (le_refl _) (by omega)
    rw [normalizeLoop, hsum, if_neg h0]
    have hlen' : (p0 + 1 + n) * K ≤
        (rowScaleLoop (ofInt (f.getD p0 0) / ∑ c ∈ Finset.range K, out.getD (p0 * K + c) 0)
          (p0 * K) K 0 out).length := by
      rw [rowScaleLoop_eq, updLoop_length]
      have : p0 + 1 + n = p0 + (n + 1) := by omega
      rw [this]; exact hlen
    obtain ⟨out', h1, h2, h3, h4⟩ := ih (p0 + 1) _ hlen' (fun p hp1 hp2 => by
      rw [rowSum_rowScale_other _ K p0 p out (by omega)]
      exact hnz p (by omega) (by omega))
    refine ⟨out', h1, by rw [h2, rowScaleLoop_eq, updLoop_length], ?_, ?_⟩
    · intro p c hp1 hp2 hc
      by_cases hp : p = p0
      · subst hp
        have hb : p * K + c < out.length := by
          have := lt_mul_of_block p c (p + (n + 1)) K (by omega) hc
          omega
        rw [h4 _ (by rw [Nat.succ_mul]; omega), rowScale_same _ K p out c hc hb]
      · rw [h3 p c (by omega) (by omega) hc, rowSum_rowScale_other _ K p0 p out (by omega),
          rowScale_other _ K p0 out _ (Or.inr ?_)]
        have : (p0 + 1) * K ≤ p * K := Nat.mul_le_mul_right K (by omega)
        omega
    · intro x hx
      rw [h4 x (by rw [Nat.succ_mul]; omega), rowScale_other _ K p0 out x (Or.inl hx)]

/-- The normalising loop stops at the assertion when some row sum is zero. -/
theorem normalizeLoop_none [Field α] [DecidableEq α] (ofInt : Int → α) (K : Nat)
    (f : List Int) (n : Nat) :
    ∀ (p0 : Nat) (out : List α),
      (∃ p, p0 ≤ p ∧ p < p0 + n ∧ ∑ c ∈ Finset.range K, out.getD (p * K + c) 0 = 0) →
      normalizeLoop ofInt K f n p0 out = none := by
  induction n with
  | zero => rintro p0 out ⟨p, h1, h2, _⟩; omega
  | succ n ih =>
    rintro p0 out ⟨p, h1, h2, h3⟩
    have hsum : rowSumLoop out (p0 * K) K 0 0 = ∑ c ∈ Finset.range K, out.getD (p0 * K + c) 0 := by
      rw [rowSumLoop_spec]; simp
    rw [normalizeLoop, hsum]
    by_cases h0 : ∑ c ∈ Finset.range K, out.getD (p0 * K + c) 0 = 0
    · rw [if_pos h0]
    · rw [if_neg h0]
      have hne : p ≠ p0 := fun h => h0 (h ▸ h3)
      exact ih (p0 + 1) _ ⟨p, by omega, by omega, by
        rw [rowSum_rowScale_other _ K p0 p out (by omega)]; exact h3⟩


theorem memcpy_length (dst src : List α) (n : Nat) (hs : n ≤ src.length) (hd : n ≤ dst.length) :
    (memcpy dst src n).length = dst.length := by
  simp only [memcpy, List.length_append, List.length_take, List.length_drop]
  omega

theorem memcpy_getD [Zero α] (dst src : List α) (n x : Nat) (hs : n ≤ src.length) (hx : x < n) :
    (memcpy dst src n).getD x 0 = src.getD x 0 := by
  have h1 : x < (src.take n).length := by simp; omega
  simp only [memcpy, List.getD_eq_getElem?_getD]
  rw [List.getElem?_append_left h1, List.getElem?_take_of_lt hx]

/-- The buffer after the copy and the weighting loop. -/
theorem weighted_spec [Zero α] [Mul α] (st : MixState α) (out : List α)
    (hcat : st.ptn_like_cat.length = st.ntree * st.nptn)
    (hout : out.length = st.ntree * st.nptn) :
    (weightAll st.weights st.ntree st.nptn 0
      (memcpy out st.ptn_like_cat (st.nptn * st.ntree))).length = out.length ∧
    ∀ p c, p < st.nptn → c < st.ntree →
      (weightAll st.weights st.ntree st.nptn 0
        (memcpy out st.ptn_like_cat (st.nptn * st.ntree))).getD (p * st.ntree + c) 0 =
        st.ptn_like_cat.getD (p * st.ntree + c) 0 * st.weights.getD c 0 := by
  have hcomm : st.nptn * st.ntree = st.ntree * st.nptn := Nat.mul_comm _ _
  have hml : (memcpy out st.ptn_like_cat (st.nptn * st.ntree)).length = out.length :=
    memcpy_length _ _ _ (by rw [hcat, hcomm]) (by rw [hout, hcomm])
  have h := weightAll_spec st.weights st.ntree st.nptn 0
    (memcpy out st.ptn_like_cat (st.nptn * st.ntree))
    (by rw [hml, hout, Nat.zero_add, hcomm])
  simp only [Nat.zero_mul, Nat.zero_add] at h
  obtain ⟨h1, h2, _⟩ := h
  refine ⟨by rw [h1, hml], fun p c hp hc => ?_⟩
  rw [h2 p c (Nat.zero_le _) hp hc, memcpy_getD _ _ _ _ (by rw [hcat, hcomm])
    (lt_mul_of_block p c st.nptn st.ntree hp hc)]

/-- C12: on buffers of `size() * nptn` cells and in exact arithmetic (a
field), `getPostProb(out, false)` goes through when every pattern's weighted
sum `S_p = sum over j of weights[j] * ptn_like_cat[p*K + j]` is non-zero; it
then writes `out[p*K + k] = patn_freqs[p] * weights[k] * ptn_like_cat[p*K + k] / S_p`
for every pattern `p` and tree `k`, each row of `out` sums to `patn_freqs[p]`,
and the state is left as it was. It fails its assertion exactly when some
`S_p` is zero. -/
theorem getPostProb_spec [Field α] [DecidableEq α] (exp log : α → α) (ofInt : Int → α)
    (treeLh : Nat → Nat → α) (st : MixState α) (out : List α)
    (hcat : st.ptn_like_cat.length = st.ntree * st.nptn)
    (hout : out.length = st.ntree * st.nptn) :
    ((∀ p, p < st.nptn →
        ∑ j ∈ Finset.range st.ntree,
          st.weights.getD j 0 * st.ptn_like_cat.getD (p * st.ntree + j) 0 ≠ 0) →
      ∃ out', getPostProb exp log ofInt treeLh st out false = some (out', st) ∧
        out'.length = out.length ∧
        (∀ p k, p < st.nptn → k < st.ntree →
          out'.getD (p * st.ntree + k) 0 =
            ofInt (st.patn_freqs.getD p 0) * st.weights.getD k 0 *
              st.ptn_like_cat.getD (p * st.ntree + k) 0 /
              ∑ j ∈ Finset.range st.ntree,
                st.weights.getD j 0 * st.ptn_like_cat.getD (p * st.ntree + j) 0) ∧
        (∀ p, p < st.nptn →
          ∑ k ∈ Finset.range st.ntree, out'.getD (p * st.ntree + k) 0 =
            ofInt (st.patn_freqs.getD p 0))) ∧
    (getPostProb exp log ofInt treeLh st out false = none ↔
      ∃ p, p < st.nptn ∧
        ∑ j ∈ Finset.range st.ntree,
          st.weights.getD j 0 * st.ptn_like_cat.getD (p * st.ntree + j) 0 = 0) := by
  obtain ⟨hwl, hw⟩ := weighted_spec st out hcat hout
  have hrow : ∀ p, p < st.nptn →
      ∑ c ∈ Finset.range st.ntree,
        (weightAll st.weights st.ntree st.nptn 0
          (memcpy out st.ptn_like_cat (st.nptn * st.ntree))).getD (p * st.ntree + c) 0 =
      ∑ j ∈ Finset.range st.ntree,
        st.weights.getD j 0 * st.ptn_like_cat.getD (p * st.ntree + j) 0 := by
    intro p hp
    apply Finset.sum_congr rfl
    intro c hc
    rw [hw p c hp (Finset.mem_range.mp hc), mul_comm]
  have hlen : (0 + st.nptn) * st.ntree ≤
      (weightAll st.weights st.ntree st.nptn 0
        (memcpy out st.ptn_like_cat (st.nptn * st.ntree))).length := by
    rw [hwl, hout, Nat.zero_add, Nat.mul_comm]
  have hsome : (∀ p, p < st.nptn →
        ∑ j ∈ Finset.range st.ntree,
          st.weights.getD j 0 * st.ptn_like_cat.getD (p * st.ntree + j) 0 ≠ 0) →
      ∃ out', getPostProb exp log ofInt treeLh st out false = some (out', st) ∧
        out'.length = out.length ∧
        (∀ p k, p < st.nptn → k < st.ntree →
          out'.getD (p * st.ntree + k) 0 =
            ofInt (st.patn_freqs.getD p 0) * st.weights.getD k 0 *
              st.ptn_like_cat.getD (p * st.ntree + k) 0 /
              ∑ j ∈ Finset.range st.ntree,
                st.weights.getD j 0 * st.ptn_like_cat.getD (p * st.ntree + j) 0) ∧
        (∀ p, p < st.nptn →
          ∑ k ∈ Finset.range st.ntree, out'.getD (p * st.ntree + k) 0 =
            ofInt (st.patn_freqs.getD p 0)) := by
    intro hnz
    obtain ⟨out', h1, h2, h3, _⟩ := normalizeLoop_some ofInt st.ntree st.patn_freqs st.nptn 0 _
      hlen (fun p _ hp => by
        rw [Nat.zero_add] at hp
        rw [hrow p hp]; exact hnz p hp)
    have hcell : ∀ p k, p < st.nptn → k < st.ntree →
        out'.getD (p * st.ntree + k) 0 =
          ofInt (st.patn_freqs.getD p 0) * st.weights.getD k 0 *
            st.ptn_like_cat.getD (p * st.ntree + k) 0 /
            ∑ j ∈ Finset.range st.ntree,
              st.weights.getD j 0 * st.ptn_like_cat.getD (p * st.ntree + j) 0 := by
      intro p k hp hk
      rw [h3 p k (Nat.zero_le _) (by omega) hk, hrow p hp, hw p k hp hk]
      ring
    refine ⟨out', ?_, by rw [h2, hwl], hcell, ?_⟩
    · simp only [getPostProb, Bool.false_eq_true, if_false]
      rw [h1]
    · intro p hp
      rw [Finset.sum_congr rfl (fun k hk => hcell p k hp (Finset.mem_range.mp hk)),
        ← Finset.sum_div]
      have : ∀ k, ofInt (st.patn_freqs.getD p 0) * st.weights.getD k 0 *
          st.ptn_like_cat.getD (p * st.ntree + k) 0 =
          ofInt (st.patn_freqs.getD p 0) *
            (st.weights.getD k 0 * st.ptn_like_cat.getD (p * st.ntree + k) 0) :=
        fun k => by ring
      simp only [this]
      rw [← Finset.mul_sum, mul_div_assoc, div_self (hnz p hp), mul_one]
  refine ⟨hsome, ?_, ?_⟩
  · intro hnone
    by_contra hex
    obtain ⟨out', h1, _⟩ := hsome (fun p hp hz => hex ⟨p, hp, hz⟩)
    rw [h1] at hnone
    cases hnone
  · rintro ⟨p, hp, hz⟩
    have := normalizeLoop_none ofInt st.ntree st.patn_freqs st.nptn 0
      (weightAll st.weights st.ntree st.nptn 0
        (memcpy out st.ptn_like_cat (st.nptn * st.ntree)))
      ⟨p, Nat.zero_le _, by omega, by rw [hrow p hp]; exact hz⟩
    simp only [getPostProb, Bool.false_eq_true, if_false]
    rw [this]


/-! ## Tree weights by the quasi-Newton strategy -/

theorem getVariablesDivLoop_eq [Zero α] [Div α] (tmp : List α) (sum : α) (n : Nat) :
    ∀ (i : Nat) (w : List α),
      getVariablesDivLoop tmp sum n i w = updLoop (fun c _ => tmp.getD c 0 / sum) n i i w := by
  induction n with
  | zero => intro i w; rfl
  | succ n ih => intro i w; rw [getVariablesDivLoop, ih, updLoop]

theorem copyWeightsLoop_eq [Zero α] (weights : List α) (n : Nat) :
    ∀ (i : Nat) (tmp : List α),
      copyWeightsLoop weights n i tmp = updLoop (fun c _ => weights.getD c 0) n i i tmp := by
  induction n with
  | zero => intro i tmp; rfl
  | succ n ih => intro i tmp; rw [copyWeightsLoop, ih, updLoop]

theorem getVariablesSumLoop_eq [CommSemiring α] (vars : List α) (n : Nat) :
    ∀ (i : Nat) (tmp : List α) (s : α), i + n ≤ tmp.length →
      getVariablesSumLoop vars n i tmp s =
        (updLoop (fun c _ => vars.getD (c + 1) 0) n i i tmp,
         s + ∑ m ∈ Finset.range n, vars.getD (i + m + 1) 0) := by
  induction n with
  | zero => intro i tmp s _; simp [getVariablesSumLoop, updLoop]
  | succ n ih =>
    intro i tmp s h
    rw [getVariablesSumLoop, ih (i + 1) _ _ (by simp; omega), updLoop,
      getD_set_eq tmp i _ (by omega), Finset.sum_range_succ']
    have h2 : ∀ m, i + 1 + m + 1 = i + (m + 1) + 1 := fun m => by omega
    simp only [h2, Nat.add_zero]
    congr 1
    rw [add_assoc, add_comm (vars.getD (i + 1) 0)]

/-- What `getVariables` leaves in `weights`: the cells `1..K` of the variable
array divided by their sum. -/
theorem getVariables_spec [Field α] (K : Nat) (vars weights tmp : List α)
    (hw : K ≤ weights.length) (ht : K ≤ tmp.length) :
    (getVariables K vars weights tmp).1.length = weights.length ∧
    (getVariables K vars weights tmp).2.length = tmp.length ∧
    ∀ k, k < K →
      (getVariables K vars weights tmp).1.getD k 0 =
        vars.getD (k + 1) 0 / ∑ j ∈ Finset.range K, vars.getD (j + 1) 0 := by
  simp only [getVariables]
  rw [getVariablesSumLoop_eq vars K 0 tmp 0 (by omega), getVariablesDivLoop_eq]
  simp only [zero_add, updLoop_length]
  refine ⟨trivial, trivial, fun k hk => ?_⟩
  have h1 := updLoop_hit (fun c _ => (updLoop (fun c _ => vars.getD (c + 1) 0) K 0 0 tmp).getD c 0
      / ∑ m ∈ Finset.range K, vars.getD (m + 1) 0) K 0 0 weights k hk (by omega)
  have h2 := updLoop_hit (fun c _ => vars.getD (c + 1) 0) K 0 0 tmp k hk (by omega)
  simp only [zero_add] at h1 h2
  rw [h1, h2]

theorem setBoundsLoop_frame [Field α] (n : Nat) :
    ∀ (i : Nat) (lo up : List α) (bc : List Bool) (x : Nat), x ≤ i →
      (setBoundsLoop n i lo up bc).1.getD x 0 = lo.getD x 0 ∧
      (setBoundsLoop n i lo up bc).2.1.getD x 0 = up.getD x 0 ∧
      (setBoundsLoop n i lo up bc).2.2.getD x false = bc.getD x false := by
  induction n with
  | zero => intro i lo up bc x _; exact ⟨rfl, rfl, rfl⟩
  | succ n ih =>
    intro i lo up bc x hx
    rw [setBoundsLoop]
    obtain ⟨h1, h2, h3⟩ := ih (i + 1) (lo.set (i + 1) (MIN_PROP α))
      (up.set (i + 1) (MAX_PROP α)) (bc.set (i + 1) true) x (by omega)
    refine ⟨by rw [h1, getD_set_ne _ _ _ _ (by omega)],
      by rw [h2, getD_set_ne _ _ _ _ (by omega)], ?_⟩
    rw [h3]
    simp [List.getD_eq_getElem?_getD, List.getElem?_set_ne (show i + 1 ≠ x by omega)]

/-- The bounds that `setBounds` writes for the cells `1..K`. -/
theorem setBoundsLoop_spec [Field α] (n : Nat) :
    ∀ (i : Nat) (lo up : List α) (bc : List Bool),
      i + n < lo.length → i + n < up.length → i + n < bc.length →
      ∀ j, i < j → j ≤ i + n →
        (setBoundsLoop n i lo up bc).1.getD j 0 = MIN_PROP α ∧
        (setBoundsLoop n i lo up bc).2.1.getD j 0 = MAX_PROP α ∧
        (setBoundsLoop n i lo up bc).2.2.getD j false = true := by
  induction n with
  | zero => intro i lo up bc _ _ _ j h1 h2; omega
  | succ n ih =>
    intro i lo up bc h1 h2 h3 j hj1 hj2
    rw [setBoundsLoop]
    by_cases hj : j = i + 1
    · subst hj
      obtain ⟨f1, f2, f3⟩ := setBoundsLoop_frame n (i + 1) (lo.set (i + 1) (MIN_PROP α))
        (up.set (i + 1) (MAX_PROP α)) (bc.set (i + 1) true) (i + 1) (le_refl _)
      refine ⟨by rw [f1, getD_set_eq _ _ _ (by omega)],
        by rw [f2, getD_set_eq _ _ _ (by omega)], ?_⟩
      rw [f3]
      simp [List.getD_eq_getElem?_getD, show i + 1 < bc.length by omega]
    · exact ih (i + 1) _ _ _ (by simp; omega) (by simp; omega) (by simp; omega) j
        (by omega) (by omega)

theorem MIN_PROP_pos [LinearOrderedField α] : 0 < MIN_PROP α := by
  unfold MIN_PROP; positivity

theorem MIN_le_MAX [LinearOrderedField α] : MIN_PROP α ≤ MAX_PROP α := by
  unfold MIN_PROP MAX_PROP
  rw [div_le_iff₀ (by norm_num)]
  norm_num

/-- Weights obtained by dividing bounded variables by their sum. -/
theorem normalized_weights [LinearOrderedField α] (K : Nat) (hK : 1 ≤ K) (v : List α)
    (hv : ∀ i, 1 ≤ i → i ≤ K → MIN_PROP α ≤ v.getD i 0 ∧ v.getD i 0 ≤ MAX_PROP α) :
    0 < ∑ j ∈ Finset.range K, v.getD (j + 1) 0 ∧
    (∀ k, k < K → 0 ≤ v.getD (k + 1) 0 / ∑ j ∈ Finset.range K, v.getD (j + 1) 0) ∧
    ∑ k ∈ Finset.range K, v.getD (k + 1) 0 / ∑ j ∈ Finset.range K, v.getD (j + 1) 0 = 1 ∧
    (∀ k, k < K →
      MIN_PROP α / (MIN_PROP α + ((K : α) - 1) * MAX_PROP α) ≤
        v.getD (k + 1) 0 / ∑ j ∈ Finset.range K, v.getD (j + 1) 0) := by
  have hpos : ∀ j, j < K → 0 < v.getD (j + 1) 0 := fun j hj =>
    lt_of_lt_of_le MIN_PROP_pos (hv (j + 1) (by omega) (by omega)).1
  have hsum : 0 < ∑ j ∈ Finset.range K, v.getD (j + 1) 0 := by
    apply Finset.sum_pos
    · intro j hj; exact hpos j (Finset.mem_range.mp hj)
    · exact ⟨0, Finset.mem_range.mpr (by omega)⟩
  refine ⟨hsum, fun k hk => div_nonneg (le_of_lt (hpos k hk)) (le_of_lt hsum), ?_, ?_⟩
  · rw [← Finset.sum_div, div_self (ne_of_gt hsum)]
  · intro k hk
    have hmem : k ∈ Finset.range K := Finset.mem_range.mpr hk
    have hsplit := Finset.add_sum_erase (Finset.range K) (fun j => v.getD (j + 1) 0) hmem
    have hrest : ∑ j ∈ (Finset.range K).erase k, v.getD (j + 1) 0 ≤
        ((K : α) - 1) * MAX_PROP α := by
      have h1 : ∑ j ∈ (Finset.range K).erase k, v.getD (j + 1) 0 ≤
          ((Finset.range K).erase k).card • MAX_PROP α := by
        apply Finset.sum_le_card_nsmul
        intro j hj
        have hj' : j < K := Finset.mem_range.mp (Finset.mem_of_mem_erase hj)
        exact (hv (j + 1) (by omega) (by omega)).2
      rw [Finset.card_erase_of_mem hmem, Finset.card_range, nsmul_eq_mul,
        Nat.cast_sub hK, Nat.cast_one] at h1
      exact h1
    have hrest0 : 0 ≤ ∑ j ∈ (Finset.range K).erase k, v.getD (j + 1) 0 := by
      apply Finset.sum_nonneg
      intro j hj
      exact le_of_lt (hpos j (Finset.mem_range.mp (Finset.mem_of_mem_erase hj)))
    have hvk := (hv (k + 1) (by omega) (by omega)).1
    have hmin := @MIN_PROP_pos α _
    have hK1 : (0 : α) ≤ (K : α) - 1 := by
      have : (1 : α) ≤ (K : α) := by exact_mod_cast hK
      linarith
    have hmax : (0 : α) ≤ MAX_PROP α := le_trans (le_of_lt hmin) MIN_le_MAX
    have hden : 0 < MIN_PROP α + ((K : α) - 1) * MAX_PROP α := by
      have := mul_nonneg hK1 hmax
      linarith
    rw [div_le_div_iff₀ hden hsum, ← hsplit]
    simp only
    nlinarith [mul_nonneg (le_of_lt hmin) (sub_nonneg.mpr hrest),
      mul_nonneg (sub_nonneg.mpr hvk) (mul_nonneg hK1 hmax)]


theorem resize_length [Zero α] (l : List α) (n : Nat) : (resize l n).length = n := by
  simp only [resize, List.length_append, List.length_take, List.length_replicate]
  omega

/-- The variable array that the minimizer leaves, read against the bounds of
`setBounds`. -/
theorem minimizer_in_bounds [LinearOrderedField α] (K : Nat)
    (minimize : List α → Nat → List α → List α → List Bool → α → List α × α)
    (hmin : ∀ (vars lo up : List α) (bc : List Bool) (eps : α) (i : Nat), 1 ≤ i → i ≤ K →
      bc.getD i false = true → lo.getD i 0 ≤ up.getD i 0 →
      lo.getD i 0 ≤ (minimize vars K lo up bc eps).1.getD i 0 ∧
        (minimize vars K lo up bc eps).1.getD i 0 ≤ up.getD i 0)
    (vars : List α) (eps : α) :
    ∀ i, 1 ≤ i → i ≤ K →
      MIN_PROP α ≤ (minimize vars K
        (setBounds K (List.replicate (K + 1) (0 : α)) (List.replicate (K + 1) 0)
          (List.replicate (K + 1) false)).1
        (setBounds K (List.replicate (K + 1) (0 : α)) (List.replicate (K + 1) 0)
          (List.replicate (K + 1) false)).2.1
        (setBounds K (List.replicate (K + 1) (0 : α)) (List.replicate (K + 1) 0)
          (List.replicate (K + 1) false)).2.2 eps).1.getD i 0 ∧
      (minimize vars K
        (setBounds K (List.replicate (K + 1) (0 : α)) (List.replicate (K + 1) 0)
          (List.replicate (K + 1) false)).1
        (setBounds K (List.replicate (K + 1) (0 : α)) (List.replicate (K + 1) 0)
          (List.replicate (K + 1) false)).2.1
        (setBounds K (List.replicate (K + 1) (0 : α)) (List.replicate (K + 1) 0)
          (List.replicate (K + 1) false)).2.2 eps).1.getD i 0 ≤ MAX_PROP α := by
  intro i h1 h2
  obtain ⟨b1, b2, b3⟩ := setBoundsLoop_spec (α := α) K 0 (List.replicate (K + 1) 0)
    (List.replicate (K + 1) 0) (List.replicate (K + 1) false) (by simp) (by simp) (by simp)
    i (by omega) (by omega)
  unfold setBounds
  generalize setBoundsLoop K 0 (List.replicate (K + 1) (0 : α)) (List.replicate (K + 1) 0)
    (List.replicate (K + 1) false) = B at b1 b2 b3 ⊢
  have h := hmin vars B.1 B.2.1 B.2.2 eps i h1 h2 b3 (by rw [b1, b2]; exact MIN_le_MAX)
  rw [b1, b2] at h
  exact h

/-- C13: with `K ≥ 1` trees, in exact arithmetic (an ordered field):
`getVariables` sets `weights[i] = v[i+1] / (v[1] + ... + v[K])` for every
`i < K` and every variable array `v` whose cells `1..K` lie in
`[MIN_PROP, MAX_PROP]`; and when the external minimizer returns its variables
inside the bounds it is given, the weights left by `optimizeTreeWeightsByBFGS`
are `K` non-negative numbers that sum to exactly 1. -/
theorem optimizeTreeWeightsByBFGS_normalized [LinearOrderedField α] (K : Nat) (hK : 1 ≤ K)
    (weights tmp_weights : List α) (hw : weights.length = K) :
    (∀ (v tmp : List α), K ≤ tmp.length →
      (∀ i, 1 ≤ i → i ≤ K → MIN_PROP α ≤ v.getD i 0 ∧ v.getD i 0 ≤ MAX_PROP α) →
      ∀ i, i < K → (getVariables K v weights tmp).1.getD i 0 =
        v.getD (i + 1) 0 / ∑ j ∈ Finset.range K, v.getD (j + 1) 0) ∧
    (∀ (minimize : List α → Nat → List α → List α → List Bool → α → List α × α),
      (∀ (vars lo up : List α) (bc : List Bool) (eps : α) (i : Nat), 1 ≤ i → i ≤ K →
        bc.getD i false = true → lo.getD i 0 ≤ up.getD i 0 →
        lo.getD i 0 ≤ (minimize vars K lo up bc eps).1.getD i 0 ∧
          (minimize vars K lo up bc eps).1.getD i 0 ≤ up.getD i 0) →
      (optimizeTreeWeightsByBFGS minimize K weights tmp_weights).2.1.length = K ∧
      (∀ i, i < K → 0 ≤ (optimizeTreeWeightsByBFGS minimize K weights tmp_weights).2.1.getD i 0) ∧
      ∑ i ∈ Finset.range K,
        (optimizeTreeWeightsByBFGS minimize K weights tmp_weights).2.1.getD i 0 = 1) := by
  constructor
  · intro v tmp ht _ i hi
    exact (getVariables_spec K v weights tmp (by omega) ht).2.2 i hi
  · intro minimize hmin
    have hv := minimizer_in_bounds K minimize hmin
      (setVariables K (copyWeightsLoop weights K 0 (resize tmp_weights K))
        (List.replicate (K + 1) 0)) (1 / 1000000)
    have htmp : K ≤ (copyWeightsLoop weights K 0 (resize tmp_weights K)).length := by
      rw [copyWeightsLoop_eq, updLoop_length, resize_length]
    obtain ⟨g1, _, g3⟩ := getVariables_spec K
      (minimize (setVariables K (copyWeightsLoop weights K 0 (resize tmp_weights K))
        (List.replicate (K + 1) 0)) K
        (setBounds K (List.replicate (K + 1) (0 : α)) (List.replicate (K + 1) 0)
          (List.replicate (K + 1) false)).1
        (setBounds K (List.replicate (K + 1) (0 : α)) (List.replicate (K + 1) 0)
          (List.replicate (K + 1) false)).2.1
        (setBounds K (List.replicate (K + 1) (0 : α)) (List.replicate (K + 1) 0)
          (List.replicate (K + 1) false)).2.2 (1 / 1000000)).1
      weights (copyWeightsLoop weights K 0 (resize tmp_weights K)) (by omega) htmp
    obtain ⟨_, n2, n3, _⟩ := normalized_weights K hK _ hv
    simp only [optimizeTreeWeightsByBFGS]
    refine ⟨by rw [g1, hw], fun i hi => by rw [g3 i hi]; exact n2 i hi, ?_⟩
    rw [Finset.sum_congr rfl (fun i hi => g3 i (Finset.mem_range.mp hi))]
    exact n3

/-- C14 (as the code has it): with `K ≥ 1` trees and a minimizer that returns
its variables inside the bounds it is given, every weight left by
`optimizeTreeWeightsByBFGS` is at least
`MIN_PROP / (MIN_PROP + (K - 1) * MAX_PROP)`, which is `1e-3` when `K = 1` and
less otherwise. -/
theorem optimizeTreeWeightsByBFGS_floor [LinearOrderedField α] (K : Nat) (hK : 1 ≤ K)
    (weights tmp_weights : List α) (hw : weights.length = K)
    (minimize : List α → Nat → List α → List α → List Bool → α → List α × α)
    (hmin : ∀ (vars lo up : List α) (bc : List Bool) (eps : α) (i : Nat), 1 ≤ i → i ≤ K →
      bc.getD i false = true → lo.getD i 0 ≤ up.getD i 0 →
      lo.getD i 0 ≤ (minimize vars K lo up bc eps).1.getD i 0 ∧
        (minimize vars K lo up bc eps).1.getD i 0 ≤ up.getD i 0) :
    ∀ i, i < K →
      MIN_PROP α / (MIN_PROP α + ((K : α) - 1) * MAX_PROP α) ≤
        (optimizeTreeWeightsByBFGS minimize K weights tmp_weights).2.1.getD i 0 := by
  intro i hi
  have hv := minimizer_in_bounds K minimize hmin
    (setVariables K (copyWeightsLoop weights K 0 (resize tmp_weights K))
      (List.replicate (K + 1) 0)) (1 / 1000000)
  have htmp : K ≤ (copyWeightsLoop weights K 0 (resize tmp_weights K)).length := by
    rw [copyWeightsLoop_eq, updLoop_length, resize_length]
  obtain ⟨_, _, g3⟩ := getVariables_spec K
    (minimize (setVariables K (copyWeightsLoop weights K 0 (resize tmp_weights K))
      (List.replicate (K + 1) 0)) K
      (setBounds K (List.replicate (K + 1) (0 : α)) (List.replicate (K + 1) 0)
        (List.replicate (K + 1) false)).1
      (setBounds K (List.replicate (K + 1) (0 : α)) (List.replicate (K + 1) 0)
        (List.replicate (K + 1) false)).2.1
      (setBounds K (List.replicate (K + 1) (0 : α)) (List.replicate (K + 1) 0)
        (List.replicate (K + 1) false)).2.2 (1 / 1000000)).1
    weights (copyWeightsLoop weights K 0 (resize tmp_weights K)) (by omega) htmp
  obtain ⟨_, _, _, n4⟩ := normalized_weights K hK _ hv
  simp only [optimizeTreeWeightsByBFGS]
  rw [g3 i hi]
  exact n4 i hi

/-- C14 as stated fails: with two trees and a minimizer that returns the
variables `0.001` and `1000`, both inside the bounds, the first weight left by
`optimizeTreeWeightsByBFGS` is `1/1000001`, below the floor `1e-3`. -/
theorem optimizeTreeWeightsByBFGS_below_floor :
    (optimizeTreeWeightsByBFGS (fun _ _ _ _ _ _ => (([0, 1 / 1000, 1000] : List ℚ), 0)) 2
      [1 / 2, 1 / 2] []).2.1 = [1 / 1000001, 1000000 / 1000001] ∧
    (1 / 1000001 : ℚ) < MIN_PROP ℚ := by
  constructor
  · norm_num [optimizeTreeWeightsByBFGS, getVariables, getVariablesSumLoop,
      getVariablesDivLoop, copyWeightsLoop, resize]
  · unfold MIN_PROP; norm_num


/-- An instance of C13: two trees and a minimizer that returns the lower
bounds. -/
theorem optimizeTreeWeightsByBFGS_normalized_witness :
    ∑ i ∈ Finset.range 2,
      (optimizeTreeWeightsByBFGS (fun _ _ lo _ _ _ => (lo, (0 : ℚ))) 2
        [1 / 4, 3 / 4] []).2.1.getD i 0 = 1 :=
  ((optimizeTreeWeightsByBFGS_normalized 2 (by decide) [1 / 4, 3 / 4] [] rfl).2
    (fun _ _ lo _ _ _ => (lo, (0 : ℚ)))
    (fun _ _ _ _ _ _ _ _ _ h => ⟨le_refl _, h⟩)).2.2

/-- An instance of C14 as amended: two trees and a minimizer that returns the
lower bounds. -/
theorem optimizeTreeWeightsByBFGS_floor_witness :
    MIN_PROP ℚ / (MIN_PROP ℚ + (((2 : ℕ) : ℚ) - 1) * MAX_PROP ℚ) ≤
      (optimizeTreeWeightsByBFGS (fun _ _ lo _ _ _ => (lo, (0 : ℚ))) 2
        [1 / 4, 3 / 4] []).2.1.getD 0 0 :=
  optimizeTreeWeightsByBFGS_floor 2 (by decide) [1 / 4, 3 / 4] [] rfl
    (fun _ _ lo _ _ _ => (lo, (0 : ℚ)))
    (fun _ _ _ _ _ _ _ _ _ h => ⟨le_refl _, h⟩) 0 (by decide)

/-! ## Tree weights by the EM strategy -/

theorem resetWeightsLoop_eq [Zero α] (n : Nat) :
    ∀ (c : Nat) (w : List α), resetWeightsLoop n c w = updLoop (fun _ _ => (0 : α)) n c c w := by
  induction n with
  | zero => intro c w; rfl
  | succ n ih => intro c w; rw [resetWeightsLoop, ih, updLoop]

theorem eStepInner_eq [Zero α] [Add α] (out : List α) (base : Nat) (n : Nat) :
    ∀ (c : Nat) (w : List α),
      eStepInner out base n c w = updLoop (fun c a => a + out.getD (base + c) 0) n c c w := by
  induction n with
  | zero => intro c w; rfl
  | succ n ih => intro c w; rw [eStepInner, ih, updLoop]

theorem mStepLoop_eq [LinearOrderedField α] (ns : α) (n : Nat) :
    ∀ (c : Nat) (w : List α),
      mStepLoop ns n c w =
        updLoop (fun _ a => if a / ns < 1 / 10000000000 then 1 / 10000000000 else a / ns)
          n c c w := by
  induction n with
  | zero => intro c w; rfl
  | succ n ih => intro c w; rw [mStepLoop, ih, updLoop]

/-- The E-step adds to `weights[k]` the column `k` of `pattern_mix_lh`. -/
theorem eStepOuter_spec [CommSemiring α] (out : List α) (K : Nat) (n : Nat) :
    ∀ (p0 : Nat) (w : List α), K ≤ w.length →
      (eStepOuter out K n p0 w).length = w.length ∧
      ∀ k, k < K → (eStepOuter out K n p0 w).getD k 0 =
        w.getD k 0 + ∑ m ∈ Finset.range n, out.getD ((p0 + m) * K + k) 0 := by
  induction n with
  | zero => intro p0 w _; simp [eStepOuter]
  | succ n ih =>
    intro p0 w hw
    rw [eStepOuter, eStepInner_eq]
    obtain ⟨h1, h2⟩ := ih (p0 + 1) (updLoop (fun c a => a + out.getD (p0 * K + c) 0) K 0 0 w)
      (by rw [updLoop_length]; exact hw)
    refine ⟨by rw [h1, updLoop_length], fun k hk => ?_⟩
    have hhit := updLoop_hit (fun c a => a + out.getD (p0 * K + c) 0) K 0 0 w k hk (by omega)
    simp only [zero_add] at hhit
    rw [h2 k hk, hhit, Finset.sum_range_succ']
    have h3 : ∀ m, p0 + 1 + m = p0 + (m + 1) := fun m => by omega
    simp only [h3, Nat.add_zero]
    rw [add_assoc, add_comm (out.getD (p0 * K + k) 0)]

/-- The weights after the reset, the E-step and the M-step. -/
theorem emWeights_spec [LinearOrderedField α] (out w : List α) (K P : Nat) (ns : α)
    (hw : K ≤ w.length) :
    (mStepLoop ns K 0 (eStepOuter out K P 0 (resetWeightsLoop K 0 w))).length = w.length ∧
    ∀ k, k < K →
      (mStepLoop ns K 0 (eStepOuter out K P 0 (resetWeightsLoop K 0 w))).getD k 0 =
        max ((∑ p ∈ Finset.range P, out.getD (p * K + k) 0) / ns) (1 / 10000000000) := by
  have hr : K ≤ (resetWeightsLoop K 0 w).length := by
    rw [resetWeightsLoop_eq, updLoop_length]; exact hw
  obtain ⟨e1, e2⟩ := eStepOuter_spec out K P 0 (resetWeightsLoop K 0 w) hr
  rw [mStepLoop_eq]
  refine ⟨by rw [updLoop_length, e1, resetWeightsLoop_eq, updLoop_length], fun k hk => ?_⟩
  have hhit := updLoop_hit
    (fun _ a => if a / ns < 1 / 10000000000 then 1 / 10000000000 else a / ns) K 0 0
    (eStepOuter out K P 0 (resetWeightsLoop K 0 w)) k hk (by rw [e1]; omega)
  have hz := updLoop_hit (fun _ _ => (0 : α)) K 0 0 w k hk (by omega)
  simp only [zero_add] at hhit hz
  rw [hhit, e2 k hk, resetWeightsLoop_eq, hz]
  simp only [zero_add]
  split
  · rename_i h; rw [max_eq_right (le_of_lt h)]
  · rename_i h; rw [max_eq_left (not_lt.mp h)]


theorem getPostProb_false_inv [Zero α] [Add α] [Mul α] [Div α] [DecidableEq α]
    (exp log : α → α) (ofInt : Int → α) (treeLh : Nat → Nat → α) (st st1 : MixState α)
    (out out' : List α) (h : getPostProb exp log ofInt treeLh st out false = some (out', st1)) :
    st1 = st := by
  simp only [getPostProb, Bool.false_eq_true, if_false] at h
  cases hn : normalizeLoop ofInt st.ntree st.patn_freqs st.nptn 0
      (weightAll st.weights st.ntree st.nptn 0
        (memcpy out st.ptn_like_cat (st.nptn * st.ntree))) with
  | none => rw [hn] at h; cases h
  | some o =>
    rw [hn] at h
    injection h with h
    injection h with _ h2
    exact h2.symm

/-- What one turn of the EM loop does. -/
theorem emStep_inv [LinearOrderedField α] (exp log : α → α) (ofInt : Int → α)
    (treeLh : Nat → Nat → α) (nsites : Nat) (st st' : MixState α) (out out' : List α)
    (score : α) (h : emStep exp log ofInt treeLh nsites st out = some (score, out', st')) :
    getPostProb exp log ofInt treeLh st out false = some (out', st) ∧
    st'.ntree = st.ntree ∧ st'.nptn = st.nptn ∧ st'.patn_freqs = st.patn_freqs ∧
    st'.weights = mStepLoop (ofInt (nsites : Int)) st.ntree 0
      (eStepOuter out' st.ntree st.nptn 0 (resetWeightsLoop st.ntree 0 st.weights)) := by
  unfold emStep at h
  cases hg : getPostProb exp log ofInt treeLh st out false with
  | none => rw [hg] at h; cases h
  | some r =>
    obtain ⟨o, st1⟩ := r
    have hst := getPostProb_false_inv exp log ofInt treeLh st st1 out o hg
    subst hst
    rw [hg] at h
    simp only [computeLikelihood] at h
    injection h with h
    injection h with _ h
    injection h with h1 h2
    subst h1
    subst h2
    exact ⟨rfl, rfl, rfl, rfl, rfl⟩

/-- A finished run of the EM loop either made no turn or left floored
weights. -/
theorem emLoop_done [LinearOrderedField α] (exp log : α → α) (ofInt : Int → α)
    (treeLh : Nat → Nat → α) (nsites : Nat) (max_steps : Int) (fuel : Nat) :
    ∀ (step : Nat) (prev : α) (score : Option α) (st : MixState α) (out : List α)
      (res : Option α × List α × MixState α), st.ntree ≤ st.weights.length →
      emLoop exp log ofInt treeLh nsites max_steps fuel step prev score st out = .done res →
      (res.2.2 = st ∧ ¬ ((step : Int) < max_steps ∨ max_steps = -1)) ∨
      (res.2.2.ntree = st.ntree ∧
        ∀ k, k < st.ntree → 1 / 10000000000 ≤ res.2.2.weights.getD k 0) := by
  induction fuel with
  | zero =>
    intro step prev score st out res _ h
    rw [emLoop] at h
    by_cases hc : (step : Int) < max_steps ∨ max_steps = -1
    · rw [if_pos hc] at h; cases h
    · rw [if_neg hc] at h
      injection h with h
      left; rw [← h]; exact ⟨rfl, hc⟩
  | succ fuel ih =>
    intro step prev score st out res hw h
    rw [emLoop] at h
    by_cases hc : (step : Int) < max_steps ∨ max_steps = -1
    · rw [if_pos hc] at h
      cases hs : emStep exp log ofInt treeLh nsites st out with
      | none => rw [hs] at h; cases h
      | some r =>
        obtain ⟨score', out1, st1⟩ := r
        rw [hs] at h
        simp only at h
        obtain ⟨_, e2, _, _, e5⟩ := emStep_inv exp log ofInt treeLh nsites st st1 out out1
          score' hs
        obtain ⟨w1, w2⟩ := emWeights_spec out1 st.weights st.ntree st.nptn
          (ofInt (nsites : Int)) hw
        have hfloor : ∀ k, k < st.ntree → 1 / 10000000000 ≤ st1.weights.getD k 0 := by
          intro k hk
          rw [e5, w2 k hk]
          exact le_max_right _ _
        right
        by_cases hb : score' < prev + 1 / 1000000
        · rw [if_pos hb] at h
          injection h with h
          rw [← h]
          exact ⟨e2, hfloor⟩
        · rw [if_neg hb] at h
          rcases ih (step + 1) score' (some score') st1 out1 res
            (by rw [e2, e5, w1]; exact hw) h with ⟨h1, _⟩ | ⟨h1, h2⟩
          · rw [h1]; exact ⟨e2, hfloor⟩
          · exact ⟨by rw [h1, e2], fun k hk => h2 k (by rw [e2]; exact hk)⟩
    · rw [if_neg hc] at h
      injection h with h
      left; rw [← h]; exact ⟨rfl, hc⟩

/-- With a step cap other than `-1`, a fuel of `max_steps - step` turns is
enough for the EM loop to end. -/
theorem emLoop_enough_fuel [LinearOrderedField α] (exp log : α → α) (ofInt : Int → α)
    (treeLh : Nat → Nat → α) (nsites : Nat) (max_steps : Int) (hm : max_steps ≠ -1)
    (fuel : Nat) :
    ∀ (step : Nat) (prev : α) (score : Option α) (st : MixState α) (out : List α),
      max_steps - step ≤ fuel →
      emLoop exp log ofInt treeLh nsites max_steps fuel step prev score st out ≠ .noFuel := by
  induction fuel with
  | zero =>
    intro step prev score st out hf
    rw [emLoop, if_neg (by rintro (h | h); omega; exact hm h)]
    intro h; cases h
  | succ fuel ih =>
    intro step prev score st out hf
    rw [emLoop]
    by_cases hc : (step : Int) < max_steps ∨ max_steps = -1
    · rw [if_pos hc]
      cases hs : emStep exp log ofInt treeLh nsites st out with
      | none => intro h; cases h
      | some r =>
        obtain ⟨score', out1, st1⟩ := r
        simp only
        by_cases hb : score' < prev + 1 / 1000000
        · rw [if_pos hb]; intro h; cases h
        · rw [if_neg hb]
          exact ih (step + 1) _ _ _ _ (by push_cast; omega)
    · rw [if_neg hc]; intro h; cases h


/-- Flooring numbers `a 0, ..., a (K-1) ≥ 0` of sum 1 at `t ∈ [0, 1]` gives a
sum between `1` and `1 + (K - 1) * t`. -/
theorem floor_sum_bounds [LinearOrderedField α] (K : Nat) (hK : 1 ≤ K) (a : Nat → α) (t : α)
    (ht0 : 0 ≤ t) (ht1 : t ≤ 1) (ha : ∀ k, k < K → 0 ≤ a k)
    (hsum : ∑ k ∈ Finset.range K, a k = 1) :
    1 ≤ ∑ k ∈ Finset.range K, max (a k) t ∧
      ∑ k ∈ Finset.range K, max (a k) t ≤ 1 + ((K : α) - 1) * t := by
  constructor
  · rw [← hsum]
    exact Finset.sum_le_sum (fun k _ => le_max_left _ _)
  · by_cases hex : ∃ j, j < K ∧ t ≤ a j
    · obtain ⟨j, hj, htj⟩ := hex
      have hmem : j ∈ Finset.range K := Finset.mem_range.mpr hj
      rw [← Finset.add_sum_erase (Finset.range K) (fun k => max (a k) t) hmem]
      have h1 : ∑ k ∈ (Finset.range K).erase j, max (a k) t ≤
          ∑ k ∈ (Finset.range K).erase j, (a k + t) := by
        apply Finset.sum_le_sum
        intro k hk
        have := ha k (Finset.mem_range.mp (Finset.mem_of_mem_erase hk))
        exact max_le (by linarith) (by linarith)
      have h2 : ∑ k ∈ (Finset.range K).erase j, (a k + t) =
          ∑ k ∈ (Finset.range K).erase j, a k + ((K : α) - 1) * t := by
        rw [Finset.sum_add_distrib, Finset.sum_const, Finset.card_erase_of_mem hmem,
          Finset.card_range, nsmul_eq_mul, Nat.cast_sub hK, Nat.cast_one]
      have h3 := Finset.add_sum_erase (Finset.range K) a hmem
      rw [max_eq_left htj]
      linarith
    · have hall : ∀ k, k < K → a k < t := fun k hk =>
        lt_of_not_le (fun h => hex ⟨k, hk, h⟩)
      have h1 : ∑ k ∈ Finset.range K, max (a k) t = ∑ _k ∈ Finset.range K, t := by
        apply Finset.sum_congr rfl
        intro k hk
        exact max_eq_right (le_of_lt (hall k (Finset.mem_range.mp hk)))
      rw [h1, Finset.sum_const, Finset.card_range, nsmul_eq_mul]
      nlinarith


/-- The state that `computeLikelihood` leaves: the two buffers keep their
sizes, the other fields are untouched. -/
theorem computeLikelihood_state [CommSemiring α] (exp log : α → α) (ofInt : Int → α)
    (treeLh : Nat → Nat → α) (st : MixState α) (plh : Option (List α))
    (hcat : st.ptn_like_cat.length = st.ntree * st.nptn)
    (htree : st._ptn_like_cat.length = st.ntree * st.nptn) :
    (computeLikelihood exp log ofInt treeLh st plh).2.2.ntree = st.ntree ∧
    (computeLikelihood exp log ofInt treeLh st plh).2.2.nptn = st.nptn ∧
    (computeLikelihood exp log ofInt treeLh st plh).2.2.weights = st.weights ∧
    (computeLikelihood exp log ofInt treeLh st plh).2.2.patn_freqs = st.patn_freqs ∧
    (computeLikelihood exp log ofInt treeLh st plh).2.2.ptn_like_cat.length =
      st.ntree * st.nptn ∧
    (computeLikelihood exp log ofInt treeLh st plh).2.2._ptn_like_cat.length =
      st.ntree * st.nptn := by
  have h1 := (perTreeLoop_spec treeLh st.nptn st.ntree 0 st._ptn_like_cat
    (by rw [htree]; simp)).1
  have h2 := (reorgOuter_spec exp st.ntree st.nptn
    (perTreeLoop treeLh st.nptn st.ntree 0 0 st._ptn_like_cat) st.ntree 0 st.ptn_like_cat
    (by simp) (by rw [hcat])).1
  simp only [Nat.zero_mul] at h1 h2
  simp only [computeLikelihood]
  exact ⟨trivial, trivial, trivial, trivial, by rw [h2, hcat], by rw [h1, htree]⟩

/-- The content of `ptn_like_cat` after `computeLikelihood`. -/
theorem computeLikelihood_layout [Zero α] [Add α] [Mul α] (exp log : α → α) (ofInt : Int → α)
    (treeLh : Nat → Nat → α) (st : MixState α) (plh : Option (List α))
    (hcat : st.ptn_like_cat.length = st.ntree * st.nptn)
    (htree : st._ptn_like_cat.length = st.ntree * st.nptn) :
    ∀ k p, k < st.ntree → p < st.nptn →
      (computeLikelihood exp log ofInt treeLh st plh).2.2.ptn_like_cat.getD
        (p * st.ntree + k) 0 = exp (treeLh k p) := by
  have htree0 := perTreeLoop_spec treeLh st.nptn st.ntree 0 st._ptn_like_cat
    (by rw [htree]; simp)
  simp only [Nat.zero_mul, Nat.zero_add] at htree0
  obtain ⟨_, ht2, _⟩ := htree0
  have hcat0 := reorgOuter_spec exp st.ntree st.nptn
    (perTreeLoop treeLh st.nptn st.ntree 0 0 st._ptn_like_cat) st.ntree 0 st.ptn_like_cat
    (by simp) (by rw [hcat])
  simp only [Nat.zero_mul, Nat.zero_add] at hcat0
  obtain ⟨_, hc2, _⟩ := hcat0
  intro k p hk hp
  simp only [computeLikelihood]
  rw [Nat.add_comm, hc2 k p (Nat.zero_le _) hk hp, ht2 k p (Nat.zero_le _) hk hp]

/-- After `computeLikelihood` with a positive `exp`, the setting of the EM
strategy still holds and every likelihood in `ptn_like_cat` is positive. -/
theorem computeLikelihood_ready [LinearOrderedField α] (exp log : α → α)
    (treeLh : Nat → Nat → α) (nsites : Nat) (st : MixState α) (out : List α)
    (hexp : ∀ x, 0 < exp x) (h : EMReady nsites st out) :
    EMReady nsites (computeLikelihood exp log Int.cast treeLh st none).2.2 out ∧
    ∀ p k, p < st.nptn → k < st.ntree →
      0 < (computeLikelihood exp log Int.cast treeLh st none).2.2.ptn_like_cat.getD
        (p * st.ntree + k) 0 := by
  obtain ⟨r1, r2, r3, r4, r5, r6, r7, r8, r9⟩ := h
  obtain ⟨s1, s2, s3, s4, s5, s6⟩ :=
    computeLikelihood_state exp log Int.cast treeLh st none r3 r4
  have hl := computeLikelihood_layout exp log Int.cast treeLh st none r3 r4
  refine ⟨⟨by rw [s1]; exact r1, by rw [s3, s1]; exact r2, by rw [s5, s1, s2],
    by rw [s6, s1, s2], by rw [s1, s2]; exact r5, ?_, ?_, ?_, r9⟩, ?_⟩
  · intro k hk; rw [s3]; exact r6 k (by rw [← s1]; exact hk)
  · intro p hp; rw [s4]; exact r7 p (by rw [← s2]; exact hp)
  · rw [s2, s4]; exact r8
  · intro p k hp hk
    rw [hl k p hk hp]
    exact hexp _


/-- The run of `getPostProb(out, false)` when no weighted sum is zero. -/
theorem getPostProb_cells [Field α] [DecidableEq α] (exp log : α → α) (ofInt : Int → α)
    (treeLh : Nat → Nat → α) (st : MixState α) (out : List α)
    (hcat : st.ptn_like_cat.length = st.ntree * st.nptn)
    (hout : out.length = st.ntree * st.nptn)
    (hnz : ∀ p, p < st.nptn →
      ∑ j ∈ Finset.range st.ntree,
        st.weights.getD j 0 * st.ptn_like_cat.getD (p * st.ntree + j) 0 ≠ 0) :
    ∃ out', getPostProb exp log ofInt treeLh st out false = some (out', st) ∧
      out'.length = out.length ∧
      (∀ p k, p < st.nptn → k < st.ntree →
        out'.getD (p * st.ntree + k) 0 =
          ofInt (st.patn_freqs.getD p 0) * st.weights.getD k 0 *
            st.ptn_like_cat.getD (p * st.ntree + k) 0 /
            ∑ j ∈ Finset.range st.ntree,
              st.weights.getD j 0 * st.ptn_like_cat.getD (p * st.ntree + j) 0) ∧
      (∀ p, p < st.nptn →
        ∑ k ∈ Finset.range st.ntree, out'.getD (p * st.ntree + k) 0 =
          ofInt (st.patn_freqs.getD p 0)) := by
  obtain ⟨hwl, hw⟩ := weighted_spec st out hcat hout
  have hrow : ∀ p, p < st.nptn →
      ∑ c ∈ Finset.range st.ntree,
        (weightAll st.weights st.ntree st.nptn 0
          (memcpy out st.ptn_like_cat (st.nptn * st.ntree))).getD (p * st.ntree + c) 0 =
      ∑ j ∈ Finset.range st.ntree,
        st.weights.getD j 0 * st.ptn_like_cat.getD (p * st.ntree + j) 0 := by
    intro p hp
    apply Finset.sum_congr rfl
    intro c hc
    rw [hw p c hp (Finset.mem_range.mp hc), mul_comm]
  obtain ⟨out', h1, h2, h3, _⟩ := normalizeLoop_some ofInt st.ntree st.patn_freqs st.nptn 0
    (weightAll st.weights st.ntree st.nptn 0
      (memcpy out st.ptn_like_cat (st.nptn * st.ntree)))
    (by rw [hwl, hout, Nat.zero_add, Nat.mul_comm]) (fun p _ hp => by
      rw [Nat.zero_add] at hp
      rw [hrow p hp]; exact hnz p hp)
  have hcell : ∀ p k, p < st.nptn → k < st.ntree →
      out'.getD (p * st.ntree + k) 0 =
        ofInt (st.patn_freqs.getD p 0) * st.weights.getD k 0 *
          st.ptn_like_cat.getD (p * st.ntree + k) 0 /
          ∑ j ∈ Finset.range st.ntree,
            st.weights.getD j 0 * st.ptn_like_cat.getD (p * st.ntree + j) 0 := by
    intro p k hp hk
    rw [h3 p k (Nat.zero_le _) (by omega) hk, hrow p hp, hw p k hp hk]
    ring
  refine ⟨out', ?_, by rw [h2, hwl], hcell, ?_⟩
  · simp only [getPostProb, Bool.false_eq_true, if_false]
    rw [h1]
  · intro p hp
    rw [Finset.sum_congr rfl (fun k hk => hcell p k hp (Finset.mem_range.mp hk)),
      ← Finset.sum_div]
    have : ∀ k, ofInt (st.patn_freqs.getD p 0) * st.weights.getD k 0 *
        st.ptn_like_cat.getD (p * st.ntree + k) 0 =
        ofInt (st.patn_freqs.getD p 0) *
          (st.weights.getD k 0 * st.ptn_like_cat.getD (p * st.ntree + k) 0) :=
      fun k => by ring
    simp only [this]
    rw [← Finset.mul_sum, mul_div_assoc, div_self (hnz p hp), mul_one]

/-- One turn of the EM loop in the setting of the EM strategy with positive
likelihoods: the assertion holds, the setting is kept, and the new weights sum
to a number between `1` and `1 + (K - 1) * 1e-10`. -/
theorem emStep_ready [LinearOrderedField α] (exp log : α → α) (treeLh : Nat → Nat → α)
    (nsites : Nat) (st : MixState α) (out : List α) (hexp : ∀ x, 0 < exp x)
    (h : EMReady nsites st out)
    (hpos : ∀ p k, p < st.nptn → k < st.ntree → 0 < st.ptn_like_cat.getD (p * st.ntree + k) 0) :
    ∃ score out' st', emStep exp log Int.cast treeLh nsites st out = some (score, out', st') ∧
      EMReady nsites st' out' ∧ st'.ntree = st.ntree ∧ st'.nptn = st.nptn ∧
      (∀ p k, p < st'.nptn → k < st'.ntree →
        0 < st'.ptn_like_cat.getD (p * st'.ntree + k) 0) ∧
      1 ≤ ∑ k ∈ Finset.range st.ntree, st'.weights.getD k 0 ∧
      ∑ k ∈ Finset.range st.ntree, st'.weights.getD k 0 ≤
        1 + ((st.ntree : α) - 1) * (1 / 10000000000) := by
  obtain ⟨r1, r2, r3, r4, r5, r6, r7, r8, r9⟩ := h
  have hS : ∀ p, p < st.nptn → 0 < ∑ j ∈ Finset.range st.ntree,
      st.weights.getD j 0 * st.ptn_like_cat.getD (p * st.ntree + j) 0 := by
    intro p hp
    apply Finset.sum_pos
    · intro j hj
      exact mul_pos (r6 j (Finset.mem_range.mp hj)) (hpos p j hp (Finset.mem_range.mp hj))
    · exact ⟨0, Finset.mem_range.mpr (by omega)⟩
  obtain ⟨out', g1, g2, g3, g4⟩ := getPostProb_cells exp log Int.cast treeLh st out r3 r5
    (fun p hp => ne_of_gt (hS p hp))
  obtain ⟨w1, w2⟩ := emWeights_spec out' st.weights st.ntree st.nptn
    ((nsites : Int) : α) (by omega)
  have hns : (0 : α) < ((nsites : Int) : α) := by
    have : (0 : Int) < (nsites : Int) := by exact_mod_cast r9
    exact_mod_cast this
  have hcellnn : ∀ p k, p < st.nptn → k < st.ntree → 0 ≤ out'.getD (p * st.ntree + k) 0 := by
    intro p k hp hk
    rw [g3 p k hp hk]
    apply div_nonneg _ (le_of_lt (hS p hp))
    apply mul_nonneg (mul_nonneg _ (le_of_lt (r6 k hk))) (le_of_lt (hpos p k hp hk))
    exact_mod_cast r7 p hp
  have ha : ∀ k, k < st.ntree →
      0 ≤ (∑ p ∈ Finset.range st.nptn, out'.getD (p * st.ntree + k) 0) / ((nsites : Int) : α) :=
    fun k hk => div_nonneg
      (Finset.sum_nonneg (fun p hp => hcellnn p k (Finset.mem_range.mp hp) hk)) (le_of_lt hns)
  have hsum : ∑ k ∈ Finset.range st.ntree,
      (∑ p ∈ Finset.range st.nptn, out'.getD (p * st.ntree + k) 0) / ((nsites : Int) : α)
      = 1 := by
    rw [← Finset.sum_div, Finset.sum_comm,
      Finset.sum_congr rfl (fun p hp => g4 p (Finset.mem_range.mp hp)), ← Int.cast_sum, r8,
      div_self (ne_of_gt hns)]
  obtain ⟨b1, b2⟩ := floor_sum_bounds st.ntree r1 _ (1 / 10000000000 : α) (by positivity)
    (by rw [div_le_one (by positivity)]; norm_num) ha hsum
  -- the state with the new weights
  have hready : EMReady nsites
      { st with weights := (mStepLoop ((nsites : Int) : α) st.ntree 0
          (eStepOuter out' st.ntree st.nptn 0 (resetWeightsLoop st.ntree 0 st.weights))) }
      out' := by
    refine ⟨r1, by simp only; rw [w1, r2], r3, r4, by rw [g2]; exact r5, ?_, r7, r8, r9⟩
    intro k hk
    simp only at hk ⊢
    rw [w2 k hk]
    exact lt_of_lt_of_le (by positivity) (le_max_right _ _)
  obtain ⟨c1, c2⟩ := computeLikelihood_ready exp log treeLh nsites _ out' hexp hready
  obtain ⟨s1, s2, s3, _⟩ := computeLikelihood_state exp log Int.cast treeLh
    { st with weights := (mStepLoop ((nsites : Int) : α) st.ntree 0
        (eStepOuter out' st.ntree st.nptn 0 (resetWeightsLoop st.ntree 0 st.weights))) }
    none r3 r4
  refine ⟨(computeLikelihood exp log Int.cast treeLh
    { st with weights := (mStepLoop ((nsites : Int) : α) st.ntree 0
        (eStepOuter out' st.ntree st.nptn 0 (resetWeightsLoop st.ntree 0 st.weights))) }
    none).1, out', _, ?_, c1, s1, s2, ?_, ?_, ?_⟩
  · unfold emStep
    rw [g1]
  · intro p k hp hk
    rw [s1, s2] at *
    exact c2 p k hp hk
  · rw [s3]
    simp only
    rw [Finset.sum_congr rfl (fun k hk => w2 k (Finset.mem_range.mp hk))]
    exact b1
  · rw [s3]
    simp only
    rw [Finset.sum_congr rfl (fun k hk => w2 k (Finset.mem_range.mp hk))]
    exact b2


/-- A finished run of the EM loop in the setting of the EM strategy either
made no turn or left weights whose sum lies between `1` and
`1 + (K - 1) * 1e-10`. -/
theorem emLoop_sum [LinearOrderedField α] (exp log : α → α) (treeLh : Nat → Nat → α)
    (nsites : Nat) (max_steps : Int) (hexp : ∀ x, 0 < exp x) (fuel : Nat) :
    ∀ (step : Nat) (prev : α) (score : Option α) (st : MixState α) (out : List α)
      (res : Option α × List α × MixState α), EMReady nsites st out →
      (∀ p k, p < st.nptn → k < st.ntree →
        0 < st.ptn_like_cat.getD (p * st.ntree + k) 0) →
      emLoop exp log Int.cast treeLh nsites max_steps fuel step prev score st out = .done res →
      (res.2.2 = st ∧ ¬ ((step : Int) < max_steps ∨ max_steps = -1)) ∨
      (1 ≤ ∑ k ∈ Finset.range st.ntree, res.2.2.weights.getD k 0 ∧
        ∑ k ∈ Finset.range st.ntree, res.2.2.weights.getD k 0 ≤
          1 + ((st.ntree : α) - 1) * (1 / 10000000000)) := by
  induction fuel with
  | zero =>
    intro step prev score st out res _ _ h
    rw [emLoop] at h
    by_cases hc : (step : Int) < max_steps ∨ max_steps = -1
    · rw [if_pos hc] at h; cases h
    · rw [if_neg hc] at h
      injection h with h
      left; rw [← h]; exact ⟨rfl, hc⟩
  | succ fuel ih =>
    intro step prev score st out res hr hp h
    rw [emLoop] at h
    by_cases hc : (step : Int) < max_steps ∨ max_steps = -1
    · rw [if_pos hc] at h
      obtain ⟨score', out1, st1, e1, e2, e3, _, e5, e6, e7⟩ :=
        emStep_ready exp log treeLh nsites st out hexp hr hp
      rw [e1] at h
      simp only at h
      right
      by_cases hb : score' < prev + 1 / 1000000
      · rw [if_pos hb] at h
        injection h with h
        rw [← h]
        exact ⟨e6, e7⟩
      · rw [if_neg hb] at h
        rcases ih (step + 1) score' (some score') st1 out1 res e2 e5 h with ⟨h1, _⟩ | ⟨h1, h2⟩
        · rw [h1]; exact ⟨e6, e7⟩
        · rw [e3] at h1 h2; exact ⟨h1, h2⟩
    · rw [if_neg hc] at h
      injection h with h
      left; rw [← h]; exact ⟨rfl, hc⟩

/-- In the setting of the EM strategy with positive likelihoods the EM loop
with a step cap ends with a result when it is given `max_steps - step`
turns. -/
theorem emLoop_total [LinearOrderedField α] (exp log : α → α) (treeLh : Nat → Nat → α)
    (nsites : Nat) (max_steps : Int) (hm : max_steps ≠ -1) (hexp : ∀ x, 0 < exp x)
    (fuel : Nat) :
    ∀ (step : Nat) (prev : α) (score : Option α) (st : MixState α) (out : List α),
      EMReady nsites st out →
      (∀ p k, p < st.nptn → k < st.ntree →
        0 < st.ptn_like_cat.getD (p * st.ntree + k) 0) →
      max_steps - step ≤ fuel →
      ∃ res, emLoop exp log Int.cast treeLh nsites max_steps fuel step prev score st out =
        .done res := by
  induction fuel with
  | zero =>
    intro step prev score st out _ _ hf
    rw [emLoop, if_neg (by rintro (h | h); omega; exact hm h)]
    exact ⟨_, rfl⟩
  | succ fuel ih =>
    intro step prev score st out hr hp hf
    rw [emLoop]
    by_cases hc : (step : Int) < max_steps ∨ max_steps = -1
    · rw [if_pos hc]
      obtain ⟨score', out1, st1, e1, e2, _, _, e5, _, _⟩ :=
        emStep_ready exp log treeLh nsites st out hexp hr hp
      rw [e1]
      simp only
      by_cases hb : score' < prev + 1 / 1000000
      · rw [if_pos hb]; exact ⟨_, rfl⟩
      · rw [if_neg hb]
        exact ih (step + 1) _ _ st1 out1 e2 e5 (by push_cast; omega)
    · rw [if_neg hc]; exact ⟨_, rfl⟩

/-- C16 (as the code has it): in exact arithmetic, with positive likelihoods
(`exp` positive), positive weights at the start, non-negative pattern
frequencies whose sum is the number of sites `nsites > 0`, and buffers of
`K * nptn` cells for `K = size() ≥ 1` trees: the weights left by a finished
run of `optimizeTreeWeightsByEM` with `max_steps >= 1` or `max_steps = -1` sum
to a number between `1` and `1 + (K - 1) * 1e-10`, hence to 1 within `1e-9`
when `K ≤ 11`; and with a step cap `max_steps >= 0` a run of `max_steps`
turns ends with a result. -/
theorem optimizeTreeWeightsByEM_sum [LinearOrderedField α] (exp log : α → α)
    (treeLh : Nat → Nat → α) (nsites : Nat) (st : MixState α) (out : List α)
    (hexp : ∀ x, 0 < exp x) (h : EMReady nsites st out) :
    (∀ (fuel : Nat) (max_steps : Int) (res : Option α × List α × MixState α),
      (1 ≤ max_steps ∨ max_steps = -1) →
      optimizeTreeWeightsByEM exp log Int.cast treeLh nsites fuel st out max_steps =
        .done res →
      1 ≤ ∑ k ∈ Finset.range st.ntree, res.2.2.weights.getD k 0 ∧
      ∑ k ∈ Finset.range st.ntree, res.2.2.weights.getD k 0 ≤
        1 + ((st.ntree : α) - 1) * (1 / 10000000000) ∧
      (st.ntree ≤ 11 →
        |∑ k ∈ Finset.range st.ntree, res.2.2.weights.getD k 0 - 1| ≤ 1 / 1000000000)) ∧
    (∀ (fuel : Nat) (max_steps : Int), 0 ≤ max_steps → max_steps ≤ fuel →
      ∃ res, optimizeTreeWeightsByEM exp log Int.cast treeLh nsites fuel st out max_steps =
        .done res) := by
  obtain ⟨c1, c2⟩ := computeLikelihood_ready exp log treeLh nsites st out hexp h
  obtain ⟨s1, s2, _⟩ := computeLikelihood_state exp log Int.cast treeLh st none h.2.2.1
    h.2.2.2.1
  constructor
  · intro fuel max_steps res hm hd
    unfold optimizeTreeWeightsByEM at hd
    rcases emLoop_sum exp log treeLh nsites max_steps hexp fuel 0 _ none _ out res c1
      (by rw [s1, s2]; exact c2) hd with ⟨_, h2⟩ | ⟨h1, h2⟩
    · exfalso
      apply h2
      rcases hm with hm | hm
      · left; simp only [Nat.cast_zero]; omega
      · right; exact hm
    · rw [s1] at h1 h2
      refine ⟨h1, h2, fun hK => ?_⟩
      have hK' : (st.ntree : α) ≤ 11 := by exact_mod_cast hK
      rw [abs_le]
      constructor
      · linarith
      · have : ((st.ntree : α) - 1) * (1 / 10000000000) ≤ 1 / 1000000000 := by
          have : ((st.ntree : α) - 1) ≤ 10 := by linarith
          calc ((st.ntree : α) - 1) * (1 / 10000000000)
              ≤ 10 * (1 / 10000000000) := by
                apply mul_le_mul_of_nonneg_right this (by positivity)
            _ = 1 / 1000000000 := by norm_num
        linarith
  · intro fuel max_steps h0 hf
    unfold optimizeTreeWeightsByEM
    exact emLoop_total exp log treeLh nsites max_steps (by omega) hexp fuel 0 _ _ _ out c1
      (by rw [s1, s2]; exact c2) (by simp only [Nat.cast_zero]; omega)


theorem getD_replicate_lt [Zero α] (n k : Nat) (a : α) (hk : k < n) :
    (List.replicate n a).getD k 0 = a := by
  simp [List.getD_eq_getElem?_getD, List.getElem?_replicate, hk]

theorem emExample_ready : EMReady 1 emExample (List.replicate 12 0) := by
  refine ⟨by decide, rfl, rfl, rfl, rfl, ?_, ?_, ?_, by decide⟩
  · intro k hk
    have hk' : k < 12 := hk
    show 0 < (List.replicate 12 (1 / 12 : ℚ)).getD k 0
    rw [getD_replicate_lt 12 k _ hk']
    norm_num
  · intro p hp
    have hp' : p < 1 := hp
    have : p = 0 := by omega
    subst this
    decide
  · decide

/-- C16 as stated fails: with twelve trees, one pattern, equal weights and
the positive likelihoods `1` (first tree) and `1e-20` (the eleven others), one
turn of `optimizeTreeWeightsByEM` floors eleven weights at `1e-10` and leaves
weights whose sum exceeds `1 + 1e-9`. -/
theorem optimizeTreeWeightsByEM_sum_exceeds :
    match optimizeTreeWeightsByEM (fun x : ℚ => max x (1 / 100000000000000000000))
        (fun x => x) Int.cast (fun t _ => if t = 0 then 1 else 0) 1 1 emExample
        (List.replicate 12 0) 1 with
    | .done res => 1 + 1 / 1000000000 < ∑ k ∈ Finset.range 12, res.2.2.weights.getD k 0
    | _ => False := by
  have hexp : ∀ x : ℚ, 0 < max x (1 / 100000000000000000000) :=
    fun x => lt_of_lt_of_le (by norm_num) (le_max_right _ _)
  obtain ⟨c1, c2⟩ := computeLikelihood_ready (fun x : ℚ => max x (1 / 100000000000000000000))
    (fun x => x) (fun t _ => if t = 0 then 1 else 0) 1 emExample (List.replicate 12 0) hexp
    emExample_ready
  obtain ⟨s1, s2, s3, s4, _⟩ := computeLikelihood_state
    (fun x : ℚ => max x (1 / 100000000000000000000)) (fun x => x) Int.cast
    (fun t _ => if t = 0 then 1 else 0) emExample none rfl rfl
  have hlay := computeLikelihood_layout (fun x : ℚ => max x (1 / 100000000000000000000))
    (fun x => x) Int.cast (fun t _ => if t = 0 then 1 else 0) emExample none rfl rfl
  unfold optimizeTreeWeightsByEM
  generalize (computeLikelihood (fun x : ℚ => max x (1 / 100000000000000000000))
    (fun x => x) Int.cast (fun t _ => if t = 0 then 1 else 0) emExample none).1 = prev0
  generalize (computeLikelihood (fun x : ℚ => max x (1 / 100000000000000000000))
    (fun x => x) Int.cast (fun t _ => if t = 0 then 1 else 0) emExample none).2.2 = st0
    at c1 c2 s1 s2 s3 s4 hlay ⊢
  have hK : st0.ntree = 12 := s1
  have hP : st0.nptn = 1 := s2
  have hW : st0.weights = List.replicate 12 (1 / 12) := s3
  have hF : st0.patn_freqs = [1] := s4
  obtain ⟨score', out1, st1, e1, _⟩ := emStep_ready
    (fun x : ℚ => max x (1 / 100000000000000000000)) (fun x => x)
    (fun t _ => if t = 0 then 1 else 0) 1 st0 (List.replicate 12 0) hexp c1
    (by rw [hK, hP]; exact c2)
  have hrun : emLoop (fun x : ℚ => max x (1 / 100000000000000000000)) (fun x => x) Int.cast
      (fun t _ => if t = 0 then 1 else 0) 1 1 1 0 prev0 none st0 (List.replicate 12 0) =
      .done (some score', out1, st1) := by
    rw [emLoop, if_pos (Or.inl (by norm_num)), e1]
    simp only
    by_cases hb : score' < prev0 + 1 / 1000000
    · rw [if_pos hb]
    · rw [if_neg hb, emLoop, if_neg (by norm_num)]
  rw [hrun]
  simp only
  -- the new weights
  obtain ⟨g1, _, _, _, g5⟩ := emStep_inv _ _ _ _ 1 st0 st1 _ out1 score' e1
  obtain ⟨_, w2⟩ := emWeights_spec out1 st0.weights st0.ntree st0.nptn
    (((1 : ℕ) : Int) : ℚ) (by rw [hW, hK]; rfl)
  have hL : ∀ k, k < 12 → st0.ptn_like_cat.getD k 0 =
      if k = 0 then 1 else 1 / 100000000000000000000 := by
    intro k hk
    have := hlay k 0 hk (by decide)
    simp only [Nat.zero_mul, Nat.zero_add] at this
    rw [this]
    by_cases h0 : k = 0
    · simp only [h0, if_true]
      exact max_eq_left (by norm_num)
    · simp only [h0, if_false]
      exact max_eq_right (by norm_num)
  have hS : ∑ j ∈ Finset.range st0.ntree,
      st0.weights.getD j 0 * st0.ptn_like_cat.getD (0 * st0.ntree + j) 0 =
      1 / 12 + 11 / 12 * (1 / 100000000000000000000) := by
    simp only [Nat.zero_mul, Nat.zero_add]
    rw [hK, Finset.sum_range_succ']
    have hj : ∀ j ∈ Finset.range 11,
        st0.weights.getD (j + 1) 0 * st0.ptn_like_cat.getD (j + 1) 0 =
          1 / 12 * (1 / 100000000000000000000) := by
      intro j hj
      have hj' : j + 1 < 12 := by have := Finset.mem_range.mp hj; omega
      rw [hW, getD_replicate_lt 12 _ _ hj', hL (j + 1) hj', if_neg (Nat.succ_ne_zero j)]
    rw [Finset.sum_congr rfl hj, hW, getD_replicate_lt 12 0 _ (by decide), hL 0 (by decide),
      if_pos rfl, Finset.sum_const, Finset.card_range]
    norm_num
  obtain ⟨out', q1, _, q3, _⟩ := getPostProb_cells
    (fun x : ℚ => max x (1 / 100000000000000000000)) (fun x => x) Int.cast
    (fun t _ => if t = 0 then 1 else 0) st0 (List.replicate 12 0) c1.2.2.1 c1.2.2.2.2.1
    (fun p hp => by
      have : p = 0 := by rw [hP] at hp; omega
      subst this
      rw [hS]; norm_num)
  have hout : out' = out1 := by
    rw [g1] at q1
    injection q1 with q1
    injection q1 with q1 _
    exact q1.symm
  subst hout
  have hcell0 := q3 0 0 (by rw [hP]; decide) (by rw [hK]; decide)
  rw [hS] at hcell0
  simp only [Nat.zero_mul, Nat.zero_add] at hcell0
  rw [hW, hF, getD_replicate_lt 12 0 _ (by decide), hL 0 (by decide), if_pos rfl] at hcell0
  -- the sum of the new weights
  rw [g5]
  have ha0 : ∑ p ∈ Finset.range st0.nptn, out'.getD (p * st0.ntree + 0) 0 =
      out'.getD 0 0 := by
    rw [hP, Finset.sum_range_one]; simp
  have hw0 : (1 : ℚ) / 12 / (1 / 12 + 11 / 12 * (1 / 100000000000000000000)) ≤
      (mStepLoop (((1 : ℕ) : Int) : ℚ) st0.ntree 0
        (eStepOuter out' st0.ntree st0.nptn 0
          (resetWeightsLoop st0.ntree 0 st0.weights))).getD 0 0 := by
    rw [w2 0 (by rw [hK]; decide), ha0, hcell0]
    refine le_trans (le_of_eq ?_) (le_max_left _ _)
    simp
  have hwj : ∀ j ∈ Finset.range 11, (1 : ℚ) / 10000000000 ≤
      (mStepLoop (((1 : ℕ) : Int) : ℚ) st0.ntree 0
        (eStepOuter out' st0.ntree st0.nptn 0
          (resetWeightsLoop st0.ntree 0 st0.weights))).getD (j + 1) 0 := by
    intro j hj
    have hj' : j + 1 < st0.ntree := by have := Finset.mem_range.mp hj; omega
    rw [w2 (j + 1) hj']
    exact le_max_right _ _
  rw [Finset.sum_range_succ']
  have h11 := Finset.sum_le_sum hwj
  rw [Finset.sum_const, Finset.card_range, nsmul_eq_mul] at h11
  have hval : (1 : ℚ) + 1 / 1000000000 <
      11 * (1 / 10000000000) + 1 / 12 / (1 / 12 + 11 / 12 * (1 / 100000000000000000000)) := by
    norm_num
  push_cast at h11
  linarith

/-- Witness of C12 on `mixExample` (two trees, three patterns): every weighted
sum is non-zero, so `getPostProb` goes through. -/
theorem getPostProb_spec_witness :
    mixExample.ptn_like_cat.length = mixExample.ntree * mixExample.nptn ∧
    getPostProb (fun x : ℚ => x) (fun x => x) Int.cast (fun _ _ => 0) mixExample
      (List.replicate 6 0) false ≠ none := by
  refine ⟨rfl, ?_⟩
  obtain ⟨out', h, _⟩ := (getPostProb_spec (fun x : ℚ => x) (fun x => x) Int.cast
    (fun _ _ => 0) mixExample (List.replicate 6 0) rfl rfl).1 (by
      intro p hp
      have hp' : p < 3 := hp
      interval_cases p <;> norm_num [mixExample, Finset.sum_range_succ])
  rw [h]
  exact Option.some_ne_none _

theorem mixExample_ready : EMReady 18 mixExample (List.replicate 6 0) := by
  refine ⟨by decide, rfl, rfl, rfl, rfl, ?_, ?_, ?_, by decide⟩
  · intro k hk
    have hk' : k < 2 := hk
    interval_cases k <;> norm_num [mixExample]
  · intro p hp
    have hp' : p < 3 := hp
    interval_cases p <;> decide
  · decide

/-- C15: in exact arithmetic with positive likelihoods (`exp` positive). In
the setting of the EM strategy (at least one tree, a weight cell for each
tree, buffers of `K * nptn` cells, positive weights, non-negative pattern
frequencies whose sum is the number of sites `nsites > 0`) and with positive
cells in `ptn_like_cat`, as `computeLikelihood` leaves them, a turn of the loop
of `optimizeTreeWeightsByEM` gets past the assertion of `getPostProb` and sets
`weights[k] = max((sum over patterns p of r[p*K + k]) / nsites, 1e-10)` for
every `k < K`, `r` being the array that `getPostProb(r, false)` computes from
the weights before the turn, and it leaves the same setting for the next
turn; from this setting a run of `optimizeTreeWeightsByEM` with a cap
`max_steps >= 1` returns, and every weight it leaves is at least `1e-10`.
From whatever state with a cell in `weights` for each tree: a turn that gets
past the assertion sets the weights by the same formula, every finished run
with `max_steps >= 1` or `max_steps = -1` leaves every weight at least
`1e-10`, and with a cap `max_steps >= 0` the loop ends within `max_steps`
turns. -/
theorem optimizeTreeWeightsByEM_floor [LinearOrderedField α] (exp log : α → α)
    (treeLh : Nat → Nat → α) (nsites : Nat) (hexp : ∀ x, 0 < exp x) :
    (∀ (st : MixState α) (out : List α), EMReady nsites st out →
      (∀ p k, p < st.nptn → k < st.ntree →
        0 < st.ptn_like_cat.getD (p * st.ntree + k) 0) →
      ∃ score r st', emStep exp log Int.cast treeLh nsites st out = some (score, r, st') ∧
        getPostProb exp log Int.cast treeLh st out false = some (r, st) ∧
        (∀ k, k < st.ntree → st'.weights.getD k 0 =
          max ((∑ p ∈ Finset.range st.nptn, r.getD (p * st.ntree + k) 0)
            / (((nsites : Int) : α))) (1 / 10000000000)) ∧
        EMReady nsites st' r ∧
        (∀ p k, p < st'.nptn → k < st'.ntree →
          0 < st'.ptn_like_cat.getD (p * st'.ntree + k) 0)) ∧
    (∀ (st : MixState α) (out : List α), EMReady nsites st out →
      ∀ (fuel : Nat) (max_steps : Int), 1 ≤ max_steps → max_steps ≤ fuel →
      ∃ res, optimizeTreeWeightsByEM exp log Int.cast treeLh nsites fuel st out max_steps =
          .done res ∧
        ∀ k, k < st.ntree → 1 / 10000000000 ≤ res.2.2.weights.getD k 0) ∧
    (∀ (ofInt : Int → α) (st : MixState α) (out : List α), st.ntree ≤ st.weights.length →
      (∀ (score : α) (r : List α) (st' : MixState α),
        emStep exp log ofInt treeLh nsites st out = some (score, r, st') →
        getPostProb exp log ofInt treeLh st out false = some (r, st) ∧
        ∀ k, k < st.ntree → st'.weights.getD k 0 =
          max ((∑ p ∈ Finset.range st.nptn, r.getD (p * st.ntree + k) 0)
            / ofInt (nsites : Int)) (1 / 10000000000)) ∧
      (∀ (fuel : Nat) (max_steps : Int) (res : Option α × List α × MixState α),
        (1 ≤ max_steps ∨ max_steps = -1) →
        optimizeTreeWeightsByEM exp log ofInt treeLh nsites fuel st out max_steps = .done res →
        ∀ k, k < st.ntree → 1 / 10000000000 ≤ res.2.2.weights.getD k 0) ∧
      (∀ (fuel : Nat) (max_steps : Int), 0 ≤ max_steps → max_steps ≤ fuel →
        optimizeTreeWeightsByEM exp log ofInt treeLh nsites fuel st out max_steps ≠
          .noFuel)) := by
  have hfloor : ∀ (ofInt : Int → α) (st : MixState α) (out : List α),
      st.ntree ≤ st.weights.length →
      ∀ (fuel : Nat) (max_steps : Int) (res : Option α × List α × MixState α),
        (1 ≤ max_steps ∨ max_steps = -1) →
        optimizeTreeWeightsByEM exp log ofInt treeLh nsites fuel st out max_steps = .done res →
        ∀ k, k < st.ntree → 1 / 10000000000 ≤ res.2.2.weights.getD k 0 := by
    intro ofInt st out hw fuel max_steps res hm h
    unfold optimizeTreeWeightsByEM at h
    rcases emLoop_done exp log ofInt treeLh nsites max_steps fuel 0 _ none _ out res
      (by simpa [computeLikelihood] using hw) h with ⟨_, h2⟩ | ⟨_, h2⟩
    · exfalso
      apply h2
      rcases hm with hm | hm
      · left; simp only [Nat.cast_zero]; omega
      · right; exact hm
    · exact h2
  refine ⟨?_, ?_, ?_⟩
  · intro st out hr hpos
    obtain ⟨score, r, st', e1, e2, _, _, e5, _, _⟩ :=
      emStep_ready exp log treeLh nsites st out hexp hr hpos
    obtain ⟨i1, _, _, _, i5⟩ := emStep_inv exp log Int.cast treeLh nsites st st' out r score e1
    refine ⟨score, r, st', e1, i1, fun k hk => ?_, e2, e5⟩
    rw [i5]
    exact (emWeights_spec r st.weights st.ntree st.nptn (((nsites : Int) : α))
      (by rw [hr.2.1])).2 k hk
  · intro st out hr fuel max_steps h1 hf
    obtain ⟨c1, c2⟩ := computeLikelihood_ready exp log treeLh nsites st out hexp hr
    obtain ⟨s1, s2, _⟩ := computeLikelihood_state exp log Int.cast treeLh st none hr.2.2.1
      hr.2.2.2.1
    have htot : ∃ res, optimizeTreeWeightsByEM exp log Int.cast treeLh nsites fuel st out
        max_steps = .done res := by
      unfold optimizeTreeWeightsByEM
      exact emLoop_total exp log treeLh nsites max_steps (by omega) hexp fuel 0 _ _ _ out c1
        (by rw [s1, s2]; exact c2) (by simp only [Nat.cast_zero]; omega)
    obtain ⟨res, hres⟩ := htot
    exact ⟨res, hres, hfloor Int.cast st out (by rw [hr.2.1]) fuel max_steps res (Or.inl h1) hres⟩
  · intro ofInt st out hw
    refine ⟨?_, hfloor ofInt st out hw, ?_⟩
    · intro score r st' h
      obtain ⟨e1, _, _, _, e5⟩ := emStep_inv exp log ofInt treeLh nsites st st' out r score h
      refine ⟨e1, fun k hk => ?_⟩
      rw [e5]
      exact (emWeights_spec r st.weights st.ntree st.nptn (ofInt (nsites : Int)) hw).2 k hk
    · intro fuel max_steps h0 hf
      unfold optimizeTreeWeightsByEM
      exact emLoop_enough_fuel exp log ofInt treeLh nsites max_steps (by omega) fuel 0 _ _ _ _
        (by simp only [Nat.cast_zero]; omega)

/-- Witness of C15 on `mixExample` (two trees, three patterns seen 5, 6 and 7
times): the run capped at one turn returns, and both weights it leaves are at
least `1e-10`. -/
theorem optimizeTreeWeightsByEM_floor_witness :
    EMReady 18 mixExample (List.replicate 6 0) ∧
    match optimizeTreeWeightsByEM (fun x : ℚ => max x (1 / 100000000000000000000))
        (fun x => x) Int.cast (fun t _ => if t = 0 then 1 else 0) 18 1 mixExample
        (List.replicate 6 0) 1 with
    | .done res =>
        1 / 10000000000 ≤ res.2.2.weights.getD 0 0 ∧ 1 / 10000000000 ≤ res.2.2.weights.getD 1 0
    | _ => False := by
  refine ⟨mixExample_ready, ?_⟩
  obtain ⟨res, hres, hw⟩ := (optimizeTreeWeightsByEM_floor
    (fun x : ℚ => max x (1 / 100000000000000000000)) (fun x => x)
    (fun t _ => if t = 0 then 1 else 0) 18
    (fun x => lt_of_lt_of_le (by norm_num) (le_max_right _ _))).2.1 mixExample
    (List.replicate 6 0) mixExample_ready 1 1 (by decide) (by decide)
  rw [hres]
  exact ⟨hw 0 (by decide), hw 1 (by decide)⟩

/-- Witness of C16 on `emExample` (twelve trees): the run capped at one turn
ends, and its weights sum to a number between `1` and `1 + 11 * 1e-10`. -/
theorem optimizeTreeWeightsByEM_sum_witness :
    EMReady 1 emExample (List.replicate 12 0) ∧
    match optimizeTreeWeightsByEM (fun x : ℚ => max x (1 / 100000000000000000000))
        (fun x => x) Int.cast (fun t _ => if t = 0 then 1 else 0) 1 1 emExample
        (List.replicate 12 0) 1 with
    | .done res =>
        1 ≤ ∑ k ∈ Finset.range 12, res.2.2.weights.getD k 0 ∧
        ∑ k ∈ Finset.range 12, res.2.2.weights.getD k 0 ≤
          1 + (((12 : ℕ) : ℚ) - 1) * (1 / 10000000000)
    | _ => False := by
  refine ⟨emExample_ready, ?_⟩
  have hthm := optimizeTreeWeightsByEM_sum (fun x : ℚ => max x (1 / 100000000000000000000))
    (fun x => x) (fun t _ => if t = 0 then 1 else 0) 1 emExample (List.replicate 12 0)
    (fun x => lt_of_lt_of_le (by norm_num) (le_max_right _ _)) emExample_ready
  obtain ⟨res, hres⟩ := hthm.2 1 1 (by decide) (by decide)
  obtain ⟨h1, h2, _⟩ := hthm.1 1 1 res (Or.inl (le_refl 1)) hres
  rw [hres]
  exact ⟨h1, h2⟩

end Aggregator

/-! ## The binding of the trees to models and rates -/

theorem slot_zero : slot 0 = 0 := rfl

theorem slot_succ (i : Nat) : slot (i + 1) = i + 2 := by
  simp [slot]

theorem slot_lt {j i : Nat} (h : j < i) : slot j < slot i := by
  unfold slot
  split_ifs <;> omega

theorem slot_ne {j i : Nat} (h : j ≠ i) : slot j ≠ slot i := by
  unfold slot
  split_ifs <;> omega

theorem toSizeT_natCast (K : Nat) : toSizeT (K : Int) = K := by
  unfold toSizeT
  rw [if_pos (Int.natCast_nonneg K)]
  exact Int.toNat_natCast K

theorem ite_getElem? (l : List Str) (c : Bool) (i : Nat)
    (h : (if c then 0 else i) < l.length) :
    (if c then l[0]? else l[i]?) = some (l.getD (if c then 0 else i) []) := by
  cases c
  · simp only [Bool.false_eq_true, if_false] at h ⊢
    rw [List.getD_eq_getElem?_getD, List.getElem?_eq_getElem h]; rfl
  · simp only [if_true] at h ⊢
    rw [List.getD_eq_getElem?_getD, List.getElem?_eq_getElem h]; rfl

theorem currModel_ok (inp : Str) (spec : ModelSpec) (h : separateModel inp = .ok spec)
    (i : Nat) (hi : (i : Int) < spec.ntree) :
    (if spec.isLinkModel then 0 else i) < spec.model_names.length ∧
    (spec.anySiteRate = true →
      (if spec.isLinkSiteRate then 0 else i) < spec.siterate_names.length) ∧
    currModel spec i =
      some (spec.model_names.getD (if spec.isLinkModel then 0 else i) [] ++
        (if spec.anySiteRate then
          "+".toList ++ spec.siterate_names.getD (if spec.isLinkSiteRate then 0 else i) []
        else [])) := by
  obtain ⟨st, _, hf⟩ := separateModel_ok_inv inp spec h
  obtain ⟨e1, e2, _, e4, e5, e6, e7, e8, e9⟩ := finishModel_ok_inv _ _ _ _ hf
  rw [← e1] at e4 e7 e8
  rw [← e2] at e5 e6 e9
  have hm : (if spec.isLinkModel then 0 else i) < spec.model_names.length := by
    by_cases hl : spec.model_names.length = 1
    · rw [e4]; simp [hl]
    · rw [e4]; simp only [hl, decide_False, Bool.false_eq_true, if_false]
      rcases e8 with e8 | e8
      · exact absurd e8 hl
      · omega
  have hr : spec.anySiteRate = true →
      (if spec.isLinkSiteRate then 0 else i) < spec.siterate_names.length := by
    intro ha
    rw [e5] at ha
    have h0 : spec.siterate_names.length ≠ 0 := by simpa using ha
    rw [e6, if_neg h0]
    by_cases hl : spec.siterate_names.length = 1
    · simp [hl]
    · simp only [hl, decide_False, Bool.false_eq_true, if_false]
      rcases e9 with e9 | e9
      · omega
      · omega
  refine ⟨hm, hr, ?_⟩
  unfold currModel
  rw [ite_getElem? _ _ _ hm]
  by_cases ha : spec.anySiteRate = true
  · simp only [ha, if_true, ite_getElem? _ _ _ (hr ha)]
  · simp only [ha, if_false, List.append_nil]
    simp

theorem slot_pos {i : Nat} (h : i ≠ 0) : slot i = i + 1 := by
  simp [slot, h]

theorem callsAt_zero (spec : ModelSpec) (s : Str) (h : currModel spec 0 = some s) :
    callsAt spec 0 = [(.comp 0, s), (.mix, s)] := by
  simp [callsAt, h]

theorem callsAt_pos (spec : ModelSpec) (s : Str) (i : Nat) (h : currModel spec i = some s)
    (hi : i ≠ 0) : callsAt spec i = [(.comp i, s)] := by
  simp [callsAt, h, hi]

theorem initializeLoop_spec (spec : ModelSpec) (F M R K : Nat) (c0 : List (TreeRef × Str))
    (hcm : ∀ j, j < K → ∃ s, currModel spec j = some s) :
    ∀ (n i : Nat) (b : MixLinks), i + n = K → b.trees.length = K →
      b.factories.length = F + slot i → b.nmodel = M + slot i →
      b.rates.length = R + slot i →
      (∀ j, j < i →
        b.trees[j]? = some ⟨some (F + slot j), some (M + slot j), some (R + slot j)⟩ ∧
        b.factories[F + slot j]? = some ⟨some (M + slot j), some (R + slot j)⟩) →
      b.calls = c0 ++ (List.range i).flatMap (callsAt spec) →
      ∃ b', initializeLoop spec n i b = some b' ∧
        Shape F K (fun j => some (M + slot j)) (fun j => some (R + slot j)) b' ∧
        b'.factories.length = F + slot K ∧ b'.nmodel = M + slot K ∧
        b'.rates.length = R + slot K ∧ b'.models = b.models ∧
        b'.site_rates = b.site_rates ∧
        b'.calls = c0 ++ (List.range K).flatMap (callsAt spec) := by
  intro n
  induction n with
  | zero =>
    intro i b hn hl hf hm hr ht hc
    have : i = K := by omega
    subst this
    exact ⟨b, rfl, ⟨hl, ht⟩, hf, hm, hr, rfl, rfl, hc⟩
  | succ n ih =>
    intro i b hn hl hf hm hr ht hc
    obtain ⟨s, hs⟩ := hcm i (by omega)
    have hi : i < b.trees.length := by omega
    simp only [initializeLoop, hs, if_pos hi]
    by_cases h0 : i = 0
    · subst h0
      rw [if_pos rfl]
      refine ih 1 _ (by omega) ?_ ?_ ?_ ?_ ?_ ?_
      · simp [treeInitializeModel, hl]
      · simp [treeInitializeModel, hf, slot_succ, slot_zero]
      · simp [treeInitializeModel, hm, slot_succ, slot_zero]
      · simp [treeInitializeModel, hr, slot_succ, slot_zero]
      · intro j hj
        have hj0 : j = 0 := by omega
        subst hj0
        simp only [slot_zero, Nat.add_zero] at hf hm hr ⊢
        constructor
        · simp only [treeInitializeModel]
          rw [List.getElem?_set_self hi, hf, hm, hr]
        · simp only [treeInitializeModel]
          rw [List.append_assoc, ← hf, List.getElem?_append_right (le_refl _)]
          simp [hm, hr]
      · simp only [treeInitializeModel, hc, List.range_succ, List.range_zero, List.nil_append,
          List.flatMap_cons, List.flatMap_nil, List.append_nil, callsAt_zero spec s hs,
          List.flatMap_append]
        simp
    · rw [if_neg h0]
      have hsi := slot_pos h0
      refine ih (i + 1) _ (by omega) ?_ ?_ ?_ ?_ ?_ ?_
      · simp [treeInitializeModel, hl]
      · simp only [treeInitializeModel, List.length_append, List.length_singleton, hf,
          slot_succ, hsi]
        omega
      · simp only [treeInitializeModel, hm, slot_succ, hsi]
        omega
      · simp only [treeInitializeModel, List.length_append, List.length_singleton, hr,
          slot_succ, hsi]
        omega
      · intro j hj
        by_cases hji : j = i
        · subst hji
          constructor
          · simp only [treeInitializeModel]
            rw [List.getElem?_set_self hi, hf, hm, hr]
          · simp only [treeInitializeModel]
            rw [← hf, List.getElem?_append_right (le_refl _)]
            simp [hm, hr, hf]
        · have hlt : j < i := by omega
          obtain ⟨t1, t2⟩ := ht j hlt
          have := slot_lt hlt
          constructor
          · simp only [treeInitializeModel]
            rw [List.getElem?_set_ne (Ne.symm hji)]
            exact t1
          · simp only [treeInitializeModel]
            rw [List.getElem?_append_left (by omega)]
            exact t2
      · simp only [treeInitializeModel, hc, List.range_succ, List.flatMap_append,
          List.flatMap_cons, List.flatMap_nil, List.append_nil, callsAt_pos spec s i hs h0,
          List.append_assoc]

theorem Shape_congr {F K : Nat} {mdl rt mdl' rt' : Nat → Option Nat} {b : MixLinks}
    (h : Shape F K mdl rt b) (hm : ∀ j, j < K → mdl j = mdl' j)
    (hr : ∀ j, j < K → rt j = rt' j) : Shape F K mdl' rt' b := by
  refine ⟨h.1, fun j hj => ?_⟩
  rw [← hm j hj, ← hr j hj]
  exact h.2 j hj

theorem factoryOf_shape {F K : Nat} {mdl rt : Nat → Option Nat} {b : MixLinks}
    (h : Shape F K mdl rt b) {i : Nat} (hi : i < K) :
    factoryOf b i = some (F + slot i, ⟨mdl i, rt i⟩) := by
  obtain ⟨h1, h2⟩ := h.2 i hi
  simp only [factoryOf, h1, h2]

theorem Shape_set {F K : Nat} {mdl rt : Nat → Option Nat} {b : MixLinks}
    (h : Shape F K mdl rt b) {i : Nat} (hi : i < K) (m r : Option Nat) :
    Shape F K (fun j => if j = i then m else mdl j) (fun j => if j = i then r else rt j)
      { b with
        factories := b.factories.set (F + slot i) ⟨m, r⟩,
        trees := b.trees.set i ⟨some (F + slot i), m, r⟩ } := by
  obtain ⟨hl, ht⟩ := h
  refine ⟨by simp [hl], fun j hj => ?_⟩
  obtain ⟨t1, t2⟩ := ht j hj
  by_cases hji : j = i
  · subst hji
    obtain ⟨s1, s2⟩ := ht j hj
    have hlen : F + slot j < b.factories.length := by
      by_contra hc
      rw [List.getElem?_eq_none (by omega)] at s2
      cases s2
    simp only [if_true]
    exact ⟨List.getElem?_set_self (by omega), List.getElem?_set_self hlen⟩
  · simp only [if_neg hji]
    have := slot_ne hji
    constructor
    · show (b.trees.set i _)[j]? = _
      rw [List.getElem?_set_ne (Ne.symm hji)]; exact t1
    · show (b.factories.set (F + slot i) _)[F + slot j]? = _
      rw [List.getElem?_set_ne (by omega)]; exact t2

theorem linkModelLoop_spec (F K : Nat) (m0 : Option Nat) (rt : Nat → Option Nat) :
    ∀ (n i : Nat) (b : MixLinks) (mdl : Nat → Option Nat), i + n = K →
      Shape F K mdl rt b → b.models[0]? = some m0 →
      ∃ b', linkModelLoop n i b = some b' ∧
        Shape F K (fun j => if i ≤ j then m0 else mdl j) rt b' ∧
        b'.models = b.models ∧ b'.site_rates = b.site_rates ∧ b'.rates = b.rates ∧
        b'.calls = b.calls := by
  intro n
  induction n with
  | zero =>
    intro i b mdl hn hs hm
    refine ⟨b, rfl, Shape_congr hs (fun j hj => ?_) (fun _ _ => rfl), rfl, rfl, rfl, rfl⟩
    simp only [if_neg (show ¬ i ≤ j by omega)]
  | succ n ih =>
    intro i b mdl hn hs hm
    have hi : i < K := by omega
    obtain ⟨b', e, s', r1, r2, r3, r4⟩ := ih (i + 1)
      { b with
        factories := b.factories.set (F + slot i) ⟨m0, rt i⟩,
        trees := b.trees.set i ⟨some (F + slot i), m0, rt i⟩ }
      (fun j => if j = i then m0 else mdl j) (by omega)
      (Shape_congr (Shape_set hs hi m0 (rt i)) (fun _ _ => rfl)
        (fun j _ => by by_cases h : j = i <;> simp [h])) hm
    refine ⟨b', ?_, Shape_congr s' (fun j hj => ?_) (fun _ _ => rfl), r1, r2, r3, r4⟩
    · simp only [linkModelLoop, factoryOf_shape hs hi, hm, (hs.2 i hi).1]
      exact e
    · by_cases h1 : i + 1 ≤ j
      · simp [h1, show i ≤ j by omega]
      · by_cases h2 : j = i
        · simp [h2]
        · simp [h1, h2, show ¬ i ≤ j by omega]

theorem linkSiteRateLoop_spec (F K : Nat) (r0 : Option Nat) (mdl : Nat → Option Nat) :
    ∀ (n i : Nat) (b : MixLinks) (rt : Nat → Option Nat), i + n = K →
      Shape F K mdl rt b → b.site_rates[0]? = some r0 →
      ∃ b', linkSiteRateLoop n i b = some b' ∧
        Shape F K mdl (fun j => if i ≤ j then r0 else rt j) b' ∧
        b'.models = b.models ∧ b'.site_rates = b.site_rates ∧ b'.rates = b.rates ∧
        b'.calls = b.calls := by
  intro n
  induction n with
  | zero =>
    intro i b rt hn hs hm
    refine ⟨b, rfl, Shape_congr hs (fun _ _ => rfl) (fun j hj => ?_), rfl, rfl, rfl, rfl⟩
    simp only [if_neg (show ¬ i ≤ j by omega)]
  | succ n ih =>
    intro i b rt hn hs hm
    have hi : i < K := by omega
    obtain ⟨b', e, s', r1, r2, r3, r4⟩ := ih (i + 1)
      { b with
        factories := b.factories.set (F + slot i) ⟨mdl i, r0⟩,
        trees := b.trees.set i ⟨some (F + slot i), mdl i, r0⟩ }
      (fun j => if j = i then r0 else rt j) (by omega)
      (Shape_congr (Shape_set hs hi (mdl i) r0)
        (fun j _ => by by_cases h : j = i <;> simp [h]) (fun _ _ => rfl)) hm
    refine ⟨b', ?_, Shape_congr s' (fun _ _ => rfl) (fun j hj => ?_), r1, r2, r3, r4⟩
    · simp only [linkSiteRateLoop, factoryOf_shape hs hi, hm, (hs.2 i hi).1]
      exact e
    · by_cases h1 : i + 1 ≤ j
      · simp [h1, show i ≤ j by omega]
      · by_cases h2 : j = i
        · simp [h2]
        · simp [h1, h2, show ¬ i ≤ j by omega]

theorem pushModelLoop_spec (F K : Nat) (mdl rt : Nat → Option Nat) :
    ∀ (n i : Nat) (b : MixLinks), i + n = K → Shape F K mdl rt b →
      pushModelLoop n i b =
        some { b with models := b.models ++ (List.range' i n).map mdl } := by
  intro n
  induction n with
  | zero => intro i b _ _; simp [pushModelLoop]
  | succ n ih =>
    intro i b hn hs
    simp only [pushModelLoop, factoryOf_shape hs (show i < K by omega)]
    rw [ih (i + 1) { b with models := b.models ++ [mdl i] } (by omega) hs]
    simp [List.range'_succ]

theorem pushSiteRateLoop_spec (F K : Nat) (mdl rt : Nat → Option Nat) :
    ∀ (n i : Nat) (b : MixLinks), i + n = K → Shape F K mdl rt b →
      pushSiteRateLoop n i b =
        some { b with site_rates := b.site_rates ++ (List.range' i n).map rt } := by
  intro n
  induction n with
  | zero => intro i b _ _; simp [pushSiteRateLoop]
  | succ n ih =>
    intro i b hn hs
    simp only [pushSiteRateLoop, factoryOf_shape hs (show i < K by omega)]
    rw [ih (i + 1) { b with site_rates := b.site_rates ++ [rt i] } (by omega) hs]
    simp [List.range'_succ]

theorem setTreeLoop_spec :
    ∀ (n i : Nat) (b : MixLinks), i + n = b.site_rates.length →
      (∀ (j r : Nat), b.site_rates[j]? = some (some r) → r < b.rates.length) →
      ∃ rs, setTreeLoop n i b = some { b with rates := rs } ∧
        rs.length = b.rates.length := by
  intro n
  induction n with
  | zero => intro i b _ _; exact ⟨b.rates, rfl, rfl⟩
  | succ n ih =>
    intro i b hn hr
    have hi : i < b.site_rates.length := by omega
    rw [setTreeLoop, List.getElem?_eq_getElem hi]
    cases hv : b.site_rates[i] with
    | none =>
      simp only
      exact ih (i + 1) b (by omega) hr
    | some r =>
      have hlt : r < b.rates.length := hr i r (by rw [List.getElem?_eq_getElem hi, hv])
      simp only [if_pos hlt]
      obtain ⟨rs, e, hl⟩ := ih (i + 1) { b with rates := b.rates.set r (some .mix) }
        (by simpa using (by omega : i + 1 + n = b.site_rates.length))
        (fun j r' h => by simpa using hr j r' h)
      exact ⟨rs, e, by simpa using hl⟩

theorem linkModels_spec (spec : ModelSpec) (F M K : Nat) (rt : Nat → Option Nat)
    (b : MixLinks) (hK : toSizeT spec.ntree = K) (h1 : 1 ≤ K)
    (hs : Shape F K (fun j => some (M + slot j)) rt b) (hm : b.models = []) :
    ∃ b', linkModels spec b = some b' ∧
      Shape F K (fun j => if spec.isLinkModel then some M else some (M + slot j)) rt b' ∧
      b'.models = (if spec.isLinkModel then [some M]
        else (List.range K).map (fun j => some (M + slot j))) ∧
      b'.site_rates = b.site_rates ∧ b'.rates = b.rates ∧ b'.calls = b.calls := by
  unfold linkModels
  rw [hK]
  by_cases hl : spec.isLinkModel = true
  · simp only [hl, if_true, factoryOf_shape hs (show 0 < K by omega), slot_zero, Nat.add_zero,
      hm, List.nil_append]
    obtain ⟨b', e, s', r1, r2, r3, r4⟩ := linkModelLoop_spec F K (some M) rt (K - 1) 1
      { b with models := [some M] } (fun j => some (M + slot j)) (by omega) hs rfl
    refine ⟨b', e, Shape_congr s' (fun j hj => ?_) (fun _ _ => rfl), r1, r2, r3, r4⟩
    by_cases h0 : j = 0
    · subst h0; simp [slot_zero]
    · simp [show 1 ≤ j by omega]
  · simp only [hl, if_false]
    rw [pushModelLoop_spec F K _ rt K 0 b (by omega) hs]
    refine ⟨_, rfl, hs, ?_, rfl, rfl, rfl⟩
    simp [hm, List.range_eq_range']

theorem linkSiteRates_spec (spec : ModelSpec) (F R K : Nat) (mdl : Nat → Option Nat)
    (b : MixLinks) (hK : toSizeT spec.ntree = K) (h1 : 1 ≤ K)
    (hs : Shape F K mdl (fun j => some (R + slot j)) b) (hm : b.site_rates = []) :
    ∃ b', linkSiteRates spec b = some b' ∧
      Shape F K mdl (fun j => if (spec.anySiteRate && spec.isLinkSiteRate) then some R
        else some (R + slot j)) b' ∧
      b'.site_rates = (if spec.anySiteRate then
        (if spec.isLinkSiteRate then [some R]
          else (List.range K).map (fun j => some (R + slot j)))
        else []) ∧
      b'.models = b.models ∧ b'.rates = b.rates ∧ b'.calls = b.calls := by
  unfold linkSiteRates
  rw [hK]
  by_cases ha : spec.anySiteRate = true
  · by_cases hl : spec.isLinkSiteRate = true
    · simp only [ha, hl, if_true, factoryOf_shape hs (show 0 < K by omega), slot_zero,
        Nat.add_zero, hm, List.nil_append, Bool.and_self]
      obtain ⟨b', e, s', r1, r2, r3, r4⟩ := linkSiteRateLoop_spec F K (some R) mdl (K - 1) 1
        { b with site_rates := [some R] } (fun j => some (R + slot j)) (by omega) hs rfl
      refine ⟨b', e, Shape_congr s' (fun _ _ => rfl) (fun j hj => ?_), r2, r1, r3, r4⟩
      by_cases h0 : j = 0
      · subst h0; simp [slot_zero]
      · simp [show 1 ≤ j by omega]
    · simp only [ha, hl, if_true, if_false, Bool.and_false, Bool.false_eq_true]
      rw [pushSiteRateLoop_spec F K mdl _ K 0 b (by omega) hs]
      refine ⟨_, rfl, hs, ?_, rfl, rfl, rfl⟩
      simp [hm, List.range_eq_range']
  · simp only [ha, if_false, Bool.false_and, Bool.false_eq_true]
    exact ⟨b, rfl, hs, hm, rfl, rfl, rfl⟩

theorem bindModels_spec (spec : ModelSpec) (K : Nat) (b : MixLinks)
    (hK : toSizeT spec.ntree = K) (h1 : 1 ≤ K)
    (hcm : ∀ j, j < K → ∃ s, currModel spec j = some s)
    (hl : b.trees.length = K) (hm : b.models = []) (hr : b.site_rates = []) :
    ∃ b', bindModels spec b = some b' ∧
      Shape b.factories.length K
        (fun j => if spec.isLinkModel then some b.nmodel else some (b.nmodel + slot j))
        (fun j => if (spec.anySiteRate && spec.isLinkSiteRate) then some b.rates.length
          else some (b.rates.length + slot j)) b' ∧
      b'.models = (if spec.isLinkModel then [some b.nmodel]
        else (List.range K).map (fun j => some (b.nmodel + slot j))) ∧
      b'.site_rates = (if spec.anySiteRate then
        (if spec.isLinkSiteRate then [some b.rates.length]
          else (List.range K).map (fun j => some (b.rates.length + slot j)))
        else []) ∧
      b'.calls = b.calls ++ (List.range K).flatMap (callsAt spec) := by
  obtain ⟨b1, e1, s1, _, _, l1, m1, r1, c1⟩ := initializeLoop_spec spec b.factories.length
    b.nmodel b.rates.length K b.calls hcm K 0 b (by omega) hl (by simp [slot_zero])
    (by simp [slot_zero]) (by simp [slot_zero]) (fun j hj => absurd hj (Nat.not_lt_zero j))
    (by simp)
  obtain ⟨b2, e2, s2, m2, r2, l2, c2⟩ := linkModels_spec spec b.factories.length b.nmodel K _
    b1 hK h1 s1 (by rw [m1, hm])
  obtain ⟨b3, e3, s3, r3, m3, l3, c3⟩ := linkSiteRates_spec spec b.factories.length
    b.rates.length K _ b2 hK h1 s2 (by rw [r2, r1, hr])
  have hsK : slot K = K + 1 := slot_pos (by omega)
  obtain ⟨rs, e4, _⟩ := setTreeLoop_spec b3.site_rates.length 0 b3 (by omega) (by
    intro j r hj
    rw [l3, l2, l1, hsK]
    rw [r3] at hj
    by_cases ha : spec.anySiteRate = true
    · by_cases hk : spec.isLinkSiteRate = true
      · simp only [ha, hk, if_true] at hj
        have hj0 : j = 0 := by
          by_contra hne
          rw [List.getElem?_eq_none (by simp; omega)] at hj
          cases hj
        subst hj0
        simp only [List.getElem?_cons_zero, Option.some.injEq] at hj
        omega
      · simp only [ha, hk, if_true, if_false, Bool.false_eq_true] at hj
        rw [List.getElem?_map] at hj
        by_cases hjK : j < K
        · rw [List.getElem?_range hjK] at hj
          simp only [Option.map_some', Option.some.injEq] at hj
          have := slot_lt hjK
          omega
        · rw [List.getElem?_eq_none (by simp; omega)] at hj
          cases hj
    · simp only [ha, if_false, Bool.false_eq_true] at hj
      cases hj)
  refine ⟨{ b3 with rates := rs }, ?_, s3, ?_, r3, ?_⟩
  · unfold bindModels
    rw [hK, e1]
    simp only [e2, e3, e4]
  · show b3.models = _
    rw [m3, m2]
  · show b3.calls = _
    rw [c3, c2, c1]

theorem bindModels_no_tree (spec : ModelSpec) (b : MixLinks)
    (hK : toSizeT spec.ntree = 0) (hl : b.trees.length = 0)
    (hlink : spec.isLinkModel = true) : bindModels spec b = none := by
  have ht : b.trees = [] := List.length_eq_zero.mp hl
  simp [bindModels, hK, initializeLoop, linkModels, hlink, factoryOf, ht]

theorem separateModel_link_of_zero (inp : Str) (spec : ModelSpec)
    (h : separateModel inp = .ok spec) (h0 : spec.ntree = 0) : spec.isLinkModel = true := by
  obtain ⟨st, _, hf⟩ := separateModel_ok_inv inp spec h
  obtain ⟨_, _, _, e4, _, _, e7, e8, _⟩ := finishModel_ok_inv _ _ _ _ hf
  rw [e4]
  rcases e8 with e8 | e8
  · simp [e8]
  · rw [h0] at e8
    exact absurd (by exact_mod_cast e8) e7

theorem initializeModel_eq (inp : Str) (spec : ModelSpec) (b : MixLinks)
    (h : separateModel inp = .ok spec) :
    initializeModel inp b = .ok (bindModels spec { b with models := [], site_rates := [] }) := by
  simp only [initializeModel, h]

theorem initializeModel_bound (inp : Str) (spec : ModelSpec) (b b' : MixLinks)
    (h : separateModel inp = .ok spec) (hK : (b.trees.length : Int) = spec.ntree)
    (hb : initializeModel inp b = .ok (some b')) :
    1 ≤ b.trees.length ∧
    Shape b.factories.length b.trees.length
      (fun j => if spec.isLinkModel then some b.nmodel else some (b.nmodel + slot j))
      (fun j => if (spec.anySiteRate && spec.isLinkSiteRate) then some b.rates.length
        else some (b.rates.length + slot j)) b' ∧
    b'.models = (if spec.isLinkModel then [some b.nmodel]
      else (List.range b.trees.length).map (fun j => some (b.nmodel + slot j))) ∧
    b'.site_rates = (if spec.anySiteRate then
      (if spec.isLinkSiteRate then [some b.rates.length]
        else (List.range b.trees.length).map (fun j => some (b.rates.length + slot j)))
      else []) ∧
    b'.calls = b.calls ++ (List.range b.trees.length).flatMap (callsAt spec) := by
  rw [initializeModel_eq inp spec b h] at hb
  have hb' : bindModels spec { b with models := [], site_rates := [] } = some b' := by
    injection hb
  have hsz : toSizeT spec.ntree = b.trees.length := by rw [← hK]; exact toSizeT_natCast _
  by_cases h0 : b.trees.length = 0
  · exfalso
    rw [bindModels_no_tree spec { b with models := [], site_rates := [] }
      (by rw [hsz]; exact h0) h0
      (separateModel_link_of_zero inp spec h (by rw [← hK, h0]; rfl))] at hb'
    cases hb'
  · obtain ⟨b'', e, rest⟩ := bindModels_spec spec b.trees.length
      { b with models := [], site_rates := [] } hsz (by omega)
      (fun j hj => ⟨_, (currModel_ok inp spec h j (by rw [← hK]; exact_mod_cast hj)).2.2⟩)
      rfl rfl rfl
    rw [e] at hb'
    injection hb' with hb'
    subst hb'
    exact ⟨by omega, rest⟩

theorem initializeModel_total (inp : Str) (spec : ModelSpec) (b : MixLinks)
    (h : separateModel inp = .ok spec) (hK : (b.trees.length : Int) = spec.ntree)
    (h1 : 1 ≤ b.trees.length) : ∃ b', initializeModel inp b = .ok (some b') := by
  have hsz : toSizeT spec.ntree = b.trees.length := by rw [← hK]; exact toSizeT_natCast _
  obtain ⟨b'', e, _⟩ := bindModels_spec spec b.trees.length
    { b with models := [], site_rates := [] } hsz h1
    (fun j hj => ⟨_, (currModel_ok inp spec h j (by rw [← hK]; exact_mod_cast hj)).2.2⟩)
    rfl rfl rfl
  exact ⟨b'', by rw [initializeModel_eq inp spec b h, e]⟩

theorem Shape_tree {F K : Nat} {mdl rt : Nat → Option Nat} {b : MixLinks}
    (hs : Shape F K mdl rt b) (i : Nat) (t : TreePtrs) (ht : b.trees[i]? = some t) :
    i < K ∧ t.model = mdl i ∧ t.site_rate = rt i ∧
    ∃ f fac, t.model_factory = some f ∧ b.factories[f]? = some fac ∧
      fac.model = mdl i ∧ fac.site_rate = rt i := by
  have hi : i < K := by
    by_contra hc
    rw [List.getElem?_eq_none (by rw [hs.1]; omega)] at ht
    cases ht
  obtain ⟨t1, t2⟩ := hs.2 i hi
  rw [t1] at ht
  injection ht with ht
  subst ht
  exact ⟨hi, rfl, rfl, _, _, rfl, t2, rfl, rfl⟩

theorem nodup_slots (M K : Nat) :
    ((List.range K).map (fun j => some (M + slot j))).Nodup := by
  refine List.Nodup.map (fun a c hac => ?_) (List.nodup_range K)
  simp only [Option.some.injEq] at hac
  by_contra hne
  have := slot_ne hne
  omega

/-- C17: for a specification that `separateModel` accepts and as many trees as
it declares, `initializeModel` goes through when there is at least one tree,
and whenever it goes through: with `isLinkModel`, `models` has the one entry
that is the model instance of tree 0, and every tree holds this instance both
in its model factory and in its own model pointer; without `isLinkModel`,
`models` has one entry per tree, no two of them the same object, and
`models[i]` is the instance that tree `i` holds in its factory and in its own
pointer. In the same way `site_rates` is empty without a rate, has the one
entry shared by all trees with `isLinkSiteRate`, and has for each tree its own
rate object otherwise. -/
theorem initializeModel_registry (inp : Str) (spec : ModelSpec) (b : MixLinks)
    (h : separateModel inp = .ok spec) (hK : (b.trees.length : Int) = spec.ntree) :
    (1 ≤ b.trees.length → ∃ b', initializeModel inp b = .ok (some b')) ∧
    ∀ b', initializeModel inp b = .ok (some b') →
      b'.trees.length = b.trees.length ∧
      (spec.isLinkModel = true →
        b'.models = [some b.nmodel] ∧
        ∀ (i : Nat) (t : TreePtrs), b'.trees[i]? = some t →
          t.model = some b.nmodel ∧
          ∃ f fac, t.model_factory = some f ∧ b'.factories[f]? = some fac ∧
            fac.model = some b.nmodel) ∧
      (spec.isLinkModel = false →
        b'.models.length = b.trees.length ∧ b'.models.Nodup ∧
        ∀ (i : Nat) (t : TreePtrs), b'.trees[i]? = some t →
          t.model ≠ none ∧ b'.models[i]? = some t.model ∧
          ∃ f fac, t.model_factory = some f ∧ b'.factories[f]? = some fac ∧
            fac.model = t.model) ∧
      (spec.anySiteRate = false → b'.site_rates = []) ∧
      (spec.anySiteRate = true → spec.isLinkSiteRate = true →
        b'.site_rates = [some b.rates.length] ∧
        ∀ (i : Nat) (t : TreePtrs), b'.trees[i]? = some t →
          t.site_rate = some b.rates.length ∧
          ∃ f fac, t.model_factory = some f ∧ b'.factories[f]? = some fac ∧
            fac.site_rate = some b.rates.length) ∧
      (spec.anySiteRate = true → spec.isLinkSiteRate = false →
        b'.site_rates.length = b.trees.length ∧ b'.site_rates.Nodup ∧
        ∀ (i : Nat) (t : TreePtrs), b'.trees[i]? = some t →
          t.site_rate ≠ none ∧ b'.site_rates[i]? = some t.site_rate ∧
          ∃ f fac, t.model_factory = some f ∧ b'.factories[f]? = some fac ∧
            fac.site_rate = t.site_rate) := by
  refine ⟨initializeModel_total inp spec b h hK, fun b' hb => ?_⟩
  obtain ⟨_, hs, hm, hr, _⟩ := initializeModel_bound inp spec b b' h hK hb
  refine ⟨hs.1, ?_, ?_, ?_, ?_, ?_⟩
  · intro hl
    simp only [hl, if_true] at hs hm
    refine ⟨hm, fun i t ht => ?_⟩
    obtain ⟨_, a1, _, f, fac, a3, a4, a5, _⟩ := Shape_tree hs i t ht
    exact ⟨a1, f, fac, a3, a4, a5⟩
  · intro hl
    simp only [hl, if_false, Bool.false_eq_true] at hs hm
    refine ⟨by rw [hm]; simp, by rw [hm]; exact nodup_slots _ _, fun i t ht => ?_⟩
    obtain ⟨hi, a1, _, f, fac, a3, a4, a5, _⟩ := Shape_tree hs i t ht
    refine ⟨by rw [a1]; simp, ?_, f, fac, a3, a4, by rw [a5, a1]⟩
    rw [hm, List.getElem?_map, List.getElem?_range hi, a1]
    rfl
  · intro ha
    simpa [ha] using hr
  · intro ha hl
    simp only [ha, hl, if_true, Bool.and_self] at hs hr
    refine ⟨hr, fun i t ht => ?_⟩
    obtain ⟨_, _, a2, f, fac, a3, a4, _, a6⟩ := Shape_tree hs i t ht
    exact ⟨a2, f, fac, a3, a4, a6⟩
  · intro ha hl
    simp only [ha, hl, if_true, if_false, Bool.and_false, Bool.false_eq_true] at hs hr
    refine ⟨by rw [hr]; simp, by rw [hr]; exact nodup_slots _ _, fun i t ht => ?_⟩
    obtain ⟨hi, _, a2, f, fac, a3, a4, _, a6⟩ := Shape_tree hs i t ht
    refine ⟨by rw [a2]; simp, ?_, f, fac, a3, a4, by rw [a6, a2]⟩
    rw [hr, List.getElem?_map, List.getElem?_range hi, a2]
    rfl

/-- Witness of C17 on `"GTR+T3"` and three trees: the run ends in
`linkedThree`, whose `models` is the one model of tree 0 and whose
`site_rates` is empty. -/
theorem initializeModel_registry_witness :
    separateModel "GTR+T3".toList =
      .ok ⟨"GTR+T3".toList, ["GTR".toList], [], true, true, false, 3⟩ ∧
    (threeTrees.trees.length : Int) = 3 ∧
    linkedThree.models = [some 0] ∧ linkedThree.site_rates = [] :=
  ⟨by decide, by decide,
   (((initializeModel_registry "GTR+T3".toList
      ⟨"GTR+T3".toList, ["GTR".toList], [], true, true, false, 3⟩ threeTrees
      (by decide) (by decide)).2 linkedThree (by decide)).2.1 rfl).1,
   ((initializeModel_registry "GTR+T3".toList
      ⟨"GTR+T3".toList, ["GTR".toList], [], true, true, false, 3⟩ threeTrees
      (by decide) (by decide)).2 linkedThree (by decide)).2.2.2.1 rfl⟩

/-- C18: on three trees and the linked model `"GTR+T3"`, `initializeModel`
allocates four models and four rate objects (numbers 0 for tree 0, 1 for the
mixture itself, 2 and 3 for the trees 1 and 2) and ends in `linkedThree`; the
destructor then destroys the shared model 0 once, the factory 0 and the rate
object 0 of tree 0, and nothing else: the models 2 and 3 and the rate objects
2 and 3 of the trees 1 and 2 are never destroyed. -/
theorem destructor_linked_three :
    initializeModel "GTR+T3".toList threeTrees = .ok (some linkedThree) ∧
    linkedThree.nmodel = 4 ∧ linkedThree.rates.length = 4 ∧
    Option.map Prod.snd (destructor linkedThree) = some ⟨[0], [0], [0]⟩ := by
  decide

theorem flatMap_congr_range {β : Type} (n : Nat) (f g : Nat → List β)
    (h : ∀ j, j < n → f j = g j) : (List.range n).flatMap f = (List.range n).flatMap g := by
  unfold List.flatMap
  rw [List.map_congr_left (fun j hj => h j (List.mem_range.mp hj))]

/-- C20: for a specification that `separateModel` accepts, the string that
the first loop of `initializeModel` builds for a tree `i < ntree` is
`model_names[isLinkModel ? 0 : i]`, followed by `"+"` and
`siterate_names[isLinkSiteRate ? 0 : i]` exactly when `anySiteRate` holds, and
the accesses are within bounds; an unlinked list of models or rates has
exactly `ntree` entries; and on as many trees as declared, at least one,
`initializeModel` goes through and the calls of the per-tree initializer it
makes are, in this order: tree 0 and then the mixture itself with the string
of tree 0, then each tree `i = 1, ..., ntree - 1` with the string of tree
`i`, and no other. -/
theorem initializeModel_descriptor (inp : Str) (spec : ModelSpec)
    (h : separateModel inp = .ok spec) :
    (∀ i : Nat, (i : Int) < spec.ntree →
      currModel spec i = some (descriptorSpec spec i) ∧
      (if spec.isLinkModel then 0 else i) < spec.model_names.length ∧
      (spec.anySiteRate = true →
        (if spec.isLinkSiteRate then 0 else i) < spec.siterate_names.length)) ∧
    (spec.isLinkModel = false → (spec.model_names.length : Int) = spec.ntree) ∧
    (spec.anySiteRate = true → spec.isLinkSiteRate = false →
      (spec.siterate_names.length : Int) = spec.ntree) ∧
    (∀ b : MixLinks, (b.trees.length : Int) = spec.ntree → 1 ≤ b.trees.length →
      ∃ b', initializeModel inp b = .ok (some b') ∧
        b'.calls = b.calls ++ (List.range b.trees.length).flatMap (fun i =>
          if i = 0 then
            [(TreeRef.comp i, descriptorSpec spec i), (TreeRef.mix, descriptorSpec spec i)]
          else [(TreeRef.comp i, descriptorSpec spec i)])) := by
  obtain ⟨st, _, hf⟩ := separateModel_ok_inv inp spec h
  obtain ⟨e1, e2, _, e4, e5, e6, e7, e8, e9⟩ := finishModel_ok_inv _ _ _ _ hf
  rw [← e1] at e4 e7 e8
  rw [← e2] at e5 e6 e9
  refine ⟨fun i hi => ?_, ?_, ?_, ?_⟩
  · obtain ⟨a1, a2, a3⟩ := currModel_ok inp spec h i hi
    exact ⟨a3, a1, a2⟩
  · intro hl
    rw [e4] at hl
    have : spec.model_names.length ≠ 1 := by simpa using hl
    rcases e8 with e8 | e8
    · exact absurd e8 this
    · exact e8
  · intro ha hl
    rw [e5] at ha
    have h0 : spec.siterate_names.length ≠ 0 := by simpa using ha
    rw [e6, if_neg h0] at hl
    have h1 : spec.siterate_names.length ≠ 1 := by simpa using hl
    rcases e9 with e9 | e9
    · omega
    · exact e9
  · intro b hK h1
    obtain ⟨b', hb⟩ := initializeModel_total inp spec b h hK h1
    obtain ⟨_, _, _, _, hc⟩ := initializeModel_bound inp spec b b' h hK hb
    refine ⟨b', hb, ?_⟩
    rw [hc]
    congr 1
    apply flatMap_congr_range
    intro j hj
    have := (currModel_ok inp spec h j (by rw [← hK]; exact_mod_cast hj)).2.2
    simp only [callsAt, this]
    rfl

/-- Witness of C20 on `"GTR+MIX{G,I,R}+T3"` and three trees: `initializeModel`
goes through, and the initializer is called for tree 0 and for the mixture
with `"GTR+G"`, for tree 1 with `"GTR+I"` and for tree 2 with `"GTR+R"`. -/
theorem initializeModel_descriptor_witness :
    separateModel "GTR+MIX{G,I,R}+T3".toList =
      .ok ⟨"GTR+MIX{G,I,R}+T3".toList, ["GTR".toList],
        ["G".toList, "I".toList, "R".toList], true, false, true, 3⟩ ∧
    match initializeModel "GTR+MIX{G,I,R}+T3".toList threeTrees with
    | .ok (some b') =>
        b'.calls = [(.comp 0, "GTR+G".toList), (.mix, "GTR+G".toList),
          (.comp 1, "GTR+I".toList), (.comp 2, "GTR+R".toList)]
    | _ => False := by
  refine ⟨by decide, ?_⟩
  obtain ⟨b', hb, hc⟩ := (initializeModel_descriptor "GTR+MIX{G,I,R}+T3".toList
    ⟨"GTR+MIX{G,I,R}+T3".toList, ["GTR".toList],
      ["G".toList, "I".toList, "R".toList], true, false, true, 3⟩ (by decide)).2.2.2
    threeTrees (by decide) (by decide)
  rw [hb]
  simp only
  rw [hc]
  decide

section OuterLoop

variable {α σ : Type}

theorem optimizeLoop_done [LinearOrderedField α] (iteration : Int → σ → Option (α × σ))
    (dblMax : α) (steps : Int) :
    ∀ (fuel : Nat) (step : Int) (prev : α) (score : Option α) (trace : List α) (s : σ)
      (res : Option α × List α × σ),
      step = (trace.length : Int) → prev = trace.getLast?.getD (-dblMax) →
      score = trace.getLast? →
      List.Chain' (fun x y : α => x + 1 / 10000 ≤ y) (-dblMax :: trace) →
      (steps = -1 ∨ (trace.length : Int) ≤ max steps 0) →
      optimizeLoop iteration steps fuel step prev score trace s = .done res →
      res.1 = res.2.1.getLast? ∧ (steps = -1 ∨ (res.2.1.length : Int) ≤ max steps 0) ∧
      ((∃ init last, res.2.1 = init ++ [last] ∧
          List.Chain' (fun x y : α => x + 1 / 10000 ≤ y) (-dblMax :: init) ∧
          last < init.getLast?.getD (-dblMax) + 1 / 10000) ∨
        (steps ≠ -1 ∧ (res.2.1.length : Int) = max steps 0 ∧
          List.Chain' (fun x y : α => x + 1 / 10000 ≤ y) (-dblMax :: res.2.1))) := by
  have hexit : ∀ (step : Int) (score : Option α) (trace : List α) (s : σ)
      (res : Option α × List α × σ),
      step = (trace.length : Int) → score = trace.getLast? →
      List.Chain' (fun x y : α => x + 1 / 10000 ≤ y) (-dblMax :: trace) →
      (steps = -1 ∨ (trace.length : Int) ≤ max steps 0) →
      ¬ (step < steps ∨ steps = -1) →
      (Outcome.done (score, trace, s) : Outcome (Option α × List α × σ)) = .done res →
      res.1 = res.2.1.getLast? ∧ (steps = -1 ∨ (res.2.1.length : Int) ≤ max steps 0) ∧
      ((∃ init last, res.2.1 = init ++ [last] ∧
          List.Chain' (fun x y : α => x + 1 / 10000 ≤ y) (-dblMax :: init) ∧
          last < init.getLast?.getD (-dblMax) + 1 / 10000) ∨
        (steps ≠ -1 ∧ (res.2.1.length : Int) = max steps 0 ∧
          List.Chain' (fun x y : α => x + 1 / 10000 ≤ y) (-dblMax :: res.2.1))) := by
    intro step score trace s res h1 h3 h4 h5 hc h
    injection h with h
    subst h
    have hne : steps ≠ -1 := fun e => hc (Or.inr e)
    have hle : steps ≤ step := by
      by_contra hlt
      exact hc (Or.inl (by omega))
    refine ⟨h3, h5, Or.inr ⟨hne, ?_, h4⟩⟩
    rcases h5 with h5 | h5
    · exact absurd h5 hne
    · apply le_antisymm h5
      show max steps 0 ≤ (trace.length : Int)
      exact max_le (by omega) (by omega)
  intro fuel
  induction fuel with
  | zero =>
    intro step prev score trace s res h1 h2 h3 h4 h5 h
    unfold optimizeLoop at h
    by_cases hc : step < steps ∨ steps = -1
    · rw [if_pos hc] at h; cases h
    · rw [if_neg hc] at h
      exact hexit step score trace s res h1 h3 h4 h5 hc h
  | succ fuel ih =>
    intro step prev score trace s res h1 h2 h3 h4 h5 h
    unfold optimizeLoop at h
    by_cases hc : step < steps ∨ steps = -1
    · rw [if_pos hc] at h
      have hinv : steps = -1 ∨ ((trace ++ [0]).length : Int) ≤ max steps 0 := by
        rcases hc with hc | hc
        · right
          simp only [List.length_append, List.length_singleton, Nat.cast_add, Nat.cast_one]
          exact le_max_of_le_left (by omega)
        · left; exact hc
      cases hit : iteration step s with
      | none => rw [hit] at h; cases h
      | some r =>
        obtain ⟨score', s'⟩ := r
        rw [hit] at h
        simp only at h
        by_cases hb : score' < prev + 1 / 10000
        · rw [if_pos hb] at h
          injection h with h
          subst h
          refine ⟨(List.getLast?_concat trace).symm, ?_, Or.inl ⟨trace, score', rfl, h4, ?_⟩⟩
          · simpa using hinv
          · rw [← h2]; exact hb
        · rw [if_neg hb] at h
          refine ih (step + 1) score' (some score') (trace ++ [score']) s' res ?_ ?_ ?_ ?_ ?_ h
          · simp only [List.length_append, List.length_singleton, Nat.cast_add, Nat.cast_one]
            omega
          · rw [List.getLast?_concat]; rfl
          · exact (List.getLast?_concat trace).symm
          · rw [← List.cons_append, List.chain'_append]
            refine ⟨h4, List.chain'_singleton _, ?_⟩
            intro x hx y hy
            rw [List.getLast?_cons] at hx
            simp only [Option.mem_def, Option.some.injEq] at hx
            simp only [List.head?_cons, Option.mem_def, Option.some.injEq] at hy
            rw [← hx, ← hy, ← h2]
            exact not_lt.mp hb
          · simpa using hinv
    · rw [if_neg hc] at h
      exact hexit step score trace s res h1 h3 h4 h5 hc h

theorem optimizeLoop_total [LinearOrderedField α] (iteration : Int → σ → Option (α × σ))
    (steps : Int) (hit : ∀ step s, iteration step s ≠ none) :
    ∀ (fuel : Nat) (step : Int) (prev : α) (score : Option α) (trace : List α) (s : σ),
      steps ≤ step + fuel → steps ≠ -1 →
      ∃ res, optimizeLoop iteration steps fuel step prev score trace s = .done res := by
  intro fuel
  induction fuel with
  | zero =>
    intro step prev score trace s hf hne
    unfold optimizeLoop
    rw [if_neg (by rintro (h | h) <;> [(simp at hf; omega); exact hne h])]
    exact ⟨_, rfl⟩
  | succ fuel ih =>
    intro step prev score trace s hf hne
    unfold optimizeLoop
    by_cases hc : step < steps ∨ steps = -1
    · rw [if_pos hc]
      cases h : iteration step s with
      | none => exact absurd h (hit step s)
      | some r =>
        obtain ⟨score', s'⟩ := r
        simp only
        by_cases hb : score' < prev + 1 / 10000
        · rw [if_pos hb]; exact ⟨_, rfl⟩
        · rw [if_neg hb]
          exact ih (step + 1) _ _ _ _ (by push_cast at hf ⊢; omega) hne
    · rw [if_neg hc]; exact ⟨_, rfl⟩

end OuterLoop

section OuterTrace

variable {α σ : Type}

theorem chain_dropLast [LinearOrderedField α] (a : α) (tr : List α)
    (h : List.Chain' (fun x y : α => x + 1 / 10000 ≤ y) (a :: tr)) :
    List.Chain' (fun x y : α => x + 1 / 10000 ≤ y) (a :: tr.dropLast) := by
  rcases List.eq_nil_or_concat tr with e | ⟨L, b, e⟩
  · subst e; exact h
  · rw [List.concat_eq_append] at e
    subst e
    rw [List.dropLast_concat]
    rw [← List.cons_append, List.chain'_append] at h
    exact h.1

theorem chain_pairwise [LinearOrderedField α] (a : α) (tr : List α)
    (h : List.Chain' (fun x y : α => x + 1 / 10000 ≤ y) (a :: tr)) :
    tr.Pairwise (fun x y => x < y) := by
  have h1 : List.Chain' (fun x y : α => x + 1 / 10000 ≤ y) tr := h.tail
  have h2 : List.Chain' (fun x y : α => x < y) tr :=
    h1.imp (fun x y hxy => lt_of_lt_of_le (lt_add_of_pos_right x (by norm_num)) hxy)
  exact List.chain'_iff_pairwise.mp h2

/-- C19: in exact arithmetic, for every finished run of
`optimizeModelParameters`: each turn after which the loop goes on has a score
of at least the score of the turn before plus `0.0001` (the first one of at
least `-DBL_MAX + 0.0001`), so the scores of these turns increase; the score
handed to `setCurScore` is the one of the last turn; with a cap
`optimize_steps` other than `-1` there are at most `optimize_steps` turns; and
the run ends either at the first turn whose score is below the score before
plus `0.0001`, or with the cap reached and every turn an improvement. With a
cap `optimize_steps >= 0` and a body that does not fail, a run of
`optimize_steps` turns always ends. -/
theorem optimizeModelParameters_monotone [LinearOrderedField α]
    (iteration : Int → σ → Option (α × σ)) (dblMax : α) (optimize_steps : Int) :
    (∀ (fuel : Nat) (s s' : σ) (score : Option α) (trace : List α),
      optimizeModelParameters iteration dblMax optimize_steps fuel s =
        .done (score, trace, s') →
      List.Chain (fun x y : α => x + 1 / 10000 ≤ y) (-dblMax) trace.dropLast ∧
      trace.dropLast.Pairwise (fun x y => x < y) ∧
      score = trace.getLast? ∧
      (optimize_steps ≠ -1 → (trace.length : Int) ≤ max optimize_steps 0) ∧
      ((∃ last, trace.getLast? = some last ∧
          last < trace.dropLast.getLast?.getD (-dblMax) + 1 / 10000) ∨
        (optimize_steps ≠ -1 ∧ (trace.length : Int) = max optimize_steps 0 ∧
          List.Chain (fun x y : α => x + 1 / 10000 ≤ y) (-dblMax) trace))) ∧
    (∀ (fuel : Nat) (s : σ), (∀ step s, iteration step s ≠ none) →
      0 ≤ optimize_steps → optimize_steps ≤ fuel →
      ∃ res, optimizeModelParameters iteration dblMax optimize_steps fuel s = .done res) := by
  constructor
  · intro fuel s s' score trace h
    unfold optimizeModelParameters at h
    obtain ⟨r1, r2, r3⟩ := optimizeLoop_done iteration dblMax optimize_steps fuel 0 (-dblMax)
      none [] s (score, trace, s') rfl rfl rfl (List.chain'_singleton _)
      (Or.inr (by simp)) h
    simp only at r1 r2 r3
    have hcap : optimize_steps ≠ -1 → (trace.length : Int) ≤ max optimize_steps 0 := by
      intro hne
      rcases r2 with r2 | r2
      · exact absurd r2 hne
      · exact r2
    rcases r3 with ⟨init, last, e, hch, hlt⟩ | ⟨hne, hlen, hch⟩
    · subst e
      rw [List.dropLast_concat]
      refine ⟨hch, chain_pairwise _ _ hch, r1, hcap, Or.inl ⟨last, ?_, hlt⟩⟩
      exact List.getLast?_concat init
    · have hd := chain_dropLast _ _ hch
      exact ⟨hd, chain_pairwise _ _ hd, r1, hcap, Or.inr ⟨hne, hlen, hch⟩⟩
  · intro fuel s hit h0 hf
    unfold optimizeModelParameters
    exact optimizeLoop_total iteration optimize_steps hit fuel 0 _ _ _ _ (by omega) (by omega)

/-- Witness of C19 on a body whose scores are `0, 1, 1, ...`: the run ends at
the third turn, and the scores `0, 1` of the two turns before it increase by
at least `0.0001`. -/
theorem optimizeModelParameters_monotone_witness :
    optimizeModelParameters (fun step (s : Nat) => some (if step = 0 then (0 : ℚ) else 1, s))
      1000 100 3 0 = .done (some 1, [0, 1, 1], 0) ∧
    List.Chain (fun x y : ℚ => x + 1 / 10000 ≤ y) (-1000) [0, 1] :=
  ⟨by norm_num [optimizeModelParameters, optimizeLoop],
   ((optimizeModelParameters_monotone
      (fun step (s : Nat) => some (if step = 0 then (0 : ℚ) else 1, s)) 1000 100).1 3 0 0
      (some 1) [0, 1, 1] (by norm_num [optimizeModelParameters, optimizeLoop])).1⟩

end OuterTrace

/-! ## Pattern likelihoods, the sample specifications and `SuperAlignment` -/

/-- C22: `computePatternLikelihood` is the one call `computeLikelihood(pattern_lh)`.
On one tree and one pattern with the per-tree likelihood `5` and the weight
`2` (over the integers, `log` mapping `x` to `x - 1`), it writes the mixture
likelihood `10` into `pattern_lh`, not its logarithm `9`, and leaves the array
`pattern_lh_cat` as it was, although the per-tree likelihood is `5`. -/
theorem computePatternLikelihood_stores_likelihood :
    (computePatternLikelihood (fun x : Int => x) (fun x => x - 1) (fun z => z) (fun _ _ => 5)
      ⟨1, 1, [2], [1], [0], [0]⟩ (some [0]) (some [0])).1 = some [10] ∧
    (computePatternLikelihood (fun x : Int => x) (fun x => x - 1) (fun z => z) (fun _ _ => 5)
      ⟨1, 1, [2], [1], [0], [0]⟩ (some [0]) (some [0])).2.1 = some [0] ∧
    (computePatternLikelihood (fun x : Int => x) (fun x => x - 1) (fun z => z) (fun _ _ => 5)
      ⟨1, 1, [2], [1], [0], [0]⟩ (some [0]) (some [0])).2.2.ptn_like_cat = [5] := by
  decide

/-- C23: `separateModel` accepts `"GTR+MIX{FO+F0}+T2"`: the group is taken as
one rate descriptor `"FO+F0"` beside the linked model `"GTR"`; likewise
`"GTR+MIX{FO,FQ}+T2"` is accepted with the two rate descriptors `"FO"` and
`"FQ"`. -/
theorem separateModel_accepts_freq_group :
    separateModel "GTR+MIX{FO+F0}+T2".toList =
      .ok ⟨"GTR+MIX{FO+F0}+T2".toList, ["GTR".toList], ["FO+F0".toList], true, true, true, 2⟩ ∧
    separateModel "GTR+MIX{FO,FQ}+T2".toList =
      .ok ⟨"GTR+MIX{FO,FQ}+T2".toList, ["GTR".toList], ["FO".toList, "FQ".toList], true, false,
        true, 2⟩ := by
  decide

/-- C24: with one partition in which the first sequence is absent
(`taxa_index = -1`) and the second is present at number `0`,
`areSequencesIdentical` does not return `false`: neither of the two tests
`subseq > 0` holds, so it goes on to compare the characters and reads
`(*it)[-1]`, behind the end of the pattern; when the partition has no pattern
it returns `true`. With the second sequence present at number `1` it returns
`false`. -/
theorem areSequencesIdentical_present_at_zero :
    areSequencesIdentical
      ⟨[⟨["b".toList], [[7]]⟩], ["a".toList, "b".toList], [[-1], [0]]⟩ 0 1 =
      .error .outOfBounds ∧
    areSequencesIdentical
      ⟨[⟨["b".toList], []⟩], ["a".toList, "b".toList], [[-1], [0]]⟩ 0 1 = .ok true ∧
    areSequencesIdentical
      ⟨[⟨["x".toList, "b".toList], [[7, 8]]⟩], ["a".toList, "b".toList], [[-1], [1]]⟩ 0 1 =
      .ok false := by
  decide

/-- C28: on two partitions, removing partition `1` keeps partition `0`, yet
`removePartitions` then calls `linkSubAlignment(i)` for every `i` below the
number of partitions it had on entry, and the call for `i = 1` reads
`partitions[1]` behind the end of the shortened vector; with nothing to
remove the function goes through. -/
theorem removePartitions_stale_count :
    keepLoop {1} [⟨["a".toList], []⟩, ⟨["b".toList], []⟩] 0 = [⟨["a".toList], []⟩] ∧
    removePartitions
      ⟨[⟨["a".toList], []⟩, ⟨["b".toList], []⟩], ["a".toList, "b".toList],
        [[0, -1], [-1, 0]]⟩ {1} = .error .outOfBounds ∧
    removePartitions
      ⟨[⟨["a".toList], []⟩, ⟨["b".toList], []⟩], ["a".toList, "b".toList],
        [[0, -1], [-1, 0]]⟩ ∅ =
      .ok ⟨[⟨["a".toList], []⟩, ⟨["b".toList], []⟩], ["a".toList, "b".toList],
        [[0, -1], [-1, 0]]⟩ := by
  decide

section Objective

variable {α : Type}

theorem computeLikelihood_value [CommSemiring α] (exp log : α → α) (ofInt : Int → α)
    (treeLh : Nat → Nat → α) (st : MixState α) (plh : Option (List α))
    (hcat : st.ptn_like_cat.length = st.ntree * st.nptn)
    (htree : st._ptn_like_cat.length = st.ntree * st.nptn) :
    (computeLikelihood exp log ofInt treeLh st plh).1 =
      ∑ p ∈ Finset.range st.nptn,
        ofInt (st.patn_freqs.getD p 0) *
          log (∑ k ∈ Finset.range st.ntree, st.weights.getD k 0 * exp (treeLh k p)) := by
  have hlayout := computeLikelihood_layout exp log ofInt treeLh st plh hcat htree
  have htot := totalLoop_spec log ofInt st.ntree
    (computeLikelihood exp log ofInt treeLh st plh).2.2.ptn_like_cat st.weights st.patn_freqs
    st.nptn 0 0 plh
  simp only [Nat.zero_mul, Nat.zero_add, zero_add] at htot
  have hval : (computeLikelihood exp log ofInt treeLh st plh).1 =
      (totalLoop log ofInt st.ntree
        (computeLikelihood exp log ofInt treeLh st plh).2.2.ptn_like_cat st.weights
        st.patn_freqs st.nptn 0 0 0 plh).1 := rfl
  rw [hval, htot]
  apply Finset.sum_congr rfl
  intro p hp
  have hp' : p < st.nptn := Finset.mem_range.mp hp
  rw [mul_comm]
  congr 2
  apply Finset.sum_congr rfl
  intro k hk
  rw [hlayout k p (Finset.mem_range.mp hk) hp', mul_comm]

theorem targetFunk_value [Field α] (exp log : α → α) (ofInt : Int → α)
    (treeLh : Nat → Nat → α) (st : MixState α) (tmp_weights y : List α)
    (hcat : st.ptn_like_cat.length = st.ntree * st.nptn)
    (htree : st._ptn_like_cat.length = st.ntree * st.nptn)
    (hw : st.ntree ≤ st.weights.length) (ht : st.ntree ≤ tmp_weights.length) :
    (targetFunk exp log ofInt treeLh st tmp_weights y).1 =
      -∑ p ∈ Finset.range st.nptn,
        ofInt (st.patn_freqs.getD p 0) *
          log (∑ k ∈ Finset.range st.ntree,
            (y.getD (k + 1) 0 / ∑ j ∈ Finset.range st.ntree, y.getD (j + 1) 0) *
              exp (treeLh k p)) ∧
    (∀ k, k < st.ntree →
      (targetFunk exp log ofInt treeLh st tmp_weights y).2.1.weights.getD k 0 =
        y.getD (k + 1) 0 / ∑ j ∈ Finset.range st.ntree, y.getD (j + 1) 0) := by
  obtain ⟨_, _, hg⟩ := getVariables_spec st.ntree y st.weights tmp_weights hw ht
  have hv := computeLikelihood_value exp log ofInt treeLh
    { st with weights := (getVariables st.ntree y st.weights tmp_weights).1 } none hcat htree
  have hs := (computeLikelihood_state exp log ofInt treeLh
    { st with weights := (getVariables st.ntree y st.weights tmp_weights).1 } none hcat
    htree).2.2.1
  constructor
  · show -(computeLikelihood exp log ofInt treeLh
      { st with weights := (getVariables st.ntree y st.weights tmp_weights).1 } none).1 = _
    rw [hv]
    congr 1
    apply Finset.sum_congr rfl
    intro p _
    congr 2
    apply Finset.sum_congr rfl
    intro k hk
    show (getVariables st.ntree y st.weights tmp_weights).1.getD k 0 * _ = _
    rw [hg k (Finset.mem_range.mp hk)]
  · intro k hk
    show (computeLikelihood exp log ofInt treeLh
      { st with weights := (getVariables st.ntree y st.weights tmp_weights).1 }
      none).2.2.weights.getD k 0 = _
    rw [hs]
    exact hg k hk

theorem getD_map_mul [Field α] (c : α) (x : List α) (i : Nat) :
    (x.map (fun v => c * v)).getD i 0 = c * x.getD i 0 := by
  rw [List.getD_eq_getElem?_getD, List.getD_eq_getElem?_getD, List.getElem?_map]
  cases x[i]? with
  | none => simp
  | some a => simp

/-- C27: in exact arithmetic, on buffers of `size() * nptn` cells and with
`weights` and `tmp_weights` holding a cell for each of the `K = size()` trees,
for every variable array `x` with positive cells `x[1..K]` and every `c > 0`:
`targetFunk(c * x) = targetFunk(x)`; the value is minus the mixture
log-likelihood at the weights `x[k+1] / (x[1] + ... + x[K])`, that is minus the
sum over the patterns `p` of
`patn_freqs[p] * log(sum over k of weights[k] * exp(treeLh k p))`; and both
calls leave these weights in `weights`. -/
theorem targetFunk_scale [LinearOrderedField α] (exp log : α → α) (ofInt : Int → α)
    (treeLh : Nat → Nat → α) (st : MixState α) (tmp_weights x : List α) (c : α)
    (hcat : st.ptn_like_cat.length = st.ntree * st.nptn)
    (htree : st._ptn_like_cat.length = st.ntree * st.nptn)
    (hw : st.ntree ≤ st.weights.length) (ht : st.ntree ≤ tmp_weights.length)
    (hx : ∀ i, 1 ≤ i → i ≤ st.ntree → 0 < x.getD i 0) (hc : 0 < c) :
    (targetFunk exp log ofInt treeLh st tmp_weights (x.map (fun v => c * v))).1 =
      (targetFunk exp log ofInt treeLh st tmp_weights x).1 ∧
    (targetFunk exp log ofInt treeLh st tmp_weights x).1 =
      -∑ p ∈ Finset.range st.nptn,
        ofInt (st.patn_freqs.getD p 0) *
          log (∑ k ∈ Finset.range st.ntree,
            (x.getD (k + 1) 0 / ∑ j ∈ Finset.range st.ntree, x.getD (j + 1) 0) *
              exp (treeLh k p)) ∧
    (∀ k, k < st.ntree →
      0 < x.getD (k + 1) 0 / ∑ j ∈ Finset.range st.ntree, x.getD (j + 1) 0 ∧
      (targetFunk exp log ofInt treeLh st tmp_weights x).2.1.weights.getD k 0 =
        x.getD (k + 1) 0 / ∑ j ∈ Finset.range st.ntree, x.getD (j + 1) 0 ∧
      (targetFunk exp log ofInt treeLh st tmp_weights
          (x.map (fun v => c * v))).2.1.weights.getD k 0 =
        x.getD (k + 1) 0 / ∑ j ∈ Finset.range st.ntree, x.getD (j + 1) 0) := by
  obtain ⟨v1, w1⟩ := targetFunk_value exp log ofInt treeLh st tmp_weights x hcat htree hw ht
  obtain ⟨v2, w2⟩ := targetFunk_value exp log ofInt treeLh st tmp_weights
    (x.map (fun v => c * v)) hcat htree hw ht
  have hscale : ∀ k,
      (x.map (fun v => c * v)).getD (k + 1) 0 /
        ∑ j ∈ Finset.range st.ntree, (x.map (fun v => c * v)).getD (j + 1) 0 =
      x.getD (k + 1) 0 / ∑ j ∈ Finset.range st.ntree, x.getD (j + 1) 0 := by
    intro k
    simp only [getD_map_mul]
    rw [← Finset.mul_sum]
    exact mul_div_mul_left _ _ (ne_of_gt hc)
  simp only [hscale] at v2 w2
  refine ⟨by rw [v2, v1], v1, fun k hk => ⟨?_, w1 k hk, w2 k hk⟩⟩
  apply div_pos (hx (k + 1) (by omega) (by omega))
  apply Finset.sum_pos
  · intro j hj
    exact hx (j + 1) (by omega) (by have := Finset.mem_range.mp hj; omega)
  · exact ⟨k, Finset.mem_range.mpr hk⟩

/-- Witness of C27 on `mixExample` (two trees): the variables `(1, 3)` and
their double `(2, 6)` give the same value. -/
theorem targetFunk_scale_witness :
    mixExample.ntree ≤ mixExample.weights.length ∧
    (targetFunk (fun x : ℚ => x) (fun x => x) Int.cast (fun _ _ => 1) mixExample [0, 0]
      ([0, 1, 3].map (fun v => 2 * v))).1 =
    (targetFunk (fun x : ℚ => x) (fun x => x) Int.cast (fun _ _ => 1) mixExample [0, 0]
      [0, 1, 3]).1 :=
  ⟨le_refl 2,
   (targetFunk_scale (fun x : ℚ => x) (fun x => x) Int.cast (fun _ _ => 1) mixExample [0, 0]
      [0, 1, 3] 2 rfl rfl (le_refl 2) (le_refl 2)
      (by
        intro i h1 h2
        have h3 : i ≤ 2 := h2
        interval_cases i <;> simp)
      (by norm_num)).1⟩

end Objective

/-! ## `divideModelNSiteRate` on every string -/

theorem span_plus (name : Str) :
    ∃ t, '+' ∉ t ∧ (name = t ∨ ∃ rest, name = t ++ '+' :: rest) := by
  induction name with
  | nil => exact ⟨[], by simp, Or.inl rfl⟩
  | cons c cs ih =>
    by_cases hc : c = '+'
    · subst hc
      exact ⟨[], by simp, Or.inr ⟨cs, rfl⟩⟩
    · obtain ⟨t, ht, h⟩ := ih
      refine ⟨c :: t, ?_, ?_⟩
      · simp only [List.mem_cons, not_or]
        exact ⟨fun h => hc h.symm, ht⟩
      · rcases h with h | ⟨rest, h⟩
        · left; rw [h]
        · right; exact ⟨rest, by rw [h]; rfl⟩

theorem plusplus_infix_of_head (rest : Str) (h : rest.head? = some '+') (pre : Str) :
    ['+', '+'] <:+: pre ++ '+' :: rest := by
  cases rest with
  | nil => cases h
  | cons c cs =>
    simp only [List.head?_cons, Option.some.injEq] at h
    subst h
    exact ⟨pre, cs, by simp⟩

theorem plusplus_infix_token (t rest : Str) (ht : '+' ∉ t) :
    ['+', '+'] <:+: t ++ '+' :: rest ↔ (rest.head? = some '+' ∨ ['+', '+'] <:+: rest) := by
  constructor
  · induction t with
    | nil =>
      rintro ⟨a, b, hab⟩
      cases a with
      | nil =>
        left
        simp only [List.nil_append, List.cons_append, List.cons.injEq, true_and] at hab
        rw [← hab]; rfl
      | cons x a' =>
        right
        simp only [List.nil_append, List.cons_append, List.cons.injEq] at hab
        exact ⟨a', b, by simpa using hab.2⟩
    | cons c t' ih =>
      rintro ⟨a, b, hab⟩
      have hc : c ≠ '+' := fun h => ht (by rw [h]; exact List.mem_cons_self _ _)
      have ht' : '+' ∉ t' := fun h => ht (List.mem_cons_of_mem _ h)
      cases a with
      | nil =>
        simp only [List.nil_append, List.cons_append, List.cons.injEq] at hab
        exact absurd hab.1.symm hc
      | cons x a' =>
        simp only [List.cons_append, List.cons.injEq] at hab
        exact ih ht' ⟨a', b, by simpa using hab.2⟩
  · rintro (h | ⟨a, b, hab⟩)
    · exact plusplus_infix_of_head rest h t
    · exact ⟨t ++ '+' :: a, b, by rw [← hab]; simp⟩

theorem not_plusplus_infix_of_not_mem (t : Str) (ht : '+' ∉ t) : ¬ ['+', '+'] <:+: t := by
  rintro ⟨a, b, hab⟩
  apply ht
  rw [← hab]
  simp

/-- The spelling of a string that `divideModelNSiteRate` refuses: it begins
with `'+'` or holds two `'+'` in a row. -/
theorem divideLoop_error_iff (orig : Str) :
    ∀ (fuel : Nat) (name : Str) (i : Nat) (m r : Str), name.length ≤ fuel →
      ((∃ e, divideLoop orig fuel name i m r = .error e) ↔
        (name.head? = some '+' ∨ ['+', '+'] <:+: name)) ∧
      (∀ e, divideLoop orig fuel name i m r = .error e → e = .invalidModel orig) := by
  intro fuel
  induction fuel with
  | zero =>
    intro name i m r hlen
    have : name = [] := List.length_eq_zero.mp (by omega)
    subst this
    simp only [divideLoop]
    refine ⟨⟨(by rintro ⟨e, he⟩; cases he), ?_⟩, (by intro e he; cases he)⟩
    rintro (h | h)
    · cases h
    · exact absurd h (not_plusplus_infix_of_not_mem [] (by simp))
  | succ fuel ih =>
    intro name i m r hlen
    obtain ⟨t, ht, h | ⟨rest, h⟩⟩ := span_plus name
    · subst h
      by_cases hnil : name = []
      · subst hnil
        rw [divideLoop_nil]
        refine ⟨⟨(by rintro ⟨e, he⟩; cases he), ?_⟩, (by intro e he; cases he)⟩
        rintro (h | h)
        · cases h
        · exact absurd h (not_plusplus_infix_of_not_mem [] (by simp))
      · rw [divideLoop_last orig name fuel i m r hnil ht]
        refine ⟨⟨?_, ?_⟩, ?_⟩
        · rintro ⟨e, he⟩; split_ifs at he
        · rintro (h | h)
          · exfalso
            cases name with
            | nil => cases h
            | cons c cs =>
              simp only [List.head?_cons, Option.some.injEq] at h
              exact ht (by rw [h]; exact List.mem_cons_self _ _)
          · exact absurd h (not_plusplus_infix_of_not_mem name ht)
        · intro e he; split_ifs at he
    · subst h
      by_cases hnil : t = []
      · subst hnil
        have herr : divideLoop orig (fuel + 1) ([] ++ '+' :: rest) i m r =
            .error (.invalidModel orig) := by
          simp [divideLoop, findPlus, substr]
        rw [herr]
        refine ⟨⟨fun _ => Or.inl rfl, fun _ => ⟨_, rfl⟩⟩, ?_⟩
        intro e he
        injection he with he
        exact he.symm
      · rw [divideLoop_cons orig t rest fuel i m r hnil ht]
        have hlen' : rest.length ≤ fuel := by
          simp only [List.length_append, List.length_cons] at hlen
          omega
        have hhead : ¬ (t ++ '+' :: rest).head? = some '+' := by
          cases t with
          | nil => exact absurd rfl hnil
          | cons c cs =>
            simp only [List.cons_append, List.head?_cons, Option.some.injEq]
            intro h
            exact ht (by rw [h]; exact List.mem_cons_self _ _)
        have hbad : ((t ++ '+' :: rest).head? = some '+' ∨ ['+', '+'] <:+: t ++ '+' :: rest) ↔
            (rest.head? = some '+' ∨ ['+', '+'] <:+: rest) := by
          rw [plusplus_infix_token t rest ht]
          constructor
          · rintro (h | h)
            · exact absurd h hhead
            · exact h
          · exact Or.inr
        rw [hbad]
        by_cases hc : i = 0 ∨ t.head? = some 'F'
        · rw [if_pos hc]
          exact ih rest (i + 1) _ r hlen'
        · rw [if_neg hc]
          exact ih rest (i + 1) m _ hlen'

theorem joinWith_append_singleton (t : Str) (ts : List Str) (u : Str) :
    joinWith '+' (t :: (ts ++ [u])) = joinWith '+' (t :: ts) ++ '+' :: u := by
  induction ts generalizing t with
  | nil => simp [joinWith]
  | cons v vs ih =>
    rw [List.cons_append, joinWith_cons_cons, ih v, joinWith_cons_cons]
    simp

theorem plus_decompose :
    ∀ (n : Nat) (name : Str), name.length ≤ n → name ≠ [] → name.head? ≠ some '+' →
      ¬ ['+', '+'] <:+: name →
      ∃ t ts, (∀ u ∈ t :: ts, u ≠ [] ∧ '+' ∉ u) ∧
        (name = joinWith '+' (t :: ts) ∨ name = joinWith '+' (t :: ts) ++ ['+']) := by
  intro n
  induction n with
  | zero =>
    intro name hlen hne
    exact absurd (List.length_eq_zero.mp (by omega)) hne
  | succ n ih =>
    intro name hlen hne hhead hpp
    obtain ⟨t, ht, h | ⟨rest, h⟩⟩ := span_plus name
    · subst h
      exact ⟨name, [], by simpa using ⟨hne, ht⟩, Or.inl rfl⟩
    · subst h
      have htne : t ≠ [] := by
        intro h0
        subst h0
        exact hhead rfl
      have hrest := (not_congr (plusplus_infix_token t rest ht)).mp hpp
      rw [not_or] at hrest
      by_cases hr : rest = []
      · subst hr
        exact ⟨t, [], by simpa using ⟨htne, ht⟩, Or.inr rfl⟩
      · have hlen' : rest.length ≤ n := by
          simp only [List.length_append, List.length_cons] at hlen
          omega
        obtain ⟨t', ts', htok, hform⟩ := ih rest hlen' hr hrest.1 hrest.2
        refine ⟨t, t' :: ts', ?_, ?_⟩
        · intro u hu
          rcases List.mem_cons.mp hu with hu | hu
          · rw [hu]; exact ⟨htne, ht⟩
          · exact htok u hu
        · rcases hform with hform | hform
          · left; rw [joinWith_cons_cons, ← hform]
          · right; rw [joinWith_cons_cons, hform]; simp

theorem divideLoop_trailing (orig : Str) (ts : List Str) :
    ∀ (fuel i : Nat) (m r : Str), ts ≠ [] → (∀ t ∈ ts, t ≠ [] ∧ '+' ∉ t) →
      (joinWith '+' ts).length + 1 ≤ fuel →
      divideLoop orig fuel (joinWith '+' ts ++ ['+']) (i + 1) m r =
        .ok ((ts.filter startsWithF).foldl appendPlus m,
             (ts.filter (fun t => !startsWithF t)).foldl appendPlus r) := by
  induction ts with
  | nil => intro fuel i m r h; exact absurd rfl h
  | cons t ts ih =>
    intro fuel i m r _ h hfuel
    have ht := h t (List.mem_cons_self _ _)
    have hts : ∀ x ∈ ts, x ≠ [] ∧ '+' ∉ x := fun x hx => h x (List.mem_cons_of_mem _ hx)
    obtain ⟨f, rfl⟩ : ∃ f, fuel = f + 1 := ⟨fuel - 1, by omega⟩
    cases ts with
    | nil =>
      simp only [joinWith]
      rw [divideLoop_cons orig t [] f (i + 1) m r ht.1 ht.2]
      cases hF : startsWithF t with
      | true =>
        rw [if_pos (Or.inr ((startsWithF_iff t).mp hF)), divideLoop_nil]
        simp [hF]
      | false =>
        have hF' : ¬ t.head? = some 'F' := by
          rw [← startsWithF_iff, hF]; exact Bool.false_ne_true
        rw [if_neg (by rintro (h | h); exact absurd h (Nat.succ_ne_zero i); exact hF' h),
          divideLoop_nil]
        simp [hF]
    | cons u us =>
      rw [length_joinWith_cons_cons] at hfuel
      rw [joinWith_cons_cons, List.append_assoc, List.cons_append,
        divideLoop_cons orig t _ f (i + 1) m r ht.1 ht.2]
      cases hF : startsWithF t with
      | true =>
        rw [if_pos (Or.inr ((startsWithF_iff t).mp hF)),
          ih f (i + 1) _ r (List.cons_ne_nil _ _) hts (by omega)]
        simp [hF]
      | false =>
        have hF' : ¬ t.head? = some 'F' := by
          rw [← startsWithF_iff, hF]; exact Bool.false_ne_true
        rw [if_neg (by rintro (h | h); exact absurd h (Nat.succ_ne_zero i); exact hF' h),
          ih f (i + 1) m _ (List.cons_ne_nil _ _) hts (by omega)]
        simp [hF]

theorem divideModelNSiteRate_trailing (e : Str × List Str)
    (h : ∀ t ∈ e.1 :: e.2, t ≠ [] ∧ '+' ∉ t) :
    divideModelNSiteRate (entryText e ++ ['+']) = .ok (modelPart e, ratePart e) := by
  obtain ⟨t0, ts⟩ := e
  have h0 := h t0 (List.mem_cons_self _ _)
  have hts : ∀ x ∈ ts, x ≠ [] ∧ '+' ∉ x := fun x hx => h x (List.mem_cons_of_mem _ hx)
  have h1 : appendPlus [] t0 = t0 := by
    have hpos : 0 < t0.length := List.length_pos.mpr h0.1
    simp [appendPlus]
  have hrate : (ts.filter (fun t => !startsWithF t)).foldl appendPlus [] =
      joinWith '+' (ts.filter (fun t => !startsWithF t)) :=
    foldl_appendPlus_nil _ (fun t ht => (hts t (List.mem_of_mem_filter ht)).1)
  simp only [divideModelNSiteRate, entryText, modelPart, ratePart, rateTokens]
  cases ts with
  | nil =>
    simp only [joinWith, List.length_append, List.length_singleton]
    rw [divideLoop_cons _ t0 [] _ 0 [] [] h0.1 h0.2, if_pos (Or.inl rfl), h1, divideLoop_nil]
  | cons u us =>
    rw [List.length_append, List.length_singleton, length_joinWith_cons_cons,
      joinWith_cons_cons, List.append_assoc, List.cons_append]
    have : t0.length + 1 + (joinWith '+' (u :: us)).length + 1 =
        (t0.length + (joinWith '+' (u :: us)).length + 1) + 1 := by omega
    rw [this, divideLoop_cons _ t0 _ _ 0 [] [] h0.1 h0.2, if_pos (Or.inl rfl), h1,
      divideLoop_trailing _ (u :: us) _ 0 t0 [] (List.cons_ne_nil _ _) hts (by omega), hrate,
      foldl_appendPlus_of_ne_nil _ t0 h0.1]

/-- C29: `divideModelNSiteRate(name, model, siteRate)` stops with its
diagnostic exactly when `name` begins with `'+'` or holds two `'+'` in a row,
and then with "`name` is not a valid model"; on the empty string both outputs
are empty; on non-empty tokens free of `'+'` joined by `'+'`, with or without
one more `'+'` at the end, `model` is the first token joined by `'+'` with
every later token that starts with `F`, `siteRate` is the other tokens joined
by `'+'`, and the two token lists together are a rearrangement of all tokens;
every non-empty `name` on which the function succeeds is of this form. -/
theorem divideModelNSiteRate_spec (name : Str) :
    ((∃ e, divideModelNSiteRate name = .error e) ↔
      (name.head? = some '+' ∨ ['+', '+'] <:+: name)) ∧
    (∀ e, divideModelNSiteRate name = .error e → e = .invalidModel name) ∧
    (name = [] → divideModelNSiteRate name = .ok ([], [])) ∧
    (∀ (t : Str) (ts : List Str), (∀ u ∈ t :: ts, u ≠ [] ∧ '+' ∉ u) →
      (name = joinWith '+' (t :: ts) ∨ name = joinWith '+' (t :: ts) ++ ['+']) →
      divideModelNSiteRate name = .ok (modelPart (t, ts), ratePart (t, ts)) ∧
      List.Perm ((t :: ts.filter startsWithF) ++ rateTokens (t, ts)) (t :: ts)) ∧
    (∀ model siteRate : Str, name ≠ [] → divideModelNSiteRate name = .ok (model, siteRate) →
      ∃ (t : Str) (ts : List Str), (∀ u ∈ t :: ts, u ≠ [] ∧ '+' ∉ u) ∧
        (name = joinWith '+' (t :: ts) ∨ name = joinWith '+' (t :: ts) ++ ['+']) ∧
        model = modelPart (t, ts) ∧ siteRate = ratePart (t, ts)) := by
  have herr := divideLoop_error_iff name name.length name 0 [] [] (le_refl _)
  have hok : ∀ (t : Str) (ts : List Str), (∀ u ∈ t :: ts, u ≠ [] ∧ '+' ∉ u) →
      (name = joinWith '+' (t :: ts) ∨ name = joinWith '+' (t :: ts) ++ ['+']) →
      divideModelNSiteRate name = .ok (modelPart (t, ts), ratePart (t, ts)) := by
    intro t ts htok hform
    rcases hform with hform | hform
    · rw [hform]; exact divideModelNSiteRate_entry (t, ts) htok
    · rw [hform]; exact divideModelNSiteRate_trailing (t, ts) htok
  refine ⟨herr.1, herr.2, ?_, ?_, ?_⟩
  · intro h0
    subst h0
    rfl
  · intro t ts htok hform
    refine ⟨hok t ts htok hform, ?_⟩
    simp only [rateTokens, List.cons_append]
    exact List.Perm.cons _ (List.filter_append_perm _ _)
  · intro model siteRate hne h
    have hbad : ¬ (name.head? = some '+' ∨ ['+', '+'] <:+: name) := by
      intro hb
      obtain ⟨e, he⟩ := herr.1.mpr hb
      have : divideModelNSiteRate name = .error e := he
      rw [this] at h
      cases h
    rw [not_or] at hbad
    obtain ⟨t, ts, htok, hform⟩ := plus_decompose name.length name (le_refl _) hne hbad.1 hbad.2
    have h2 := hok t ts htok hform
    rw [h2] at h
    injection h with h
    injection h with hm hr
    exact ⟨t, ts, htok, hform, hm.symm, hr.symm⟩

/-- Witness of C29 on `"GTR+FO+G+"`: the model is `"GTR+FO"` and the rate
is `"G"`. -/
theorem divideModelNSiteRate_spec_witness :
    divideModelNSiteRate "GTR+FO+G+".toList = .ok ("GTR+FO".toList, "G".toList) :=
  ((divideModelNSiteRate_spec "GTR+FO+G+".toList).2.2.2.1 "GTR".toList
    ["FO".toList, "G".toList] (by decide) (Or.inr (by decide))).1

/-! ## The pieces of `separateStr` -/

theorem braceDepth_append (a b : Str) : braceDepth (a ++ b) = braceDepth a + braceDepth b := by
  induction a with
  | nil => simp [braceDepth]
  | cons c cs ih =>
    show braceStep c + braceDepth (cs ++ b) = braceStep c + braceDepth cs + braceDepth b
    rw [ih]; ring

theorem braceDepth_singleton (c : Char) : braceDepth [c] = braceStep c := by
  simp [braceDepth]

theorem separateStrLoop_ne_nil (sep : Char) (s : Str) :
    ∀ (cur : Str) (b : Int) (acc : List Str), (∀ p ∈ acc, p ≠ []) →
      ∀ p ∈ separateStrLoop sep s cur b acc, p ≠ [] := by
  induction s with
  | nil =>
    intro cur b acc hacc p hp
    simp only [separateStrLoop] at hp
    split_ifs at hp with h
    · rcases List.mem_append.mp hp with hp | hp
      · exact hacc p hp
      · simp only [List.mem_singleton] at hp
        rw [hp]; exact List.length_pos.mp h
    · exact hacc p hp
  | cons c rest ih =>
    intro cur b acc hacc p hp
    have hacc' : ∀ p ∈ (if cur.length > 0 then acc ++ [cur] else acc), p ≠ [] := by
      intro q hq
      split_ifs at hq with h
      · rcases List.mem_append.mp hq with hq | hq
        · exact hacc q hq
        · simp only [List.mem_singleton] at hq
          rw [hq]; exact List.length_pos.mp h
      · exact hacc q hq
    by_cases h1 : c = '{'
    · simp only [separateStrLoop, if_pos h1] at hp
      exact ih _ _ _ hacc p hp
    · by_cases h2 : c = '}'
      · simp only [separateStrLoop, if_neg h1, if_pos h2] at hp
        exact ih _ _ _ hacc p hp
      · by_cases h3 : c = sep ∧ b ≤ 0
        · simp only [separateStrLoop, if_neg h1, if_neg h2, if_pos h3] at hp
          exact ih _ _ _ hacc' p hp
        · simp only [separateStrLoop, if_neg h1, if_neg h2, if_neg h3] at hp
          exact ih _ _ _ hacc p hp

theorem separateStrLoop_segments (sep : Char) (hs1 : sep ≠ '{') (hs2 : sep ≠ '}') (s : Str) :
    ∀ (cur : Str) (b : Int) (acc : List Str), 0 ≤ b →
      (∀ n, 0 ≤ b + braceDepth (s.take n)) →
      separateStrLoop sep s cur b acc =
        acc ++ (segmentsFrom sep s cur b).filter (fun p => !p.isEmpty) := by
  induction s with
  | nil =>
    intro cur b acc _ _
    cases cur with
    | nil => simp [separateStrLoop, segmentsFrom]
    | cons x xs => simp [separateStrLoop, segmentsFrom]
  | cons c rest ih =>
    intro cur b acc hb hpre
    have hstep : 0 ≤ b + braceStep c := by
      have := hpre 1
      simpa [braceDepth] using this
    have hrest : ∀ n, 0 ≤ (b + braceStep c) + braceDepth (rest.take n) := by
      intro n
      have := hpre (n + 1)
      simp only [List.take_succ_cons, braceDepth] at this
      omega
    by_cases h1 : c = '{'
    · subst h1
      have hsep : ¬ ('{' = sep ∧ b ≤ 0) := fun h => hs1 h.1.symm
      have hst : braceStep '{' = 1 := rfl
      rw [hst] at hstep hrest
      simp only [separateStrLoop, segmentsFrom, if_true, if_neg hsep, hst]
      exact ih _ _ _ hstep hrest
    · by_cases h2 : c = '}'
      · subst h2
        have hsep : ¬ ('}' = sep ∧ b ≤ 0) := fun h => hs2 h.1.symm
        have hst : braceStep '}' = -1 := rfl
        rw [hst] at hstep hrest
        simp only [separateStrLoop, segmentsFrom, if_neg h1, if_true, if_neg hsep, hst]
        exact ih _ _ _ hstep hrest
      · have hst : braceStep c = 0 := by simp [braceStep, h1, h2]
        rw [hst] at hrest
        simp only [add_zero] at hrest
        by_cases h3 : c = sep ∧ b ≤ 0
        · have hb0 : b = 0 := le_antisymm h3.2 hb
          subst hb0
          simp only [separateStrLoop, segmentsFrom, if_neg h1, if_neg h2, if_pos h3]
          rw [ih [] 0 _ (le_refl _) hrest]
          cases cur with
          | nil => simp
          | cons x xs => simp
        · simp only [separateStrLoop, segmentsFrom, if_neg h1, if_neg h2, if_neg h3, hst,
            add_zero]
          exact ih _ _ _ hb hrest

theorem noExcessClose_snoc (cur : Str) (c : Char) (h : NoExcessClose cur)
    (hc : 0 ≤ braceDepth cur + braceStep c) : NoExcessClose (cur ++ [c]) := by
  intro n
  by_cases hn : n ≤ cur.length
  · rw [List.take_append_of_le_length hn]
    exact h n
  · rw [List.take_of_length_le (by simp; omega), braceDepth_append, braceDepth_singleton]
    exact hc

theorem separateStrLoop_balanced (sep : Char) (s : Str) :
    ∀ (cur : Str) (acc : List Str), NoExcessClose cur →
      (∀ n, 0 ≤ braceDepth cur + braceDepth (s.take n)) →
      braceDepth cur + braceDepth s = 0 → (∀ p ∈ acc, Balanced p) →
      ∀ p ∈ separateStrLoop sep s cur (braceDepth cur) acc, Balanced p := by
  induction s with
  | nil =>
    intro cur acc hcur _ htot hacc p hp
    simp only [braceDepth, add_zero] at htot
    simp only [separateStrLoop] at hp
    split_ifs at hp
    · rcases List.mem_append.mp hp with hp | hp
      · exact hacc p hp
      · simp only [List.mem_singleton] at hp
        rw [hp]; exact ⟨hcur, htot⟩
    · exact hacc p hp
  | cons c rest ih =>
    intro cur acc hcur hpre htot hacc p hp
    have hstep : 0 ≤ braceDepth cur + braceStep c := by
      have := hpre 1
      simpa [braceDepth] using this
    have hrest : ∀ n, 0 ≤ braceDepth (cur ++ [c]) + braceDepth (rest.take n) := by
      intro n
      have := hpre (n + 1)
      simp only [List.take_succ_cons, braceDepth] at this
      rw [braceDepth_append, braceDepth_singleton]
      omega
    have htot' : braceDepth (cur ++ [c]) + braceDepth rest = 0 := by
      simp only [braceDepth] at htot
      rw [braceDepth_append, braceDepth_singleton]
      omega
    have hsnoc := noExcessClose_snoc cur c hcur hstep
    have hd : braceDepth (cur ++ [c]) = braceDepth cur + braceStep c := by
      rw [braceDepth_append, braceDepth_singleton]
    by_cases h1 : c = '{'
    · subst h1
      simp only [separateStrLoop, if_true] at hp
      have hst : braceStep '{' = 1 := rfl
      rw [hst] at hd
      rw [← hd] at hp
      exact ih _ _ hsnoc hrest htot' hacc p hp
    · by_cases h2 : c = '}'
      · subst h2
        simp only [separateStrLoop, if_neg h1, if_true] at hp
        have hst : braceStep '}' = -1 := rfl
        rw [hst] at hd
        rw [show braceDepth cur - 1 = braceDepth (cur ++ ['}']) by rw [hd]; ring] at hp
        exact ih _ _ hsnoc hrest htot' hacc p hp
      · have hst : braceStep c = 0 := by simp [braceStep, h1, h2]
        rw [hst, add_zero] at hd
        by_cases h3 : c = sep ∧ braceDepth cur ≤ 0
        · have hb0 : braceDepth cur = 0 := le_antisymm h3.2 (by simpa using hcur cur.length)
          simp only [separateStrLoop, if_neg h1, if_neg h2, if_pos h3] at hp
          have hacc' : ∀ q ∈ (if cur.length > 0 then acc ++ [cur] else acc), Balanced q := by
            intro q hq
            split_ifs at hq
            · rcases List.mem_append.mp hq with hq | hq
              · exact hacc q hq
              · simp only [List.mem_singleton] at hq
                rw [hq]; exact ⟨hcur, hb0⟩
            · exact hacc q hq
          have hrest0 : ∀ n, 0 ≤ braceDepth ([] : Str) + braceDepth (rest.take n) := by
            intro n
            have := hrest n
            rw [hd, hb0] at this
            simpa [braceDepth] using this
          have htot0 : braceDepth ([] : Str) + braceDepth rest = 0 := by
            rw [hd, hb0] at htot'
            simpa [braceDepth] using htot'
          exact ih [] _ (fun n => by simp [braceDepth]) hrest0 htot0 hacc' p hp
        · simp only [separateStrLoop, if_neg h1, if_neg h2, if_neg h3] at hp
          rw [← hd] at hp
          exact ih _ _ hsnoc hrest htot' hacc p hp

theorem separateStrLoop_inside (sep : Char) (g : Str) :
    ∀ (rest cur : Str) (b : Int) (acc : List Str),
      (∀ n, n < g.length → 0 < b + braceDepth (g.take n)) →
      separateStrLoop sep (g ++ rest) cur b acc =
        separateStrLoop sep rest (cur ++ g) (b + braceDepth g) acc := by
  induction g with
  | nil => intro rest cur b acc _; simp [braceDepth]
  | cons c g ih =>
    intro rest cur b acc h
    have hb : 0 < b := by
      have := h 0 (by simp)
      simpa [braceDepth] using this
    have hnext : ∀ n, n < g.length → 0 < (b + braceStep c) + braceDepth (g.take n) := by
      intro n hn
      have := h (n + 1) (by simp; omega)
      simp only [List.take_succ_cons, braceDepth] at this
      omega
    have hfin : cur ++ c :: g = (cur ++ [c]) ++ g := by simp
    have hdep : b + braceDepth (c :: g) = (b + braceStep c) + braceDepth g := by
      simp only [braceDepth]; ring
    rw [hfin, hdep, ← ih rest (cur ++ [c]) (b + braceStep c) acc hnext]
    by_cases h1 : c = '{'
    · subst h1
      simp only [List.cons_append, separateStrLoop, if_true]
      rfl
    · by_cases h2 : c = '}'
      · subst h2
        simp only [List.cons_append, separateStrLoop, if_neg h1, if_true]
        rfl
      · have hst : braceStep c = 0 := by simp [braceStep, h1, h2]
        have h3 : ¬ (c = sep ∧ b ≤ 0) := fun h => absurd h.2 (not_le.mpr hb)
        simp only [List.cons_append, separateStrLoop, if_neg h1, if_neg h2, if_neg h3, hst,
          add_zero]
        rfl

theorem separateStrLoop_keeps (sep : Char) (s : Str) :
    ∀ (cur : Str) (b : Int) (acc : List Str), cur ≠ [] →
      ∃ w, cur ++ w ∈ separateStrLoop sep s cur b acc := by
  induction s with
  | nil =>
    intro cur b acc hcur
    refine ⟨[], ?_⟩
    simp only [separateStrLoop, List.append_nil]
    rw [if_pos (List.length_pos.mpr hcur)]
    simp
  | cons c rest ih =>
    intro cur b acc hcur
    have hstep : ∀ (b' : Int), ∃ w, cur ++ w ∈ separateStrLoop sep rest (cur ++ [c]) b' acc := by
      intro b'
      obtain ⟨w, hw⟩ := ih (cur ++ [c]) b' acc (by simp)
      exact ⟨c :: w, by simpa using hw⟩
    by_cases h1 : c = '{'
    · simp only [separateStrLoop, if_pos h1]
      exact hstep _
    · by_cases h2 : c = '}'
      · simp only [separateStrLoop, if_neg h1, if_pos h2]
        exact hstep _
      · by_cases h3 : c = sep ∧ b ≤ 0
        · simp only [separateStrLoop, if_neg h1, if_neg h2, if_pos h3]
          rw [if_pos (List.length_pos.mpr hcur), separateStrLoop_acc]
          exact ⟨[], by simp⟩
        · simp only [separateStrLoop, if_neg h1, if_neg h2, if_neg h3]
          exact hstep _

theorem separateStrLoop_reach (sep : Char) (a : Str) :
    ∀ (rest cur : Str) (b : Int) (acc : List Str), 0 ≤ b →
      (∀ n, 0 ≤ b + braceDepth (a.take n)) →
      ∃ cur' acc', separateStrLoop sep (a ++ rest) cur b acc =
        separateStrLoop sep rest cur' (b + braceDepth a) acc' := by
  induction a with
  | nil => intro rest cur b acc _ _; exact ⟨cur, acc, by simp [braceDepth]⟩
  | cons c a ih =>
    intro rest cur b acc hb hpre
    have hstep : 0 ≤ b + braceStep c := by
      have := hpre 1
      simpa [braceDepth] using this
    have hrest : ∀ n, 0 ≤ (b + braceStep c) + braceDepth (a.take n) := by
      intro n
      have := hpre (n + 1)
      simp only [List.take_succ_cons, braceDepth] at this
      omega
    have hdep : b + braceDepth (c :: a) = (b + braceStep c) + braceDepth a := by
      simp only [braceDepth]; ring
    rw [hdep]
    by_cases h1 : c = '{'
    · subst h1
      obtain ⟨cur', acc', e⟩ := ih rest (cur ++ ['{']) (b + braceStep '{') acc hstep hrest
      refine ⟨cur', acc', ?_⟩
      rw [← e]
      simp only [List.cons_append, separateStrLoop, if_true]
      rfl
    · by_cases h2 : c = '}'
      · subst h2
        obtain ⟨cur', acc', e⟩ := ih rest (cur ++ ['}']) (b + braceStep '}') acc hstep hrest
        refine ⟨cur', acc', ?_⟩
        rw [← e]
        simp only [List.cons_append, separateStrLoop, if_neg h1, if_true]
        rfl
      · have hst : braceStep c = 0 := by simp [braceStep, h1, h2]
        rw [hst, add_zero] at hrest ⊢
        by_cases h3 : c = sep ∧ b ≤ 0
        · have hb0 : b = 0 := le_antisymm h3.2 hb
          subst hb0
          obtain ⟨cur', acc', e⟩ := ih rest [] 0
            (if cur.length > 0 then acc ++ [cur] else acc) (le_refl _) hrest
          refine ⟨cur', acc', ?_⟩
          rw [← e]
          simp only [List.cons_append, separateStrLoop, if_neg h1, if_neg h2, if_pos h3]
          rfl
        · obtain ⟨cur', acc', e⟩ := ih rest (cur ++ [c]) b acc hb hrest
          refine ⟨cur', acc', ?_⟩
          rw [← e]
          simp only [List.cons_append, separateStrLoop, if_neg h1, if_neg h2, if_neg h3]
          rfl

theorem separateStr_group (sep : Char) (a g r : Str)
    (h : NoExcessClose (a ++ '{' :: g ++ '}' :: r)) (hg : Balanced g) :
    ∃ p ∈ separateStr (a ++ '{' :: g ++ '}' :: r) [] sep, ('{' :: g ++ ['}']) <:+: p := by
  have ha : ∀ n, 0 ≤ 0 + braceDepth (a.take n) := by
    intro n
    have := h (min n a.length)
    rw [List.append_assoc, List.take_append_of_le_length (min_le_right _ _)] at this
    rw [zero_add]
    by_cases hn : n ≤ a.length
    · rwa [min_eq_left hn] at this
    · rw [min_eq_right (by omega), List.take_length] at this
      rwa [List.take_of_length_le (by omega)]
  have hda : 0 ≤ braceDepth a := by
    have := ha a.length
    rwa [zero_add, List.take_length] at this
  unfold separateStr
  rw [List.append_assoc]
  obtain ⟨cur', acc', e⟩ := separateStrLoop_reach sep a ('{' :: g ++ '}' :: r) [] 0 [] (le_refl _)
    ha
  rw [e, zero_add]
  have e1 : separateStrLoop sep ('{' :: g ++ '}' :: r) cur' (braceDepth a) acc' =
      separateStrLoop sep (g ++ '}' :: r) (cur' ++ ['{']) (braceDepth a + 1) acc' := by
    simp only [List.cons_append, separateStrLoop, if_true]
    rfl
  have e2 := separateStrLoop_inside sep g ('}' :: r) (cur' ++ ['{']) (braceDepth a + 1) acc'
    (fun n _ => by have := hg.1 n; omega)
  have e3 : separateStrLoop sep ('}' :: r) (cur' ++ ['{'] ++ g) (braceDepth a + 1 + braceDepth g)
      acc' = separateStrLoop sep r (cur' ++ ['{'] ++ g ++ ['}'])
        (braceDepth a + 1 + braceDepth g - 1) acc' := by
    simp [separateStrLoop]
  rw [e1, e2, e3]
  obtain ⟨w, hw⟩ := separateStrLoop_keeps sep r (cur' ++ ['{'] ++ g ++ ['}'])
    (braceDepth a + 1 + braceDepth g - 1) acc' (by simp)
  exact ⟨_, hw, cur', w, by simp⟩

/-- C30 (as the code has it): `separateStr(str, substrs, sep)` appends to
`substrs` without clearing it, and no appended piece is empty. For a
separator other than a brace and a text in which no beginning closes more
braces than it opens, the appended pieces are, in order, the non-empty
segments into which the text is cut at the occurrences of `sep` in front of
which the brace depth is `≤ 0`. In such a text a balanced `{...}` group lies
within one piece as a whole, so no `sep` inside it splits; and when the braces
of the text are balanced, every appended piece has balanced braces. -/
theorem separateStr_pieces (sep : Char) (str : Str) :
    (∀ substrs, separateStr str substrs sep = substrs ++ separateStr str [] sep) ∧
    (∀ p ∈ separateStr str [] sep, p ≠ []) ∧
    (sep ≠ '{' → sep ≠ '}' → NoExcessClose str →
      separateStr str [] sep = (segments sep str).filter (fun p => !p.isEmpty)) ∧
    (NoExcessClose str → ∀ a g r : Str, str = a ++ '{' :: g ++ '}' :: r → Balanced g →
      ∃ p ∈ separateStr str [] sep, ('{' :: g ++ ['}']) <:+: p) ∧
    (Balanced str → ∀ p ∈ separateStr str [] sep, Balanced p) := by
  refine ⟨fun substrs => separateStr_acc str substrs sep, ?_, ?_, ?_, ?_⟩
  · exact separateStrLoop_ne_nil sep str [] 0 [] (fun p hp => by cases hp)
  · intro hs1 hs2 h
    have := separateStrLoop_segments sep hs1 hs2 str [] 0 [] (le_refl _)
      (fun n => by simpa using h n)
    simpa [separateStr, segments] using this
  · intro h a g r hstr hg
    subst hstr
    exact separateStr_group sep a g r h hg
  · intro h p hp
    have := separateStrLoop_balanced sep str [] [] (fun n => by simp [braceDepth])
      (fun n => by simpa [braceDepth] using h.1 n) (by simpa [braceDepth] using h.2)
      (fun p hp => by cases hp)
    exact this p hp

/-- C30 as stated fails: in `"}{a,b}"` the comma lies inside the balanced group
`{a,b}`, yet `separateStr` splits there, because the counter stands at `0`
behind the unmatched `'}'` and the `'{'`; the pieces are `"}{a"` and `"b}"`. -/
theorem separateStr_splits_inside_group :
    separateStr "\x7d\x7ba,b\x7d".toList [] ',' = ["\x7d\x7ba".toList, "b\x7d".toList] := by
  decide

/-- Witness of C30 on `"a+{b+c}+d"`: the pieces are the non-empty segments of
the text. -/
theorem separateStr_pieces_witness :
    separateStr "a+{b+c}+d".toList [] '+' =
      (segments '+' "a+{b+c}+d".toList).filter (fun p => !p.isEmpty) :=
  (separateStr_pieces '+' "a+{b+c}+d".toList).2.2.1 (by decide) (by decide)
    (by
      intro n
      by_cases hn : n ≤ 9
      · interval_cases n <;> decide
      · rw [List.take_of_length_le (by simp; omega)]; decide)

/-! ## Doubling a `'+'` -/

theorem rmSpace_append (a b : Str) : rmSpace (a ++ b) = rmSpace a ++ rmSpace b := by
  induction a with
  | nil => rfl
  | cons c cs ih =>
    by_cases hc : c ≠ ' '
    · show rmSpace (c :: (cs ++ b)) = rmSpace (c :: cs) ++ rmSpace b
      simp only [rmSpace, if_pos hc, ih, List.cons_append]
    · show rmSpace (c :: (cs ++ b)) = rmSpace (c :: cs) ++ rmSpace b
      simp only [rmSpace, if_neg hc, ih]

theorem rmSpace_plus (x : Str) : rmSpace ('+' :: x) = '+' :: rmSpace x := by
  simp [rmSpace]

theorem drop_double (P Q : Str) (j : Nat) (hj : P.length ≤ j) :
    (P ++ '+' :: '+' :: Q).drop (j + 1) = (P ++ '+' :: Q).drop j := by
  obtain ⟨k, rfl⟩ : ∃ k, j = P.length + k := ⟨j - P.length, by omega⟩
  rw [Nat.add_assoc, List.drop_append, List.drop_append]
  rfl

theorem take_double (P Q : Str) (j : Nat) (hj : P.length ≤ j) :
    (P ++ '+' :: '+' :: Q).take (j + 1) = P ++ '+' :: ('+' :: Q).take (j - P.length) ∧
    (P ++ '+' :: Q).take j = P ++ ('+' :: Q).take (j - P.length) := by
  obtain ⟨k, rfl⟩ : ∃ k, j = P.length + k := ⟨j - P.length, by omega⟩
  rw [Nat.add_assoc, List.take_append, List.take_append]
  simp

theorem rfind_double (P Q : Str) (t : Nat)
    (h : rfind (P ++ '+' :: Q) ['+', 'T'] = some t) (hle : P.length ≤ t) :
    rfind (P ++ '+' :: '+' :: Q) ['+', 'T'] = some (t + 1) := by
  unfold rfind at h ⊢
  have hlen : (P ++ '+' :: '+' :: Q).length = (P ++ '+' :: Q).length + 1 := by
    simp only [List.length_append, List.length_cons]; omega
  by_cases h2 : ['+', 'T'].length ≤ (P ++ '+' :: Q).length
  · rw [if_pos h2] at h
    rw [if_pos (by rw [hlen]; omega)]
    obtain ⟨a1, a2, a3⟩ := (rfindFrom_some _ _ _ _).mp h
    rw [rfindFrom_some]
    have h2' : 2 ≤ (P ++ '+' :: Q).length := h2
    have hp : (P ++ '+' :: '+' :: Q).length - ['+', 'T'].length =
        ((P ++ '+' :: Q).length - ['+', 'T'].length) + 1 := by
      rw [hlen]
      show (P ++ '+' :: Q).length + 1 - 2 = (P ++ '+' :: Q).length - 2 + 1
      omega
    rw [hp]
    refine ⟨by omega, ?_, ?_⟩
    · rw [drop_double P Q t hle]; exact a2
    · intro j hj1 hj2
      obtain ⟨j', rfl⟩ : ∃ j', j = j' + 1 := ⟨j - 1, by omega⟩
      rw [drop_double P Q j' (by omega)]
      exact a3 j' (by omega) (by omega)
  · rw [if_neg h2] at h; cases h

theorem readTreeNumber_double (P Q : Str) (t : Nat)
    (hpos : rfind (P ++ '+' :: Q) "+T".toList = some t) (hle : P.length ≤ t)
    (K : Int) (body : Str) (h : readTreeNumber (P ++ '+' :: Q) = .ok (K, body)) :
    ∃ B, (B = [] ∨ B.head? = some '+') ∧ body = P ++ B ∧
      readTreeNumber (P ++ '+' :: '+' :: Q) = .ok (K, P ++ '+' :: B) := by
  have hT : "+T".toList = ['+', 'T'] := rfl
  rw [hT] at hpos
  have hpos' := rfind_double P Q t hpos hle
  unfold readTreeNumber at h ⊢
  rw [hT] at h ⊢
  rw [hpos] at h
  rw [hpos']
  simp only at h ⊢
  have hlen : (P ++ '+' :: '+' :: Q).length = (P ++ '+' :: Q).length + 1 := by
    simp only [List.length_append, List.length_cons]; omega
  have hlen2 : P.length + 1 ≤ (P ++ '+' :: Q).length := by simp
  by_cases hp : t ≥ (P ++ '+' :: Q).length - 2
  · rw [if_pos hp] at h; cases h
  · rw [if_neg hp] at h
    rw [if_neg (by rw [hlen]; omega)]
    injection h with h
    injection h with hK hbody
    obtain ⟨t1, t2⟩ := take_double P Q t hle
    refine ⟨('+' :: Q).take (t - P.length), ?_, ?_, ?_⟩
    · by_cases hk : t - P.length = 0
      · left; rw [hk]; rfl
      · right
        obtain ⟨k, hk'⟩ : ∃ k, t - P.length = k + 1 := ⟨t - P.length - 1, by omega⟩
        rw [hk']; rfl
    · rw [← hbody]
      simp only [substr, List.drop_zero]
      exact t2
    · simp only [substr, substrFrom, List.drop_zero]
      rw [t1, show t + 1 + 2 = (t + 2) + 1 by omega, drop_double P Q (t + 2) (by omega)]
      simp only [substrFrom] at hK
      rw [hK]

theorem separateStrLoop_counter (sep : Char) (P : Str) :
    ∀ (cur : Str) (b : Int) (acc : List Str), ∃ cur' acc', ∀ rest,
      separateStrLoop sep (P ++ rest) cur b acc =
        separateStrLoop sep rest cur' (bracCounter sep P b) acc' := by
  induction P with
  | nil => intro cur b acc; exact ⟨cur, acc, fun rest => rfl⟩
  | cons c P ih =>
    intro cur b acc
    by_cases h1 : c = '{'
    · obtain ⟨cur', acc', e⟩ := ih (cur ++ [c]) (b + 1) acc
      refine ⟨cur', acc', fun rest => ?_⟩
      rw [← (show bracCounter sep P (b + 1) = bracCounter sep (c :: P) b by
        simp only [bracCounter, if_pos h1]), ← e rest]
      simp only [List.cons_append, separateStrLoop, if_pos h1]
      rfl
    · by_cases h2 : c = '}'
      · obtain ⟨cur', acc', e⟩ := ih (cur ++ [c]) (b - 1) acc
        refine ⟨cur', acc', fun rest => ?_⟩
        rw [← (show bracCounter sep P (b - 1) = bracCounter sep (c :: P) b by
          simp only [bracCounter, if_neg h1, if_pos h2]), ← e rest]
        simp only [List.cons_append, separateStrLoop, if_neg h1, if_pos h2]
        rfl
      · by_cases h3 : c = sep ∧ b ≤ 0
        · obtain ⟨cur', acc', e⟩ := ih [] 0 (if cur.length > 0 then acc ++ [cur] else acc)
          refine ⟨cur', acc', fun rest => ?_⟩
          rw [← (show bracCounter sep P 0 = bracCounter sep (c :: P) b by
            simp only [bracCounter, if_neg h1, if_neg h2, if_pos h3]), ← e rest]
          simp only [List.cons_append, separateStrLoop, if_neg h1, if_neg h2, if_pos h3]
          rfl
        · obtain ⟨cur', acc', e⟩ := ih (cur ++ [c]) b acc
          refine ⟨cur', acc', fun rest => ?_⟩
          rw [← (show bracCounter sep P b = bracCounter sep (c :: P) b by
            simp only [bracCounter, if_neg h1, if_neg h2, if_neg h3]), ← e rest]
          simp only [List.cons_append, separateStrLoop, if_neg h1, if_neg h2, if_neg h3]
          rfl

theorem separateStr_double (P B : Str) (hP : bracCounter '+' P 0 ≤ 0)
    (hB : B = [] ∨ B.head? = some '+') :
    separateStr (P ++ '+' :: B) [] '+' = separateStr (P ++ B) [] '+' := by
  obtain ⟨cur', acc', e⟩ := separateStrLoop_counter '+' P [] 0 []
  unfold separateStr
  rw [e, e]
  have hsep : ('+' : Char) = '+' ∧ bracCounter '+' P 0 ≤ 0 := ⟨rfl, hP⟩
  rcases hB with hB | hB
  · subst hB
    simp only [separateStrLoop, if_pos hsep]
    simp [hP, not_lt.mpr hP]
  · cases B with
    | nil => cases hB
    | cons c B' =>
      simp only [List.head?_cons, Option.some.injEq] at hB
      subst hB
      simp only [separateStrLoop, if_pos hsep]
      simp [hP]

theorem finishModel_treemix (tm tm' : Str) (K : Int) (st : ParseState) (spec : ModelSpec)
    (h : finishModel tm K st = .ok spec) :
    finishModel tm' K st = .ok { spec with treemix_model := tm' } := by
  simp only [finishModel] at h ⊢
  by_cases h0 : st.model_names.length = 0
  · rw [if_pos h0] at h; cases h
  · rw [if_neg h0] at h ⊢
    by_cases h1 : st.model_names.length > 1 ∧ (st.model_names.length : Int) ≠ K
    · rw [if_pos h1] at h; cases h
    · rw [if_neg h1] at h ⊢
      by_cases h2 : st.siterate_names.length > 1 ∧ (st.siterate_names.length : Int) ≠ K
      · rw [if_pos h2] at h; cases h
      · rw [if_neg h2] at h ⊢
        injection h with h
        subst h
        rfl

/-- C21 (as the code has it): when `separateModel` accepts a text, and a `'+'`
of it stands at or in front of the last `"+T"` of the text without spaces, at
a place where the brace counter of `separateStr` is `≤ 0` (so that `'+'` is
a separator at top level), then the text with this `'+'` doubled is accepted
as well, with the same `model_names`, `siterate_names`, `isLinkModel`,
`isLinkSiteRate`, `anySiteRate` and `ntree`; only `treemix_model`, the text
itself, has changed. -/
theorem separateModel_double_plus (pre post : Str) (spec : ModelSpec) (t_pos : Nat)
    (h : separateModel (pre ++ '+' :: post) = .ok spec)
    (hpos : rfind (rmSpace (pre ++ '+' :: post)) "+T".toList = some t_pos)
    (hle : (rmSpace pre).length ≤ t_pos)
    (hdepth : bracCounter '+' (rmSpace pre) 0 ≤ 0) :
    separateModel (pre ++ '+' :: '+' :: post) =
      .ok { spec with treemix_model := rmSpace (pre ++ '+' :: '+' :: post) } := by
  have hs : rmSpace (pre ++ '+' :: post) = rmSpace pre ++ '+' :: rmSpace post := by
    rw [rmSpace_append, rmSpace_plus]
  have hs' : rmSpace (pre ++ '+' :: '+' :: post) =
      rmSpace pre ++ '+' :: '+' :: rmSpace post := by
    rw [rmSpace_append, rmSpace_plus, rmSpace_plus]
  unfold separateModel parseDescriptors at h ⊢
  rw [hs] at h hpos
  rw [hs']
  cases hr : readTreeNumber (rmSpace pre ++ '+' :: rmSpace post) with
  | error e => rw [hr] at h; cases h
  | ok r =>
    obtain ⟨K, body⟩ := r
    obtain ⟨B, hB, hbody, hr'⟩ := readTreeNumber_double _ _ t_pos hpos hle K body hr
    rw [hr] at h
    rw [hr']
    simp only at h ⊢
    rw [separateStr_double _ B hdepth hB, ← hbody]
    cases ht : tokenLoop 0 (separateStr body [] '+') ⟨[], [], []⟩ with
    | error e => rw [ht] at h; cases h
    | ok st =>
      rw [ht] at h
      simp only at h ⊢
      exact finishModel_treemix _ _ K st spec h

/-- C21 as stated fails: `"MIX{GTR+G,JC}+T2"` is accepted, but with the `'+'`
inside the group doubled, `"MIX{GTR++G,JC}+T2"`, `divideModelNSiteRate` meets
an empty token and `separateModel` stops with "GTR++G is not a valid model". -/
theorem separateModel_double_plus_in_group :
    separateModel "MIX{GTR+G,JC}+T2".toList =
      .ok ⟨"MIX{GTR+G,JC}+T2".toList, ["GTR".toList, "JC".toList], ["G".toList, []], false,
        false, true, 2⟩ ∧
    separateModel "MIX{GTR++G,JC}+T2".toList = .error (.invalidModel "GTR++G".toList) := by
  decide

/-- Witness of C21 on `"GTR+G4+T2"`: with the first `'+'` doubled the text is
accepted with the same descriptors. -/
theorem separateModel_double_plus_witness :
    separateModel "GTR++G4+T2".toList =
      .ok ⟨"GTR++G4+T2".toList, ["GTR".toList], ["G4".toList], true, true, true, 2⟩ :=
  separateModel_double_plus "GTR".toList "G4+T2".toList
    ⟨"GTR+G4+T2".toList, ["GTR".toList], ["G4".toList], true, true, true, 2⟩ 6
    (by decide) (by decide) (by decide) (by decide)

section ParamStep

variable {α σ : Type}

theorem set_restore {β : Type} (l : List β) (r : Nat) (a d : β) :
    (l.set r a).set r (l.getD r d) = l := by
  rw [List.set_set]
  apply List.ext_getElem?
  intro j
  rw [List.getElem?_set]
  by_cases hj : r = j
  · subst hj
    rw [if_pos rfl]
    by_cases hr : r < l.length
    · rw [if_pos hr, List.getD_eq_getElem?_getD, List.getElem?_eq_getElem hr]
      rfl
    · rw [if_neg hr, List.getElem?_eq_none (by omega)]
  · rw [if_neg hj]

theorem getD_set_self {β : Type} (l : List β) (r : Nat) (a d : β) (hr : r < l.length) :
    (l.set r a).getD r d = a := by
  rw [List.getD_eq_getElem?_getD, List.getElem?_set_self hr]
  rfl

theorem set_getD_same {β : Type} (l : List β) (i : Nat) (d : β) :
    l.set i (l.getD i d) = l := by
  apply List.ext_getElem?
  intro j
  rw [List.getElem?_set]
  by_cases hj : i = j
  · subst hj
    rw [if_pos rfl]
    by_cases hr : i < l.length
    · rw [if_pos hr, List.getD_eq_getElem?_getD, List.getElem?_eq_getElem hr]
      rfl
    · rw [if_neg hr, List.getElem?_eq_none (by omega)]
  · rw [if_neg hj]

theorem rateOf_lt (links : MixLinks) (i r : Nat) (h : rateOf links i = some r) :
    r < links.rates.length := by
  unfold rateOf at h
  cases ht : links.trees[i]? with
  | none => rw [ht] at h; cases h
  | some t =>
    rw [ht] at h
    simp only at h
    cases hs : t.site_rate with
    | none => rw [hs] at h; cases h
    | some r' =>
      rw [hs] at h
      simp only at h
      by_cases hlt : r' < links.rates.length
      · rw [if_pos hlt] at h
        injection h with h
        rw [← h]; exact hlt
      · rw [if_neg hlt] at h; cases h

theorem rateOf_congr (l l' : MixLinks) (i : Nat) (ht : l'.trees = l.trees)
    (hr : l'.rates.length = l.rates.length) : rateOf l' i = rateOf l i := by
  unfold rateOf
  rw [ht, hr]

/-- What a run of the loop that optimizes the parameters notes and leaves. -/
theorem paramLoop_inv [Zero α] [DecidableEq α] (E : Engine α σ) :
    ∀ (n i : Nat) (score : α) (calls : List (ParamCall α)) (s : OuterState α σ)
      (res : α × List (ParamCall α) × OuterState α σ),
      paramLoop E n i score calls s = some res →
      res.2.2.mix = s.mix ∧ res.2.2.tmp_weights = s.tmp_weights ∧
      res.2.2.pattern_mix_lh = s.pattern_mix_lh ∧
      ∃ new, res.2.1 = calls ++ new ∧ new.map (fun c => c.tree) = List.range' i n ∧
        (∀ c ∈ new, c.atCall = some TreeRef.mix ∧ c.restored = c.saved) ∧
        ((∀ (j : Nat) (l : MixLinks) (pf : List (List α)) (e : σ),
            (E.optimizeAllParameters j l pf e).2.2.1 = pf) →
          res.2.2.ptn_freq = s.ptn_freq ∧
          ∀ c ∈ new, c.ptn_freq = s.ptn_freq.getD c.tree []) ∧
        ((∀ (j : Nat) (l : MixLinks) (pf : List (List α)) (e : σ),
            (E.optimizeAllParameters j l pf e).2.1.trees = l.trees ∧
            (E.optimizeAllParameters j l pf e).2.1.rates.length = l.rates.length) →
          res.2.2.links.trees = s.links.trees ∧
          res.2.2.links.rates.length = s.links.rates.length) ∧
        ((∀ (j : Nat) (l : MixLinks) (pf : List (List α)) (e : σ),
            (E.optimizeAllParameters j l pf e).2.1 = l) →
          res.2.2.links = s.links ∧
          ∀ c ∈ new, ∃ r, rateOf s.links c.tree = some r ∧
            c.saved = s.links.rates.getD r none) := by
  intro n
  induction n with
  | zero =>
    intro i score calls s res h
    simp only [paramLoop] at h
    injection h with h
    subst h
    refine ⟨rfl, rfl, rfl, [], by simp, by simp, by simp, fun _ => ⟨rfl, by simp⟩,
      fun _ => ⟨rfl, rfl⟩, fun _ => ⟨rfl, by simp⟩⟩
  | succ n ih =>
    intro i score calls s res h
    unfold paramLoop at h
    cases hr : rateOf s.links i with
    | none => rw [hr] at h; cases h
    | some r =>
      rw [hr] at h
      simp only at h
      cases hr' : rateOf (paramCall E i r s).2.1 i with
      | none => rw [hr'] at h; cases h
      | some r' =>
        rw [hr'] at h
        simp only at h
        have hlt := rateOf_lt s.links i r hr
        have hlt' := rateOf_lt _ i r' hr'
        generalize hS : ({ s with
            ptn_freq := (paramCall E i r s).2.2.1,
            engine := (paramCall E i r s).2.2.2,
            links := { (paramCall E i r s).2.1 with
              rates := (paramCall E i r s).2.1.rates.set r' (s.links.rates.getD r none) } } :
            OuterState α σ) = S at h
        have hSm : S.mix = s.mix := by rw [← hS]
        have hSt : S.tmp_weights = s.tmp_weights := by rw [← hS]
        have hSp : S.pattern_mix_lh = s.pattern_mix_lh := by rw [← hS]
        have hSf : S.ptn_freq = (paramCall E i r s).2.2.1 := by rw [← hS]
        have hSl : S.links = { (paramCall E i r s).2.1 with
            rates := (paramCall E i r s).2.1.rates.set r' (s.links.rates.getD r none) } := by
          rw [← hS]
        obtain ⟨a1, a2, a3, new, b1, b2, b3, b4, b5, b6⟩ := ih _ _ _ _ _ h
        refine ⟨a1.trans hSm, a2.trans hSt, a3.trans hSp,
          (⟨i, s.links.rates.getD r none, (s.links.rates.set r (some .mix)).getD r none,
            s.ptn_freq.getD i [],
            ((paramCall E i r s).2.1.rates.set r' (s.links.rates.getD r none)).getD r' none⟩ :
            ParamCall α) :: new, ?_, ?_, ?_, ?_, ?_, ?_⟩
        · rw [b1, List.append_assoc]; rfl
        · rw [List.map_cons, b2, List.range'_succ]
        · intro c hc
          rcases List.mem_cons.mp hc with hc | hc
          · subst hc
            exact ⟨getD_set_self _ _ _ _ hlt, getD_set_self _ _ _ _ hlt'⟩
          · exact b3 c hc
        · intro hpar
          obtain ⟨c1, c2⟩ := b4 hpar
          have hpf : S.ptn_freq = s.ptn_freq := hSf.trans (hpar _ _ _ _)
          rw [hpf] at c1 c2
          refine ⟨c1, fun c hc => ?_⟩
          rcases List.mem_cons.mp hc with hc | hc
          · subst hc; rfl
          · exact c2 c hc
        · intro hobj
          obtain ⟨c1, c2⟩ := b5 hobj
          have ho := hobj i { s.links with rates := s.links.rates.set r (some .mix) }
            s.ptn_freq s.engine
          simp only [List.length_set] at ho
          rw [hSl] at c1 c2
          simp only [List.length_set] at c2
          exact ⟨c1.trans ho.1, c2.trans ho.2⟩
        · intro hsame
          obtain ⟨c1, c2⟩ := b6 hsame
          have hl : (paramCall E i r s).2.1 =
              { s.links with rates := s.links.rates.set r (some .mix) } := hsame _ _ _ _
          have hrr : r' = r := by
            have : rateOf (paramCall E i r s).2.1 i = rateOf s.links i := by
              rw [hl]
              exact rateOf_congr _ _ i rfl (by simp)
            rw [hr', hr] at this
            injection this
          subst hrr
          have hback : S.links = s.links := by
            rw [hSl, hl]
            simp only
            rw [set_restore]
          rw [hback] at c1 c2
          refine ⟨c1, fun c hc => ?_⟩
          rcases List.mem_cons.mp hc with hc | hc
          · subst hc; exact ⟨r', hr, rfl⟩
          · exact c2 c hc

theorem paramLoop_total [Zero α] [DecidableEq α] (E : Engine α σ)
    (hobj : ∀ (j : Nat) (l : MixLinks) (pf : List (List α)) (e : σ),
      (E.optimizeAllParameters j l pf e).2.1.trees = l.trees ∧
      (E.optimizeAllParameters j l pf e).2.1.rates.length = l.rates.length) :
    ∀ (n i : Nat) (score : α) (calls : List (ParamCall α)) (s : OuterState α σ),
      (∀ j, i ≤ j → j < i + n → ∃ r, rateOf s.links j = some r) →
      ∃ res, paramLoop E n i score calls s = some res := by
  intro n
  induction n with
  | zero => intro i score calls s _; exact ⟨_, rfl⟩
  | succ n ih =>
    intro i score calls s h
    obtain ⟨r, hr⟩ := h i (le_refl _) (by omega)
    have ho := hobj i { s.links with rates := s.links.rates.set r (some .mix) }
      s.ptn_freq s.engine
    simp only [List.length_set] at ho
    have hsame : ∀ j, rateOf (paramCall E i r s).2.1 j = rateOf s.links j :=
      fun j => rateOf_congr _ _ j ho.1 ho.2
    unfold paramLoop
    rw [hr]
    simp only
    rw [hsame i, hr]
    simp only
    apply ih
    intro j h1 h2
    obtain ⟨r1, hr1⟩ := h j (by omega) (by omega)
    exact ⟨r1, (rateOf_congr s.links
      ({ (paramCall E i r s).2.1 with
        rates := (paramCall E i r s).2.1.rates.set r (s.links.rates.getD r none) } : MixLinks)
      j ho.1 (by simp only [List.length_set]; exact ho.2)).trans hr1⟩

end ParamStep

section Frequencies

variable {α σ : Type}

theorem getD_set_other {β : Type} (l : List β) (i j : Nat) (a d : β) (h : i ≠ j) :
    (l.set i a).getD j d = l.getD j d := by
  rw [List.getD_eq_getElem?_getD, List.getD_eq_getElem?_getD, List.getElem?_set_ne h]

theorem freqColumnLoop_eq [Zero α] (pml : List α) (ntree i : Nat) (n : Nat) :
    ∀ (ptn : Nat) (row : List α),
      freqColumnLoop pml ntree i n ptn row =
        updLoop (fun c _ => pml.getD (i + c * ntree) 0) n ptn ptn row := by
  induction n with
  | zero => intro ptn row; rfl
  | succ n ih => intro ptn row; rw [freqColumnLoop, ih, updLoop]

theorem resetRowLoop_eq [Zero α] (ofInt : Int → α) (freqs : List Int) (n : Nat) :
    ∀ (ptn : Nat) (row : List α),
      resetRowLoop ofInt freqs n ptn row =
        updLoop (fun c _ => ofInt (freqs.getD c 0)) n ptn ptn row := by
  induction n with
  | zero => intro ptn row; rfl
  | succ n ih => intro ptn row; rw [resetRowLoop, ih, updLoop]

theorem freqColumn_spec [Zero α] (pml : List α) (ntree i nptn : Nat) (row : List α)
    (h : nptn ≤ row.length) :
    nptn ≤ (freqColumnLoop pml ntree i nptn 0 row).length ∧
    ∀ p, p < nptn →
      (freqColumnLoop pml ntree i nptn 0 row).getD p 0 = pml.getD (i + p * ntree) 0 := by
  rw [freqColumnLoop_eq]
  refine ⟨by rw [updLoop_length]; exact h, fun p hp => ?_⟩
  have := updLoop_hit (fun c _ => pml.getD (i + c * ntree) 0) nptn 0 0 row p hp (by omega)
  simpa using this

theorem resetRow_spec [Zero α] (ofInt : Int → α) (freqs : List Int) (nptn : Nat)
    (row : List α) (h : nptn ≤ row.length) :
    nptn ≤ (resetRowLoop ofInt freqs nptn 0 row).length ∧
    ∀ p, p < nptn →
      (resetRowLoop ofInt freqs nptn 0 row).getD p 0 = ofInt (freqs.getD p 0) := by
  rw [resetRowLoop_eq]
  refine ⟨by rw [updLoop_length]; exact h, fun p hp => ?_⟩
  have := updLoop_hit (fun c _ => ofInt (freqs.getD c 0)) nptn 0 0 row p hp (by omega)
  simpa using this

theorem updateFreqLoop_spec [Zero α] (E : Engine α σ) (pml : List α) (ntree nptn K : Nat)
    (hcomp : ∀ (i : Nat) (row : List α) (e : σ), nptn ≤ (E.computePtnFreq i row e).1.length) :
    ∀ (n i : Nat) (pf : List (List α)) (e : σ), i + n = K → pf.length = K →
      (updateFreqLoop E pml ntree nptn n i pf e).1.length = K ∧
      (∀ j, j < i → (updateFreqLoop E pml ntree nptn n i pf e).1.getD j [] = pf.getD j []) ∧
      (∀ j, i ≤ j → j < K →
        nptn ≤ ((updateFreqLoop E pml ntree nptn n i pf e).1.getD j []).length ∧
        ∀ p, p < nptn →
          ((updateFreqLoop E pml ntree nptn n i pf e).1.getD j []).getD p 0 =
            pml.getD (j + p * ntree) 0) := by
  intro n
  induction n with
  | zero =>
    intro i pf e hn hl
    exact ⟨hl, fun _ _ => rfl, fun j h1 h2 => by omega⟩
  | succ n ih =>
    intro i pf e hn hl
    rw [updateFreqLoop]
    obtain ⟨a1, a2, a3⟩ := ih (i + 1)
      (pf.set i (freqColumnLoop pml ntree i nptn 0
        (E.computePtnFreq i (pf.getD i []) (E.initializeAllPartialLh i e)).1))
      (E.computePtnFreq i (pf.getD i []) (E.initializeAllPartialLh i e)).2 (by omega)
      (by rw [List.length_set]; exact hl)
    refine ⟨a1, fun j hj => ?_, fun j h1 h2 => ?_⟩
    · rw [a2 j (by omega), getD_set_other _ _ _ _ _ (by omega)]
    · by_cases hj : j = i
      · subst hj
        rw [a2 j (by omega), getD_set_self _ _ _ _ (by omega)]
        exact freqColumn_spec pml ntree j nptn _ (hcomp _ _ _)
      · exact a3 j (by omega) h2

theorem resetFreqLoop_spec [Zero α] (ofInt : Int → α) (freqs : List Int) (nptn K : Nat) :
    ∀ (n i : Nat) (pf : List (List α)), i + n = K → pf.length = K →
      (∀ j, j < K → nptn ≤ (pf.getD j []).length) →
      (resetFreqLoop ofInt freqs nptn n i pf).length = K ∧
      (∀ j, j < i → (resetFreqLoop ofInt freqs nptn n i pf).getD j [] = pf.getD j []) ∧
      (∀ j, i ≤ j → j < K →
        nptn ≤ ((resetFreqLoop ofInt freqs nptn n i pf).getD j []).length ∧
        ∀ p, p < nptn →
          ((resetFreqLoop ofInt freqs nptn n i pf).getD j []).getD p 0 =
            ofInt (freqs.getD p 0)) := by
  intro n
  induction n with
  | zero =>
    intro i pf hn hl _
    exact ⟨hl, fun _ _ => rfl, fun j h1 h2 => by omega⟩
  | succ n ih =>
    intro i pf hn hl hrow
    rw [resetFreqLoop]
    obtain ⟨a1, a2, a3⟩ := ih (i + 1)
      (pf.set i (resetRowLoop ofInt freqs nptn 0 (pf.getD i []))) (by omega)
      (by rw [List.length_set]; exact hl)
      (by
        intro j hj
        by_cases hji : j = i
        · subst hji
          rw [getD_set_self _ _ _ _ (by omega)]
          exact (resetRow_spec ofInt freqs nptn _ (hrow j hj)).1
        · rw [getD_set_other _ _ _ _ _ (fun h => hji h.symm)]
          exact hrow j hj)
    refine ⟨a1, fun j hj => ?_, fun j h1 h2 => ?_⟩
    · rw [a2 j (by omega), getD_set_other _ _ _ _ _ (by omega)]
    · by_cases hj : j = i
      · subst hj
        rw [a2 j (by omega), getD_set_self _ _ _ _ (by omega)]
        exact resetRow_spec ofInt freqs nptn _ (hrow j h2)
      · exact a3 j (by omega) h2

theorem branchLoop_inv (E : Engine α σ) (it : Int) (nptn : Nat)
    (hbr : ∀ (i : Nat) (it : Int) (tr : Option TreeRef) (row : List α) (e : σ),
      nptn ≤ row.length → nptn ≤ (E.optimizeAllBranches i it tr row e).1.length) :
    ∀ (n i : Nat) (s s1 : OuterState α σ), branchLoop E it n i s = some s1 →
      s1.links = s.links ∧ s1.mix = s.mix ∧ s1.tmp_weights = s.tmp_weights ∧
      s1.pattern_mix_lh = s.pattern_mix_lh ∧ s1.ptn_freq.length = s.ptn_freq.length ∧
      ((∀ j, j < s.ptn_freq.length → nptn ≤ (s.ptn_freq.getD j []).length) →
        ∀ j, j < s.ptn_freq.length → nptn ≤ (s1.ptn_freq.getD j []).length) := by
  intro n
  induction n with
  | zero =>
    intro i s s1 h
    simp only [branchLoop] at h
    injection h with h
    subst h
    exact ⟨rfl, rfl, rfl, rfl, rfl, fun h => h⟩
  | succ n ih =>
    intro i s s1 h
    unfold branchLoop at h
    cases hr : rateOf s.links i with
    | none => rw [hr] at h; cases h
    | some r =>
      rw [hr] at h
      simp only at h
      obtain ⟨a1, a2, a3, a4, a5, a6⟩ := ih _ _ _ h
      have hlinks : ({ s.links with
          rates := (s.links.rates.set r (some (.comp i))).set r (s.links.rates.getD r none) } :
          MixLinks) = s.links := by
        rw [set_restore]
      simp only [hlinks] at a1
      simp only [List.length_set] at a5 a6
      refine ⟨a1, a2, a3, a4, a5, fun hrow => a6 ?_⟩
      intro j hj
      by_cases hji : j = i
      · subst hji
        rw [getD_set_self _ _ _ _ hj]
        exact hbr _ _ _ _ _ (hrow j hj)
      · rw [getD_set_other _ _ _ _ _ (fun h => hji h.symm)]
        exact hrow j hj

theorem getPostProb_true_inv [Zero α] [Add α] [Mul α] [Div α] [DecidableEq α]
    (exp log : α → α) (ofInt : Int → α) (treeLh : Nat → Nat → α) (st st1 : MixState α)
    (out out' : List α) (h : getPostProb exp log ofInt treeLh st out true = some (out', st1)) :
    st1.ntree = st.ntree ∧ st1.nptn = st.nptn ∧ st1.patn_freqs = st.patn_freqs := by
  simp only [getPostProb, if_true] at h
  have hst : (computeLikelihood exp log ofInt treeLh st none).2.2.ntree = st.ntree ∧
      (computeLikelihood exp log ofInt treeLh st none).2.2.nptn = st.nptn ∧
      (computeLikelihood exp log ofInt treeLh st none).2.2.patn_freqs = st.patn_freqs :=
    ⟨rfl, rfl, rfl⟩
  generalize (computeLikelihood exp log ofInt treeLh st none).2.2 = c at h hst
  cases hn : normalizeLoop ofInt c.ntree c.patn_freqs c.nptn 0
      (weightAll c.weights c.ntree c.nptn 0 (memcpy out c.ptn_like_cat (c.nptn * c.ntree))) with
  | none => rw [hn] at h; cases h
  | some o =>
    rw [hn] at h
    injection h with h
    injection h with _ h2
    rw [← h2]
    exact hst

/-- What the first half of a turn of the outer loop leaves. -/
theorem outerFirstHalf_inv [LinearOrderedField α] (E : Engine α σ) (step : Int)
    (s s4 : OuterState α σ) (score : α)
    (hrows : s.ptn_freq.length = s.mix.ntree)
    (hcomp : ∀ (i : Nat) (row : List α) (e : σ),
      s.mix.nptn ≤ (E.computePtnFreq i row e).1.length)
    (hbr : ∀ (i : Nat) (it : Int) (tr : Option TreeRef) (row : List α) (e : σ),
      s.mix.nptn ≤ row.length → s.mix.nptn ≤ (E.optimizeAllBranches i it tr row e).1.length)
    (h : outerFirstHalf E step s = some (score, s4)) :
    s4.links = s.links ∧ s4.mix.ntree = s.mix.ntree ∧ s4.mix.nptn = s.mix.nptn ∧
    s4.mix.patn_freqs = s.mix.patn_freqs ∧ s4.ptn_freq.length = s.mix.ntree ∧
    ∀ i p, i < s.mix.ntree → p < s.mix.nptn →
      (s4.ptn_freq.getD i []).getD p 0 = E.ofInt (s.mix.patn_freqs.getD p 0) := by
  unfold outerFirstHalf at h
  cases hg : getPostProb E.exp E.log E.ofInt (E.treeLh s.engine) s.mix s.pattern_mix_lh true with
  | none => rw [hg] at h; cases h
  | some r =>
    obtain ⟨pml, mix1⟩ := r
    rw [hg] at h
    simp only at h
    obtain ⟨m1, m2, m3⟩ := getPostProb_true_inv _ _ _ _ _ _ _ _ hg
    cases hb : optimizeAllBranches E (min (step + 1) 3)
        (updateFreqArray E { s with mix := mix1, pattern_mix_lh := pml }) with
    | none => rw [hb] at h; cases h
    | some r2 =>
      obtain ⟨sc, s2⟩ := r2
      rw [hb] at h
      simp only at h
      injection h with h
      injection h with _ h4
      unfold optimizeAllBranches at hb
      cases hl : branchLoop E (min (step + 1) 3)
          (updateFreqArray E { s with mix := mix1, pattern_mix_lh := pml }).mix.ntree 0
          (updateFreqArray E { s with mix := mix1, pattern_mix_lh := pml }) with
      | none => rw [hl] at hb; cases hb
      | some s1 =>
        rw [hl] at hb
        simp only at hb
        injection hb with hb
        injection hb with _ hs2
        obtain ⟨u1, _, u3⟩ := updateFreqLoop_spec E pml mix1.ntree s.mix.nptn s.mix.ntree hcomp
          s.mix.ntree 0 s.ptn_freq s.engine (by omega) hrows
        have hu : (updateFreqArray E { s with mix := mix1, pattern_mix_lh := pml }).ptn_freq =
            (updateFreqLoop E pml mix1.ntree s.mix.nptn s.mix.ntree 0 s.ptn_freq s.engine).1 := by
          simp only [updateFreqArray, m1, m2]
        obtain ⟨b1, b2, _, _, b5, b6⟩ := branchLoop_inv E (min (step + 1) 3) s.mix.nptn hbr
          _ 0 _ s1 hl
        rw [hu, u1] at b5 b6
        have hrow1 : ∀ j, j < s.mix.ntree → s.mix.nptn ≤ (s1.ptn_freq.getD j []).length :=
          b6 (fun j hj => (u3 j (Nat.zero_le _) hj).1)
        have hmix2 : s2.mix.ntree = s.mix.ntree ∧ s2.mix.nptn = s.mix.nptn ∧
            s2.mix.patn_freqs = s.mix.patn_freqs := by
          rw [← hs2]
          show s1.mix.ntree = _ ∧ s1.mix.nptn = _ ∧ s1.mix.patn_freqs = _
          rw [b2]
          exact ⟨m1, m2, m3⟩
        have hpf2 : s2.ptn_freq = s1.ptn_freq := by rw [← hs2]
        have hl2 : s2.links = s.links := by rw [← hs2]; exact b1
        obtain ⟨r1, _, r3⟩ := resetFreqLoop_spec E.ofInt s.mix.patn_freqs s.mix.nptn s.mix.ntree
          s.mix.ntree 0 s1.ptn_freq (by omega) b5 hrow1
        rw [← h4]
        simp only [hmix2.1, hmix2.2.1, hmix2.2.2, hpf2]
        exact ⟨hl2, trivial, trivial, trivial, r1,
          fun i p hi hp => (r3 i (Nat.zero_le _) hi).2 p hp⟩

theorem optimizeLoop_post [LinearOrderedField α] {τ : Type}
    (iteration : Int → τ → Option (α × τ)) (steps : Int) (Inv Post : τ → Prop)
    (hstep : ∀ (step : Int) (s s' : τ) (sc : α), Inv s → iteration step s = some (sc, s') →
      Inv s' ∧ Post s') :
    ∀ (fuel : Nat) (step : Int) (prev : α) (score : Option α) (trace : List α) (s : τ)
      (res : Option α × List α × τ), Inv s → (trace ≠ [] → Post s) →
      optimizeLoop iteration steps fuel step prev score trace s = .done res →
      res.2.1 ≠ [] → Post res.2.2 := by
  intro fuel
  induction fuel with
  | zero =>
    intro step prev score trace s res hi hp h
    unfold optimizeLoop at h
    by_cases hc : step < steps ∨ steps = -1
    · rw [if_pos hc] at h; cases h
    · rw [if_neg hc] at h
      injection h with h
      subst h
      exact hp
  | succ fuel ih =>
    intro step prev score trace s res hi hp h
    unfold optimizeLoop at h
    by_cases hc : step < steps ∨ steps = -1
    · rw [if_pos hc] at h
      cases hit : iteration step s with
      | none => rw [hit] at h; cases h
      | some r =>
        obtain ⟨sc, s1⟩ := r
        rw [hit] at h
        simp only at h
        obtain ⟨i1, p1⟩ := hstep step s s1 sc hi hit
        by_cases hb : sc < prev + 1 / 10000
        · rw [if_pos hb] at h
          injection h with h
          subst h
          exact fun _ => p1
        · rw [if_neg hb] at h
          exact ih _ _ _ _ _ res i1 (fun _ => p1) h
    · rw [if_neg hc] at h
      injection h with h
      subst h
      exact hp

theorem getPostProb_true_eq [Zero α] [Add α] [Mul α] [Div α] [DecidableEq α]
    (exp log : α → α) (ofInt : Int → α) (treeLh : Nat → Nat → α) (st : MixState α)
    (out : List α) :
    getPostProb exp log ofInt treeLh st out true =
      getPostProb exp log ofInt treeLh (computeLikelihood exp log ofInt treeLh st none).2.2
        out false := by
  simp only [getPostProb, if_true, Bool.false_eq_true, if_false]

theorem branchLoop_total (E : Engine α σ) (it : Int) :
    ∀ (n i : Nat) (s : OuterState α σ),
      (∀ j, i ≤ j → j < i + n → ∃ r, rateOf s.links j = some r) →
      ∃ s1, branchLoop E it n i s = some s1 := by
  intro n
  induction n with
  | zero => intro i s _; exact ⟨_, rfl⟩
  | succ n ih =>
    intro i s h
    obtain ⟨r, hr⟩ := h i (le_refl _) (by omega)
    unfold branchLoop
    rw [hr]
    simp only
    apply ih
    intro j h1 h2
    have hlinks : ({ s.links with
        rates := (s.links.rates.set r (some (.comp i))).set r (s.links.rates.getD r none) } :
        MixLinks) = s.links := by
      rw [set_restore]
    simp only [hlinks]
    exact h j (by omega) (by omega)

/-- With a minimizer that stays inside its bounds, the weights left by
`optimizeTreeWeightsByBFGS` are `K` positive numbers. -/
theorem optimizeTreeWeightsByBFGS_pos [LinearOrderedField α] (K : Nat) (hK : 1 ≤ K)
    (weights tmp_weights : List α) (hw : weights.length = K)
    (minimize : List α → Nat → List α → List α → List Bool → α → List α × α)
    (hmin : ∀ (vars lo up : List α) (bc : List Bool) (eps : α) (i : Nat), 1 ≤ i → i ≤ K →
      bc.getD i false = true → lo.getD i 0 ≤ up.getD i 0 →
      lo.getD i 0 ≤ (minimize vars K lo up bc eps).1.getD i 0 ∧
        (minimize vars K lo up bc eps).1.getD i 0 ≤ up.getD i 0) :
    (optimizeTreeWeightsByBFGS minimize K weights tmp_weights).2.1.length = K ∧
    ∀ i, i < K → 0 < (optimizeTreeWeightsByBFGS minimize K weights tmp_weights).2.1.getD i 0 := by
  have hv := minimizer_in_bounds K minimize hmin
    (setVariables K (copyWeightsLoop weights K 0 (resize tmp_weights K))
      (List.replicate (K + 1) 0)) (1 / 1000000)
  have htmp : K ≤ (copyWeightsLoop weights K 0 (resize tmp_weights K)).length := by
    rw [copyWeightsLoop_eq, updLoop_length, resize_length]
  obtain ⟨g1, _, g3⟩ := getVariables_spec K
    (minimize (setVariables K (copyWeightsLoop weights K 0 (resize tmp_weights K))
      (List.replicate (K + 1) 0)) K
      (setBounds K (List.replicate (K + 1) (0 : α)) (List.replicate (K + 1) 0)
        (List.replicate (K + 1) false)).1
      (setBounds K (List.replicate (K + 1) (0 : α)) (List.replicate (K + 1) 0)
        (List.replicate (K + 1) false)).2.1
      (setBounds K (List.replicate (K + 1) (0 : α)) (List.replicate (K + 1) 0)
        (List.replicate (K + 1) false)).2.2 (1 / 1000000)).1
    weights (copyWeightsLoop weights K 0 (resize tmp_weights K)) (by omega) htmp
  obtain ⟨n1, _, _, _⟩ := normalized_weights K hK _ hv
  simp only [optimizeTreeWeightsByBFGS]
  refine ⟨by rw [g1, hw], fun i hi => ?_⟩
  rw [g3 i hi]
  exact div_pos (lt_of_lt_of_le MIN_PROP_pos (hv (i + 1) (by omega) (by omega)).1) n1

/-- The first half of a turn of the outer loop in the setting of a turn: it
goes through, keeps the setting, and leaves the true frequencies in every
`ptn_freq` array. -/
theorem outerFirstHalf_ready [LinearOrderedField α] (E : Engine α σ) (step : Int)
    (s : OuterState α σ) (hE : EngineReady E s.mix.ntree s.mix.nptn) (hs : OuterReady s) :
    ∃ score s4, outerFirstHalf E step s = some (score, s4) ∧ OuterReady s4 ∧
      s4.links = s.links ∧ s4.mix.ntree = s.mix.ntree ∧ s4.mix.nptn = s.mix.nptn ∧
      s4.mix.patn_freqs = s.mix.patn_freqs ∧
      ∀ i p, i < s.mix.ntree → p < s.mix.nptn →
        (s4.ptn_freq.getD i []).getD p 0 = E.ofInt (s.mix.patn_freqs.getD p 0) := by
  obtain ⟨r1, r2, r3, r4, r5, r6, r7, r8⟩ := hs
  obtain ⟨e1, e2, e3, e4, _⟩ := hE
  -- the state behind `computeLikelihood`
  obtain ⟨c1, c2, c3, c4, c5, c6⟩ := computeLikelihood_state E.exp E.log E.ofInt
    (E.treeLh s.engine) s.mix none r3 r4
  have hlay := computeLikelihood_layout E.exp E.log E.ofInt (E.treeLh s.engine) s.mix none r3 r4
  generalize hmix1 : (computeLikelihood E.exp E.log E.ofInt (E.treeLh s.engine) s.mix none).2.2
    = mix1 at c1 c2 c3 c4 c5 c6 hlay
  have hnz : ∀ p, p < mix1.nptn →
      ∑ j ∈ Finset.range mix1.ntree,
        mix1.weights.getD j 0 * mix1.ptn_like_cat.getD (p * mix1.ntree + j) 0 ≠ 0 := by
    intro p hp
    apply ne_of_gt
    apply Finset.sum_pos
    · intro j hj
      have hj' : j < s.mix.ntree := by rw [← c1]; exact Finset.mem_range.mp hj
      rw [c3, c1, hlay j p hj' (by rw [← c2]; exact hp)]
      exact mul_pos (r6 j hj') (e1 _)
    · exact ⟨0, Finset.mem_range.mpr (by rw [c1]; omega)⟩
  obtain ⟨out', g1, g2, _, _⟩ := getPostProb_cells E.exp E.log E.ofInt (E.treeLh s.engine) mix1
    s.pattern_mix_lh (by rw [c5, c1, c2]) (by rw [r5, c1, c2]) hnz
  have hg : getPostProb E.exp E.log E.ofInt (E.treeLh s.engine) s.mix s.pattern_mix_lh true =
      some (out', mix1) := by
    rw [getPostProb_true_eq, hmix1]; exact g1
  -- the loop over the trees of `optimizeAllBranches`
  obtain ⟨s1, hb⟩ := branchLoop_total E (min (step + 1) 3) mix1.ntree 0
    (updateFreqArray E { s with mix := mix1, pattern_mix_lh := out' })
    (fun j _ hj => r8 j (by rw [c1] at hj; omega))
  obtain ⟨b1, b2, b3, b4, _, _⟩ := branchLoop_inv E (min (step + 1) 3) s.mix.nptn e3 _ 0 _ s1 hb
  have hl1 : s1.links = s.links := b1
  have hm1 : s1.mix = mix1 := b2
  have hp1 : s1.pattern_mix_lh = out' := b4
  -- the state behind the `computeLikelihood` of `optimizeAllBranches`
  obtain ⟨d1, d2, d3, d4, d5, d6⟩ := computeLikelihood_state E.exp E.log E.ofInt
    (E.treeLh s1.engine) s1.mix none (by rw [hm1, c5, c1, c2]) (by rw [hm1, c6, c1, c2])
  generalize hX : (computeLikelihood E.exp E.log E.ofInt (E.treeLh s1.engine) s1.mix none).2.2
    = X at d1 d2 d3 d4 d5 d6
  rw [hm1] at d1 d2 d3 d4 d5 d6
  rw [c1] at d1 d5 d6
  rw [c2] at d2 d5 d6
  rw [c3] at d3
  rw [c4] at d4
  have hW := optimizeTreeWeightsByBFGS_pos X.ntree (by rw [d1]; exact r1) X.weights
    s1.tmp_weights (by rw [d3, d1]; exact r2) (E.minimizeMultiDimen s1.engine)
    (by rw [d1]; exact e4 s1.engine)
  have heq : ∃ sc s4, outerFirstHalf E step s = some (sc, s4) ∧
      s4.mix = { X with
        weights := (optimizeTreeWeightsByBFGS (E.minimizeMultiDimen s1.engine) X.ntree
          X.weights s1.tmp_weights).2.1 } ∧
      s4.pattern_mix_lh = s1.pattern_mix_lh ∧ s4.links = s1.links := by
    unfold outerFirstHalf
    rw [hg]
    simp only
    unfold optimizeAllBranches
    have hn : (updateFreqArray E { s with mix := mix1, pattern_mix_lh := out' }).mix.ntree =
        mix1.ntree := rfl
    rw [hn, hb]
    simp only
    rw [hX]
    exact ⟨_, _, rfl, rfl, rfl, rfl⟩
  obtain ⟨sc, s4, heq, hm4, hp4, hl4⟩ := heq
  obtain ⟨_, _, _, _, f5, f6⟩ := outerFirstHalf_inv E step s s4 sc r7 e2 e3 heq
  have hn4 : s4.mix.ntree = s.mix.ntree := by rw [hm4]; exact d1
  have hq4 : s4.mix.nptn = s.mix.nptn := by rw [hm4]; exact d2
  refine ⟨sc, s4, heq, ⟨?_, ?_, ?_, ?_, ?_, ?_, ?_, ?_⟩, ?_, hn4, hq4, ?_, f6⟩
  · rw [hn4]; exact r1
  · rw [hn4, hm4]
    show (optimizeTreeWeightsByBFGS (E.minimizeMultiDimen s1.engine) X.ntree X.weights
      s1.tmp_weights).2.1.length = s.mix.ntree
    rw [hW.1, d1]
  · rw [hn4, hq4, hm4]; exact d5
  · rw [hn4, hq4, hm4]; exact d6
  · rw [hn4, hq4, hp4, hp1, g2, r5]
  · intro k hk
    rw [hn4] at hk
    rw [hm4]
    exact hW.2 k (by rw [d1]; exact hk)
  · rw [hn4]; exact f5
  · intro i hi
    rw [hn4] at hi
    rw [hl4, hl1]; exact r8 i hi
  · rw [hl4, hl1]
  · rw [hm4]; exact d4

/-- A whole turn of the outer loop in the setting of a turn: it goes through
and keeps the setting; every call of `optimizeAllParameters` it makes finds
the true frequencies in the `ptn_freq` array of its tree, and so does the end
of the turn in every tree. -/
theorem outerIteration_ready [LinearOrderedField α] (E : Engine α σ) (step : Int)
    (calls : List (ParamCall α)) (s : OuterState α σ)
    (hE : EngineReady E s.mix.ntree s.mix.nptn) (hs : OuterReady s) :
    ∃ score calls' s', outerIteration E step (calls, s) = some (score, (calls', s')) ∧
      OuterReady s' ∧ s'.mix.ntree = s.mix.ntree ∧ s'.mix.nptn = s.mix.nptn ∧
      s'.mix.patn_freqs = s.mix.patn_freqs ∧
      (∃ new, calls' = calls ++ new ∧ new.map (fun c => c.tree) = List.range s.mix.ntree ∧
        ∀ c ∈ new, ∀ p, p < s.mix.nptn →
          c.ptn_freq.getD p 0 = E.ofInt (s.mix.patn_freqs.getD p 0)) ∧
      ∀ i p, i < s.mix.ntree → p < s.mix.nptn →
        (s'.ptn_freq.getD i []).getD p 0 = E.ofInt (s.mix.patn_freqs.getD p 0) := by
  obtain ⟨sc, s4, h4, ⟨r1, r2, r3, r4, r5, r6, r7, r8⟩, f1, f2, f3, f4, f6⟩ :=
    outerFirstHalf_ready E step s hE hs
  obtain ⟨_, _, _, _, e5⟩ := hE
  obtain ⟨res, hres⟩ := paramLoop_total E (fun j l pf e => (e5 j l pf e).2) s4.mix.ntree 0 sc
    calls s4 (fun j _ hj => r8 j (by omega))
  obtain ⟨a1, a2, a3, new, b1, b2, _, b4, b5, _⟩ := paramLoop_inv E _ 0 sc calls s4 res hres
  obtain ⟨p1, p2⟩ := b4 (fun j l pf e => (e5 j l pf e).1)
  obtain ⟨q1, q2⟩ := b5 (fun j l pf e => (e5 j l pf e).2)
  obtain ⟨sc', calls', s'⟩ := res
  simp only at a1 a2 a3 b1 p1 q1 q2
  have hrange : new.map (fun c => c.tree) = List.range s.mix.ntree := by
    rw [b2, f2, List.range_eq_range']
  refine ⟨sc', calls', s', ?_, ⟨?_, ?_, ?_, ?_, ?_, ?_, ?_, ?_⟩, ?_, ?_, ?_,
    ⟨new, b1, hrange, ?_⟩, ?_⟩
  · unfold outerIteration
    simp only [h4, hres]
  · rw [a1]; exact r1
  · rw [a1]; exact r2
  · rw [a1]; exact r3
  · rw [a1]; exact r4
  · rw [a3, a1]; exact r5
  · rw [a1]; exact r6
  · rw [p1, a1]; exact r7
  · intro i hi
    rw [a1] at hi
    rw [rateOf_congr s4.links s'.links i q1 q2]
    exact r8 i hi
  · rw [a1]; exact f2
  · rw [a1]; exact f3
  · rw [a1]; exact f4
  · intro c hc p hp
    have hct : c.tree < s.mix.ntree := by
      have : c.tree ∈ new.map (fun c => c.tree) := List.mem_map_of_mem _ hc
      rw [hrange] at this
      exact List.mem_range.mp this
    rw [p2 c hc]
    exact f6 c.tree p hct hp
  · intro i p hi hp
    rw [p1]
    exact f6 i p hi hp

/-- A run of the loop with a step cap, on a body that goes through and keeps
an invariant: the run ends when it is given `steps - step` turns, and what the
body establishes holds at the end when a turn was made. -/
theorem optimizeLoop_run [LinearOrderedField α] {τ : Type}
    (iteration : Int → τ → Option (α × τ)) (steps : Int) (hne : steps ≠ -1)
    (Inv Post : τ → Prop)
    (hstep : ∀ (step : Int) (s : τ), Inv s →
      ∃ sc s', iteration step s = some (sc, s') ∧ Inv s' ∧ Post s') :
    ∀ (fuel : Nat) (step : Int) (prev : α) (score : Option α) (trace : List α) (s : τ),
      steps ≤ step + fuel → Inv s → (trace ≠ [] → Post s) → (step < steps ∨ trace ≠ []) →
      ∃ res, optimizeLoop iteration steps fuel step prev score trace s = .done res ∧
        res.2.1 ≠ [] ∧ Post res.2.2 := by
  intro fuel
  induction fuel with
  | zero =>
    intro step prev score trace s hf hi hp ht
    have hc : ¬ (step < steps ∨ steps = -1) := by
      rintro (h | h)
      · simp at hf; omega
      · exact hne h
    have htr : trace ≠ [] := by
      rcases ht with ht | ht
      · exact absurd (Or.inl ht) hc
      · exact ht
    unfold optimizeLoop
    rw [if_neg hc]
    exact ⟨_, rfl, htr, hp htr⟩
  | succ fuel ih =>
    intro step prev score trace s hf hi hp ht
    unfold optimizeLoop
    by_cases hc : step < steps ∨ steps = -1
    · rw [if_pos hc]
      obtain ⟨sc, s', h1, i1, p1⟩ := hstep step s hi
      rw [h1]
      simp only
      by_cases hb : sc < prev + 1 / 10000
      · rw [if_pos hb]
        exact ⟨_, rfl, by simp, p1⟩
      · rw [if_neg hb]
        exact ih (step + 1) _ _ _ s' (by push_cast at hf ⊢; omega) i1 (fun _ => p1)
          (Or.inr (by simp))
    · rw [if_neg hc]
      have htr : trace ≠ [] := by
        rcases ht with ht | ht
        · exact absurd (Or.inl ht) hc
        · exact ht
      exact ⟨_, rfl, htr, hp htr⟩

/-- C25: in the setting of a turn (at least one tree, positive weights,
buffers of `K * nptn` cells, a `ptn_freq` array and a rate object for each
tree) and with external calls as `EngineReady` assumes them (positive
likelihoods, `ptn_freq` arrays of at least `nptn` cells, a minimizer that
stays inside its bounds, and a call `optimizeAllParameters` that leaves the
`ptn_freq` arrays and the rate objects of the trees): `updateFreqArray` sets
`ptn_freq[p]` of tree `i` to `pattern_mix_lh[p*K + i]` for every tree `i` and
pattern `p`; every turn of the loop of `optimizeModelParameters` goes through
and leaves the setting of a turn, each call of `optimizeAllParameters` in it,
one for each tree, finds `ptn_freq[p] = patn_freqs[p]` in its tree, and the
turn ends with `ptn_freq[p] = patn_freqs[p]` in every tree; a run of
`optimizeModelParameters` with a cap `optimize_steps >= 1` returns after at
least one turn, with `ptn_freq[p] = patn_freqs[p]` in every tree; and so does
every finished run of at least one turn, the cap `-1` included. -/
theorem outerIteration_frequencies [LinearOrderedField α] (E : Engine α σ)
    (s : OuterState α σ) (hE : EngineReady E s.mix.ntree s.mix.nptn) (hs : OuterReady s) :
    (∀ i p, i < s.mix.ntree → p < s.mix.nptn →
      ((updateFreqArray E s).ptn_freq.getD i []).getD p 0 =
        s.pattern_mix_lh.getD (p * s.mix.ntree + i) 0) ∧
    (∀ (step : Int) (calls : List (ParamCall α)),
      ∃ score calls' s', outerIteration E step (calls, s) = some (score, (calls', s')) ∧
        OuterReady s' ∧ s'.mix.ntree = s.mix.ntree ∧ s'.mix.nptn = s.mix.nptn ∧
        s'.mix.patn_freqs = s.mix.patn_freqs ∧
        (∃ new, calls' = calls ++ new ∧
          new.map (fun c => c.tree) = List.range s.mix.ntree ∧
          ∀ c ∈ new, ∀ p, p < s.mix.nptn →
            c.ptn_freq.getD p 0 = E.ofInt (s.mix.patn_freqs.getD p 0)) ∧
        ∀ i p, i < s.mix.ntree → p < s.mix.nptn →
          (s'.ptn_freq.getD i []).getD p 0 = E.ofInt (s.mix.patn_freqs.getD p 0)) ∧
    (∀ (dblMax : α) (optimize_steps : Int) (fuel : Nat) (calls : List (ParamCall α)),
      1 ≤ optimize_steps → optimize_steps ≤ fuel →
      ∃ res, optimizeModelParameters (outerIteration E) dblMax optimize_steps fuel (calls, s) =
          .done res ∧ res.2.1 ≠ [] ∧
        ∀ i p, i < s.mix.ntree → p < s.mix.nptn →
          (res.2.2.2.ptn_freq.getD i []).getD p 0 = E.ofInt (s.mix.patn_freqs.getD p 0)) ∧
    (∀ (dblMax : α) (optimize_steps : Int) (fuel : Nat) (calls : List (ParamCall α))
      (res : Option α × List α × List (ParamCall α) × OuterState α σ),
      optimizeModelParameters (outerIteration E) dblMax optimize_steps fuel (calls, s) =
        .done res →
      res.2.1 ≠ [] →
      ∀ i p, i < s.mix.ntree → p < s.mix.nptn →
        (res.2.2.2.ptn_freq.getD i []).getD p 0 = E.ofInt (s.mix.patn_freqs.getD p 0)) := by
  have hstep : ∀ (step : Int) (c : List (ParamCall α) × OuterState α σ),
      (OuterReady c.2 ∧ c.2.mix.ntree = s.mix.ntree ∧ c.2.mix.nptn = s.mix.nptn ∧
        c.2.mix.patn_freqs = s.mix.patn_freqs) →
      ∃ sc c', outerIteration E step c = some (sc, c') ∧
        (OuterReady c'.2 ∧ c'.2.mix.ntree = s.mix.ntree ∧ c'.2.mix.nptn = s.mix.nptn ∧
          c'.2.mix.patn_freqs = s.mix.patn_freqs) ∧
        ∀ i p, i < s.mix.ntree → p < s.mix.nptn →
          (c'.2.ptn_freq.getD i []).getD p 0 = E.ofInt (s.mix.patn_freqs.getD p 0) := by
    intro step c hinv
    obtain ⟨i0, i1, i2, i3⟩ := hinv
    obtain ⟨sc, calls', s', h1, h2, h3, h4, h5, _, h7⟩ := outerIteration_ready E step c.1 c.2
      (by rw [i1, i2]; exact hE) i0
    rw [i1] at h3 h7
    rw [i2] at h4 h7
    rw [i3] at h5 h7
    exact ⟨sc, (calls', s'), h1, ⟨h2, h3, h4, h5⟩, h7⟩
  refine ⟨?_, ?_, ?_, ?_⟩
  · intro i p hi hp
    obtain ⟨_, _, u3⟩ := updateFreqLoop_spec E s.pattern_mix_lh s.mix.ntree s.mix.nptn
      s.mix.ntree hE.2.1 s.mix.ntree 0 s.ptn_freq s.engine (by omega) hs.2.2.2.2.2.2.1
    rw [Nat.add_comm]
    exact (u3 i (Nat.zero_le _) hi).2 p hp
  · intro step calls
    exact outerIteration_ready E step calls s hE hs
  · intro dblMax steps fuel calls h1 hf
    unfold optimizeModelParameters
    exact optimizeLoop_run (outerIteration E) steps (by omega)
      (fun c : List (ParamCall α) × OuterState α σ =>
        OuterReady c.2 ∧ c.2.mix.ntree = s.mix.ntree ∧ c.2.mix.nptn = s.mix.nptn ∧
          c.2.mix.patn_freqs = s.mix.patn_freqs)
      (fun c : List (ParamCall α) × OuterState α σ =>
        ∀ i p, i < s.mix.ntree → p < s.mix.nptn →
          (c.2.ptn_freq.getD i []).getD p 0 = E.ofInt (s.mix.patn_freqs.getD p 0))
      hstep fuel 0 (-dblMax) none []
      (calls, s) (by omega) ⟨hs, rfl, rfl, rfl⟩ (fun h0 => absurd rfl h0) (Or.inl (by omega))
  · intro dblMax steps fuel calls res h htr
    unfold optimizeModelParameters at h
    exact optimizeLoop_post (outerIteration E) steps
      (fun c : List (ParamCall α) × OuterState α σ =>
        OuterReady c.2 ∧ c.2.mix.ntree = s.mix.ntree ∧ c.2.mix.nptn = s.mix.nptn ∧
          c.2.mix.patn_freqs = s.mix.patn_freqs)
      (fun c : List (ParamCall α) × OuterState α σ =>
        ∀ i p, i < s.mix.ntree → p < s.mix.nptn →
          (c.2.ptn_freq.getD i []).getD p 0 = E.ofInt (s.mix.patn_freqs.getD p 0))
      (by
        intro step c c' sc hinv hit
        obtain ⟨sc2, c2, e1, e2, e3⟩ := hstep step c hinv
        rw [e1] at hit
        injection hit with hit
        injection hit with _ hc
        subst hc
        exact ⟨e2, e3⟩)
      fuel 0 (-dblMax) none [] (calls, s) res ⟨hs, rfl, rfl, rfl⟩ (fun h0 => absurd rfl h0) h htr

theorem sampleEngine_ready : EngineReady sampleEngine 3 1 := by
  refine ⟨fun x => ?_, fun _ _ _ => le_refl 1, fun _ _ _ _ _ h => h,
    fun _ _ _ _ _ _ _ _ _ _ h => ⟨le_refl _, h⟩, fun _ _ _ _ => ⟨rfl, rfl, rfl⟩⟩
  show (0 : ℚ) < 1 + x * x
  nlinarith [mul_self_nonneg x]

theorem sampleState_ready : OuterReady sampleState := by
  refine ⟨by decide, rfl, rfl, rfl, rfl, ?_, rfl, ?_⟩
  · intro k hk
    have hk' : k < 3 := hk
    interval_cases k <;> norm_num [sampleState]
  · intro i hi
    have hi' : i < 3 := hi
    interval_cases i <;> exact ⟨_, rfl⟩

/-- Witness of C25 on `sampleState` (three trees, one pattern seen four
times): `updateFreqArray` gives the trees the frequencies `5`, `6` and `7` of
`pattern_mix_lh`, and a run of `optimizeModelParameters` capped at two turns
returns after at least one turn with the true frequency `4` in every tree. -/
theorem outerIteration_frequencies_witness :
    EngineReady sampleEngine sampleState.mix.ntree sampleState.mix.nptn ∧
    OuterReady sampleState ∧
    ((updateFreqArray sampleEngine sampleState).ptn_freq.getD 1 []).getD 0 0 = 6 ∧
    match optimizeModelParameters (outerIteration sampleEngine) 1000 2 2 ([], sampleState) with
    | .done res =>
        res.2.1 ≠ [] ∧ (res.2.2.2.ptn_freq.getD 0 []).getD 0 0 = 4 ∧
        (res.2.2.2.ptn_freq.getD 1 []).getD 0 0 = 4 ∧
        (res.2.2.2.ptn_freq.getD 2 []).getD 0 0 = 4
    | _ => False := by
  have hthm := outerIteration_frequencies sampleEngine sampleState sampleEngine_ready
    sampleState_ready
  refine ⟨sampleEngine_ready, sampleState_ready, hthm.1 1 0 (by decide) (by decide), ?_⟩
  obtain ⟨res, hres, h1, h2⟩ := hthm.2.2.1 1000 2 2 [] (by decide) (by decide)
  rw [hres]
  exact ⟨h1, h2 0 0 (by decide) (by decide), h2 1 0 (by decide) (by decide),
    h2 2 0 (by decide) (by decide)⟩

end Frequencies

/-! ## `removePartitions` with a partition to remove -/

theorem keepLoop_length_le (removed_id : Finset Int) :
    ∀ (ps : List Alignment) (i : Int), (keepLoop removed_id ps i).length ≤ ps.length := by
  intro ps
  induction ps with
  | nil => intro i; simp [keepLoop]
  | cons p rest ih =>
    intro i
    by_cases h : i ∉ removed_id
    · simp only [keepLoop, if_pos h, List.length_cons]
      exact Nat.succ_le_succ (ih (i + 1))
    · simp only [keepLoop, if_neg h, List.length_cons]
      exact Nat.le_succ_of_le (ih (i + 1))

theorem keepLoop_length_lt (removed_id : Finset Int) :
    ∀ (ps : List Alignment) (i j : Int), j ∈ removed_id → i ≤ j → j < i + ps.length →
      (keepLoop removed_id ps i).length < ps.length := by
  intro ps
  induction ps with
  | nil => intro i j _ h1 h2; simp at h2; omega
  | cons p rest ih =>
    intro i j hj h1 h2
    by_cases h : i ∉ removed_id
    · simp only [keepLoop, if_pos h, List.length_cons]
      have hne : i ≠ j := fun e => h (e ▸ hj)
      have := ih (i + 1) j hj (by omega) (by simp at h2; omega)
      omega
    · simp only [keepLoop, if_neg h, List.length_cons]
      have := keepLoop_length_le removed_id rest (i + 1)
      omega

theorem linkSubAlignment_ok_inv (a a' : SuperAlignment) (part : Nat)
    (h : linkSubAlignment a part = .ok a') :
    part < a.partitions.length ∧ a'.partitions = a.partitions := by
  unfold linkSubAlignment at h
  by_cases h0 : a.taxa_index.length ≠ a.seq_names.length
  · rw [if_pos h0] at h; cases h
  · rw [if_neg h0] at h
    cases hp : a.partitions[part]? with
    | none => rw [hp] at h; cases h
    | some aln =>
      rw [hp] at h
      simp only at h
      have hlt : part < a.partitions.length := by
        by_contra hc
        rw [List.getElem?_eq_none (by omega)] at hp
        cases hp
      cases hl : linkLoop aln part a.seq_names 0 a.taxa_index
          (List.replicate aln.seq_names.length false) with
      | error e => rw [hl] at h; cases h
      | ok r =>
        obtain ⟨ti, ch⟩ := r
        rw [hl] at h
        simp only at h
        by_cases hc : ch.all id = true
        · rw [if_pos hc] at h
          injection h with h
          rw [← h]
          exact ⟨hlt, rfl⟩
        · rw [if_neg hc] at h; cases h

theorem linkAllLoop_ok_inv :
    ∀ (n i : Nat) (a a' : SuperAlignment), linkAllLoop n i a = .ok a' →
      n = 0 ∨ i + n ≤ a.partitions.length := by
  intro n
  induction n with
  | zero => intro i a a' _; exact Or.inl rfl
  | succ n ih =>
    intro i a a' h
    right
    unfold linkAllLoop at h
    cases hl : linkSubAlignment a i with
    | error e => rw [hl] at h; cases h
    | ok a1 =>
      rw [hl] at h
      simp only at h
      obtain ⟨h1, h2⟩ := linkSubAlignment_ok_inv a a1 i hl
      rcases ih (i + 1) a1 a' h with h0 | h0
      · omega
      · rw [h2] at h0; omega

/-- Whenever `removed_id` names a partition that exists, `removePartitions`
does not go through: the loop of `linkSubAlignment` calls runs up to the
number of partitions on entry, beyond the end of the shortened vector. -/
theorem removePartitions_fails (a : SuperAlignment) (removed_id : Finset Int) (j : Int)
    (hj : j ∈ removed_id) (h0 : 0 ≤ j) (h1 : j < a.partitions.length)
    (a' : SuperAlignment) : removePartitions a removed_id ≠ .ok a' := by
  intro h
  unfold removePartitions at h
  simp only at h
  by_cases hc : (keepLoop removed_id a.partitions 0).length + removed_id.card ≠
      a.partitions.length
  · rw [if_pos hc] at h; cases h
  · rw [if_neg hc] at h
    have hlt := keepLoop_length_lt removed_id a.partitions 0 j hj h0 (by omega)
    rcases linkAllLoop_ok_inv _ _ _ _ h with e | e
    · omega
    · simp only at e
      omega

/-- Whenever the first partition has a pattern, the first sequence is absent
from it and the second is present at number `0`, `areSequencesIdentical` reads
behind the end of the pattern instead of returning `false`. -/
theorem areSequencesIdentical_absent_zero (a : SuperAlignment) (seq1 seq2 : Nat)
    (p : Alignment) (rest : List Alignment) (it : Pattern) (its : List Pattern)
    (row1 row2 : List Int) (s1 : Int) (hpart : a.partitions = p :: rest)
    (hpat : p.patterns = it :: its) (h1 : a.taxa_index[seq1]? = some row1)
    (h2 : a.taxa_index[seq2]? = some row2) (hr1 : row1[0]? = some s1)
    (hr2 : row2[0]? = some 0) (hneg : s1 < 0) :
    areSequencesIdentical a seq1 seq2 = .error .outOfBounds := by
  unfold areSequencesIdentical
  rw [hpart]
  unfold identicalLoop
  rw [h1, h2]
  have e1 : (some row1).bind (fun row => row[0]?) = some s1 := hr1
  have e2 : (some row2).bind (fun row => row[0]?) = some 0 := hr2
  rw [e1, e2]
  simp only
  rw [if_neg (by omega), if_neg (by omega), if_neg (by omega), hpat]
  simp only [patternLoop, vecAt, if_neg (not_le.mpr hneg)]

end IQTreeMix
